import Mathlib

/-!
# Dataflow analyses of `lib/p1/Gcra.cpp`

A shallow embedding of the liveness and reaching-definitions analyses of the
`Gcra` machine-function pass, followed by theorems about them.

Representation choices.

* A `std::set<unsigned>` is a `Finset Nat`; a `std::set<RDfact *>` is a
  `Finset RDfact`, where an `RDfact` value carries the identity of the heap
  object together with its two fields, so that set membership is membership
  of the *pointer*.
* A `MachineBasicBlock *` is the position of the block in its function and a
  `MachineInstr *` is the pair (block position, position in the block): both
  are intrusive list nodes, so a node has exactly one position.
* A `std::map` from pointers to sets is a function; an absent key reads as the
  empty set.
* `new RDfact(...)` numbers the objects it creates with a counter that is
  passed along (`heapNext`); nothing is ever freed by the pass, so two objects
  are the same exactly when their numbers are.
* The `while` loops are functions with fuel; the fuel they are given is shown
  to suffice. `*worklist.begin()` is the least element of the worklist; the
  order of block addresses is not known, so the loops are also given as
  relations (`LiveRun`, `RDRun`) in which any block of the worklist may be
  taken.
-/

namespace Gcra

/-! ## The IR as the pass reads it -/

/-- The four queries the pass makes on a `MachineOperand`. -/
structure MachineOperand where
  isReg : Bool
  getReg : Nat
  isUse : Bool
  isDef : Bool
deriving DecidableEq, Repr

/-- A machine instruction: its ordered operand list. -/
structure MachineInstr where
  operands : List MachineOperand
deriving DecidableEq, Repr

/-- A basic block: its instructions and its CFG neighbours (block positions). -/
structure MachineBasicBlock where
  instrs : List MachineInstr
  preds : List Nat
  succs : List Nat
deriving DecidableEq, Repr

/-- A machine function: its blocks in layout order. -/
abbrev MachineFunction := List MachineBasicBlock

/-- A pointer to an instruction: (block position, position inside the block). -/
abbrev InstrPtr := Nat × Nat

/-- The block at position `b`; a position outside the function reads as an
empty block without neighbours. -/
def MachineFunction.block (Fn : MachineFunction) (b : Nat) : MachineBasicBlock :=
  Fn.getD b ⟨[], [], []⟩

/-- The instruction a pointer designates (no operands when out of range). -/
def MachineFunction.instr (Fn : MachineFunction) (p : InstrPtr) : MachineInstr :=
  (Fn.block p.1).instrs.getD p.2 ⟨[]⟩

/-- Static register metadata: `TargetRegisterInfo::isPhysicalRegister` and
`TRI->getAliasSet`, the latter as the contents of the zero-terminated array
(`[]` for a null pointer). -/
structure TargetRegisterInfo where
  isPhysicalRegister : Nat → Bool
  getAliasSet : Nat → List Nat

/-! ## Register sets -/

/-- `regSetUnion`: every element of `S1`, then every element of `S2`, is
inserted into a fresh set. -/
def regSetUnion (S1 S2 : Finset Nat) : Finset Nat := S1 ∪ S2

/-- `regSetSubtract`: the elements of `S1` for which `S2->count` is zero. -/
def regSetSubtract (S1 S2 : Finset Nat) : Finset Nat := S1.filter (fun r => r ∉ S2)

/-- `addAliases`: for a physical register, walk its alias array up to the
terminating zero and insert every entry. -/
def addAliases (TRI : TargetRegisterInfo) (S : Finset Nat) (reg : Nat) : Finset Nat :=
  if TRI.isPhysicalRegister reg then
    ((TRI.getAliasSet reg).takeWhile (fun a => a != 0)).foldl (fun S a => insert a S) S
  else S

/-- `getOneInstrRegUses`: registers used by the instruction, with the aliases
of the physical ones. -/
def getOneInstrRegUses (TRI : TargetRegisterInfo) (instruct : MachineInstr) : Finset Nat :=
  instruct.operands.foldl (fun result MOp =>
    if MOp.isReg && MOp.getReg != 0 && MOp.isUse then
      insert MOp.getReg
        (if TRI.isPhysicalRegister MOp.getReg then addAliases TRI result MOp.getReg
         else result)
    else result) ∅

/-- `getOneInstrRegDefs`: registers defined by the instruction, with aliases. -/
def getOneInstrRegDefs (TRI : TargetRegisterInfo) (instruct : MachineInstr) : Finset Nat :=
  instruct.operands.foldl (fun result MOp =>
    if MOp.isReg && MOp.getReg != 0 && MOp.isDef then
      insert MOp.getReg (addAliases TRI result MOp.getReg)
    else result) ∅

/-- `getAllDefs`: the registers of the def operands of the block. -/
def getAllDefs (bb : MachineBasicBlock) : Finset Nat :=
  bb.instrs.foldl (fun result instruct =>
    instruct.operands.foldl (fun result MOp =>
      if MOp.isReg && MOp.getReg != 0 && MOp.isDef then insert MOp.getReg result
      else result) result) ∅

/-- The loop of `getUpwardsExposedUses`, carrying `(result, defs)`. -/
def upwardsExposedLoop (TRI : TargetRegisterInfo) (instrs : List MachineInstr)
    (acc : Finset Nat × Finset Nat) : Finset Nat × Finset Nat :=
  instrs.foldl (fun acc instruct =>
    let uses := getOneInstrRegUses TRI instruct
    let upUses := regSetSubtract uses acc.2
    let result := regSetUnion acc.1 upUses
    let defSet := getOneInstrRegDefs TRI instruct
    (result, acc.2 ∪ defSet)) acc

/-- `getUpwardsExposedUses`: registers used before being defined in the block. -/
def getUpwardsExposedUses (TRI : TargetRegisterInfo) (bb : MachineBasicBlock) : Finset Nat :=
  (upwardsExposedLoop TRI bb.instrs (∅, ∅)).1

/-! ## Block-level liveness -/

/-- The members of the pass object that `analyzeBasicBlocksLiveVars` touches,
and its local `worklist`. -/
structure LiveState where
  worklist : Finset Nat
  liveBeforeMap : Nat → Finset Nat
  liveAfterMap : Nat → Finset Nat
  liveVarsGenMap : Nat → Finset Nat
  liveVarsKillMap : Nat → Finset Nat

/-- `computeLiveBefore`: `(bb.liveAfter - bb.kill) union bb.gen`. -/
def computeLiveBefore (st : LiveState) (bb : Nat) : Finset Nat :=
  regSetUnion (regSetSubtract (st.liveAfterMap bb) (st.liveVarsKillMap bb))
    (st.liveVarsGenMap bb)

/-- `computeLiveAfter`: union of the live-before sets of the successors. -/
def computeLiveAfter (Fn : MachineFunction) (st : LiveState) (bb : Nat) : Finset Nat :=
  (Fn.block bb).succs.foldl (fun result oneSucc =>
    regSetUnion result (st.liveBeforeMap oneSucc)) ∅

/-- The first loop of `analyzeBasicBlocksLiveVars`: empty sets, Gen, Kill and a
worklist entry for every block. -/
def liveVarsInit (TRI : TargetRegisterInfo) (Fn : MachineFunction) : LiveState :=
  (List.range Fn.length).foldl (fun st b =>
    { worklist := insert b st.worklist
      liveBeforeMap := Function.update st.liveBeforeMap b ∅
      liveAfterMap := Function.update st.liveAfterMap b ∅
      liveVarsGenMap := Function.update st.liveVarsGenMap b
        (getUpwardsExposedUses TRI (Fn.block b))
      liveVarsKillMap := Function.update st.liveVarsKillMap b (getAllDefs (Fn.block b)) })
    ⟨∅, fun _ => ∅, fun _ => ∅, fun _ => ∅, fun _ => ∅⟩

/-- One pass through the body of the `while` loop of
`analyzeBasicBlocksLiveVars`, for the block `bb` taken from the worklist. -/
def liveVarsIter (Fn : MachineFunction) (bb : Nat) (st : LiveState) : LiveState :=
  let st1 : LiveState := { st with worklist := st.worklist.erase bb }
  let newLiveAfter := computeLiveAfter Fn st1 bb
  let st2 : LiveState :=
    { st1 with liveAfterMap := Function.update st1.liveAfterMap bb newLiveAfter }
  let newLiveBefore := computeLiveBefore st2 bb
  let oldLiveBefore := st2.liveBeforeMap bb
  if newLiveBefore.card > oldLiveBefore.card then
    { st2 with
      liveBeforeMap := Function.update st2.liveBeforeMap bb newLiveBefore
      worklist := (Fn.block bb).preds.foldl (fun w p => insert p w) st2.worklist }
  else st2

/-- The `while (! worklist.empty())` loop, taking `*worklist.begin()` each
time; `fuel` bounds the number of passes. -/
def liveVarsLoop (Fn : MachineFunction) : Nat → LiveState → LiveState
  | 0, st => st
  | fuel + 1, st =>
    if h : st.worklist.Nonempty then
      liveVarsLoop Fn fuel (liveVarsIter Fn (st.worklist.min' h) st)
    else st

/-- Fuel that suffices for a worklist loop over `n` blocks whose re-enqueue
lists have total length `wake` and whose facts all lie in a set of `univ`
elements: every pass either grows a bounded set or shrinks the worklist. -/
def solverFuel (n wake univ : Nat) : Nat := n + (wake + 1) * (n * univ)

/-- Fuel for the liveness loop of `Fn`. -/
def liveVarsFuel (TRI : TargetRegisterInfo) (Fn : MachineFunction) : Nat :=
  solverFuel Fn.length
    (((List.range Fn.length).map (fun b => (Fn.block b).preds.length)).sum)
    ((Finset.range Fn.length).biUnion
      (fun b => getUpwardsExposedUses TRI (Fn.block b))).card

/-- `analyzeBasicBlocksLiveVars`: initialise, then run the worklist loop. -/
def analyzeBasicBlocksLiveVars (TRI : TargetRegisterInfo) (Fn : MachineFunction) : LiveState :=
  liveVarsLoop Fn (liveVarsFuel TRI Fn) (liveVarsInit TRI Fn)

/-! ## Instruction-level liveness -/

/-- The two instruction-keyed liveness maps of the pass object. -/
structure InsLiveMaps where
  insLiveBeforeMap : InstrPtr → Finset Nat
  insLiveAfterMap : InstrPtr → Finset Nat

/-- The `while` loop of `liveForInstr` on the vector read from its back
(the argument is the vector reversed, so `back()` is the head). -/
def liveForInstrLoop (TRI : TargetRegisterInfo) (Fn : MachineFunction) :
    List InstrPtr → Finset Nat → InsLiveMaps → InsLiveMaps
  | [], _, m => m
  | oneInstr :: rest, liveAfter, m =>
    let m1 : InsLiveMaps :=
      { m with insLiveAfterMap := Function.update m.insLiveAfterMap oneInstr liveAfter }
    let gen := getOneInstrRegUses TRI (Fn.instr oneInstr)
    let kill := getOneInstrRegDefs TRI (Fn.instr oneInstr)
    let liveBefore :=
      if kill.card != 0 then regSetUnion (regSetSubtract liveAfter kill) gen
      else regSetUnion liveAfter gen
    liveForInstrLoop TRI Fn rest liveBefore
      { m1 with insLiveBeforeMap := Function.update m1.insLiveBeforeMap oneInstr liveBefore }

/-- `liveForInstr`: walk the instruction vector backwards from `liveAfter`. -/
def liveForInstr (TRI : TargetRegisterInfo) (Fn : MachineFunction)
    (instVector : List InstrPtr) (liveAfter : Finset Nat) (m : InsLiveMaps) : InsLiveMaps :=
  liveForInstrLoop TRI Fn instVector.reverse liveAfter m

/-- The pointers to the instructions of block `bb`, in block order. -/
def instrPtrs (Fn : MachineFunction) (bb : Nat) : List InstrPtr :=
  (List.range (Fn.block bb).instrs.length).map (fun k => (bb, k))

/-- `analyzeInstructionsLiveVars`: `liveForInstr` on every block, starting from
the block's `liveAfterMap` entry. -/
def analyzeInstructionsLiveVars (TRI : TargetRegisterInfo) (Fn : MachineFunction)
    (liveAfterMap : Nat → Finset Nat) (m : InsLiveMaps) : InsLiveMaps :=
  (List.range Fn.length).foldl (fun m bb =>
    liveForInstr TRI Fn (instrPtrs Fn bb) (liveAfterMap bb) m) m

/-- What `doLiveAnalysis` leaves in the pass object. -/
structure LiveResult where
  blocks : LiveState
  instrs : InsLiveMaps

/-- `doLiveAnalysis`: clear the six liveness maps, analyse blocks, then
instructions. -/
def doLiveAnalysis (TRI : TargetRegisterInfo) (Fn : MachineFunction) : LiveResult :=
  let blocks := analyzeBasicBlocksLiveVars TRI Fn
  { blocks := blocks
    instrs := analyzeInstructionsLiveVars TRI Fn blocks.liveAfterMap
      ⟨fun _ => ∅, fun _ => ∅⟩ }

/-! ## Reaching-definition facts -/

/-- An `RDfact` object on the heap. `addr` identifies the object (the serial
number of the `new RDfact` that created it); `myReg` and `myInstr` are its
fields. A `std::set<RDfact *>` holds such objects by pointer. -/
structure RDfact where
  addr : Nat
  myReg : Nat
  myInstr : InstrPtr
deriving DecidableEq, Repr

/-- `RDfact::getReg`. -/
def RDfact.getReg (f : RDfact) : Nat := f.myReg

/-- `RDfact::getInstr`. -/
def RDfact.getInstr (f : RDfact) : InstrPtr := f.myInstr

/-- The (register, instruction) components of a fact. -/
def RDfact.components (f : RDfact) : Nat × InstrPtr := (f.getReg, f.getInstr)

/-- A set of facts viewed as a set of (register, instruction) pairs. -/
def components (S : Finset RDfact) : Finset (Nat × InstrPtr) := S.image RDfact.components

/-- `RDsetUnion`. -/
def RDsetUnion (S1 S2 : Finset RDfact) : Finset RDfact := S1 ∪ S2

/-- `RDsetSubtract`: the pointers of `S1` for which `S2->count` is zero. -/
def RDsetSubtract (S1 S2 : Finset RDfact) : Finset RDfact := S1.filter (fun f => f ∉ S2)

/-- `member`: structural search for a fact with the same two components. -/
def member (oneFact : RDfact) (S : Finset RDfact) : Bool :=
  decide (∃ curr ∈ S, curr.getReg = oneFact.getReg ∧ curr.getInstr = oneFact.getInstr)

/-- The elements of a `std::set<unsigned>` in iteration (ascending) order. -/
def setToList (S : Finset Nat) : List Nat :=
  (List.range (S.sup id + 1)).filter (fun r => r ∈ S)

/-- What `doInit` fills in, with its local `insNum` and the heap counter. -/
structure InitState where
  RDfactSet : Finset RDfact
  InstrToNumMap : InstrPtr → Nat
  insNum : Nat
  heapNext : Nat

/-- `RDfactSet.insert(new RDfact(reg, inst))`. -/
def InitState.insertNew (st : InitState) (reg : Nat) (inst : InstrPtr) : InitState :=
  { st with
    RDfactSet := insert ⟨st.heapNext, reg, inst⟩ st.RDfactSet
    heapNext := st.heapNext + 1 }

/-- The body of the operand loop of `doInit`. -/
def doInitOperand (TRI : TargetRegisterInfo) (inst : InstrPtr) (st : InitState)
    (MOp : MachineOperand) : InitState :=
  if MOp.isReg && MOp.getReg != 0 && MOp.isDef then
    let st1 := st.insertNew MOp.getReg inst
    if TRI.isPhysicalRegister MOp.getReg then
      ((TRI.getAliasSet MOp.getReg).takeWhile (fun a => a != 0)).foldl
        (fun st a => st.insertNew a inst) st1
    else st1
  else st

/-- `doInit`: number the instructions and build the set of all
reaching-definition facts of the function. -/
def doInit (TRI : TargetRegisterInfo) (Fn : MachineFunction) (heapNext : Nat) : InitState :=
  (List.range Fn.length).foldl (fun st b =>
    (instrPtrs Fn b).foldl (fun st inst =>
      let st1 : InitState :=
        { st with
          InstrToNumMap := Function.update st.InstrToNumMap inst st.insNum
          insNum := st.insNum + 1 }
      (Fn.instr inst).operands.foldl (doInitOperand TRI inst) st1) st)
    ⟨∅, fun _ => 0, 1, heapNext⟩

/-- `getRDgen`: a new fact for every register defined by every instruction of
the block. Returns the set and the heap counter after the allocations. -/
def getRDgen (TRI : TargetRegisterInfo) (Fn : MachineFunction) (bb : Nat) (heapNext : Nat) :
    Finset RDfact × Nat :=
  (instrPtrs Fn bb).foldl (fun acc instruct =>
    (setToList (getOneInstrRegDefs TRI (Fn.instr instruct))).foldl (fun acc oneDef =>
      (insert ⟨acc.2, oneDef, instruct⟩ acc.1, acc.2 + 1)) acc) (∅, heapNext)

/-- `getRDkill`: the members of `RDfactSet` whose register is defined in the
block. -/
def getRDkill (TRI : TargetRegisterInfo) (Fn : MachineFunction) (RDfactSet : Finset RDfact)
    (bb : Nat) : Finset RDfact :=
  (instrPtrs Fn bb).foldl (fun result instruct =>
    (setToList (getOneInstrRegDefs TRI (Fn.instr instruct))).foldl (fun result oneDef =>
      result ∪ RDfactSet.filter (fun oneRDfact => oneRDfact.getReg = oneDef)) result) ∅

/-! ## Block-level reaching definitions -/

/-- The members of the pass object that `analyzeBasicBlocksRDefs` touches, its
local `worklist`, and the heap counter. -/
structure RDState where
  worklist : Finset Nat
  RDbeforeMap : Nat → Finset RDfact
  RDafterMap : Nat → Finset RDfact
  RDgenMap : Nat → Finset RDfact
  RDkillMap : Nat → Finset RDfact
  heapNext : Nat

/-- `computeRDbefore`: union of the RD-after sets of the predecessors. -/
def computeRDbefore (Fn : MachineFunction) (st : RDState) (bb : Nat) : Finset RDfact :=
  (Fn.block bb).preds.foldl (fun result onePred =>
    RDsetUnion result (st.RDafterMap onePred)) ∅

/-- `computeRDafter`: `(bb.RDbefore - bb.kill) union bb.gen`. -/
def computeRDafter (st : RDState) (bb : Nat) : Finset RDfact :=
  RDsetUnion (RDsetSubtract (st.RDbeforeMap bb) (st.RDkillMap bb)) (st.RDgenMap bb)

/-- The body of the first loop of `analyzeBasicBlocksRDefs`, for block `b`. -/
def rdefsInitBlock (TRI : TargetRegisterInfo) (Fn : MachineFunction)
    (RDfactSet : Finset RDfact) (st : RDState) (b : Nat) : RDState :=
  { worklist := insert b st.worklist
    RDbeforeMap := Function.update st.RDbeforeMap b ∅
    RDafterMap := Function.update st.RDafterMap b ∅
    RDgenMap := Function.update st.RDgenMap b (getRDgen TRI Fn b st.heapNext).1
    RDkillMap := Function.update st.RDkillMap b (getRDkill TRI Fn RDfactSet b)
    heapNext := (getRDgen TRI Fn b st.heapNext).2 }

/-- The first loop of `analyzeBasicBlocksRDefs`. -/
def rdefsInit (TRI : TargetRegisterInfo) (Fn : MachineFunction) (RDfactSet : Finset RDfact)
    (heapNext : Nat) : RDState :=
  (List.range Fn.length).foldl (rdefsInitBlock TRI Fn RDfactSet)
    ⟨∅, fun _ => ∅, fun _ => ∅, fun _ => ∅, fun _ => ∅, heapNext⟩

/-- One pass through the body of the `while` loop of `analyzeBasicBlocksRDefs`,
for the block `bb` taken from the worklist. -/
def rdefsIter (Fn : MachineFunction) (bb : Nat) (st : RDState) : RDState :=
  let st1 : RDState := { st with worklist := st.worklist.erase bb }
  let newRDbefore := computeRDbefore Fn st1 bb
  let st2 : RDState :=
    { st1 with RDbeforeMap := Function.update st1.RDbeforeMap bb newRDbefore }
  let newRDafter := computeRDafter st2 bb
  let oldRDafter := st2.RDafterMap bb
  if newRDafter.card > oldRDafter.card then
    { st2 with
      RDafterMap := Function.update st2.RDafterMap bb newRDafter
      worklist := (Fn.block bb).succs.foldl (fun w s => insert s w) st2.worklist }
  else st2

/-- The `while (! worklist.empty())` loop of `analyzeBasicBlocksRDefs`. -/
def rdefsLoop (Fn : MachineFunction) : Nat → RDState → RDState
  | 0, st => st
  | fuel + 1, st =>
    if h : st.worklist.Nonempty then
      rdefsLoop Fn fuel (rdefsIter Fn (st.worklist.min' h) st)
    else st

/-- Fuel for the reaching-definitions loop started in state `st`. -/
def rdefsFuel (Fn : MachineFunction) (st : RDState) : Nat :=
  solverFuel Fn.length
    (((List.range Fn.length).map (fun b => (Fn.block b).succs.length)).sum)
    ((Finset.range Fn.length).biUnion st.RDgenMap).card

/-- `analyzeBasicBlocksRDefs`: initialise, then run the worklist loop. -/
def analyzeBasicBlocksRDefs (TRI : TargetRegisterInfo) (Fn : MachineFunction)
    (RDfactSet : Finset RDfact) (heapNext : Nat) : RDState :=
  let st := rdefsInit TRI Fn RDfactSet heapNext
  rdefsLoop Fn (rdefsFuel Fn st) st

/-! ## Instruction-level reaching definitions -/

/-- The two instruction-keyed reaching-definition maps and the heap counter. -/
structure InsRDState where
  insRDbeforeMap : InstrPtr → Finset RDfact
  insRDafterMap : InstrPtr → Finset RDfact
  heapNext : Nat

/-- The loop over `regDefs` in `analyzeInstructionsRDefs`: it builds `gen`
(new facts) and `kill` (members of `RDfactSet` with a defined register). -/
def insGenKill (RDfactSet : Finset RDfact) (inIt : InstrPtr) (regDefs : List Nat)
    (heapNext : Nat) : Finset RDfact × Finset RDfact × Nat :=
  regDefs.foldl (fun acc oneDef =>
    (insert ⟨acc.2.2, oneDef, inIt⟩ acc.1,
     acc.2.1 ∪ RDfactSet.filter (fun oneRDfact => oneRDfact.getReg = oneDef),
     acc.2.2 + 1)) (∅, ∅, heapNext)

/-- The body of the instruction loop of `analyzeInstructionsRDefs`; the first
component is the local `RDbefore`. -/
def rdefsInstrStep (TRI : TargetRegisterInfo) (Fn : MachineFunction)
    (RDfactSet : Finset RDfact) (acc : Finset RDfact × InsRDState) (inIt : InstrPtr) :
    Finset RDfact × InsRDState :=
  let RDbefore := acc.1
  let m1 : InsRDState :=
    { acc.2 with insRDbeforeMap := Function.update acc.2.insRDbeforeMap inIt RDbefore }
  let regDefs := getOneInstrRegDefs TRI (Fn.instr inIt)
  if regDefs.card > 0 then
    let gk := insGenKill RDfactSet inIt (setToList regDefs) m1.heapNext
    let RDafter := RDsetUnion (RDsetSubtract RDbefore gk.2.1) gk.1
    (RDafter,
     { m1 with
       insRDafterMap := Function.update m1.insRDafterMap inIt RDafter
       heapNext := gk.2.2 })
  else
    (RDbefore, { m1 with insRDafterMap := Function.update m1.insRDafterMap inIt RDbefore })

/-- The body of the block loop of `analyzeInstructionsRDefs`: the instruction
loop started from `RDbeforeMap[bb]`. -/
def rdefsInstrBlock (TRI : TargetRegisterInfo) (Fn : MachineFunction)
    (RDfactSet : Finset RDfact) (RDbeforeMap : Nat → Finset RDfact) (m : InsRDState)
    (bb : Nat) : InsRDState :=
  ((instrPtrs Fn bb).foldl (rdefsInstrStep TRI Fn RDfactSet) (RDbeforeMap bb, m)).2

/-- `analyzeInstructionsRDefs`: per block, start from `RDbeforeMap[bb]` and
push the facts forward through the instructions. -/
def analyzeInstructionsRDefs (TRI : TargetRegisterInfo) (Fn : MachineFunction)
    (RDfactSet : Finset RDfact) (RDbeforeMap : Nat → Finset RDfact) (m : InsRDState) :
    InsRDState :=
  (List.range Fn.length).foldl (rdefsInstrBlock TRI Fn RDfactSet RDbeforeMap) m

/-- What `doReachingDefsAnalysis` leaves in the pass object. -/
structure RDResult where
  blocks : RDState
  instrs : InsRDState

/-- `doReachingDefsAnalysis`: blocks, then instructions. -/
def doReachingDefsAnalysis (TRI : TargetRegisterInfo) (Fn : MachineFunction)
    (RDfactSet : Finset RDfact) (heapNext : Nat) : RDResult :=
  let blocks := analyzeBasicBlocksRDefs TRI Fn RDfactSet heapNext
  { blocks := blocks
    instrs := analyzeInstructionsRDefs TRI Fn RDfactSet blocks.RDbeforeMap
      ⟨fun _ => ∅, fun _ => ∅, blocks.heapNext⟩ }

/-- The reaching-definitions part of `runOnMachineFunction`: `doInit` on the
cleared `RDfactSet`, then `doReachingDefsAnalysis`; `heapNext` is the heap
counter on entry. -/
def runReachingDefs (TRI : TargetRegisterInfo) (Fn : MachineFunction) (heapNext : Nat) :
    RDResult :=
  doReachingDefsAnalysis TRI Fn (doInit TRI Fn heapNext).RDfactSet
    (doInit TRI Fn heapNext).heapNext

/-! ## Properties stated about the results -/

/-- The backward equations at every block: live-after is the union of the
successors' live-before sets, live-before is `(live-after - Kill) union Gen`
with `Gen = getUpwardsExposedUses` and `Kill = getAllDefs`. -/
def LiveEquations (TRI : TargetRegisterInfo) (Fn : MachineFunction) (st : LiveState) : Prop :=
  ∀ b, b < Fn.length →
    st.liveAfterMap b = (Fn.block b).succs.toFinset.biUnion st.liveBeforeMap ∧
    st.liveBeforeMap b =
      (st.liveAfterMap b \ getAllDefs (Fn.block b)) ∪ getUpwardsExposedUses TRI (Fn.block b)

/-- The forward equations at every block on the stored pointers: RD-before is
the union of the predecessors' RD-after sets, RD-after is
`(RD-before - RDkillMap) union RDgenMap`. -/
def RDPointerEquations (Fn : MachineFunction) (st : RDState) : Prop :=
  ∀ b, b < Fn.length →
    st.RDbeforeMap b = (Fn.block b).preds.toFinset.biUnion st.RDafterMap ∧
    st.RDafterMap b = (st.RDbeforeMap b \ st.RDkillMap b) ∪ st.RDgenMap b

/-- The (register, instruction) pairs of the definitions made in block `bb`:
for every instruction, every register of `getOneInstrRegDefs`. -/
def blockDefPairs (TRI : TargetRegisterInfo) (Fn : MachineFunction) (bb : Nat) :
    Finset (Nat × InstrPtr) :=
  (instrPtrs Fn bb).toFinset.biUnion (fun i =>
    (getOneInstrRegDefs TRI (Fn.instr i)).image (fun d => (d, i)))

/-! ## Runs of the worklist loops under an arbitrary removal order -/

/-- `LiveRun Fn k st st1`: `k` passes of the liveness loop body, each on some
block of the current worklist, lead from `st` to `st1`. -/
inductive LiveRun (Fn : MachineFunction) : Nat → LiveState → LiveState → Prop
  | done (st : LiveState) : LiveRun Fn 0 st st
  | step {k : Nat} {st st1 : LiveState} (bb : Nat) :
      bb ∈ st.worklist → LiveRun Fn k (liveVarsIter Fn bb st) st1 → LiveRun Fn (k + 1) st st1

/-- `RDRun Fn k st st1`: `k` passes of the reaching-definitions loop body, each
on some block of the current worklist, lead from `st` to `st1`. -/
inductive RDRun (Fn : MachineFunction) : Nat → RDState → RDState → Prop
  | done (st : RDState) : RDRun Fn 0 st st
  | step {k : Nat} {st st1 : RDState} (bb : Nat) :
      bb ∈ st.worklist → RDRun Fn k (rdefsIter Fn bb st) st1 → RDRun Fn (k + 1) st st1

/-- The predecessor and successor lists of the function agree: `s` is listed
as a successor of `b` exactly when `b` is listed as a predecessor of `s`. -/
def CFGConsistent (Fn : MachineFunction) : Prop :=
  (∀ b < Fn.length, ∀ s ∈ (Fn.block b).succs, b ∈ (Fn.block s).preds) ∧
  (∀ b < Fn.length, ∀ p ∈ (Fn.block b).preds, b ∈ (Fn.block p).succs)

instance (Fn : MachineFunction) : Decidable (CFGConsistent Fn) := by
  unfold CFGConsistent; infer_instance

/-! ## The shape shared by the two worklist loops

Both loops recompute, for the block taken from the worklist, one set as the
union over neighbours (`inp`: live-after, resp. RD-before) and then the other
by the transfer function (`out`: live-before, resp. RD-after), which is stored
and wakes the opposite neighbours only when it is larger. The definitions
below state that shape once; the two loops are shown to be instances of it. -/

/-- The data of a worklist problem: the neighbours joined (`meet`), the
neighbours woken (`wake`), and the Gen and Kill sets. -/
structure Solver (α : Type) where
  meet : Nat → List Nat
  wake : Nat → List Nat
  gen : Nat → Finset α
  kill : Nat → Finset α

/-- The worklist and the two fact maps. -/
structure SolverState (α : Type) where
  worklist : Finset Nat
  inp : Nat → Finset α
  out : Nat → Finset α

namespace Solver

variable {α : Type} [DecidableEq α]

/-- Union of the `out` sets of the joined neighbours. -/
def join (S : Solver α) (out : Nat → Finset α) (bb : Nat) : Finset α :=
  (S.meet bb).foldl (fun result s => result ∪ out s) ∅

/-- `(x - kill) union gen`. -/
def transfer (S : Solver α) (bb : Nat) (x : Finset α) : Finset α :=
  x.filter (fun f => f ∉ S.kill bb) ∪ S.gen bb

/-- One pass of the loop body on block `bb`. -/
def iter (S : Solver α) (bb : Nat) (st : SolverState α) : SolverState α :=
  if (S.transfer bb (S.join st.out bb)).card > (st.out bb).card then
    { worklist := (S.wake bb).foldl (fun w p => insert p w) (st.worklist.erase bb)
      inp := Function.update st.inp bb (S.join st.out bb)
      out := Function.update st.out bb (S.transfer bb (S.join st.out bb)) }
  else
    { worklist := st.worklist.erase bb
      inp := Function.update st.inp bb (S.join st.out bb)
      out := st.out }

/-- `k` passes, each on some block of the current worklist. -/
inductive Run (S : Solver α) : Nat → SolverState α → SolverState α → Prop
  | done (st : SolverState α) : Run S 0 st st
  | step {k : Nat} {st st1 : SolverState α} (bb : Nat) :
      bb ∈ st.worklist → Run S k (S.iter bb st) st1 → Run S (k + 1) st st1

/-- The loop that always takes the least block of the worklist. -/
def loop (S : Solver α) : Nat → SolverState α → SolverState α
  | 0, st => st
  | fuel + 1, st =>
    if h : st.worklist.Nonempty then loop S fuel (S.iter (st.worklist.min' h) st)
    else st

/-- Every stored set is below what the equations would give now. -/
def Sound (S : Solver α) (st : SolverState α) : Prop :=
  ∀ b, st.inp b ⊆ S.join st.out b ∧ st.out b ⊆ S.transfer b (st.inp b)

/-- Blocks off the worklist satisfy the transfer equation. -/
def Settled (S : Solver α) (st : SolverState α) : Prop :=
  ∀ b, b ∉ st.worklist → st.out b = S.transfer b (st.inp b)

/-- Blocks off the worklist satisfy the join equation. -/
def Met (S : Solver α) (st : SolverState α) : Prop :=
  ∀ b, b ∉ st.worklist → st.inp b = S.join st.out b

/-- The maps `I`, `O` solve both equations everywhere. -/
def Solution (S : Solver α) (I O : Nat → Finset α) : Prop :=
  ∀ b, I b = S.join O b ∧ O b = S.transfer b (I b)

/-- The state lies below the maps `I`, `O`. -/
def Below (I O : Nat → Finset α) (st : SolverState α) : Prop :=
  ∀ b, st.inp b ⊆ I b ∧ st.out b ⊆ O b

/-- Every `out` set lies in `U`. -/
def Bounded (U : Finset α) (st : SolverState α) : Prop :=
  ∀ b, st.out b ⊆ U

/-- Waking and joining are along the same edges. -/
def Consistent (S : Solver α) : Prop :=
  ∀ b s, s ∈ S.meet b → b ∈ S.wake s

/-- Positions from `n` on carry nothing and have no neighbours, and no wake
list is longer than `P`. -/
def Sized (S : Solver α) (n P : Nat) : Prop :=
  (∀ b, n ≤ b → S.meet b = [] ∧ S.gen b = ∅) ∧ ∀ b, (S.wake b).length ≤ P

/-- The quantity that every pass decreases. -/
def measure (n P N : Nat) (st : SolverState α) : Nat :=
  st.worklist.card + (P + 1) * (N - (Finset.range n).sum (fun b => (st.out b).card))

end Solver

/-- The liveness loop as a worklist problem: join over successors, wake
predecessors. -/
def LiveState.solver (Fn : MachineFunction) (st : LiveState) : Solver Nat :=
  { meet := fun b => (Fn.block b).succs
    wake := fun b => (Fn.block b).preds
    gen := st.liveVarsGenMap
    kill := st.liveVarsKillMap }

/-- The liveness state as a solver state: `inp` is live-after, `out` is
live-before. -/
def LiveState.abstract (st : LiveState) : SolverState Nat :=
  ⟨st.worklist, st.liveAfterMap, st.liveBeforeMap⟩

/-- The reaching-definitions loop as a worklist problem: join over
predecessors, wake successors. -/
def RDState.solver (Fn : MachineFunction) (st : RDState) : Solver RDfact :=
  { meet := fun b => (Fn.block b).preds
    wake := fun b => (Fn.block b).succs
    gen := st.RDgenMap
    kill := st.RDkillMap }

/-- The reaching-definitions state as a solver state: `inp` is RD-before,
`out` is RD-after. -/
def RDState.abstract (st : RDState) : SolverState RDfact :=
  ⟨st.worklist, st.RDbeforeMap, st.RDafterMap⟩

/-- Control can pass from instruction `i` to instruction `j`: `j` is the next
instruction of the same block, or `i` is the last instruction of its block and
`j` is the first instruction of a CFG successor of that block. -/
def InstrNext (Fn : MachineFunction) (i j : InstrPtr) : Prop :=
  (j.1 = i.1 ∧ j.2 = i.2 + 1 ∧ j.2 < (Fn.block i.1).instrs.length) ∨
  (i.2 + 1 = (Fn.block i.1).instrs.length ∧ j.1 ∈ (Fn.block i.1).succs ∧ j.2 = 0 ∧
    0 < (Fn.block j.1).instrs.length)

/-- `LiveAlong TRI Fn r i`: there is a finite path of instructions starting at
`i` whose last instruction has `r` in its alias-expanded use set and none of
whose earlier instructions has `r` in its alias-expanded def set. -/
inductive LiveAlong (TRI : TargetRegisterInfo) (Fn : MachineFunction) (r : Nat) :
    InstrPtr → Prop
  | use {i : InstrPtr} : r ∈ getOneInstrRegUses TRI (Fn.instr i) → LiveAlong TRI Fn r i
  | step {i : InstrPtr} (j : InstrPtr) : r ∉ getOneInstrRegDefs TRI (Fn.instr i) →
      InstrNext Fn i j → LiveAlong TRI Fn r j → LiveAlong TRI Fn r i

/-- The alias list of `reg` as the pass walks it: the entries of the array
`TRI->getAliasSet(reg)` before the terminating zero. -/
def TargetRegisterInfo.aliases (TRI : TargetRegisterInfo) (reg : Nat) : List Nat :=
  (TRI.getAliasSet reg).takeWhile (fun a => a != 0)

/-- Operand `MOp` writes register `r`: it is a register operand of a register
other than 0 and a def, and `r` is that register or, when that register is
physical, an entry of its alias list. -/
def WritesReg (TRI : TargetRegisterInfo) (MOp : MachineOperand) (r : Nat) : Prop :=
  MOp.isReg = true ∧ MOp.getReg ≠ 0 ∧ MOp.isDef = true ∧
    (r = MOp.getReg ∨ (TRI.isPhysicalRegister MOp.getReg = true ∧ r ∈ TRI.aliases MOp.getReg))

/-- Operand `MOp` reads register `r`: it is a register operand of a register
other than 0 and a use, and `r` is that register or, when that register is
physical, an entry of its alias list. -/
def ReadsReg (TRI : TargetRegisterInfo) (MOp : MachineOperand) (r : Nat) : Prop :=
  MOp.isReg = true ∧ MOp.getReg ≠ 0 ∧ MOp.isUse = true ∧
    (r = MOp.getReg ∨ (TRI.isPhysicalRegister MOp.getReg = true ∧ r ∈ TRI.aliases MOp.getReg))

/-! ## Example inputs -/

namespace Examples

/-- Register metadata with the registers below 1024 physical (the numbering of
the target library), where registers 1 and 2 alias each other. -/
def tri : TargetRegisterInfo :=
  { isPhysicalRegister := fun r => decide (r < 1024)
    getAliasSet := fun r => if r = 1 then [2] else if r = 2 then [1] else [] }

/-- A def operand of register `r`. -/
def defOp (r : Nat) : MachineOperand := ⟨true, r, false, true⟩

/-- A use operand of register `r`. -/
def useOp (r : Nat) : MachineOperand := ⟨true, r, true, false⟩

/-- Two blocks in a loop: block 0 defines virtual register 1024, block 1 uses
it, with edges 0 -> 1 and 1 -> 0. -/
def loopFn : MachineFunction :=
  [⟨[⟨[defOp 1024]⟩], [1], [1]⟩, ⟨[⟨[useOp 1024]⟩], [0], [0]⟩]

/-- Three blocks in a chain 0 -> 1 -> 2: blocks 0 and 1 each define virtual
register 1024 in their only instruction, block 2 uses it. -/
def overwriteFn : MachineFunction :=
  [⟨[⟨[defOp 1024]⟩], [], [1]⟩, ⟨[⟨[defOp 1024]⟩], [0], [2]⟩, ⟨[⟨[useOp 1024]⟩], [1], []⟩]

/-- Three blocks in a chain 0 -> 1 -> 2: block 0 holds an instruction without
register operands, block 1 defines physical register 1, block 2 uses physical
register 2, an alias of 1. -/
def aliasFn : MachineFunction :=
  [⟨[⟨[]⟩], [], [1]⟩, ⟨[⟨[defOp 1]⟩], [0], [2]⟩, ⟨[⟨[useOp 2]⟩], [1], []⟩]

/-- One block without edges holding two instructions: the first defines
physical register 2, the second defines physical register 1, whose alias list
holds 2. -/
def aliasDefsFn : MachineFunction :=
  [⟨[⟨[defOp 2]⟩, ⟨[defOp 1]⟩], [], []⟩]

end Examples

/-! ## One-register expansion, `getDefReg`, and the sets one pass recomputes -/

/-- The expansion of one register as `getOneInstrRegDefs` performs it for an
operand: `addAliases` into the empty set, then the register itself. -/
def expandReg (TRI : TargetRegisterInfo) (reg : Nat) : Finset Nat :=
  insert reg (addAliases TRI ∅ reg)

/-- How a call ends: it returns a value, or the process is terminated by
`exit(code)`. -/
inductive Outcome (α : Type) where
  | returns (a : α) : Outcome α
  | exits (code : Nat) : Outcome α
deriving DecidableEq

/-- The operand loop of `getDefReg`; falling out of the loop prints the
internal error and calls `exit(1)`. -/
def getDefRegLoop : List MachineOperand → Outcome Nat
  | [] => Outcome.exits 1
  | MOp :: rest =>
    if MOp.isReg && MOp.getReg != 0 && MOp.isDef then Outcome.returns MOp.getReg
    else getDefRegLoop rest

/-- `getDefReg`: the register of the first operand that is a def of a register
other than 0. -/
def getDefReg (instr : MachineInstr) : Outcome Nat :=
  getDefRegLoop instr.operands

/-- The set `newLiveBefore` that a pass of the liveness loop on block `bb`
computes from state `st`, after it has stored the new live-after set. -/
def newLiveBefore (Fn : MachineFunction) (st : LiveState) (bb : Nat) : Finset Nat :=
  computeLiveBefore
    { st with liveAfterMap := Function.update st.liveAfterMap bb (computeLiveAfter Fn st bb) } bb

/-- The set `newRDafter` that a pass of the reaching-definitions loop on block
`bb` computes from state `st`, after it has stored the new RD-before set. -/
def newRDafter (Fn : MachineFunction) (st : RDState) (bb : Nat) : Finset RDfact :=
  computeRDafter
    { st with RDbeforeMap := Function.update st.RDbeforeMap bb (computeRDbefore Fn st bb) } bb

namespace Examples

/-- Register metadata in the manner of a register with two halves: registers 1
and 2 are the halves, register 3 is the whole; each half aliases the whole,
the whole aliases both halves, the halves do not alias each other. -/
def subRegTri : TargetRegisterInfo :=
  { isPhysicalRegister := fun r => decide (r < 1024)
    getAliasSet := fun r =>
      if r = 1 then [3] else if r = 2 then [3] else if r = 3 then [1, 2] else [] }

end Examples

/-! ## Scenario inputs -/

namespace Examples

/-- One block without edges holding three instructions: a def of `r1`, a use
of `r1` with a def of `r2`, a use of `r2`. -/
def straightLine (r1 r2 : Nat) : MachineFunction :=
  [⟨[⟨[defOp r1]⟩, ⟨[useOp r1, defOp r2]⟩, ⟨[useOp r2]⟩], [], []⟩]

/-- Two blocks in a loop: block 0 (A) defines `r1`, block 1 (B) uses it, with
edges 0 -> 1 and 1 -> 0. -/
def loopOn (r1 : Nat) : MachineFunction :=
  [⟨[⟨[defOp r1]⟩], [1], [1]⟩, ⟨[⟨[useOp r1]⟩], [0], [0]⟩]

end Examples

/-! ## The pass object and `runOnMachineFunction` -/

/-- The per-function containers of the `Gcra` pass object, together with the
heap counter of the process. The members `TRI` and `numRegClasses` hold no
analysis data: `TRI` is a parameter of the functions below, `numRegClasses` is
never written after the constructor. -/
structure PassState where
  RDfactSet : Finset RDfact
  InstrToNumMap : InstrPtr → Nat
  liveBeforeMap : Nat → Finset Nat
  liveAfterMap : Nat → Finset Nat
  liveVarsGenMap : Nat → Finset Nat
  liveVarsKillMap : Nat → Finset Nat
  insLiveBeforeMap : InstrPtr → Finset Nat
  insLiveAfterMap : InstrPtr → Finset Nat
  RDbeforeMap : Nat → Finset RDfact
  RDafterMap : Nat → Finset RDfact
  RDgenMap : Nat → Finset RDfact
  RDkillMap : Nat → Finset RDfact
  insRDbeforeMap : InstrPtr → Finset RDfact
  insRDafterMap : InstrPtr → Finset RDfact
  heapNext : Nat

/-- The `clear()` calls at the head of `runOnMachineFunction` (the block headed
INITIALIZE FOR EACH FN): every container is emptied, `RDbeforeMap` and
`RDafterMap` twice. -/
def PassState.clearAll (self : PassState) : PassState :=
  { self with
    RDfactSet := ∅
    RDbeforeMap := fun _ => ∅
    RDafterMap := fun _ => ∅
    InstrToNumMap := fun _ => 0
    liveBeforeMap := fun _ => ∅
    liveAfterMap := fun _ => ∅
    liveVarsGenMap := fun _ => ∅
    liveVarsKillMap := fun _ => ∅
    insLiveBeforeMap := fun _ => ∅
    insLiveAfterMap := fun _ => ∅
    RDgenMap := fun _ => ∅
    RDkillMap := fun _ => ∅
    insRDbeforeMap := fun _ => ∅
    insRDafterMap := fun _ => ∅ }

/-- `doInit` as a member function: it inserts into the `RDfactSet` and the
`InstrToNumMap` it finds in the pass object. -/
def PassState.doInit (TRI : TargetRegisterInfo) (Fn : MachineFunction) (self : PassState) :
    PassState :=
  let st := (List.range Fn.length).foldl (fun st b =>
    (instrPtrs Fn b).foldl (fun st inst =>
      let st1 : InitState :=
        { st with
          InstrToNumMap := Function.update st.InstrToNumMap inst st.insNum
          insNum := st.insNum + 1 }
      (Fn.instr inst).operands.foldl (doInitOperand TRI inst) st1) st)
    (⟨self.RDfactSet, self.InstrToNumMap, 1, self.heapNext⟩ : InitState)
  { self with
    RDfactSet := st.RDfactSet
    InstrToNumMap := st.InstrToNumMap
    heapNext := st.heapNext }

/-- `analyzeBasicBlocksLiveVars` as a member function: the first loop writes
the entries of the blocks of `Fn` into the four maps it finds, the worklist
loop follows. -/
def PassState.analyzeBasicBlocksLiveVars (TRI : TargetRegisterInfo) (Fn : MachineFunction)
    (self : PassState) : PassState :=
  let st0 := (List.range Fn.length).foldl (fun (st : LiveState) b =>
    ({ worklist := insert b st.worklist
       liveBeforeMap := Function.update st.liveBeforeMap b ∅
       liveAfterMap := Function.update st.liveAfterMap b ∅
       liveVarsGenMap := Function.update st.liveVarsGenMap b
         (getUpwardsExposedUses TRI (Fn.block b))
       liveVarsKillMap := Function.update st.liveVarsKillMap b
         (getAllDefs (Fn.block b)) } : LiveState))
    ⟨∅, self.liveBeforeMap, self.liveAfterMap, self.liveVarsGenMap, self.liveVarsKillMap⟩
  let st := liveVarsLoop Fn (liveVarsFuel TRI Fn) st0
  { self with
    liveBeforeMap := st.liveBeforeMap
    liveAfterMap := st.liveAfterMap
    liveVarsGenMap := st.liveVarsGenMap
    liveVarsKillMap := st.liveVarsKillMap }

/-- `analyzeInstructionsLiveVars` as a member function. -/
def PassState.analyzeInstructionsLiveVars (TRI : TargetRegisterInfo) (Fn : MachineFunction)
    (self : PassState) : PassState :=
  let m := Gcra.analyzeInstructionsLiveVars TRI Fn self.liveAfterMap
    ⟨self.insLiveBeforeMap, self.insLiveAfterMap⟩
  { self with
    insLiveBeforeMap := m.insLiveBeforeMap
    insLiveAfterMap := m.insLiveAfterMap }

/-- `doLiveAnalysis` as a member function: clear the six liveness maps, then
blocks, then instructions. -/
def PassState.doLiveAnalysis (TRI : TargetRegisterInfo) (Fn : MachineFunction)
    (self : PassState) : PassState :=
  let cleared : PassState :=
    { self with
      liveBeforeMap := fun _ => ∅
      liveAfterMap := fun _ => ∅
      liveVarsGenMap := fun _ => ∅
      liveVarsKillMap := fun _ => ∅
      insLiveBeforeMap := fun _ => ∅
      insLiveAfterMap := fun _ => ∅ }
  (cleared.analyzeBasicBlocksLiveVars TRI Fn).analyzeInstructionsLiveVars TRI Fn

/-- `analyzeBasicBlocksRDefs` as a member function: the first loop writes the
entries of the blocks of `Fn` into the four maps it finds, reading the
`RDfactSet` of the pass object; the worklist loop follows. -/
def PassState.analyzeBasicBlocksRDefs (TRI : TargetRegisterInfo) (Fn : MachineFunction)
    (self : PassState) : PassState :=
  let st0 := (List.range Fn.length).foldl (rdefsInitBlock TRI Fn self.RDfactSet)
    ⟨∅, self.RDbeforeMap, self.RDafterMap, self.RDgenMap, self.RDkillMap, self.heapNext⟩
  let st := rdefsLoop Fn (rdefsFuel Fn st0) st0
  { self with
    RDbeforeMap := st.RDbeforeMap
    RDafterMap := st.RDafterMap
    RDgenMap := st.RDgenMap
    RDkillMap := st.RDkillMap
    heapNext := st.heapNext }

/-- `analyzeInstructionsRDefs` as a member function. -/
def PassState.analyzeInstructionsRDefs (TRI : TargetRegisterInfo) (Fn : MachineFunction)
    (self : PassState) : PassState :=
  let m := Gcra.analyzeInstructionsRDefs TRI Fn self.RDfactSet self.RDbeforeMap
    ⟨self.insRDbeforeMap, self.insRDafterMap, self.heapNext⟩
  { self with
    insRDbeforeMap := m.insRDbeforeMap
    insRDafterMap := m.insRDafterMap
    heapNext := m.heapNext }

/-- `doReachingDefsAnalysis` as a member function: blocks, then instructions,
without clearing anything. -/
def PassState.doReachingDefsAnalysis (TRI : TargetRegisterInfo) (Fn : MachineFunction)
    (self : PassState) : PassState :=
  (self.analyzeBasicBlocksRDefs TRI Fn).analyzeInstructionsRDefs TRI Fn

/-- `runOnMachineFunction`: clear the containers, `doInit`, `doLiveAnalysis`,
`doReachingDefsAnalysis`, then `exit(0)`. The result is the pass object at the
`exit` call and how the call ends; `getDefReg` is not called on the way. -/
def runOnMachineFunction (TRI : TargetRegisterInfo) (Fn : MachineFunction)
    (self : PassState) : PassState × Outcome Bool :=
  ((((self.clearAll).doInit TRI Fn).doLiveAnalysis TRI Fn).doReachingDefsAnalysis TRI Fn,
   Outcome.exits 0)

/-- The fact object `f` placed `d` addresses further on the heap. -/
def RDfact.moved (d : Nat) (f : RDfact) : RDfact := { f with addr := f.addr + d }

/-- A set of fact objects with every object placed `d` addresses further. -/
def moved (d : Nat) (S : Finset RDfact) : Finset RDfact := S.image (RDfact.moved d)

/-- The state of `doInit` with every fact object placed `d` addresses further. -/
def InitState.moved (d : Nat) (st : InitState) : InitState :=
  ⟨Gcra.moved d st.RDfactSet, st.InstrToNumMap, st.insNum, st.heapNext + d⟩

/-- The state of `analyzeBasicBlocksRDefs` with every fact object placed `d`
addresses further. -/
def RDState.moved (d : Nat) (st : RDState) : RDState :=
  ⟨st.worklist, fun b => Gcra.moved d (st.RDbeforeMap b), fun b => Gcra.moved d (st.RDafterMap b),
    fun b => Gcra.moved d (st.RDgenMap b), fun b => Gcra.moved d (st.RDkillMap b),
    st.heapNext + d⟩

/-- The state of `analyzeInstructionsRDefs` with every fact object placed `d`
addresses further. -/
def InsRDState.moved (d : Nat) (st : InsRDState) : InsRDState :=
  ⟨fun i => Gcra.moved d (st.insRDbeforeMap i), fun i => Gcra.moved d (st.insRDafterMap i),
    st.heapNext + d⟩

/-- Two pass objects hold the same results: the liveness maps and the
instruction numbering are equal, and every reaching-definitions container
holds the same (register, instruction) pairs. -/
def PassState.SameResults (r1 r2 : PassState) : Prop :=
  r1.InstrToNumMap = r2.InstrToNumMap ∧
  r1.liveBeforeMap = r2.liveBeforeMap ∧ r1.liveAfterMap = r2.liveAfterMap ∧
  r1.liveVarsGenMap = r2.liveVarsGenMap ∧ r1.liveVarsKillMap = r2.liveVarsKillMap ∧
  r1.insLiveBeforeMap = r2.insLiveBeforeMap ∧ r1.insLiveAfterMap = r2.insLiveAfterMap ∧
  components r1.RDfactSet = components r2.RDfactSet ∧
  (∀ b, components (r1.RDbeforeMap b) = components (r2.RDbeforeMap b)) ∧
  (∀ b, components (r1.RDafterMap b) = components (r2.RDafterMap b)) ∧
  (∀ b, components (r1.RDgenMap b) = components (r2.RDgenMap b)) ∧
  (∀ b, components (r1.RDkillMap b) = components (r2.RDkillMap b)) ∧
  (∀ i, components (r1.insRDbeforeMap i) = components (r2.insRDbeforeMap i)) ∧
  (∀ i, components (r1.insRDafterMap i) = components (r2.insRDafterMap i))

end Gcra

/-! ## The LLVM IR as the two IR-level passes see it (`liveVars.cpp`, `optLoads.cpp`) -/

namespace IR

/-- An LLVM `Value` as the passes test it: an instruction, given by its
address (`isa<Instruction>(v)`), or any other value (argument, constant,
block). -/
inductive Value where
  | inst (addr : Nat) : Value
  | other (id : Nat) : Value
deriving DecidableEq, Repr

/-- An instruction: its address and its operands, by class. A `StoreInst` is
`store v, m` (operand 0 the value, operand 1 the pointer), a `LoadInst` is
`load m` (operand 0 the pointer). -/
inductive Instruction where
  | store (addr : Nat) (v m : Value) : Instruction
  | load (addr : Nat) (m : Value) : Instruction
  | other (addr : Nat) (operands : List Value) : Instruction
deriving DecidableEq, Repr

/-- The address of the instruction (`&*i`). -/
def Instruction.addr : Instruction → Nat
  | Instruction.store a _ _ => a
  | Instruction.load a _ => a
  | Instruction.other a _ => a

/-- The operands `getOperand(0)`, ..., `getOperand(getNumOperands() - 1)`. -/
def Instruction.operands : Instruction → List Value
  | Instruction.store _ v m => [v, m]
  | Instruction.load _ m => [m]
  | Instruction.other _ ops => ops

/-- A basic block: its instructions and its predecessor and successor blocks,
given by their positions in the function. -/
structure BasicBlock where
  instrs : List Instruction
  preds : List Nat
  succs : List Nat
deriving DecidableEq, Repr

/-- A function: its basic blocks in order. -/
abbrev Function := List BasicBlock

/-- The block at position `b`; a position outside the function reads as an
empty block without neighbours. -/
def Function.block (F : IR.Function) (b : Nat) : BasicBlock :=
  F.getD b ⟨[], [], []⟩

end IR

/-! ## `liveVars.cpp`: liveness of SSA values -/

namespace LiveVars

open IR (Value Instruction BasicBlock)

/-- The `class genKill`: sets of instruction addresses. -/
structure genKill where
  gen : Finset Nat
  kill : Finset Nat
deriving DecidableEq

/-- The `class beforeAfter`. -/
structure beforeAfter where
  before : Finset Nat
  after : Finset Nat
deriving DecidableEq

instance : Inhabited genKill := ⟨⟨∅, ∅⟩⟩

instance : Inhabited beforeAfter := ⟨⟨∅, ∅⟩⟩

/-- An `llvm::DenseMap`: the keys present and their values. -/
abbrev DenseMap (κ ν : Type) := κ → Option ν

/-- `DenseMap::lookup`: a copy of the value stored under the key, or a
default-constructed value when the key is absent. -/
def DenseMap.lookup {κ ν : Type} [Inhabited ν] (m : DenseMap κ ν) (k : κ) : ν :=
  (m k).getD default

/-- `DenseMap::count`. -/
def DenseMap.count {κ ν : Type} (m : DenseMap κ ν) (k : κ) : Bool :=
  (m k).isSome

/-- `DenseMap::insert(std::make_pair(k, v))`: nothing happens when the key is
already present. -/
def DenseMap.insert {κ ν : Type} [DecidableEq κ] (m : DenseMap κ ν) (k : κ) (v : ν) :
    DenseMap κ ν :=
  if (m k).isSome then m else Function.update m k (some v)

/-- The body of the operand loop of `computeBBGenKill`. -/
def genKillOperand (s : genKill) (v : Value) : genKill :=
  match v with
  | Value.inst op => if op ∉ s.kill then { s with gen := insert op s.gen } else s
  | Value.other _ => s

/-- The body of the instruction loop of `computeBBGenKill`: the operands, then
`s.kill.insert(&*i)`. -/
def genKillInstr (s : genKill) (i : Instruction) : genKill :=
  { gen := (i.operands.foldl genKillOperand s).gen
    kill := insert i.addr (i.operands.foldl genKillOperand s).kill }

/-- `computeBBGenKill`. -/
def computeBBGenKill (F : IR.Function) (bbMap : DenseMap Nat genKill) : DenseMap Nat genKill :=
  (List.range F.length).foldl (fun bbMap b =>
    DenseMap.insert bbMap b ((F.block b).instrs.foldl genKillInstr ⟨∅, ∅⟩)) bbMap

/-- The locals `b_beforeAfter` and `shouldAddPred` of `computeBBBeforeAfter` at
the end of the loop body for the popped block `b`. -/
def bodyLocals (F : IR.Function) (bbGKMap : DenseMap Nat genKill)
    (bbBAMap : DenseMap Nat beforeAfter) (b : Nat) : beforeAfter × Bool :=
  let b_beforeAfter := DenseMap.lookup bbBAMap b
  let shouldAddPred := !(DenseMap.count bbBAMap b)
  let b_genKill := DenseMap.lookup bbGKMap b
  let a := (F.block b).succs.foldl (fun a SI => a ∪ (DenseMap.lookup bbBAMap SI).before) ∅
  if a ≠ b_beforeAfter.after then
    ({ before := (a \ b_genKill.kill) ∪ b_genKill.gen, after := a }, true)
  else (b_beforeAfter, shouldAddPred)

/-- The state of the loop of `computeBBBeforeAfter`: the `workList` vector with
its back at the head of the list, and the map `bbBAMap`. -/
structure BAState where
  workList : List Nat
  bbBAMap : DenseMap Nat beforeAfter

/-- One pass through the body of the `while` loop for the popped block `b`,
`rest` being the vector after `pop_back_val`. The local `b_beforeAfter` is a
copy (`lookup` returns by value) and no statement of the body writes to
`bbBAMap`. -/
def computeBBBeforeAfterIter (F : IR.Function) (bbGKMap : DenseMap Nat genKill)
    (b : Nat) (rest : List Nat) (bbBAMap : DenseMap Nat beforeAfter) : BAState :=
  { workList :=
      if (bodyLocals F bbGKMap bbBAMap b).2 then
        (F.block b).preds.foldl (fun w PI => PI :: w) rest
      else rest
    bbBAMap := bbBAMap }

/-- The `while (!workList.empty())` loop; `none` when it has not ended after
`fuel` passes. -/
def computeBBBeforeAfterLoop (F : IR.Function) (bbGKMap : DenseMap Nat genKill) :
    Nat → BAState → Option BAState
  | fuel, st =>
    match st.workList, fuel with
    | [], _ => some st
    | _ :: _, 0 => none
    | b :: rest, fuel + 1 =>
      computeBBBeforeAfterLoop F bbGKMap fuel
        (computeBBBeforeAfterIter F bbGKMap b rest st.bbBAMap)

/-- `computeBBBeforeAfter`: the worklist starts with the last block,
`--F.end()` (position 0, an empty block, when the function has no block: the
source is undefined there). -/
def computeBBBeforeAfter (fuel : Nat) (F : IR.Function) (bbGKMap : DenseMap Nat genKill)
    (bbBAMap : DenseMap Nat beforeAfter) : Option (DenseMap Nat beforeAfter) :=
  (computeBBBeforeAfterLoop F bbGKMap fuel ⟨[F.length - 1], bbBAMap⟩).map BAState.bbBAMap

/-- The operand loop of `computeIBeforeAfter`: every operand that is an
instruction is inserted. -/
def insertInstOperands (liveBefore : Finset Nat) (ops : List Value) : Finset Nat :=
  ops.foldl (fun s v =>
    match v with
    | Value.inst op => insert op s
    | Value.other _ => s) liveBefore

/-- The locals `liveBefore`, `liveAfter` of `computeIBeforeAfter` and the map
`iBAMap`. -/
structure IBAState where
  liveBefore : Finset Nat
  liveAfter : Finset Nat
  iBAMap : DenseMap Nat beforeAfter

/-- The body of the `while (true)` loop of `computeIBeforeAfter` for the
instruction `i`. -/
def iBeforeAfterBody (st : IBAState) (i : Instruction) : IBAState :=
  { liveBefore := insertInstOperands (st.liveBefore.erase i.addr) i.operands
    liveAfter := insertInstOperands (st.liveBefore.erase i.addr) i.operands
    iBAMap := DenseMap.insert st.iBAMap i.addr
      ⟨insertInstOperands (st.liveBefore.erase i.addr) i.operands, st.liveAfter⟩ }

/-- The body of the block loop of `computeIBeforeAfter`: from the last
instruction of the block back to the first. For an empty block the source is
undefined (`--b->end()`); here nothing is recorded. -/
def iBeforeAfterBlock (F : IR.Function) (bbBAMap : DenseMap Nat beforeAfter)
    (iBAMap : DenseMap Nat beforeAfter) (b : Nat) : DenseMap Nat beforeAfter :=
  ((F.block b).instrs.reverse.foldl iBeforeAfterBody
    ⟨(DenseMap.lookup bbBAMap b).after, (DenseMap.lookup bbBAMap b).after, iBAMap⟩).iBAMap

/-- `computeIBeforeAfter`. -/
def computeIBeforeAfter (F : IR.Function) (bbBAMap : DenseMap Nat beforeAfter)
    (iBAMap : DenseMap Nat beforeAfter) : DenseMap Nat beforeAfter :=
  (List.range F.length).foldl (iBeforeAfterBlock F bbBAMap) iBAMap

/-- `runOnFunction` of `liveVars.cpp`: the three maps are created empty and
filled in turn; the result is `iBAMap`, whose entries the pass prints, and the
returned flag `changed`, which is never set. The numbering `instMap` only
serves the printing and is left out. -/
def runOnFunction (fuel : Nat) (F : IR.Function) : Option (DenseMap Nat beforeAfter × Bool) :=
  (computeBBBeforeAfter fuel F (computeBBGenKill F (fun _ => none)) (fun _ => none)).map
    (fun bbBAMap => (computeIBeforeAfter F bbBAMap (fun _ => none), false))

/-- The operands of `i` that are instructions, as a set of addresses. -/
def instOperands (i : Instruction) : Finset Nat :=
  (i.operands.filterMap (fun v =>
    match v with
    | Value.inst op => some op
    | Value.other _ => none)).toFinset

/-- The set live before the first instruction of the list `l` when `A` is live
after its last one: each instruction, from the last back to the first, removes
itself and adds its instruction operands. -/
def replay (A : Finset Nat) : List Instruction → Finset Nat
  | [] => A
  | i :: rest => insertInstOperands ((replay A rest).erase i.addr) i.operands

/-- The addresses of the instructions of the function are pairwise distinct. -/
def AddrsDistinct (F : IR.Function) : Prop :=
  ((F.map (fun blk => blk.instrs.map Instruction.addr)).flatten).Nodup

instance (F : IR.Function) : Decidable (AddrsDistinct F) := by
  unfold AddrsDistinct; infer_instance

namespace Examples

/-- Three blocks, entry 0 -> 1, loop 1 -> 1 and exit 1 -> 2: block 0 holds
instruction 10 (which uses an argument) and the branch 13, block 1 holds
instruction 11 (which uses 10) and the conditional branch 14 on 11, block 2,
the last block, holds the return 12 of 11. -/
def loopFn : IR.Function :=
  [⟨[Instruction.other 10 [Value.other 1], Instruction.other 13 []], [], [1]⟩,
   ⟨[Instruction.other 11 [Value.inst 10], Instruction.other 14 [Value.inst 11]],
      [0, 1], [1, 2]⟩,
   ⟨[Instruction.other 12 [Value.inst 11]], [1], []⟩]

/-- Two blocks in a chain 0 -> 1: block 0 holds instruction 10, block 1 holds
instruction 11, which uses 10. -/
def chainFn : IR.Function :=
  [⟨[Instruction.other 10 []], [], [1]⟩,
   ⟨[Instruction.other 11 [Value.inst 10]], [0], []⟩]

/-- One block without edges: instruction 10 uses an argument, 11 uses 10 and
instruction 20 of no block here, 12 stores 11 through 10. -/
def straightFn : IR.Function :=
  [⟨[Instruction.other 10 [Value.other 1],
     Instruction.other 11 [Value.inst 10, Value.inst 20],
     Instruction.store 12 (Value.inst 11) (Value.inst 10)], [], []⟩]

end Examples

end LiveVars

/-! ## `optLoads.cpp`: removal of loads that follow a store -/

namespace OptLoads

open IR (Value Instruction)

/-- The body of a function as the pass walks it: the instruction lists of its
basic blocks, in order. The pass does not look at the edges between blocks. -/
abbrev Body := List (List Instruction)

/-- One use seen by `k->replaceAllUsesWith(v)`: an operand that is the
instruction at address `k` becomes `v`. The call is made with a `v` that is
not the instruction `k` itself: see `scanStep`. -/
def replaceUse (k : Nat) (v : Value) (x : Value) : Value :=
  if x = Value.inst k then v else x

/-- `k->replaceAllUsesWith(v)` on the operands of one instruction. -/
def replaceUses (k : Nat) (v : Value) : Instruction → Instruction
  | Instruction.store a x m => Instruction.store a (replaceUse k v x) (replaceUse k v m)
  | Instruction.load a m => Instruction.load a (replaceUse k v m)
  | Instruction.other a ops => Instruction.other a (ops.map (replaceUse k v))

/-- The state of the inner loop of `runOnFunction`. The iterator `b` splits
the function into the blocks before `*b` (`scanned`), the block `*b` and the
blocks behind it (`later`); the iterator `i` splits `*b` into the instructions
before `i` (`done`) and those from `i` on (`rest`). `errs` lists the addresses
of the loads reported on `errs()` as useless. -/
structure ScanState where
  scanned : Body
  done : List Instruction
  rest : List Instruction
  later : Body
  changed : Bool
  errs : List Nat

/-- The body the state of the inner loop stands for. -/
def ScanState.body (st : ScanState) : Body :=
  st.scanned ++ [st.done ++ st.rest] ++ st.later

/-- What `runOnFunction` of `optLoads.cpp` leaves: the function body, the
flag `changed`, and the addresses of the loads reported as useless, oldest
first. -/
structure Result where
  body : Body
  changed : Bool
  errs : List Nat
deriving DecidableEq

/-- The two places where a run of the pass leaves defined behaviour.
`pastEnd`: the store at `i` is the last instruction of its block, so that
`isa<LoadInst>(k)` is applied to `b->end()`, which is no instruction.
`selfReplace`: the value `v` of the store is the load `k` itself, so that
`k->replaceAllUsesWith(v)` is called with `v == k`, which LLVM forbids by an
assertion (and which, without assertions, never empties the use list). -/
inductive Fault where
  | pastEnd : Fault
  | selfReplace : Fault
deriving DecidableEq, Repr

/-- How a loop, or a pass of it, ends: in a state from which the run goes on,
or at a fault, with the body, the flag and the report as they are then. -/
inductive Ending (σ : Type) where
  | ok : σ → Ending σ
  | abort : Fault → Result → Ending σ

/-- The three statements that follow the report under
`if (m == k->getOperand(0))`, for the store `s` at `i`, the load at address
`k` behind it and the instructions `tl` behind the load (where `i` already
points): `k->replaceAllUsesWith(v)`, `k->eraseFromParent()`,
`changed = true`; the report on `errs()` is entered as well. -/
def ScanState.eraseLoad (st : ScanState) (s : Instruction) (k : Nat) (v : Value)
    (tl : List Instruction) : ScanState :=
  { scanned := st.scanned.map (List.map (replaceUses k v))
    done := (st.done ++ [s]).map (replaceUses k v)
    rest := tl.map (replaceUses k v)
    later := st.later.map (List.map (replaceUses k v))
    changed := true
    errs := st.errs ++ [k] }

/-- The body of the inner `for` loop. At a store, `i` is advanced to the next
instruction `k`; when there is none the run is at the fault `pastEnd`. When
`k` is a load `i` is advanced once more, and when the pointer operand of `k`
is the pointer operand `m` of the store, `k` is reported and then replaced by
`v` and erased, unless `v` is `k`: then the run is at the fault `selfReplace`,
the report made. -/
def scanStep (st : ScanState) : Ending ScanState :=
  match st.rest with
  | [] => Ending.ok st
  | Instruction.store a v m :: tl =>
    match tl with
    | [] => Ending.abort Fault.pastEnd ⟨st.body, st.changed, st.errs⟩
    | Instruction.load ka km :: tl2 =>
      if m = km then
        if v = Value.inst ka then
          Ending.abort Fault.selfReplace ⟨st.body, st.changed, st.errs ++ [ka]⟩
        else Ending.ok (st.eraseLoad (Instruction.store a v m) ka v tl2)
      else
        Ending.ok
          { st with
            done := st.done ++ [Instruction.store a v m, Instruction.load ka km]
            rest := tl2 }
    | x :: tl2 =>
      Ending.ok { st with done := st.done ++ [Instruction.store a v m], rest := x :: tl2 }
  | Instruction.load a m :: tl =>
    Ending.ok { st with done := st.done ++ [Instruction.load a m], rest := tl }
  | Instruction.other a ops :: tl =>
    Ending.ok { st with done := st.done ++ [Instruction.other a ops], rest := tl }

/-- The inner `for` loop, until `i` is at the end of the block or the run is
at a fault; `none` when it has not ended after `fuel` passes. -/
def scanBlock : Nat → ScanState → Option (Ending ScanState)
  | fuel, st =>
    match st.rest, fuel with
    | [], _ => some (Ending.ok st)
    | _ :: _, 0 => none
    | _ :: _, fuel + 1 =>
      match scanStep st with
      | Ending.ok st1 => scanBlock fuel st1
      | Ending.abort f r => some (Ending.abort f r)

/-- The state of the outer loop of `runOnFunction`, between two blocks. -/
structure PassState where
  scanned : Body
  later : Body
  changed : Bool
  errs : List Nat

/-- The outer `for` loop: the inner loop on the next block, from its first
instruction, until no block is left or the run is at a fault. -/
def scanFunction : Nat → PassState → Option (Ending PassState)
  | fuel, st =>
    match st.later, fuel with
    | [], _ => some (Ending.ok st)
    | _ :: _, 0 => none
    | blk :: later, fuel + 1 =>
      match scanBlock blk.length ⟨st.scanned, [], blk, later, st.changed, st.errs⟩ with
      | none => none
      | some (Ending.abort f r) => some (Ending.abort f r)
      | some (Ending.ok st1) =>
        scanFunction fuel ⟨st1.scanned ++ [st1.done ++ st1.rest], st1.later, st1.changed, st1.errs⟩

/-- `runOnFunction` of `optLoads.cpp`: `Ending.ok` with the body left, the
returned flag and the report when it returns. The numbering `instMap` only
serves the printing and is left out: a load is reported by its address. -/
def runOnFunction (F : Body) : Option (Ending Result) :=
  match scanFunction F.length ⟨[], F, false, []⟩ with
  | none => none
  | some (Ending.abort f r) => some (Ending.abort f r)
  | some (Ending.ok st) => some (Ending.ok ⟨st.scanned ++ st.later, st.changed, st.errs⟩)

/-- The class of an instruction. -/
inductive Opcode where
  | store : Opcode
  | load : Opcode
  | other : Opcode
deriving DecidableEq, Repr

/-- The address and the class of an instruction: what identifies it whatever
its operands have become. -/
def tag : Instruction → Nat × Opcode
  | Instruction.store a _ _ => (a, Opcode.store)
  | Instruction.load a _ => (a, Opcode.load)
  | Instruction.other a _ => (a, Opcode.other)

/-- The instruction is a load. -/
def isLoad : Instruction → Bool
  | Instruction.load _ _ => true
  | _ => false

/-- The block `out` is the block `inp` with some loads removed: the
instructions of `out` are instructions of `inp` in the same order, and every
instruction of `inp` that is no load is still there. -/
def LoadsRemoved (out inp : List Instruction) : Prop :=
  (out.map tag).Sublist (inp.map tag) ∧
  (out.filter (fun i => !isLoad i)).map tag = (inp.filter (fun i => !isLoad i)).map tag

/-- The number of instructions of a function body. -/
def instrCount (B : Body) : Nat := (B.map List.length).sum

/-- The addresses of the instructions of a function body, in order. -/
def addrsOf (B : Body) : List Nat := B.flatten.map Instruction.addr

/-- No two instructions of the body are at the same address. -/
def AddrsDistinct (B : Body) : Prop := (addrsOf B).Nodup

instance (B : Body) : Decidable (AddrsDistinct B) := by
  unfold AddrsDistinct; infer_instance

/-- The loads of a block that immediately follow a store whose pointer operand
is the pointer operand of the load. -/
def uselessLoads : List Instruction → List Nat
  | [] => []
  | Instruction.store _ _ m :: Instruction.load ka km :: tl =>
    if m = km then ka :: uselessLoads (Instruction.load ka km :: tl)
    else uselessLoads (Instruction.load ka km :: tl)
  | _ :: tl => uselessLoads tl

/-- One sound removal, in the words of the claim: in `B` the load at address
`k` immediately follows, in its block, a store whose pointer operand `m` is
the pointer operand of the load, and `B1` is `B` without that load, every
instruction else in its place, with the stored value `v`, which is not the
load, for every use of the load. -/
def RemovesLoad (B : Body) (k : Nat) (B1 : Body) : Prop :=
  ∃ (pre post : Body) (p q : List Instruction) (a : Nat) (v m : Value),
    v ≠ Value.inst k ∧
    B = pre ++ (p ++ Instruction.store a v m :: Instruction.load k m :: q) :: post ∧
    B1 = (pre ++ (p ++ Instruction.store a v m :: q) :: post).map (List.map (replaceUses k v))

/-- A sequence of sound removals: `Removals B ks B2` when removing the loads
`ks` one after the other, each by `RemovesLoad` in the body left by the
removals before it, leads from `B` to `B2`. -/
def Removals : Body → List Nat → Body → Prop
  | B, [], B2 => B2 = B
  | B, k :: ks, B2 => ∃ B1, RemovesLoad B k B1 ∧ Removals B1 ks B2

/-- No instruction of the body has the instruction at address `x` as an
operand. -/
def NoUse (x : Nat) (B : Body) : Prop :=
  ∀ blk ∈ B, ∀ i ∈ blk, Value.inst x ∉ i.operands

/-- The last instruction of the block is a store. -/
def endsInStore (blk : List Instruction) : Bool :=
  match blk.getLast? with
  | some (Instruction.store _ _ _) => true
  | _ => false

/-- No block ends in a store; so it is in every function that passed the
verifier, whose blocks end in a terminator. -/
def NoTrailingStore (B : Body) : Prop := ∀ blk ∈ B, endsInStore blk = false

instance (B : Body) : Decidable (NoTrailingStore B) := by
  unfold NoTrailingStore; infer_instance

/-- The instruction whose value the instruction stores, if it is a store of
the value of an instruction. -/
def storedInst : Instruction → Option Nat
  | Instruction.store _ (Value.inst x) _ => some x
  | _ => none

/-- No store comes before the instruction whose value it stores, in the order
of the blocks and of the instructions in them. -/
def DefsBeforeStores (B : Body) : Prop :=
  B.flatten.Pairwise (fun i j => storedInst i ≠ some j.addr)

instance (B : Body) : Decidable (DefsBeforeStores B) := by
  unfold DefsBeforeStores; infer_instance

namespace Examples

/-- One block in which the store 10 stores the value of the load 11 behind
it, through the pointer the load reads. -/
def storesItsLoad : Body :=
  [[Instruction.store 10 (Value.inst 11) (Value.other 2),
    Instruction.load 11 (Value.other 2),
    Instruction.other 12 []]]

/-- One block whose last instruction is a store. -/
def storeLast : Body :=
  [[Instruction.other 10 [], Instruction.store 11 (Value.other 1) (Value.other 2)]]

end Examples

end OptLoads


/-! # Theorems -/

namespace Gcra

namespace Solver

variable {α : Type} [DecidableEq α]

theorem mem_foldl_union {β : Type} (f : β → Finset α) (l : List β) (init : Finset α) (x : α) :
    x ∈ l.foldl (fun r s => r ∪ f s) init ↔ x ∈ init ∨ ∃ s ∈ l, x ∈ f s := by
  induction l generalizing init with
  | nil => simp
  | cons a l ih =>
    simp only [List.foldl_cons, ih, Finset.mem_union, List.mem_cons, exists_eq_or_imp]
    tauto

theorem mem_foldl_insert (l : List Nat) (w : Finset Nat) (x : Nat) :
    x ∈ l.foldl (fun w p => insert p w) w ↔ x ∈ w ∨ x ∈ l := by
  induction l generalizing w with
  | nil => simp
  | cons a l ih =>
    simp only [List.foldl_cons, ih, Finset.mem_insert, List.mem_cons]
    tauto

theorem card_foldl_insert_le (l : List Nat) (w : Finset Nat) :
    (l.foldl (fun w p => insert p w) w).card ≤ w.card + l.length := by
  induction l generalizing w with
  | nil => simp
  | cons a l ih =>
    simp only [List.foldl_cons, List.length_cons]
    have h1 := ih (insert a w)
    have h2 := Finset.card_insert_le a w
    omega

theorem mem_join (S : Solver α) (out : Nat → Finset α) (bb : Nat) (x : α) :
    x ∈ S.join out bb ↔ ∃ s ∈ S.meet bb, x ∈ out s := by
  simp [join, mem_foldl_union]

theorem mem_transfer (S : Solver α) (bb : Nat) (X : Finset α) (x : α) :
    x ∈ S.transfer bb X ↔ (x ∈ X ∧ x ∉ S.kill bb) ∨ x ∈ S.gen bb := by
  simp [transfer]

theorem join_mono (S : Solver α) {out out1 : Nat → Finset α} (h : ∀ b, out b ⊆ out1 b)
    (bb : Nat) : S.join out bb ⊆ S.join out1 bb := by
  intro x hx
  rw [mem_join] at hx ⊢
  obtain ⟨s, hs, hxs⟩ := hx
  exact ⟨s, hs, h s hxs⟩

theorem transfer_mono (S : Solver α) (bb : Nat) {X Y : Finset α} (h : X ⊆ Y) :
    S.transfer bb X ⊆ S.transfer bb Y := by
  intro x hx
  rw [mem_transfer] at hx ⊢
  rcases hx with ⟨h1, h2⟩ | h3
  · exact Or.inl ⟨h h1, h2⟩
  · exact Or.inr h3

theorem join_congr (S : Solver α) {out out1 : Nat → Finset α} (bb : Nat)
    (h : ∀ s ∈ S.meet bb, out s = out1 s) : S.join out bb = S.join out1 bb := by
  ext x
  rw [mem_join, mem_join]
  constructor
  · rintro ⟨s, hs, hx⟩
    exact ⟨s, hs, h s hs ▸ hx⟩
  · rintro ⟨s, hs, hx⟩
    exact ⟨s, hs, (h s hs).symm ▸ hx⟩

theorem iter_inp (S : Solver α) (bb : Nat) (st : SolverState α) :
    (S.iter bb st).inp = Function.update st.inp bb (S.join st.out bb) := by
  unfold iter; split <;> rfl

theorem iter_out_grow (S : Solver α) (bb : Nat) (st : SolverState α)
    (h : (S.transfer bb (S.join st.out bb)).card > (st.out bb).card) :
    (S.iter bb st).out = Function.update st.out bb (S.transfer bb (S.join st.out bb)) ∧
    (S.iter bb st).worklist =
      (S.wake bb).foldl (fun w p => insert p w) (st.worklist.erase bb) := by
  unfold iter; rw [if_pos h]; exact ⟨rfl, rfl⟩

theorem iter_out_keep (S : Solver α) (bb : Nat) (st : SolverState α)
    (h : ¬ (S.transfer bb (S.join st.out bb)).card > (st.out bb).card) :
    (S.iter bb st).out = st.out ∧ (S.iter bb st).worklist = st.worklist.erase bb := by
  unfold iter; rw [if_neg h]; exact ⟨rfl, rfl⟩

/-- The stored `out` set of the processed block is below the recomputed one. -/
theorem out_le_new (S : Solver α) {st : SolverState α} (hs : S.Sound st) (bb : Nat) :
    st.out bb ⊆ S.transfer bb (S.join st.out bb) :=
  fun _ hx => S.transfer_mono bb (hs bb).1 ((hs bb).2 hx)

theorem iter_out_mono (S : Solver α) {st : SolverState α} (hs : S.Sound st) (bb b : Nat) :
    st.out b ⊆ (S.iter bb st).out b := by
  by_cases h : (S.transfer bb (S.join st.out bb)).card > (st.out bb).card
  · rw [(S.iter_out_grow bb st h).1, Function.update_apply]
    split_ifs with hb
    · subst hb; exact S.out_le_new hs b
    · exact Finset.Subset.refl _
  · rw [(S.iter_out_keep bb st h).1]

theorem iter_inp_mono (S : Solver α) {st : SolverState α} (hs : S.Sound st) (bb b : Nat) :
    st.inp b ⊆ (S.iter bb st).inp b := by
  rw [iter_inp, Function.update_apply]
  split_ifs with hb
  · subst hb; exact (hs b).1
  · exact Finset.Subset.refl _

/-- When the recomputed set is not larger, it is the stored one. -/
theorem out_eq_new_of_keep (S : Solver α) {st : SolverState α} (hs : S.Sound st) (bb : Nat)
    (h : ¬ (S.transfer bb (S.join st.out bb)).card > (st.out bb).card) :
    st.out bb = S.transfer bb (S.join st.out bb) :=
  Finset.eq_of_subset_of_card_le (S.out_le_new hs bb) (Nat.le_of_not_gt h)

theorem iter_sound (S : Solver α) {st : SolverState α} (hs : S.Sound st) (bb : Nat) :
    S.Sound (S.iter bb st) := by
  intro b
  have hmono : ∀ c, st.out c ⊆ (S.iter bb st).out c := fun c => S.iter_out_mono hs bb c
  constructor
  · rw [iter_inp, Function.update_apply]
    split_ifs with hb
    · subst hb; exact S.join_mono hmono b
    · exact (hs b).1.trans (S.join_mono hmono b)
  · by_cases h : (S.transfer bb (S.join st.out bb)).card > (st.out bb).card
    · rw [(S.iter_out_grow bb st h).1, iter_inp]
      by_cases hb : b = bb
      · subst hb; simp
      · simp only [Function.update_apply, if_neg hb]; exact (hs b).2
    · rw [(S.iter_out_keep bb st h).1, iter_inp]
      by_cases hb : b = bb
      · subst hb
        simp only [Function.update_same]
        exact S.out_le_new hs b
      · simp only [Function.update_apply, if_neg hb]; exact (hs b).2

theorem iter_settled (S : Solver α) {st : SolverState α} (hs : S.Sound st)
    (hst : S.Settled st) (bb : Nat) : S.Settled (S.iter bb st) := by
  intro b hb
  by_cases h : (S.transfer bb (S.join st.out bb)).card > (st.out bb).card
  · rw [(S.iter_out_grow bb st h).2, mem_foldl_insert] at hb
    rw [(S.iter_out_grow bb st h).1, iter_inp]
    by_cases hbb : b = bb
    · subst hbb; simp
    · have hw : b ∉ st.worklist := fun hm => hb (Or.inl (Finset.mem_erase.2 ⟨hbb, hm⟩))
      simp only [Function.update_apply, if_neg hbb]; exact hst b hw
  · rw [(S.iter_out_keep bb st h).2] at hb
    rw [(S.iter_out_keep bb st h).1, iter_inp]
    by_cases hbb : b = bb
    · subst hbb
      simp only [Function.update_same]
      exact S.out_eq_new_of_keep hs b h
    · have hw : b ∉ st.worklist := fun hm => hb (Finset.mem_erase.2 ⟨hbb, hm⟩)
      simp only [Function.update_apply, if_neg hbb]; exact hst b hw

theorem iter_met (S : Solver α) (hc : S.Consistent) {st : SolverState α}
    (hm : S.Met st) (bb : Nat) : S.Met (S.iter bb st) := by
  intro b hb
  by_cases h : (S.transfer bb (S.join st.out bb)).card > (st.out bb).card
  · rw [(S.iter_out_grow bb st h).2, mem_foldl_insert] at hb
    have hnw : b ∉ S.wake bb := fun hm => hb (Or.inr hm)
    have hnm : bb ∉ S.meet b := fun hm => hnw (hc b bb hm)
    have hj : S.join (S.iter bb st).out b = S.join st.out b := by
      apply S.join_congr
      intro s hs
      rw [(S.iter_out_grow bb st h).1, Function.update_apply, if_neg]
      rintro rfl; exact hnm hs
    rw [hj, iter_inp]
    by_cases hbb : b = bb
    · subst hbb; simp
    · have hw : b ∉ st.worklist := fun hm => hb (Or.inl (Finset.mem_erase.2 ⟨hbb, hm⟩))
      simp only [Function.update_apply, if_neg hbb]; exact hm b hw
  · rw [(S.iter_out_keep bb st h).2] at hb
    rw [(S.iter_out_keep bb st h).1, iter_inp]
    by_cases hbb : b = bb
    · subst hbb; simp
    · have hw : b ∉ st.worklist := fun hm => hb (Finset.mem_erase.2 ⟨hbb, hm⟩)
      simp only [Function.update_apply, if_neg hbb]; exact hm b hw

theorem iter_below (S : Solver α) {I O : Nat → Finset α} (hsol : S.Solution I O)
    {st : SolverState α} (hb : Below I O st) (bb : Nat) : Below I O (S.iter bb st) := by
  have hjoin : S.join st.out bb ⊆ I bb := by
    rw [(hsol bb).1]; exact S.join_mono (fun c => (hb c).2) bb
  intro b
  constructor
  · rw [iter_inp, Function.update_apply]
    split_ifs with h
    · subst h; exact hjoin
    · exact (hb b).1
  · by_cases h : (S.transfer bb (S.join st.out bb)).card > (st.out bb).card
    · rw [(S.iter_out_grow bb st h).1, Function.update_apply]
      split_ifs with h1
      · subst h1; rw [(hsol b).2]; exact S.transfer_mono b hjoin
      · exact (hb b).2
    · rw [(S.iter_out_keep bb st h).1]; exact (hb b).2

theorem iter_bounded (S : Solver α) {U : Finset α} (hU : ∀ b, S.gen b ⊆ U)
    {st : SolverState α} (hb : Bounded U st) (bb : Nat) : Bounded U (S.iter bb st) := by
  intro b
  by_cases h : (S.transfer bb (S.join st.out bb)).card > (st.out bb).card
  · rw [(S.iter_out_grow bb st h).1, Function.update_apply]
    split_ifs with h1
    · intro x hx
      rw [mem_transfer, mem_join] at hx
      rcases hx with ⟨⟨s, _, hxs⟩, _⟩ | hg
      · exact hb s hxs
      · exact hU bb hg
    · exact hb b
  · rw [(S.iter_out_keep bb st h).1]; exact hb b

theorem sum_card_le {β : Type} (n : Nat) {U : Finset β} {st : SolverState β}
    (hb : Bounded U st) :
    (Finset.range n).sum (fun b => (st.out b).card) ≤ n * U.card := by
  have h := Finset.sum_le_card_nsmul (Finset.range n) (fun b => (st.out b).card) U.card
    (fun b _ => Finset.card_le_card (hb b))
  simpa using h

/-- Every pass on a block of the worklist decreases the measure. -/
theorem iter_measure (S : Solver α) {n P : Nat} {U : Finset α} (hsz : S.Sized n P)
    (hU : ∀ b, S.gen b ⊆ U) {st : SolverState α} (hs : S.Sound st) (hb : Bounded U st)
    {bb : Nat} (hbb : bb ∈ st.worklist) :
    measure n P (n * U.card) (S.iter bb st) < measure n P (n * U.card) st := by
  have hpos : 0 < st.worklist.card := Finset.card_pos.2 ⟨bb, hbb⟩
  have herase : (st.worklist.erase bb).card = st.worklist.card - 1 :=
    Finset.card_erase_of_mem hbb
  unfold measure
  by_cases h : (S.transfer bb (S.join st.out bb)).card > (st.out bb).card
  · have hlt : bb < n := by
      by_contra hge
      have h0 := hsz.1 bb (Nat.le_of_not_lt hge)
      have : S.transfer bb (S.join st.out bb) = ∅ := by
        simp [transfer, join, h0.1, h0.2]
      rw [this] at h
      simp at h
    have hsum : (Finset.range n).sum (fun b => (st.out b).card) <
        (Finset.range n).sum (fun b => ((S.iter bb st).out b).card) := by
      apply Finset.sum_lt_sum
      · intro b _
        exact Finset.card_le_card (S.iter_out_mono hs bb b)
      · refine ⟨bb, Finset.mem_range.2 hlt, ?_⟩
        rw [(S.iter_out_grow bb st h).1, Function.update_same]
        exact h
    have hle := sum_card_le n (S.iter_bounded hU hb bb)
    have hw : (S.iter bb st).worklist.card ≤ st.worklist.card - 1 + P := by
      rw [(S.iter_out_grow bb st h).2]
      have h1 := card_foldl_insert_le (S.wake bb) (st.worklist.erase bb)
      have h2 := hsz.2 bb
      omega
    have hmul : (P + 1) * (n * U.card -
        (Finset.range n).sum (fun b => ((S.iter bb st).out b).card)) + (P + 1) ≤
        (P + 1) * (n * U.card - (Finset.range n).sum (fun b => (st.out b).card)) := by
      rw [← Nat.mul_succ]
      apply Nat.mul_le_mul_left
      omega
    omega
  · rw [(S.iter_out_keep bb st h).1, (S.iter_out_keep bb st h).2, herase]
    omega

/-- A property kept by every pass is kept by every run. -/
theorem run_preserves (S : Solver α) (Q : SolverState α → Prop)
    (hstep : ∀ bb st, Q st → Q (S.iter bb st)) {k : Nat} {st st1 : SolverState α}
    (hr : Run S k st st1) (h0 : Q st) : Q st1 := by
  induction hr with
  | done st => exact h0
  | step bb _ _ ih => exact ih (hstep bb _ h0)

theorem run_sound (S : Solver α) {k : Nat} {st st1 : SolverState α} (hr : Run S k st st1)
    (h0 : S.Sound st) : S.Sound st1 :=
  run_preserves S S.Sound (fun bb _ h => S.iter_sound h bb) hr h0

theorem run_bounded (S : Solver α) {U : Finset α} (hU : ∀ b, S.gen b ⊆ U) {k : Nat}
    {st st1 : SolverState α} (hr : Run S k st st1) (h0 : Bounded U st) : Bounded U st1 :=
  run_preserves S (Bounded U) (fun bb _ h => S.iter_bounded hU h bb) hr h0

theorem run_below (S : Solver α) {I O : Nat → Finset α} (hsol : S.Solution I O) {k : Nat}
    {st st1 : SolverState α} (hr : Run S k st st1) (h0 : Below I O st) : Below I O st1 :=
  run_preserves S (Below I O) (fun bb _ h => S.iter_below hsol h bb) hr h0

theorem run_settled (S : Solver α) {k : Nat} {st st1 : SolverState α} (hr : Run S k st st1)
    (h0 : S.Sound st ∧ S.Settled st) : S.Sound st1 ∧ S.Settled st1 :=
  run_preserves S (fun st => S.Sound st ∧ S.Settled st)
    (fun bb _ h => ⟨S.iter_sound h.1 bb, S.iter_settled h.1 h.2 bb⟩) hr h0

theorem run_met (S : Solver α) (hc : S.Consistent) {k : Nat} {st st1 : SolverState α}
    (hr : Run S k st st1) (h0 : S.Met st) : S.Met st1 :=
  run_preserves S S.Met (fun bb _ h => S.iter_met hc h bb) hr h0

/-- The number of passes of a run is paid for by the measure. -/
theorem run_length_le (S : Solver α) {n P : Nat} {U : Finset α} (hsz : S.Sized n P)
    (hU : ∀ b, S.gen b ⊆ U) {k : Nat} {st st1 : SolverState α} (hr : Run S k st st1)
    (hs : S.Sound st) (hb : Bounded U st) :
    k + measure n P (n * U.card) st1 ≤ measure n P (n * U.card) st := by
  induction hr with
  | done st => simp
  | step bb hbb _ ih =>
    have h1 := ih (S.iter_sound hs bb) (S.iter_bounded hU hb bb)
    have h2 := S.iter_measure hsz hU hs hb hbb
    omega

/-- The least-first loop is a run of at most `fuel` passes. -/
theorem loop_run (S : Solver α) (fuel : Nat) (st : SolverState α) :
    ∃ k, k ≤ fuel ∧ Run S k st (S.loop fuel st) := by
  induction fuel generalizing st with
  | zero => exact ⟨0, Nat.le_refl _, Run.done st⟩
  | succ fuel ih =>
    unfold loop
    split_ifs with h
    · obtain ⟨k, hk, hr⟩ := ih (S.iter (st.worklist.min' h) st)
      exact ⟨k + 1, Nat.succ_le_succ hk, Run.step _ (Finset.min'_mem _ h) hr⟩
    · exact ⟨0, Nat.zero_le _, Run.done st⟩

/-- With fuel for the measure, the loop stops on an empty worklist. -/
theorem loop_worklist (S : Solver α) {n P : Nat} {U : Finset α} (hsz : S.Sized n P)
    (hU : ∀ b, S.gen b ⊆ U) (fuel : Nat) (st : SolverState α) (hs : S.Sound st)
    (hb : Bounded U st) (hf : measure n P (n * U.card) st ≤ fuel) :
    (S.loop fuel st).worklist = ∅ := by
  induction fuel generalizing st with
  | zero =>
    unfold measure at hf
    have : st.worklist.card = 0 := by omega
    simpa [loop] using this
  | succ fuel ih =>
    unfold loop
    split_ifs with h
    · apply ih _ (S.iter_sound hs _) (S.iter_bounded hU hb _)
      have := S.iter_measure hsz hU hs hb (Finset.min'_mem _ h)
      omega
    · exact Finset.not_nonempty_iff_eq_empty.1 h

/-- A pass on a block whose two equations hold changes nothing but the
worklist, from which the block is removed. -/
theorem iter_fixed (S : Solver α) (bb : Nat) (st : SolverState α)
    (h1 : st.inp bb = S.join st.out bb) (h2 : st.out bb = S.transfer bb (st.inp bb)) :
    S.iter bb st = ⟨st.worklist.erase bb, st.inp, st.out⟩ := by
  have hk : ¬ (S.transfer bb (S.join st.out bb)).card > (st.out bb).card := by
    rw [← h1, ← h2]; exact Nat.lt_irrefl _
  unfold iter
  rw [if_neg hk, ← h1, Function.update_eq_self]

/-! ### The state before the first pass -/

theorem start_sound (S : Solver α) (W : Finset Nat) :
    S.Sound ⟨W, fun _ => ∅, fun _ => ∅⟩ :=
  fun _ => ⟨Finset.empty_subset _, Finset.empty_subset _⟩

theorem start_settled (S : Solver α) (W : Finset Nat) (h : ∀ b, b ∉ W → S.gen b = ∅) :
    S.Settled ⟨W, fun _ => ∅, fun _ => ∅⟩ := by
  intro b hb
  have hg := h b hb
  simp [transfer, hg]

theorem join_empty (S : Solver α) (b : Nat) : S.join (fun _ => (∅ : Finset α)) b = ∅ := by
  ext x; simp [mem_join]

theorem start_met (S : Solver α) (W : Finset Nat) : S.Met ⟨W, fun _ => ∅, fun _ => ∅⟩ := by
  intro b _
  exact (S.join_empty b).symm

theorem start_measure {β : Type} (n P N : Nat) :
    measure n P N (⟨Finset.range n, fun _ => ∅, fun _ => ∅⟩ : SolverState β) =
      n + (P + 1) * N := by
  simp [measure]

theorem length_le_sum (f : Nat → Nat) (n b : Nat) (h : b < n) :
    f b ≤ ((List.range n).map f).sum := by
  induction n with
  | zero => omega
  | succ n ih =>
    rw [List.range_succ, List.map_append, List.sum_append]
    simp only [List.map_cons, List.map_nil, List.sum_cons, List.sum_nil, Nat.add_zero]
    by_cases hb : b = n
    · subst hb; omega
    · have := ih (by omega); omega

/-- Termination and the equations at the end of the least-first loop started
on all blocks with empty maps. -/
theorem loop_from_start (S : Solver α) (n P : Nat) (hsz : S.Sized n P) (fuel : Nat)
    (hf : n + (P + 1) * (n * ((Finset.range n).biUnion S.gen).card) ≤ fuel) :
    (S.loop fuel ⟨Finset.range n, fun _ => ∅, fun _ => ∅⟩).worklist = ∅ := by
  have hU : ∀ b, S.gen b ⊆ (Finset.range n).biUnion S.gen := by
    intro b
    by_cases hb : b < n
    · exact Finset.subset_biUnion_of_mem S.gen (Finset.mem_range.2 hb)
    · rw [(hsz.1 b (Nat.le_of_not_lt hb)).2]; exact Finset.empty_subset _
  apply S.loop_worklist hsz hU fuel _ (S.start_sound _) (fun _ => Finset.empty_subset _)
  rw [start_measure]; exact hf

/-- Any run from the start state has at most `n + (P + 1) * (n * |U|)` passes. -/
theorem run_from_start_le (S : Solver α) (n P : Nat) (hsz : S.Sized n P) {k : Nat}
    {st : SolverState α} (hr : Run S k ⟨Finset.range n, fun _ => ∅, fun _ => ∅⟩ st) :
    k ≤ n + (P + 1) * (n * ((Finset.range n).biUnion S.gen).card) := by
  have hU : ∀ b, S.gen b ⊆ (Finset.range n).biUnion S.gen := by
    intro b
    by_cases hb : b < n
    · exact Finset.subset_biUnion_of_mem S.gen (Finset.mem_range.2 hb)
    · rw [(hsz.1 b (Nat.le_of_not_lt hb)).2]; exact Finset.empty_subset _
  have h := S.run_length_le hsz hU hr (S.start_sound _) (fun _ => Finset.empty_subset _)
  rw [start_measure] at h
  omega

/-- A finished run from the start state satisfies both equations everywhere. -/
theorem run_from_start_solution (S : Solver α) (n : Nat) (hc : S.Consistent)
    (hg : ∀ b, n ≤ b → S.gen b = ∅) {k : Nat} {st : SolverState α}
    (hr : Run S k ⟨Finset.range n, fun _ => ∅, fun _ => ∅⟩ st) (hw : st.worklist = ∅) :
    S.Solution st.inp st.out := by
  have h1 := S.run_settled hr ⟨S.start_sound _, S.start_settled _ (fun b hb =>
    hg b (Nat.le_of_not_lt (fun h => hb (Finset.mem_range.2 h))))⟩
  have h2 := S.run_met hc hr (S.start_met _)
  intro b
  have hb : b ∉ st.worklist := by rw [hw]; exact Finset.not_mem_empty b
  exact ⟨h2 b hb, h1.2 b hb⟩

/-- A finished run from the start state satisfies the transfer equation
everywhere, whatever the edges. -/
theorem run_from_start_settled (S : Solver α) (n : Nat)
    (hg : ∀ b, n ≤ b → S.gen b = ∅) {k : Nat} {st : SolverState α}
    (hr : Run S k ⟨Finset.range n, fun _ => ∅, fun _ => ∅⟩ st) (hw : st.worklist = ∅)
    (b : Nat) : st.out b = S.transfer b (st.inp b) := by
  have h1 := S.run_settled hr ⟨S.start_sound _, S.start_settled _ (fun b hb =>
    hg b (Nat.le_of_not_lt (fun h => hb (Finset.mem_range.2 h))))⟩
  have hb : b ∉ st.worklist := by rw [hw]; exact Finset.not_mem_empty b
  exact h1.2 b hb

/-- Two finished runs from the start state end with the same maps. -/
theorem run_from_start_unique (S : Solver α) (n : Nat) (hc : S.Consistent)
    (hg : ∀ b, n ≤ b → S.gen b = ∅) {k1 k2 : Nat} {st1 st2 : SolverState α}
    (hr1 : Run S k1 ⟨Finset.range n, fun _ => ∅, fun _ => ∅⟩ st1) (hw1 : st1.worklist = ∅)
    (hr2 : Run S k2 ⟨Finset.range n, fun _ => ∅, fun _ => ∅⟩ st2) (hw2 : st2.worklist = ∅) :
    st1.inp = st2.inp ∧ st1.out = st2.out := by
  have s1 := S.run_from_start_solution n hc hg hr1 hw1
  have s2 := S.run_from_start_solution n hc hg hr2 hw2
  have b12 := S.run_below s2 hr1 (fun _ => ⟨Finset.empty_subset _, Finset.empty_subset _⟩)
  have b21 := S.run_below s1 hr2 (fun _ => ⟨Finset.empty_subset _, Finset.empty_subset _⟩)
  constructor
  · funext b; exact Finset.Subset.antisymm (b12 b).1 (b21 b).1
  · funext b; exact Finset.Subset.antisymm (b12 b).2 (b21 b).2

/-- On maps that solve the equations the least-first loop only empties the
worklist. -/
theorem loop_fixed (S : Solver α) {I O : Nat → Finset α} (hsol : S.Solution I O)
    (fuel : Nat) (W : Finset Nat) (hf : W.card ≤ fuel) :
    S.loop fuel ⟨W, I, O⟩ = ⟨∅, I, O⟩ := by
  induction fuel generalizing W with
  | zero =>
    have : W = ∅ := Finset.card_eq_zero.1 (Nat.le_zero.1 hf)
    subst this; rfl
  | succ fuel ih =>
    unfold loop
    by_cases h : W.Nonempty
    · have h1 : (⟨W, I, O⟩ : SolverState α).worklist.Nonempty := h
      rw [dif_pos h1, S.iter_fixed _ _ (hsol _).1 (hsol _).2]
      apply ih
      have hm : W.min' h ∈ W := Finset.min'_mem _ h
      have := Finset.card_erase_of_mem hm
      have hpos : 0 < W.card := Finset.card_pos.2 h
      show (W.erase (W.min' h)).card ≤ fuel
      omega
    · have h1 : ¬ (⟨W, I, O⟩ : SolverState α).worklist.Nonempty := h
      rw [dif_neg h1, Finset.not_nonempty_iff_eq_empty.1 h]

end Solver

/-! ## The liveness loop is an instance of the shared shape -/

theorem block_of_le (Fn : MachineFunction) {b : Nat} (h : Fn.length ≤ b) :
    Fn.block b = ⟨[], [], []⟩ := by
  unfold MachineFunction.block
  exact List.getD_eq_default _ _ h

theorem liveVarsIter_abstract (Fn : MachineFunction) (bb : Nat) (st : LiveState) :
    (liveVarsIter Fn bb st).abstract = (st.solver Fn).iter bb st.abstract := by
  unfold liveVarsIter Solver.iter
  simp only [LiveState.abstract, LiveState.solver, computeLiveAfter, computeLiveBefore,
    regSetUnion, regSetSubtract, Solver.join, Solver.transfer, Function.update_same]
  split_ifs <;> rfl

theorem liveVarsIter_solver (Fn : MachineFunction) (bb : Nat) (st : LiveState) :
    (liveVarsIter Fn bb st).solver Fn = st.solver Fn := by
  unfold liveVarsIter
  simp only [LiveState.solver]
  split_ifs <;> rfl

theorem liveRun_abstract (Fn : MachineFunction) {k : Nat} {st st1 : LiveState}
    (hr : LiveRun Fn k st st1) :
    Solver.Run (st.solver Fn) k st.abstract st1.abstract ∧ st1.solver Fn = st.solver Fn := by
  induction hr with
  | done st => exact ⟨Solver.Run.done _, rfl⟩
  | step bb hbb _ ih =>
    rw [liveVarsIter_abstract, liveVarsIter_solver] at ih
    exact ⟨Solver.Run.step bb hbb ih.1, ih.2⟩

theorem liveVarsLoop_abstract (Fn : MachineFunction) (fuel : Nat) (st : LiveState) :
    (liveVarsLoop Fn fuel st).abstract = (st.solver Fn).loop fuel st.abstract ∧
    (liveVarsLoop Fn fuel st).solver Fn = st.solver Fn := by
  induction fuel generalizing st with
  | zero => exact ⟨rfl, rfl⟩
  | succ fuel ih =>
    unfold liveVarsLoop Solver.loop
    by_cases h : st.worklist.Nonempty
    · have h1 : st.abstract.worklist.Nonempty := h
      rw [dif_pos h, dif_pos h1]
      have := ih (liveVarsIter Fn (st.worklist.min' h) st)
      rw [liveVarsIter_abstract, liveVarsIter_solver] at this
      exact this
    · have h1 : ¬ st.abstract.worklist.Nonempty := h
      rw [dif_neg h, dif_neg h1]
      exact ⟨rfl, rfl⟩

theorem liveVarsLoop_run (Fn : MachineFunction) (fuel : Nat) (st : LiveState) :
    ∃ k, k ≤ fuel ∧ LiveRun Fn k st (liveVarsLoop Fn fuel st) := by
  induction fuel generalizing st with
  | zero => exact ⟨0, Nat.le_refl _, LiveRun.done st⟩
  | succ fuel ih =>
    unfold liveVarsLoop
    split_ifs with h
    · obtain ⟨k, hk, hr⟩ := ih (liveVarsIter Fn (st.worklist.min' h) st)
      exact ⟨k + 1, Nat.succ_le_succ hk, LiveRun.step _ (Finset.min'_mem _ h) hr⟩
    · exact ⟨0, Nat.zero_le _, LiveRun.done st⟩

theorem getUpwardsExposedUses_nil (TRI : TargetRegisterInfo) :
    getUpwardsExposedUses TRI ⟨[], [], []⟩ = ∅ := rfl

theorem getAllDefs_nil : getAllDefs ⟨[], [], []⟩ = ∅ := rfl

theorem liveVarsInit_eq (TRI : TargetRegisterInfo) (Fn : MachineFunction) :
    liveVarsInit TRI Fn =
      ⟨Finset.range Fn.length, fun _ => ∅, fun _ => ∅,
       fun b => getUpwardsExposedUses TRI (Fn.block b), fun b => getAllDefs (Fn.block b)⟩ := by
  have key : ∀ m : Nat, (List.range m).foldl (fun (st : LiveState) b =>
      ({ worklist := insert b st.worklist
         liveBeforeMap := Function.update st.liveBeforeMap b ∅
         liveAfterMap := Function.update st.liveAfterMap b ∅
         liveVarsGenMap := Function.update st.liveVarsGenMap b
           (getUpwardsExposedUses TRI (Fn.block b))
         liveVarsKillMap := Function.update st.liveVarsKillMap b (getAllDefs (Fn.block b)) } :
        LiveState))
      ⟨∅, fun _ => ∅, fun _ => ∅, fun _ => ∅, fun _ => ∅⟩ =
      ⟨Finset.range m, fun _ => ∅, fun _ => ∅,
       fun b => if b < m then getUpwardsExposedUses TRI (Fn.block b) else ∅,
       fun b => if b < m then getAllDefs (Fn.block b) else ∅⟩ := by
    intro m
    induction m with
    | zero => simp
    | succ m ih =>
      rw [List.range_succ, List.foldl_append, ih]
      simp only [List.foldl_cons, List.foldl_nil, LiveState.mk.injEq]
      refine ⟨(Finset.range_succ).symm, ?_, ?_, ?_, ?_⟩
      · funext b; simp [Function.update_apply]
      · funext b; simp [Function.update_apply]
      · funext b
        simp only [Function.update_apply]
        split_ifs <;> first | rfl | omega | (subst_vars; rfl)
      · funext b
        simp only [Function.update_apply]
        split_ifs <;> first | rfl | omega | (subst_vars; rfl)
  unfold liveVarsInit
  rw [key]
  simp only [LiveState.mk.injEq, true_and]
  constructor
  · funext b
    split_ifs with h
    · rfl
    · rw [block_of_le Fn (Nat.le_of_not_lt h)]; rfl
  · funext b
    split_ifs with h
    · rfl
    · rw [block_of_le Fn (Nat.le_of_not_lt h)]; rfl

theorem live_sized (Fn : MachineFunction) (st : LiveState)
    (hg : ∀ b, Fn.length ≤ b → st.liveVarsGenMap b = ∅) :
    (st.solver Fn).Sized Fn.length
      (((List.range Fn.length).map (fun b => (Fn.block b).preds.length)).sum) := by
  refine ⟨fun b hb => ⟨?_, hg b hb⟩, fun b => ?_⟩
  · show (Fn.block b).succs = []
    rw [block_of_le Fn hb]
  · show (Fn.block b).preds.length ≤ _
    by_cases hb : b < Fn.length
    · exact Solver.length_le_sum (fun b => (Fn.block b).preds.length) _ b hb
    · rw [block_of_le Fn (Nat.le_of_not_lt hb)]; exact Nat.zero_le _

theorem live_consistent (Fn : MachineFunction) (hc : CFGConsistent Fn) (st : LiveState) :
    (st.solver Fn).Consistent := by
  intro b s hs
  by_cases hb : b < Fn.length
  · exact hc.1 b hb s hs
  · have : (Fn.block b).succs = [] := by rw [block_of_le Fn (Nat.le_of_not_lt hb)]
    rw [show (st.solver Fn).meet b = (Fn.block b).succs from rfl, this] at hs
    exact absurd hs (List.not_mem_nil _)

theorem liveVarsInit_gen (TRI : TargetRegisterInfo) (Fn : MachineFunction) (b : Nat)
    (hb : Fn.length ≤ b) : (liveVarsInit TRI Fn).liveVarsGenMap b = ∅ := by
  rw [liveVarsInit_eq]
  show getUpwardsExposedUses TRI (Fn.block b) = ∅
  rw [block_of_le Fn hb]; rfl

theorem liveVarsInit_abstract (TRI : TargetRegisterInfo) (Fn : MachineFunction) :
    (liveVarsInit TRI Fn).abstract = ⟨Finset.range Fn.length, fun _ => ∅, fun _ => ∅⟩ := by
  rw [liveVarsInit_eq]; rfl

theorem liveVarsFuel_eq (TRI : TargetRegisterInfo) (Fn : MachineFunction) :
    liveVarsFuel TRI Fn = Fn.length +
      (((List.range Fn.length).map (fun b => (Fn.block b).preds.length)).sum + 1) *
      (Fn.length * ((Finset.range Fn.length).biUnion
        ((liveVarsInit TRI Fn).solver Fn).gen).card) := by
  rw [liveVarsInit_eq]; rfl

/-- The solver equations read on a liveness state. -/
theorem live_equations_of_solution (TRI : TargetRegisterInfo) (Fn : MachineFunction)
    (st : LiveState) (hs : st.solver Fn = (liveVarsInit TRI Fn).solver Fn)
    (hsol : (st.solver Fn).Solution st.liveAfterMap st.liveBeforeMap) :
    LiveEquations TRI Fn st := by
  have hgen : st.liveVarsGenMap = fun b => getUpwardsExposedUses TRI (Fn.block b) := by
    have := congrArg Solver.gen hs
    rw [liveVarsInit_eq] at this
    exact this
  have hkill : st.liveVarsKillMap = fun b => getAllDefs (Fn.block b) := by
    have := congrArg Solver.kill hs
    rw [liveVarsInit_eq] at this
    exact this
  intro b _
  constructor
  · rw [(hsol b).1]
    ext x
    simp [Solver.mem_join, LiveState.solver]
  · conv_lhs => rw [(hsol b).2]
    ext x
    simp [Solver.mem_transfer, LiveState.solver, hgen, hkill]

theorem liveRun_solution (TRI : TargetRegisterInfo) (Fn : MachineFunction)
    (hc : CFGConsistent Fn) {k : Nat} {st : LiveState}
    (hr : LiveRun Fn k (liveVarsInit TRI Fn) st) (hw : st.worklist = ∅) :
    (st.solver Fn).Solution st.liveAfterMap st.liveBeforeMap := by
  obtain ⟨hrun, hsolver⟩ := liveRun_abstract Fn hr
  rw [liveVarsInit_abstract] at hrun
  rw [hsolver]
  exact Solver.run_from_start_solution _ Fn.length (live_consistent Fn hc _)
    (liveVarsInit_gen TRI Fn) hrun hw

theorem liveRun_equations (TRI : TargetRegisterInfo) (Fn : MachineFunction)
    (hc : CFGConsistent Fn) {k : Nat} {st : LiveState}
    (hr : LiveRun Fn k (liveVarsInit TRI Fn) st) (hw : st.worklist = ∅) :
    LiveEquations TRI Fn st :=
  live_equations_of_solution TRI Fn st (liveRun_abstract Fn hr).2
    (liveRun_solution TRI Fn hc hr hw)

theorem analyzeLive_worklist (TRI : TargetRegisterInfo) (Fn : MachineFunction) :
    (analyzeBasicBlocksLiveVars TRI Fn).worklist = ∅ := by
  unfold analyzeBasicBlocksLiveVars
  have h := (liveVarsLoop_abstract Fn (liveVarsFuel TRI Fn) (liveVarsInit TRI Fn)).1
  have hw : (liveVarsLoop Fn (liveVarsFuel TRI Fn) (liveVarsInit TRI Fn)).worklist =
      (liveVarsLoop Fn (liveVarsFuel TRI Fn) (liveVarsInit TRI Fn)).abstract.worklist := rfl
  rw [hw, h, liveVarsInit_abstract]
  apply Solver.loop_from_start _ Fn.length _
    (live_sized Fn _ (liveVarsInit_gen TRI Fn))
  rw [liveVarsFuel_eq]

theorem analyzeLive_run (TRI : TargetRegisterInfo) (Fn : MachineFunction) :
    ∃ k, k ≤ liveVarsFuel TRI Fn ∧
      LiveRun Fn k (liveVarsInit TRI Fn) (analyzeBasicBlocksLiveVars TRI Fn) :=
  liveVarsLoop_run Fn _ _

theorem liveRun_length (TRI : TargetRegisterInfo) (Fn : MachineFunction) {k : Nat}
    {st : LiveState} (hr : LiveRun Fn k (liveVarsInit TRI Fn) st) :
    k ≤ liveVarsFuel TRI Fn := by
  obtain ⟨hrun, _⟩ := liveRun_abstract Fn hr
  rw [liveVarsInit_abstract] at hrun
  rw [liveVarsFuel_eq]
  exact Solver.run_from_start_le _ Fn.length _
    (live_sized Fn _ (liveVarsInit_gen TRI Fn)) hrun

/-! ## The reaching-definitions loop is an instance of the shared shape -/

theorem rdefsIter_abstract (Fn : MachineFunction) (bb : Nat) (st : RDState) :
    (rdefsIter Fn bb st).abstract = (st.solver Fn).iter bb st.abstract := by
  unfold rdefsIter Solver.iter
  simp only [RDState.abstract, RDState.solver, computeRDbefore, computeRDafter,
    RDsetUnion, RDsetSubtract, Solver.join, Solver.transfer, Function.update_same]
  split_ifs <;> rfl

theorem rdefsIter_solver (Fn : MachineFunction) (bb : Nat) (st : RDState) :
    (rdefsIter Fn bb st).solver Fn = st.solver Fn ∧
    (rdefsIter Fn bb st).heapNext = st.heapNext := by
  unfold rdefsIter
  simp only [RDState.solver]
  split_ifs <;> exact ⟨rfl, rfl⟩

theorem rdRun_abstract (Fn : MachineFunction) {k : Nat} {st st1 : RDState}
    (hr : RDRun Fn k st st1) :
    Solver.Run (st.solver Fn) k st.abstract st1.abstract ∧ st1.solver Fn = st.solver Fn ∧
    st1.heapNext = st.heapNext := by
  induction hr with
  | done st => exact ⟨Solver.Run.done _, rfl, rfl⟩
  | step bb hbb _ ih =>
    rw [rdefsIter_abstract, (rdefsIter_solver Fn bb _).1, (rdefsIter_solver Fn bb _).2] at ih
    exact ⟨Solver.Run.step bb hbb ih.1, ih.2⟩

theorem rdefsLoop_abstract (Fn : MachineFunction) (fuel : Nat) (st : RDState) :
    (rdefsLoop Fn fuel st).abstract = (st.solver Fn).loop fuel st.abstract ∧
    (rdefsLoop Fn fuel st).solver Fn = st.solver Fn := by
  induction fuel generalizing st with
  | zero => exact ⟨rfl, rfl⟩
  | succ fuel ih =>
    unfold rdefsLoop Solver.loop
    by_cases h : st.worklist.Nonempty
    · have h1 : st.abstract.worklist.Nonempty := h
      rw [dif_pos h, dif_pos h1]
      have := ih (rdefsIter Fn (st.worklist.min' h) st)
      rw [rdefsIter_abstract, (rdefsIter_solver Fn _ _).1] at this
      exact this
    · have h1 : ¬ st.abstract.worklist.Nonempty := h
      rw [dif_neg h, dif_neg h1]
      exact ⟨rfl, rfl⟩

theorem rdefsLoop_run (Fn : MachineFunction) (fuel : Nat) (st : RDState) :
    ∃ k, k ≤ fuel ∧ RDRun Fn k st (rdefsLoop Fn fuel st) := by
  induction fuel generalizing st with
  | zero => exact ⟨0, Nat.le_refl _, RDRun.done st⟩
  | succ fuel ih =>
    unfold rdefsLoop
    split_ifs with h
    · obtain ⟨k, hk, hr⟩ := ih (rdefsIter Fn (st.worklist.min' h) st)
      exact ⟨k + 1, Nat.succ_le_succ hk, RDRun.step _ (Finset.min'_mem _ h) hr⟩
    · exact ⟨0, Nat.zero_le _, RDRun.done st⟩

/-! ### Allocation of facts -/

theorem mem_setToList (S : Finset Nat) (d : Nat) : d ∈ setToList S ↔ d ∈ S := by
  unfold setToList
  simp only [List.mem_filter, List.mem_range, decide_eq_true_eq]
  constructor
  · exact fun h => h.2
  · intro h
    exact ⟨Nat.lt_succ_of_le (Finset.le_sup (f := id) h), h⟩

theorem setToList_toFinset (S : Finset Nat) : (setToList S).toFinset = S := by
  ext d; simp [mem_setToList]

theorem mem_components (S : Finset RDfact) (p : Nat × InstrPtr) :
    p ∈ components S ↔ ∃ f ∈ S, (f.myReg, f.myInstr) = p := by
  simp [components, RDfact.components, RDfact.getReg, RDfact.getInstr]

theorem components_union (S T : Finset RDfact) :
    components (S ∪ T) = components S ∪ components T := by
  unfold components; exact Finset.image_union _ _

theorem components_insert (f : RDfact) (S : Finset RDfact) :
    components (insert f S) = insert (f.myReg, f.myInstr) (components S) := by
  unfold components; rw [Finset.image_insert]; rfl

/-- The allocation loop over the registers defined by one instruction: the
counter moves forward, the new facts carry the addresses in between, and the
pairs added are those of the listed registers at this instruction. -/
theorem allocFold_spec (inst : InstrPtr) (l : List Nat) (S : Finset RDfact) (h : Nat) :
    h ≤ (l.foldl (fun (acc : Finset RDfact × Nat) oneDef =>
          (insert ⟨acc.2, oneDef, inst⟩ acc.1, acc.2 + 1)) (S, h)).2 ∧
    (∀ f ∈ (l.foldl (fun (acc : Finset RDfact × Nat) oneDef =>
          (insert ⟨acc.2, oneDef, inst⟩ acc.1, acc.2 + 1)) (S, h)).1,
        f ∈ S ∨ (h ≤ f.addr ∧ f.addr < (l.foldl (fun (acc : Finset RDfact × Nat) oneDef =>
          (insert ⟨acc.2, oneDef, inst⟩ acc.1, acc.2 + 1)) (S, h)).2)) ∧
    components (l.foldl (fun (acc : Finset RDfact × Nat) oneDef =>
          (insert ⟨acc.2, oneDef, inst⟩ acc.1, acc.2 + 1)) (S, h)).1 =
      components S ∪ l.toFinset.image (fun d => (d, inst)) := by
  induction l generalizing S h with
  | nil =>
    simp only [List.foldl_nil, List.toFinset_nil, Finset.image_empty, Finset.union_empty,
      Nat.le_refl, true_and, and_true]
    exact fun f hf => Or.inl hf
  | cons d l ih =>
    simp only [List.foldl_cons]
    obtain ⟨h1, h2, h3⟩ := ih (insert ⟨h, d, inst⟩ S) (h + 1)
    refine ⟨by omega, ?_, ?_⟩
    · intro f hf
      rcases h2 f hf with hm | ⟨ha, hb⟩
      · rcases Finset.mem_insert.1 hm with rfl | hS
        · exact Or.inr ⟨Nat.le_refl _, by simpa using h1⟩
        · exact Or.inl hS
      · exact Or.inr ⟨by omega, hb⟩
    · rw [h3, components_insert]
      ext p
      simp only [Finset.mem_union, Finset.mem_insert, Finset.mem_image, List.mem_toFinset,
        List.mem_cons]
      constructor
      · rintro ((rfl | hp) | ⟨a, ha, rfl⟩)
        · exact Or.inr ⟨d, Or.inl rfl, rfl⟩
        · exact Or.inl hp
        · exact Or.inr ⟨a, Or.inr ha, rfl⟩
      · rintro (hp | ⟨a, rfl | ha, rfl⟩)
        · exact Or.inl (Or.inr hp)
        · exact Or.inl (Or.inl rfl)
        · exact Or.inr ⟨a, ha, rfl⟩

/-- The instruction loop of `getRDgen` from an arbitrary accumulator. -/
theorem genFold_spec (TRI : TargetRegisterInfo) (Fn : MachineFunction) (L : List InstrPtr)
    (S : Finset RDfact) (h : Nat) :
    h ≤ (L.foldl (fun (acc : Finset RDfact × Nat) instruct =>
          (setToList (getOneInstrRegDefs TRI (Fn.instr instruct))).foldl (fun acc oneDef =>
            (insert ⟨acc.2, oneDef, instruct⟩ acc.1, acc.2 + 1)) acc) (S, h)).2 ∧
    (∀ f ∈ (L.foldl (fun (acc : Finset RDfact × Nat) instruct =>
          (setToList (getOneInstrRegDefs TRI (Fn.instr instruct))).foldl (fun acc oneDef =>
            (insert ⟨acc.2, oneDef, instruct⟩ acc.1, acc.2 + 1)) acc) (S, h)).1,
        f ∈ S ∨ (h ≤ f.addr ∧ f.addr < (L.foldl (fun (acc : Finset RDfact × Nat) instruct =>
          (setToList (getOneInstrRegDefs TRI (Fn.instr instruct))).foldl (fun acc oneDef =>
            (insert ⟨acc.2, oneDef, instruct⟩ acc.1, acc.2 + 1)) acc) (S, h)).2)) ∧
    components (L.foldl (fun (acc : Finset RDfact × Nat) instruct =>
          (setToList (getOneInstrRegDefs TRI (Fn.instr instruct))).foldl (fun acc oneDef =>
            (insert ⟨acc.2, oneDef, instruct⟩ acc.1, acc.2 + 1)) acc) (S, h)).1 =
      components S ∪ L.toFinset.biUnion (fun i =>
        (getOneInstrRegDefs TRI (Fn.instr i)).image (fun d => (d, i))) := by
  induction L generalizing S h with
  | nil =>
    simp only [List.foldl_nil, List.toFinset_nil, Finset.biUnion_empty, Finset.union_empty,
      Nat.le_refl, true_and, and_true]
    exact fun f hf => Or.inl hf
  | cons i L ih =>
    simp only [List.foldl_cons]
    obtain ⟨a1, a2, a3⟩ :=
      allocFold_spec i (setToList (getOneInstrRegDefs TRI (Fn.instr i))) S h
    generalize (setToList (getOneInstrRegDefs TRI (Fn.instr i))).foldl
      (fun (acc : Finset RDfact × Nat) oneDef =>
        (insert ⟨acc.2, oneDef, i⟩ acc.1, acc.2 + 1)) (S, h) = r at a1 a2 a3 ⊢
    obtain ⟨S1, h1⟩ := r
    obtain ⟨b1, b2, b3⟩ := ih S1 h1
    simp only at a1 a2 a3
    refine ⟨by omega, ?_, ?_⟩
    · intro f hf
      rcases b2 f hf with hm | ⟨ha, hb⟩
      · rcases a2 f hm with hS | ⟨hc, hd⟩
        · exact Or.inl hS
        · exact Or.inr ⟨hc, by omega⟩
      · exact Or.inr ⟨by omega, hb⟩
    · rw [b3, a3, setToList_toFinset, List.toFinset_cons, Finset.biUnion_insert,
        Finset.union_assoc]

theorem getRDgen_spec (TRI : TargetRegisterInfo) (Fn : MachineFunction) (bb h : Nat) :
    h ≤ (getRDgen TRI Fn bb h).2 ∧
    (∀ f ∈ (getRDgen TRI Fn bb h).1, h ≤ f.addr ∧ f.addr < (getRDgen TRI Fn bb h).2) ∧
    components (getRDgen TRI Fn bb h).1 = blockDefPairs TRI Fn bb := by
  obtain ⟨h1, h2, h3⟩ := genFold_spec TRI Fn (instrPtrs Fn bb) ∅ h
  refine ⟨h1, ?_, ?_⟩
  · intro f hf
    rcases h2 f hf with hm | hh
    · exact absurd hm (Finset.not_mem_empty f)
    · exact hh
  · unfold getRDgen blockDefPairs
    rw [h3]
    simp [components]

theorem getRDkill_subset (TRI : TargetRegisterInfo) (Fn : MachineFunction)
    (R : Finset RDfact) (bb : Nat) : getRDkill TRI Fn R bb ⊆ R := by
  unfold getRDkill
  have inner : ∀ (l : List Nat) (acc : Finset RDfact), acc ⊆ R →
      l.foldl (fun result oneDef =>
        result ∪ R.filter (fun oneRDfact => oneRDfact.getReg = oneDef)) acc ⊆ R := by
    intro l
    induction l with
    | nil => intro acc h; exact h
    | cons d l ih =>
      intro acc h
      exact ih _ (Finset.union_subset h (Finset.filter_subset _ _))
  have outer : ∀ (L : List InstrPtr) (acc : Finset RDfact), acc ⊆ R →
      L.foldl (fun result instruct =>
        (setToList (getOneInstrRegDefs TRI (Fn.instr instruct))).foldl (fun result oneDef =>
          result ∪ R.filter (fun oneRDfact => oneRDfact.getReg = oneDef)) result) acc ⊆ R := by
    intro L
    induction L with
    | nil => intro acc h; exact h
    | cons i L ih =>
      intro acc h
      exact ih _ (inner _ acc h)
  exact outer _ ∅ (Finset.empty_subset _)

/-- The state of the initialisation loop of `analyzeBasicBlocksRDefs` after the
first `m` blocks. -/
theorem rdefsInit_upto (TRI : TargetRegisterInfo) (Fn : MachineFunction)
    (R : Finset RDfact) (h0 m : Nat) :
    ((List.range m).foldl (rdefsInitBlock TRI Fn R)
        ⟨∅, fun _ => ∅, fun _ => ∅, fun _ => ∅, fun _ => ∅, h0⟩).worklist = Finset.range m ∧
    ((List.range m).foldl (rdefsInitBlock TRI Fn R)
        ⟨∅, fun _ => ∅, fun _ => ∅, fun _ => ∅, fun _ => ∅, h0⟩).RDbeforeMap = (fun _ => ∅) ∧
    ((List.range m).foldl (rdefsInitBlock TRI Fn R)
        ⟨∅, fun _ => ∅, fun _ => ∅, fun _ => ∅, fun _ => ∅, h0⟩).RDafterMap = (fun _ => ∅) ∧
    (∀ b, m ≤ b → ((List.range m).foldl (rdefsInitBlock TRI Fn R)
        ⟨∅, fun _ => ∅, fun _ => ∅, fun _ => ∅, fun _ => ∅, h0⟩).RDgenMap b = ∅) ∧
    h0 ≤ ((List.range m).foldl (rdefsInitBlock TRI Fn R)
        ⟨∅, fun _ => ∅, fun _ => ∅, fun _ => ∅, fun _ => ∅, h0⟩).heapNext ∧
    (∀ b, ∀ f ∈ ((List.range m).foldl (rdefsInitBlock TRI Fn R)
        ⟨∅, fun _ => ∅, fun _ => ∅, fun _ => ∅, fun _ => ∅, h0⟩).RDgenMap b,
      h0 ≤ f.addr ∧ f.addr < ((List.range m).foldl (rdefsInitBlock TRI Fn R)
        ⟨∅, fun _ => ∅, fun _ => ∅, fun _ => ∅, fun _ => ∅, h0⟩).heapNext) ∧
    (∀ b, ((List.range m).foldl (rdefsInitBlock TRI Fn R)
        ⟨∅, fun _ => ∅, fun _ => ∅, fun _ => ∅, fun _ => ∅, h0⟩).RDkillMap b ⊆ R) ∧
    (∀ b, b < m → components (((List.range m).foldl (rdefsInitBlock TRI Fn R)
        ⟨∅, fun _ => ∅, fun _ => ∅, fun _ => ∅, fun _ => ∅, h0⟩).RDgenMap b) =
      blockDefPairs TRI Fn b) := by
  induction m with
  | zero =>
    refine ⟨rfl, rfl, rfl, fun _ _ => rfl, Nat.le_refl _,
      fun _ f hf => absurd hf (Finset.not_mem_empty f),
      fun _ => Finset.empty_subset _, fun b hb => absurd hb (Nat.not_lt_zero b)⟩
  | succ m ih =>
    rw [List.range_succ, List.foldl_append]
    generalize (List.range m).foldl (rdefsInitBlock TRI Fn R)
      ⟨∅, fun _ => ∅, fun _ => ∅, fun _ => ∅, fun _ => ∅, h0⟩ = st at ih
    obtain ⟨i1, i2, i3, i4, i5, i6, i7, i8⟩ := ih
    obtain ⟨g1, g2, g3⟩ := getRDgen_spec TRI Fn m st.heapNext
    simp only [List.foldl_cons, List.foldl_nil, rdefsInitBlock]
    refine ⟨?_, ?_, ?_, ?_, ?_, ?_, ?_, ?_⟩
    · rw [i1, Finset.range_succ]
    · rw [i2]; funext b; simp [Function.update_apply]
    · rw [i3]; funext b; simp [Function.update_apply]
    · intro b hb
      rw [Function.update_apply, if_neg (by omega)]
      exact i4 b (by omega)
    · omega
    · intro b f hf
      rw [Function.update_apply] at hf
      split_ifs at hf with hbm
      · have := g2 f hf
        exact ⟨by omega, this.2⟩
      · have := i6 b f hf
        exact ⟨this.1, by omega⟩
    · intro b
      rw [Function.update_apply]
      split_ifs
      · exact getRDkill_subset TRI Fn R m
      · exact i7 b
    · intro b hb
      rw [Function.update_apply]
      split_ifs with hbm
      · rw [hbm]; exact g3
      · exact i8 b (by omega)

theorem rdefsInit_abstract (TRI : TargetRegisterInfo) (Fn : MachineFunction)
    (R : Finset RDfact) (h0 : Nat) :
    (rdefsInit TRI Fn R h0).abstract = ⟨Finset.range Fn.length, fun _ => ∅, fun _ => ∅⟩ := by
  obtain ⟨i1, i2, i3, _⟩ := rdefsInit_upto TRI Fn R h0 Fn.length
  unfold RDState.abstract rdefsInit
  rw [i1, i2, i3]

theorem rdefsInit_gen (TRI : TargetRegisterInfo) (Fn : MachineFunction)
    (R : Finset RDfact) (h0 : Nat) (b : Nat) (hb : Fn.length ≤ b) :
    (rdefsInit TRI Fn R h0).RDgenMap b = ∅ :=
  (rdefsInit_upto TRI Fn R h0 Fn.length).2.2.2.1 b hb

theorem rd_sized (Fn : MachineFunction) (st : RDState)
    (hg : ∀ b, Fn.length ≤ b → st.RDgenMap b = ∅) :
    (st.solver Fn).Sized Fn.length
      (((List.range Fn.length).map (fun b => (Fn.block b).succs.length)).sum) := by
  refine ⟨fun b hb => ⟨?_, hg b hb⟩, fun b => ?_⟩
  · show (Fn.block b).preds = []
    rw [block_of_le Fn hb]
  · show (Fn.block b).succs.length ≤ _
    by_cases hb : b < Fn.length
    · exact Solver.length_le_sum (fun b => (Fn.block b).succs.length) _ b hb
    · rw [block_of_le Fn (Nat.le_of_not_lt hb)]; exact Nat.zero_le _

theorem rd_consistent (Fn : MachineFunction) (hc : CFGConsistent Fn) (st : RDState) :
    (st.solver Fn).Consistent := by
  intro b s hs
  by_cases hb : b < Fn.length
  · exact hc.2 b hb s hs
  · have : (Fn.block b).preds = [] := by rw [block_of_le Fn (Nat.le_of_not_lt hb)]
    rw [show (st.solver Fn).meet b = (Fn.block b).preds from rfl, this] at hs
    exact absurd hs (List.not_mem_nil _)

/-- The solver equations read on a reaching-definitions state. -/
theorem rd_equations_of_solution (Fn : MachineFunction) (st : RDState)
    (hsol : (st.solver Fn).Solution st.RDbeforeMap st.RDafterMap) :
    RDPointerEquations Fn st := by
  intro b _
  constructor
  · rw [(hsol b).1]
    ext x
    simp [Solver.mem_join, RDState.solver]
  · conv_lhs => rw [(hsol b).2]
    ext x
    simp [Solver.mem_transfer, RDState.solver]

theorem rdRun_solution (TRI : TargetRegisterInfo) (Fn : MachineFunction)
    (R : Finset RDfact) (h0 : Nat) (hc : CFGConsistent Fn) {k : Nat} {st : RDState}
    (hr : RDRun Fn k (rdefsInit TRI Fn R h0) st) (hw : st.worklist = ∅) :
    (st.solver Fn).Solution st.RDbeforeMap st.RDafterMap := by
  obtain ⟨hrun, hsolver, _⟩ := rdRun_abstract Fn hr
  rw [rdefsInit_abstract] at hrun
  rw [hsolver]
  exact Solver.run_from_start_solution _ Fn.length (rd_consistent Fn hc _)
    (rdefsInit_gen TRI Fn R h0) hrun hw

theorem rdRun_equations (TRI : TargetRegisterInfo) (Fn : MachineFunction)
    (R : Finset RDfact) (h0 : Nat) (hc : CFGConsistent Fn) {k : Nat} {st : RDState}
    (hr : RDRun Fn k (rdefsInit TRI Fn R h0) st) (hw : st.worklist = ∅) :
    RDPointerEquations Fn st :=
  rd_equations_of_solution Fn st (rdRun_solution TRI Fn R h0 hc hr hw)

theorem analyzeRD_worklist (TRI : TargetRegisterInfo) (Fn : MachineFunction)
    (R : Finset RDfact) (h0 : Nat) :
    (analyzeBasicBlocksRDefs TRI Fn R h0).worklist = ∅ := by
  unfold analyzeBasicBlocksRDefs
  have h := (rdefsLoop_abstract Fn (rdefsFuel Fn (rdefsInit TRI Fn R h0))
    (rdefsInit TRI Fn R h0)).1
  have hw : (rdefsLoop Fn (rdefsFuel Fn (rdefsInit TRI Fn R h0))
      (rdefsInit TRI Fn R h0)).worklist =
      (rdefsLoop Fn (rdefsFuel Fn (rdefsInit TRI Fn R h0))
        (rdefsInit TRI Fn R h0)).abstract.worklist := rfl
  rw [hw, h, rdefsInit_abstract]
  apply Solver.loop_from_start _ Fn.length _
    (rd_sized Fn _ (rdefsInit_gen TRI Fn R h0))
  exact Nat.le_refl _

theorem analyzeRD_run (TRI : TargetRegisterInfo) (Fn : MachineFunction)
    (R : Finset RDfact) (h0 : Nat) :
    ∃ k, k ≤ rdefsFuel Fn (rdefsInit TRI Fn R h0) ∧
      RDRun Fn k (rdefsInit TRI Fn R h0) (analyzeBasicBlocksRDefs TRI Fn R h0) :=
  rdefsLoop_run Fn _ _

theorem rdRun_length (TRI : TargetRegisterInfo) (Fn : MachineFunction)
    (R : Finset RDfact) (h0 : Nat) {k : Nat} {st : RDState}
    (hr : RDRun Fn k (rdefsInit TRI Fn R h0) st) :
    k ≤ rdefsFuel Fn (rdefsInit TRI Fn R h0) := by
  obtain ⟨hrun, _⟩ := rdRun_abstract Fn hr
  rw [rdefsInit_abstract] at hrun
  exact Solver.run_from_start_le _ Fn.length _
    (rd_sized Fn _ (rdefsInit_gen TRI Fn R h0)) hrun

theorem liveState_ext (Fn : MachineFunction) (st st1 : LiveState)
    (h1 : st.abstract = st1.abstract) (h2 : st.solver Fn = st1.solver Fn) : st = st1 := by
  obtain ⟨w, b, a, g, k⟩ := st
  obtain ⟨w1, b1, a1, g1, k1⟩ := st1
  simp only [LiveState.abstract, SolverState.mk.injEq] at h1
  simp only [LiveState.solver, Solver.mk.injEq, true_and] at h2
  obtain ⟨rfl, rfl, rfl⟩ := h1
  obtain ⟨rfl, rfl⟩ := h2
  rfl

theorem rdState_ext (Fn : MachineFunction) (st st1 : RDState)
    (h1 : st.abstract = st1.abstract) (h2 : st.solver Fn = st1.solver Fn)
    (h3 : st.heapNext = st1.heapNext) : st = st1 := by
  obtain ⟨w, b, a, g, k, h⟩ := st
  obtain ⟨w1, b1, a1, g1, k1, h1⟩ := st1
  simp only [RDState.abstract, SolverState.mk.injEq] at h1
  simp only [RDState.solver, Solver.mk.injEq, true_and] at h2
  simp only at h3
  obtain ⟨rfl, rfl, rfl⟩ := h1
  obtain ⟨rfl, rfl⟩ := h2
  subst h3
  rfl

/-! ## The worklist solvers: claims C1, C3, C4, C5, C8 -/

/-- C1. Liveness fixed point: on a function whose predecessor and successor
lists agree, `analyzeBasicBlocksLiveVars` finishes (its worklist is empty) and
every block then satisfies live-after = union of the successors' live-before
sets and live-before = (live-after - getAllDefs) union getUpwardsExposedUses;
the same holds at the end of a run that removes the blocks in any other
order. -/
theorem liveness_fixed_point (TRI : TargetRegisterInfo) (Fn : MachineFunction)
    (hc : CFGConsistent Fn) :
    (analyzeBasicBlocksLiveVars TRI Fn).worklist = ∅ ∧
    LiveEquations TRI Fn (analyzeBasicBlocksLiveVars TRI Fn) ∧
    ∀ k st, LiveRun Fn k (liveVarsInit TRI Fn) st → st.worklist = ∅ →
      LiveEquations TRI Fn st := by
  refine ⟨analyzeLive_worklist TRI Fn, ?_, fun k st hr hw => liveRun_equations TRI Fn hc hr hw⟩
  obtain ⟨k, _, hr⟩ := analyzeLive_run TRI Fn
  exact liveRun_equations TRI Fn hc hr (analyzeLive_worklist TRI Fn)

/-- Witness for C1 on the two-block loop. -/
theorem liveness_fixed_point_witness :
    CFGConsistent Examples.loopFn ∧
    LiveEquations Examples.tri Examples.loopFn
      (analyzeBasicBlocksLiveVars Examples.tri Examples.loopFn) :=
  ⟨by decide, (liveness_fixed_point Examples.tri Examples.loopFn (by decide)).2.1⟩

/-- C3. Termination: for every function, whatever its edges, the worklist
loops of `analyzeBasicBlocksLiveVars` and `analyzeBasicBlocksRDefs` end with an
empty worklist, and under any removal order the number of block removals is
bounded by the fuel computed from the function. -/
theorem worklist_loops_terminate (TRI : TargetRegisterInfo) (Fn : MachineFunction)
    (R : Finset RDfact) (h0 : Nat) :
    (analyzeBasicBlocksLiveVars TRI Fn).worklist = ∅ ∧
    (∀ k st, LiveRun Fn k (liveVarsInit TRI Fn) st → k ≤ liveVarsFuel TRI Fn) ∧
    (analyzeBasicBlocksRDefs TRI Fn R h0).worklist = ∅ ∧
    (∀ k st, RDRun Fn k (rdefsInit TRI Fn R h0) st →
      k ≤ rdefsFuel Fn (rdefsInit TRI Fn R h0)) :=
  ⟨analyzeLive_worklist TRI Fn, fun _ _ hr => liveRun_length TRI Fn hr,
   analyzeRD_worklist TRI Fn R h0, fun _ _ hr => rdRun_length TRI Fn R h0 hr⟩

/-- C4. Monotonicity: in every state the loops can reach, a pass on any block
leaves every block's Before and After set a superset of what it was, in the
liveness solver and in the reaching-definitions solver. -/
theorem solver_sets_only_grow (TRI : TargetRegisterInfo) (Fn : MachineFunction)
    (R : Finset RDfact) (h0 : Nat) :
    (∀ k st bb b, LiveRun Fn k (liveVarsInit TRI Fn) st →
      st.liveBeforeMap b ⊆ (liveVarsIter Fn bb st).liveBeforeMap b ∧
      st.liveAfterMap b ⊆ (liveVarsIter Fn bb st).liveAfterMap b) ∧
    (∀ k st bb b, RDRun Fn k (rdefsInit TRI Fn R h0) st →
      st.RDbeforeMap b ⊆ (rdefsIter Fn bb st).RDbeforeMap b ∧
      st.RDafterMap b ⊆ (rdefsIter Fn bb st).RDafterMap b) := by
  constructor
  · intro k st bb b hr
    obtain ⟨hrun, hsolver⟩ := liveRun_abstract Fn hr
    rw [liveVarsInit_abstract, ← hsolver] at hrun
    have hs := Solver.run_sound _ hrun (Solver.start_sound _ _)
    have e : (liveVarsIter Fn bb st).abstract = _ := liveVarsIter_abstract Fn bb st
    have e1 : (liveVarsIter Fn bb st).liveBeforeMap = ((st.solver Fn).iter bb st.abstract).out :=
      congrArg SolverState.out e
    have e2 : (liveVarsIter Fn bb st).liveAfterMap = ((st.solver Fn).iter bb st.abstract).inp :=
      congrArg SolverState.inp e
    rw [e1, e2]
    exact ⟨Solver.iter_out_mono _ hs bb b, Solver.iter_inp_mono _ hs bb b⟩
  · intro k st bb b hr
    obtain ⟨hrun, hsolver, _⟩ := rdRun_abstract Fn hr
    rw [rdefsInit_abstract, ← hsolver] at hrun
    have hs := Solver.run_sound _ hrun (Solver.start_sound _ _)
    have e : (rdefsIter Fn bb st).abstract = _ := rdefsIter_abstract Fn bb st
    have e1 : (rdefsIter Fn bb st).RDafterMap = ((st.solver Fn).iter bb st.abstract).out :=
      congrArg SolverState.out e
    have e2 : (rdefsIter Fn bb st).RDbeforeMap = ((st.solver Fn).iter bb st.abstract).inp :=
      congrArg SolverState.inp e
    rw [e1, e2]
    exact ⟨Solver.iter_inp_mono _ hs bb b, Solver.iter_out_mono _ hs bb b⟩

theorem liveVarsIter_fixed (Fn : MachineFunction) (st : LiveState)
    (hsol : (st.solver Fn).Solution st.liveAfterMap st.liveBeforeMap) (bb : Nat)
    (W : Finset Nat) :
    liveVarsIter Fn bb { st with worklist := W } = { st with worklist := W.erase bb } := by
  apply liveState_ext Fn
  · rw [liveVarsIter_abstract]
    exact Solver.iter_fixed _ bb _ (hsol bb).1 (hsol bb).2
  · rw [liveVarsIter_solver]; rfl

theorem liveVarsLoop_fixed (Fn : MachineFunction) (st : LiveState)
    (hsol : (st.solver Fn).Solution st.liveAfterMap st.liveBeforeMap) (fuel : Nat)
    (W : Finset Nat) (hf : W.card ≤ fuel) :
    liveVarsLoop Fn fuel { st with worklist := W } = { st with worklist := ∅ } := by
  apply liveState_ext Fn
  · rw [(liveVarsLoop_abstract Fn fuel _).1]
    exact Solver.loop_fixed _ hsol fuel W hf
  · rw [(liveVarsLoop_abstract Fn fuel _).2]; rfl

theorem rdefsIter_fixed (Fn : MachineFunction) (st : RDState)
    (hsol : (st.solver Fn).Solution st.RDbeforeMap st.RDafterMap) (bb : Nat)
    (W : Finset Nat) :
    rdefsIter Fn bb { st with worklist := W } = { st with worklist := W.erase bb } := by
  apply rdState_ext Fn
  · rw [rdefsIter_abstract]
    exact Solver.iter_fixed _ bb _ (hsol bb).1 (hsol bb).2
  · rw [(rdefsIter_solver Fn bb _).1]; rfl
  · rw [(rdefsIter_solver Fn bb _).2]

theorem rdefsLoop_heap (Fn : MachineFunction) (fuel : Nat) (st : RDState) :
    (rdefsLoop Fn fuel st).heapNext = st.heapNext := by
  obtain ⟨k, _, hr⟩ := rdefsLoop_run Fn fuel st
  exact (rdRun_abstract Fn hr).2.2

theorem rdefsLoop_fixed (Fn : MachineFunction) (st : RDState)
    (hsol : (st.solver Fn).Solution st.RDbeforeMap st.RDafterMap) (fuel : Nat)
    (W : Finset Nat) (hf : W.card ≤ fuel) :
    rdefsLoop Fn fuel { st with worklist := W } = { st with worklist := ∅ } := by
  apply rdState_ext Fn
  · rw [(rdefsLoop_abstract Fn fuel _).1]
    exact Solver.loop_fixed _ hsol fuel W hf
  · rw [(rdefsLoop_abstract Fn fuel _).2]; rfl
  · rw [rdefsLoop_heap]

/-- C5. Fixed-point idempotence: on the maps a solver produced (on a function
whose edge lists agree) a pass on any block, with any worklist, changes neither
map and only removes that block from the worklist; and the loop started again
on these maps with all blocks on the worklist returns the same maps with an
empty worklist. Stated for liveness and for reaching definitions. -/
theorem converged_maps_are_fixed (TRI : TargetRegisterInfo) (Fn : MachineFunction)
    (R : Finset RDfact) (h0 : Nat) (hc : CFGConsistent Fn) :
    (∀ bb W, liveVarsIter Fn bb { analyzeBasicBlocksLiveVars TRI Fn with worklist := W } =
      { analyzeBasicBlocksLiveVars TRI Fn with worklist := W.erase bb }) ∧
    (∀ fuel, Fn.length ≤ fuel →
      liveVarsLoop Fn fuel
        { analyzeBasicBlocksLiveVars TRI Fn with worklist := Finset.range Fn.length } =
      { analyzeBasicBlocksLiveVars TRI Fn with worklist := ∅ }) ∧
    (∀ bb W, rdefsIter Fn bb { analyzeBasicBlocksRDefs TRI Fn R h0 with worklist := W } =
      { analyzeBasicBlocksRDefs TRI Fn R h0 with worklist := W.erase bb }) ∧
    (∀ fuel, Fn.length ≤ fuel →
      rdefsLoop Fn fuel
        { analyzeBasicBlocksRDefs TRI Fn R h0 with worklist := Finset.range Fn.length } =
      { analyzeBasicBlocksRDefs TRI Fn R h0 with worklist := ∅ }) := by
  obtain ⟨k, _, hr⟩ := analyzeLive_run TRI Fn
  have hl := liveRun_solution TRI Fn hc hr (analyzeLive_worklist TRI Fn)
  obtain ⟨k1, _, hr1⟩ := analyzeRD_run TRI Fn R h0
  have hd := rdRun_solution TRI Fn R h0 hc hr1 (analyzeRD_worklist TRI Fn R h0)
  refine ⟨fun bb W => liveVarsIter_fixed Fn _ hl bb W, fun fuel hf => ?_,
    fun bb W => rdefsIter_fixed Fn _ hd bb W, fun fuel hf => ?_⟩
  · exact liveVarsLoop_fixed Fn _ hl fuel _ (by rw [Finset.card_range]; exact hf)
  · exact rdefsLoop_fixed Fn _ hd fuel _ (by rw [Finset.card_range]; exact hf)

/-- Witness for C5 on the two-block loop. -/
theorem converged_maps_are_fixed_witness :
    CFGConsistent Examples.loopFn ∧
    liveVarsLoop Examples.loopFn 2
      { analyzeBasicBlocksLiveVars Examples.tri Examples.loopFn with
        worklist := Finset.range Examples.loopFn.length } =
    { analyzeBasicBlocksLiveVars Examples.tri Examples.loopFn with worklist := ∅ } :=
  ⟨by decide,
   (converged_maps_are_fixed Examples.tri Examples.loopFn ∅ 0 (by decide)).2.1 2
     (Nat.le_refl 2)⟩

/-- C8. Order independence: on a function whose edge lists agree, any two
runs of the liveness loop that remove blocks in whatever order until the
worklist is empty end with the same liveBefore and liveAfter maps, and
likewise any two such runs of the reaching-definitions loop end with the same
RDbefore and RDafter maps. -/
theorem worklist_order_independent (TRI : TargetRegisterInfo) (Fn : MachineFunction)
    (R : Finset RDfact) (h0 : Nat) (hc : CFGConsistent Fn) :
    (∀ k1 k2 st1 st2,
      LiveRun Fn k1 (liveVarsInit TRI Fn) st1 → st1.worklist = ∅ →
      LiveRun Fn k2 (liveVarsInit TRI Fn) st2 → st2.worklist = ∅ →
      st1.liveBeforeMap = st2.liveBeforeMap ∧ st1.liveAfterMap = st2.liveAfterMap) ∧
    (∀ k1 k2 st1 st2,
      RDRun Fn k1 (rdefsInit TRI Fn R h0) st1 → st1.worklist = ∅ →
      RDRun Fn k2 (rdefsInit TRI Fn R h0) st2 → st2.worklist = ∅ →
      st1.RDbeforeMap = st2.RDbeforeMap ∧ st1.RDafterMap = st2.RDafterMap) := by
  constructor
  · intro k1 k2 st1 st2 hr1 hw1 hr2 hw2
    obtain ⟨hrun1, _⟩ := liveRun_abstract Fn hr1
    obtain ⟨hrun2, _⟩ := liveRun_abstract Fn hr2
    rw [liveVarsInit_abstract] at hrun1 hrun2
    have := Solver.run_from_start_unique _ Fn.length (live_consistent Fn hc _)
      (liveVarsInit_gen TRI Fn) hrun1 hw1 hrun2 hw2
    exact ⟨this.2, this.1⟩
  · intro k1 k2 st1 st2 hr1 hw1 hr2 hw2
    obtain ⟨hrun1, _⟩ := rdRun_abstract Fn hr1
    obtain ⟨hrun2, _⟩ := rdRun_abstract Fn hr2
    rw [rdefsInit_abstract] at hrun1 hrun2
    exact Solver.run_from_start_unique _ Fn.length (rd_consistent Fn hc _)
      (rdefsInit_gen TRI Fn R h0) hrun1 hw1 hrun2 hw2

/-- Witness for C8 on the two-block loop: the run that removes block 1 and
then block 0 ends with the maps of the least-first order of the pass. -/
theorem worklist_order_independent_witness :
    CFGConsistent Examples.loopFn ∧
    (liveVarsIter Examples.loopFn 0 (liveVarsIter Examples.loopFn 1
        (liveVarsInit Examples.tri Examples.loopFn))).liveBeforeMap =
      (analyzeBasicBlocksLiveVars Examples.tri Examples.loopFn).liveBeforeMap ∧
    (liveVarsIter Examples.loopFn 0 (liveVarsIter Examples.loopFn 1
        (liveVarsInit Examples.tri Examples.loopFn))).liveAfterMap =
      (analyzeBasicBlocksLiveVars Examples.tri Examples.loopFn).liveAfterMap :=
  ⟨by decide,
    (worklist_order_independent Examples.tri Examples.loopFn ∅ 0 (by decide)).1 2 _ _ _
      (LiveRun.step 1 (by decide) (LiveRun.step 0 (by decide) (LiveRun.done _)))
      (by decide)
      (analyzeLive_run Examples.tri Examples.loopFn).choose_spec.2
      (analyzeLive_worklist Examples.tri Examples.loopFn)⟩

/-! ## Reaching definitions inside a block: claim C7 -/

theorem foldl_inv {σ β : Type} (Q : σ → Prop) (f : σ → β → σ)
    (hstep : ∀ s a, Q s → Q (f s a)) (l : List β) (s : σ) (h : Q s) : Q (l.foldl f s) := by
  induction l generalizing s with
  | nil => exact h
  | cons a l ih => exact ih _ (hstep s a h)

/-- Every fact of `RDfactSet` was allocated by `doInit`, below the counter it
returns. -/
theorem doInit_addr (TRI : TargetRegisterInfo) (Fn : MachineFunction) (h0 : Nat) :
    ∀ f ∈ (doInit TRI Fn h0).RDfactSet, f.addr < (doInit TRI Fn h0).heapNext := by
  have hnew : ∀ (st : InitState) (r : Nat) (i : InstrPtr),
      (∀ f ∈ st.RDfactSet, f.addr < st.heapNext) →
      ∀ f ∈ (st.insertNew r i).RDfactSet, f.addr < (st.insertNew r i).heapNext := by
    intro st r i h f hf
    unfold InitState.insertNew at hf ⊢
    rcases Finset.mem_insert.1 hf with rfl | hm
    · exact Nat.lt_succ_self _
    · exact Nat.lt_succ_of_lt (h f hm)
  have hop : ∀ (i : InstrPtr) (st : InitState) (MOp : MachineOperand),
      (∀ f ∈ st.RDfactSet, f.addr < st.heapNext) →
      ∀ f ∈ (doInitOperand TRI i st MOp).RDfactSet,
        f.addr < (doInitOperand TRI i st MOp).heapNext := by
    intro i st MOp h
    unfold doInitOperand
    split_ifs
    · exact foldl_inv (fun st : InitState => ∀ f ∈ st.RDfactSet, f.addr < st.heapNext) _
        (fun s a hs => hnew s a i hs) _ _ (hnew st _ i h)
    · exact hnew st _ i h
    · exact h
  unfold doInit
  apply foldl_inv (fun st : InitState => ∀ f ∈ st.RDfactSet, f.addr < st.heapNext)
  · intro st b hst
    apply foldl_inv (fun st : InitState => ∀ f ∈ st.RDfactSet, f.addr < st.heapNext)
    · intro st1 i hst1
      apply foldl_inv (fun st : InitState => ∀ f ∈ st.RDfactSet, f.addr < st.heapNext)
      · exact fun s a hs => hop i s a hs
      · exact hst1
    · exact hst
  · intro f hf
    exact absurd hf (Finset.not_mem_empty f)

/-- The loop over `regDefs` of `analyzeInstructionsRDefs`, from an arbitrary
accumulator. -/
theorem insGenKillFold_spec (R : Finset RDfact) (inIt : InstrPtr) (l : List Nat)
    (G K : Finset RDfact) (h : Nat) (hK : K ⊆ R) :
    h ≤ (l.foldl (fun (acc : Finset RDfact × Finset RDfact × Nat) oneDef =>
        (insert ⟨acc.2.2, oneDef, inIt⟩ acc.1,
         acc.2.1 ∪ R.filter (fun oneRDfact => oneRDfact.getReg = oneDef),
         acc.2.2 + 1)) (G, K, h)).2.2 ∧
    (∀ f ∈ (l.foldl (fun (acc : Finset RDfact × Finset RDfact × Nat) oneDef =>
        (insert ⟨acc.2.2, oneDef, inIt⟩ acc.1,
         acc.2.1 ∪ R.filter (fun oneRDfact => oneRDfact.getReg = oneDef),
         acc.2.2 + 1)) (G, K, h)).1, f ∈ G ∨ h ≤ f.addr) ∧
    components (l.foldl (fun (acc : Finset RDfact × Finset RDfact × Nat) oneDef =>
        (insert ⟨acc.2.2, oneDef, inIt⟩ acc.1,
         acc.2.1 ∪ R.filter (fun oneRDfact => oneRDfact.getReg = oneDef),
         acc.2.2 + 1)) (G, K, h)).1 =
      components G ∪ l.toFinset.image (fun d => (d, inIt)) ∧
    (l.foldl (fun (acc : Finset RDfact × Finset RDfact × Nat) oneDef =>
        (insert ⟨acc.2.2, oneDef, inIt⟩ acc.1,
         acc.2.1 ∪ R.filter (fun oneRDfact => oneRDfact.getReg = oneDef),
         acc.2.2 + 1)) (G, K, h)).2.1 ⊆ R := by
  induction l generalizing G K h with
  | nil =>
    simp only [List.foldl_nil, List.toFinset_nil, Finset.image_empty, Finset.union_empty,
      Nat.le_refl, true_and]
    exact ⟨fun f hf => Or.inl hf, hK⟩
  | cons d l ih =>
    simp only [List.foldl_cons]
    obtain ⟨h1, h2, h3, h4⟩ := ih (insert ⟨h, d, inIt⟩ G)
      (K ∪ R.filter (fun oneRDfact => oneRDfact.getReg = d)) (h + 1)
      (Finset.union_subset hK (Finset.filter_subset _ _))
    refine ⟨by omega, ?_, ?_, h4⟩
    · intro f hf
      rcases h2 f hf with hm | ha
      · rcases Finset.mem_insert.1 hm with rfl | hS
        · exact Or.inr (Nat.le_refl _)
        · exact Or.inl hS
      · exact Or.inr (by omega)
    · rw [h3, components_insert]
      ext p
      simp only [Finset.mem_union, Finset.mem_insert, Finset.mem_image, List.mem_toFinset,
        List.mem_cons]
      constructor
      · rintro ((rfl | hp) | ⟨a, ha, rfl⟩)
        · exact Or.inr ⟨d, Or.inl rfl, rfl⟩
        · exact Or.inl hp
        · exact Or.inr ⟨a, Or.inr ha, rfl⟩
      · rintro (hp | ⟨a, rfl | ha, rfl⟩)
        · exact Or.inl (Or.inr hp)
        · exact Or.inl (Or.inl rfl)
        · exact Or.inr ⟨a, ha, rfl⟩

theorem insGenKill_spec (R : Finset RDfact) (inIt : InstrPtr) (l : List Nat) (h : Nat) :
    h ≤ (insGenKill R inIt l h).2.2 ∧
    (∀ f ∈ (insGenKill R inIt l h).1, h ≤ f.addr) ∧
    components (insGenKill R inIt l h).1 = l.toFinset.image (fun d => (d, inIt)) ∧
    (insGenKill R inIt l h).2.1 ⊆ R := by
  obtain ⟨h1, h2, h3, h4⟩ := insGenKillFold_spec R inIt l ∅ ∅ h (Finset.empty_subset _)
  refine ⟨h1, ?_, ?_, h4⟩
  · intro f hf
    rcases h2 f hf with hm | ha
    · exact absurd hm (Finset.not_mem_empty f)
    · exact ha
  · unfold insGenKill
    rw [h3]
    simp [components]

/-- Subtracting facts of `RDfactSet` from a set of facts allocated later
removes nothing: the pointers differ. -/
theorem RDsetSubtract_fresh (X K R : Finset RDfact) (h1 : Nat)
    (hR : ∀ f ∈ R, f.addr < h1) (hK : K ⊆ R) (hX : ∀ f ∈ X, h1 ≤ f.addr) :
    RDsetSubtract X K = X := by
  unfold RDsetSubtract
  apply Finset.filter_true_of_mem
  intro f hf hk
  have := hR f (hK hk)
  have := hX f hf
  omega

/-- What the body of the instruction loop writes, unconditionally. -/
theorem rdefsInstrStep_maps (TRI : TargetRegisterInfo) (Fn : MachineFunction)
    (R : Finset RDfact) (acc : Finset RDfact × InsRDState) (inIt : InstrPtr) :
    (rdefsInstrStep TRI Fn R acc inIt).2.insRDafterMap inIt =
      (rdefsInstrStep TRI Fn R acc inIt).1 ∧
    (∀ j, j ≠ inIt → (rdefsInstrStep TRI Fn R acc inIt).2.insRDafterMap j =
      acc.2.insRDafterMap j) ∧
    acc.2.heapNext ≤ (rdefsInstrStep TRI Fn R acc inIt).2.heapNext := by
  unfold rdefsInstrStep
  simp only
  split_ifs
  · refine ⟨by simp, fun j hj => by simp [Function.update_apply, hj], ?_⟩
    exact (insGenKill_spec R inIt _ _).1
  · exact ⟨by simp, fun j hj => by simp [Function.update_apply, hj], Nat.le_refl _⟩

/-- The body of the instruction loop on a set of facts allocated after
`RDfactSet`: nothing is removed, the pairs of the registers defined here are
added. -/
theorem rdefsInstrStep_components (TRI : TargetRegisterInfo) (Fn : MachineFunction)
    (R : Finset RDfact) (h1 : Nat) (hR : ∀ f ∈ R, f.addr < h1)
    (acc : Finset RDfact × InsRDState) (inIt : InstrPtr)
    (hX : ∀ f ∈ acc.1, h1 ≤ f.addr) (hh : h1 ≤ acc.2.heapNext) :
    (∀ f ∈ (rdefsInstrStep TRI Fn R acc inIt).1, h1 ≤ f.addr) ∧
    components (rdefsInstrStep TRI Fn R acc inIt).1 =
      components acc.1 ∪
        (getOneInstrRegDefs TRI (Fn.instr inIt)).image (fun d => (d, inIt)) := by
  unfold rdefsInstrStep
  simp only
  split_ifs with hc
  · obtain ⟨g1, g2, g3, g4⟩ := insGenKill_spec R inIt
      (setToList (getOneInstrRegDefs TRI (Fn.instr inIt))) acc.2.heapNext
    simp only
    rw [RDsetSubtract_fresh acc.1 _ R h1 hR g4 hX]
    constructor
    · intro f hf
      rcases Finset.mem_union.1 hf with hm | hm
      · exact hX f hm
      · have := g2 f hm; omega
    · unfold RDsetUnion
      rw [components_union, g3, setToList_toFinset]
  · have he : getOneInstrRegDefs TRI (Fn.instr inIt) = ∅ :=
      Finset.card_eq_zero.1 (Nat.eq_zero_of_not_pos hc)
    simp only [he, Finset.image_empty, Finset.union_empty]
    exact ⟨hX, trivial⟩

theorem rdefsInstrFold_components (TRI : TargetRegisterInfo) (Fn : MachineFunction)
    (R : Finset RDfact) (h1 : Nat) (hR : ∀ f ∈ R, f.addr < h1) (L : List InstrPtr)
    (acc : Finset RDfact × InsRDState)
    (hX : ∀ f ∈ acc.1, h1 ≤ f.addr) (hh : h1 ≤ acc.2.heapNext) :
    (∀ f ∈ (L.foldl (rdefsInstrStep TRI Fn R) acc).1, h1 ≤ f.addr) ∧
    h1 ≤ (L.foldl (rdefsInstrStep TRI Fn R) acc).2.heapNext ∧
    components (L.foldl (rdefsInstrStep TRI Fn R) acc).1 =
      components acc.1 ∪ L.toFinset.biUnion (fun i =>
        (getOneInstrRegDefs TRI (Fn.instr i)).image (fun d => (d, i))) := by
  induction L generalizing acc with
  | nil => simp only [List.foldl_nil, List.toFinset_nil, Finset.biUnion_empty,
      Finset.union_empty]; exact ⟨hX, hh, trivial⟩
  | cons i L ih =>
    simp only [List.foldl_cons]
    obtain ⟨s1, s2⟩ := rdefsInstrStep_components TRI Fn R h1 hR acc i hX hh
    have s3 := (rdefsInstrStep_maps TRI Fn R acc i).2.2
    obtain ⟨t1, t2, t3⟩ := ih (rdefsInstrStep TRI Fn R acc i) s1 (by omega)
    refine ⟨t1, t2, ?_⟩
    rw [t3, s2, List.toFinset_cons, Finset.biUnion_insert, Finset.union_assoc]

theorem rdefsInstrFold_maps (TRI : TargetRegisterInfo) (Fn : MachineFunction)
    (R : Finset RDfact) (L : List InstrPtr) (acc : Finset RDfact × InsRDState) :
    acc.2.heapNext ≤ (L.foldl (rdefsInstrStep TRI Fn R) acc).2.heapNext ∧
    ∀ j, j ∉ L → (L.foldl (rdefsInstrStep TRI Fn R) acc).2.insRDafterMap j =
      acc.2.insRDafterMap j := by
  induction L generalizing acc with
  | nil => exact ⟨Nat.le_refl _, fun _ _ => rfl⟩
  | cons i L ih =>
    simp only [List.foldl_cons]
    obtain ⟨_, s2, s3⟩ := rdefsInstrStep_maps TRI Fn R acc i
    obtain ⟨t1, t2⟩ := ih (rdefsInstrStep TRI Fn R acc i)
    refine ⟨by omega, fun j hj => ?_⟩
    rw [t2 j (fun h => hj (List.mem_cons_of_mem _ h))]
    exact s2 j (fun h => hj (h ▸ List.mem_cons_self _ _))

theorem rdefsInstrFold_last (TRI : TargetRegisterInfo) (Fn : MachineFunction)
    (R : Finset RDfact) (L : List InstrPtr) (a : InstrPtr)
    (acc : Finset RDfact × InsRDState) :
    ((L ++ [a]).foldl (rdefsInstrStep TRI Fn R) acc).2.insRDafterMap a =
      ((L ++ [a]).foldl (rdefsInstrStep TRI Fn R) acc).1 := by
  rw [List.foldl_append]
  simp only [List.foldl_cons, List.foldl_nil]
  exact (rdefsInstrStep_maps TRI Fn R _ a).1

theorem mem_instrPtrs (Fn : MachineFunction) (bb : Nat) (j : InstrPtr) :
    j ∈ instrPtrs Fn bb ↔ j.1 = bb ∧ j.2 < (Fn.block bb).instrs.length := by
  unfold instrPtrs
  simp only [List.mem_map, List.mem_range]
  constructor
  · rintro ⟨k, hk, rfl⟩; exact ⟨rfl, hk⟩
  · rintro ⟨h1, h2⟩; exact ⟨j.2, h2, by rw [← h1]⟩

theorem instrPtrs_last (Fn : MachineFunction) (bb : Nat) (hne : (Fn.block bb).instrs ≠ []) :
    instrPtrs Fn bb =
      (List.range ((Fn.block bb).instrs.length - 1)).map (fun k => (bb, k)) ++
        [(bb, (Fn.block bb).instrs.length - 1)] := by
  unfold instrPtrs
  have hpos : 0 < (Fn.block bb).instrs.length := List.length_pos.2 hne
  obtain ⟨l, hl⟩ : ∃ l, (Fn.block bb).instrs.length = l + 1 := ⟨_, (Nat.succ_pred_eq_of_pos hpos).symm⟩
  rw [hl, List.range_succ, List.map_append]
  rfl

/-- The instruction-level maps after the first `m` blocks have been handled:
for each of these blocks that is not empty, the RD-after set of the last
instruction holds the pairs of the block's RD-before set and of the
definitions made in the block. -/
theorem insRD_upto (TRI : TargetRegisterInfo) (Fn : MachineFunction)
    (R : Finset RDfact) (h1 : Nat) (hR : ∀ f ∈ R, f.addr < h1)
    (RDbeforeMap : Nat → Finset RDfact) (hB : ∀ b, ∀ f ∈ RDbeforeMap b, h1 ≤ f.addr)
    (m0 : InsRDState) (hm0 : h1 ≤ m0.heapNext) (m : Nat) :
    h1 ≤ ((List.range m).foldl (rdefsInstrBlock TRI Fn R RDbeforeMap) m0).heapNext ∧
    ∀ b, b < m → (Fn.block b).instrs ≠ [] →
      components (((List.range m).foldl (rdefsInstrBlock TRI Fn R RDbeforeMap) m0).insRDafterMap
        (b, (Fn.block b).instrs.length - 1)) =
      components (RDbeforeMap b) ∪ blockDefPairs TRI Fn b := by
  induction m with
  | zero => exact ⟨hm0, fun b hb => absurd hb (Nat.not_lt_zero b)⟩
  | succ m ih =>
    rw [List.range_succ, List.foldl_append]
    generalize (List.range m).foldl (rdefsInstrBlock TRI Fn R RDbeforeMap) m0 = st at ih
    obtain ⟨i1, i2⟩ := ih
    simp only [List.foldl_cons, List.foldl_nil, rdefsInstrBlock]
    obtain ⟨c1, c2, c3⟩ := rdefsInstrFold_components TRI Fn R h1 hR (instrPtrs Fn m)
      (RDbeforeMap m, st) (hB m) i1
    obtain ⟨_, d2⟩ := rdefsInstrFold_maps TRI Fn R (instrPtrs Fn m) (RDbeforeMap m, st)
    refine ⟨c2, fun b hb hne => ?_⟩
    by_cases hbm : b = m
    · subst hbm
      have hl := rdefsInstrFold_last TRI Fn R
        ((List.range ((Fn.block b).instrs.length - 1)).map (fun k => (b, k)))
        (b, (Fn.block b).instrs.length - 1) (RDbeforeMap b, st)
      rw [← instrPtrs_last Fn b hne] at hl
      rw [hl, c3]
      rfl
    · rw [d2]
      · exact i2 b (by omega) hne
      · intro hmem
        exact hbm ((mem_instrPtrs Fn m _).1 hmem).1

/-- A property of facts that holds on all Gen sets holds on every set a run
from empty maps stores. -/
theorem Solver.run_forall {α : Type} [DecidableEq α] (S : Solver α) (Q : α → Prop)
    (hg : ∀ b, ∀ f ∈ S.gen b, Q f) {k : Nat} {W : Finset Nat} {st : SolverState α}
    (hr : Solver.Run S k ⟨W, fun _ => ∅, fun _ => ∅⟩ st) (b : Nat) :
    (∀ f ∈ st.inp b, Q f) ∧ (∀ f ∈ st.out b, Q f) := by
  have hstep : ∀ bb (st : SolverState α),
      (∀ b, (∀ f ∈ st.inp b, Q f) ∧ (∀ f ∈ st.out b, Q f)) →
      ∀ b, (∀ f ∈ (S.iter bb st).inp b, Q f) ∧ (∀ f ∈ (S.iter bb st).out b, Q f) := by
    intro bb st h b
    have hj : ∀ f ∈ S.join st.out bb, Q f := by
      intro f hf
      obtain ⟨s, _, hs⟩ := (S.mem_join _ _ _).1 hf
      exact (h s).2 f hs
    have ht : ∀ f ∈ S.transfer bb (S.join st.out bb), Q f := by
      intro f hf
      rcases (S.mem_transfer _ _ _).1 hf with ⟨h1, _⟩ | h2
      · exact hj f h1
      · exact hg bb f h2
    constructor
    · rw [Solver.iter_inp, Function.update_apply]
      split_ifs
      · exact hj
      · exact (h b).1
    · by_cases hc : (S.transfer bb (S.join st.out bb)).card > (st.out bb).card
      · rw [(S.iter_out_grow bb st hc).1, Function.update_apply]
        split_ifs
        · exact ht
        · exact (h b).2
      · rw [(S.iter_out_keep bb st hc).1]; exact (h b).2
  exact Solver.run_preserves S
    (fun st => ∀ b, (∀ f ∈ st.inp b, Q f) ∧ (∀ f ∈ st.out b, Q f)) hstep hr
    (fun _ => ⟨fun f hf => absurd hf (Finset.not_mem_empty f),
      fun f hf => absurd hf (Finset.not_mem_empty f)⟩) b

/-- The block-level result on an `RDfactSet` allocated below `h1`: the stored
facts are all allocated from `h1` on, and as pairs the RD-after set of a block
is its RD-before set together with the definitions made in the block. -/
theorem analyzeRD_components (TRI : TargetRegisterInfo) (Fn : MachineFunction)
    (R : Finset RDfact) (h1 : Nat) (hR : ∀ f ∈ R, f.addr < h1) :
    h1 ≤ (analyzeBasicBlocksRDefs TRI Fn R h1).heapNext ∧
    (∀ b, ∀ f ∈ (analyzeBasicBlocksRDefs TRI Fn R h1).RDbeforeMap b, h1 ≤ f.addr) ∧
    (∀ b, b < Fn.length →
      components ((analyzeBasicBlocksRDefs TRI Fn R h1).RDafterMap b) =
        components ((analyzeBasicBlocksRDefs TRI Fn R h1).RDbeforeMap b) ∪
          blockDefPairs TRI Fn b) := by
  obtain ⟨k, _, hr⟩ := analyzeRD_run TRI Fn R h1
  have hw := analyzeRD_worklist TRI Fn R h1
  obtain ⟨hrun, hsolver, hheap⟩ := rdRun_abstract Fn hr
  rw [rdefsInit_abstract] at hrun
  obtain ⟨_, _, _, _, i5, i6, i7, i8⟩ := rdefsInit_upto TRI Fn R h1 Fn.length
  have hfresh := fun b => Solver.run_forall _ (fun f : RDfact => h1 ≤ f.addr)
    (fun b f hf => (i6 b f hf).1) hrun b
  have hset := fun b => Solver.run_from_start_settled _ Fn.length
    (rdefsInit_gen TRI Fn R h1) hrun hw b
  refine ⟨?_, fun b => (hfresh b).1, fun b hb => ?_⟩
  · rw [hheap]; exact i5
  · have e : (analyzeBasicBlocksRDefs TRI Fn R h1).RDafterMap b =
        RDsetUnion (RDsetSubtract ((analyzeBasicBlocksRDefs TRI Fn R h1).RDbeforeMap b)
          ((rdefsInit TRI Fn R h1).RDkillMap b)) ((rdefsInit TRI Fn R h1).RDgenMap b) :=
      hset b
    rw [e, RDsetSubtract_fresh ((analyzeBasicBlocksRDefs TRI Fn R h1).RDbeforeMap b)
      ((rdefsInit TRI Fn R h1).RDkillMap b) R h1 hR (i7 b) (hfresh b).1]
    unfold RDsetUnion
    rw [components_union]
    congr 1
    exact i8 b hb

/-- C7. Block/instruction boundary equivalence for reaching definitions: after
`doInit` and `doReachingDefsAnalysis`, for every block that has an instruction
(also one that defines a register more than once), the RD-after set recorded
for the block's last instruction and the block's RD-after set are the same set
of (register, instruction) pairs. -/
theorem rd_boundary_equivalence (TRI : TargetRegisterInfo) (Fn : MachineFunction)
    (h0 : Nat) (b : Nat) (hb : b < Fn.length) (hne : (Fn.block b).instrs ≠ []) :
    components ((runReachingDefs TRI Fn h0).instrs.insRDafterMap
        (b, (Fn.block b).instrs.length - 1)) =
      components ((runReachingDefs TRI Fn h0).blocks.RDafterMap b) := by
  have hR := doInit_addr TRI Fn h0
  obtain ⟨a1, a2, a3⟩ := analyzeRD_components TRI Fn _ _ hR
  have hi := (insRD_upto TRI Fn _ _ hR _ a2 ⟨fun _ => ∅, fun _ => ∅, _⟩ a1 Fn.length).2 b hb hne
  unfold runReachingDefs doReachingDefsAnalysis analyzeInstructionsRDefs
  simp only
  rw [hi, a3 b hb]

/-- Witness for C7: block 1 of the overwrite chain. -/
theorem rd_boundary_equivalence_witness :
    components ((runReachingDefs Examples.tri Examples.overwriteFn 0).instrs.insRDafterMap
        (1, (Examples.overwriteFn.block 1).instrs.length - 1)) =
      components ((runReachingDefs Examples.tri Examples.overwriteFn 0).blocks.RDafterMap 1) :=
  rd_boundary_equivalence Examples.tri Examples.overwriteFn 0 1 (by decide) (by decide)

/-! ## Behaviour on the example chains: claims C2, C6, C9, C10 -/

set_option maxRecDepth 1000000

/-- C2. Reaching-definitions fixed point, evaluated on the chain
0 -> 1 -> 2 whose blocks 0 and 1 both define register 1024 (its edge lists
agree): read as (register, instruction) pairs, the RD-after set of block 1
still holds the definition of block 0, whereas
(RD-before - Kill) union Gen holds only the definition of block 1. -/
theorem rd_equation_fails_on_overwrite :
    CFGConsistent Examples.overwriteFn ∧
    components ((runReachingDefs Examples.tri Examples.overwriteFn 0).blocks.RDafterMap 1) =
      {(1024, (0, 0)), (1024, (1, 0))} ∧
    (components ((runReachingDefs Examples.tri Examples.overwriteFn 0).blocks.RDbeforeMap 1) \
        components ((runReachingDefs Examples.tri Examples.overwriteFn 0).blocks.RDkillMap 1)) ∪
      components ((runReachingDefs Examples.tri Examples.overwriteFn 0).blocks.RDgenMap 1) =
      {(1024, (1, 0))} := by
  decide

/-- C6. Block/instruction boundary for liveness, evaluated on the chain whose
block 1 defines physical register 1 and whose block 2 uses its alias 2: the
live-before set recorded for the first instruction of block 1 is empty, the
block-level live-before set of block 1 is {2}. -/
theorem live_boundary_differs_on_alias :
    (Examples.aliasFn.block 1).instrs ≠ [] ∧
    (doLiveAnalysis Examples.tri Examples.aliasFn).instrs.insLiveBeforeMap (1, 0) = ∅ ∧
    (doLiveAnalysis Examples.tri Examples.aliasFn).blocks.liveBeforeMap 1 = {2} := by
  decide

/-- C9. Semantic correctness of liveness, evaluated on the same chain (edge
lists agree, no empty block): register 2 is in the live-before set recorded for
the instruction of block 0, although no path from that instruction reaches a
use of register 2 before a definition of it: the only path passes the
definition of register 1, whose alias-expanded def set contains 2. -/
theorem live_without_path_on_alias :
    CFGConsistent Examples.aliasFn ∧
    (∀ b, b < Examples.aliasFn.length → (Examples.aliasFn.block b).instrs ≠ []) ∧
    2 ∈ (doLiveAnalysis Examples.tri Examples.aliasFn).instrs.insLiveBeforeMap (0, 0) ∧
    ¬ LiveAlong Examples.tri Examples.aliasFn 2 (0, 0) := by
  refine ⟨by decide, by decide, by decide, ?_⟩
  have h1 : ¬ LiveAlong Examples.tri Examples.aliasFn 2 (1, 0) := by
    intro h
    cases h with
    | use hu => exact absurd hu (by decide)
    | step j hd _ _ => exact hd (by decide)
  intro h
  cases h with
  | use hu => exact absurd hu (by decide)
  | step j _ hn hl =>
    obtain ⟨j1, j2⟩ := j
    have hj : j1 = 1 ∧ j2 = 0 := by
      rcases hn with ⟨_, h2, h3⟩ | ⟨_, h2, h3, _⟩
      · have h4 : (Examples.aliasFn.block 0).instrs.length = 1 := by decide
        simp only [h4] at h3
        simp only at h2
        omega
      · have h4 : (Examples.aliasFn.block 0).succs = [1] := by decide
        simp only [h4, List.mem_singleton] at h2
        exact ⟨h2, h3⟩
    obtain ⟨rfl, rfl⟩ := hj
    exact h1 hl

/-- C10. Reaching-defs overwrite scenario, evaluated: on the chain
A -> B -> C with A = [I1: def 1024], B = [I2: def 1024], C = [use 1024], the
block-level RD-before set of C holds a fact with components (1024, I2) and
also a fact with components (1024, I1). -/
theorem overwrite_keeps_first_def :
    (1024, (1, 0)) ∈
      components ((runReachingDefs Examples.tri Examples.overwriteFn 0).blocks.RDbeforeMap 2) ∧
    (1024, (0, 0)) ∈
      components ((runReachingDefs Examples.tri Examples.overwriteFn 0).blocks.RDbeforeMap 2) := by
  decide

/-! ## Operands, aliases and the sets read off them -/

theorem mem_addAliases (TRI : TargetRegisterInfo) (S : Finset Nat) (reg x : Nat) :
    x ∈ addAliases TRI S reg ↔
      x ∈ S ∨ (TRI.isPhysicalRegister reg = true ∧ x ∈ TRI.aliases reg) := by
  unfold addAliases TargetRegisterInfo.aliases
  split_ifs with h
  · rw [Solver.mem_foldl_insert]; simp [h]
  · simp [h]

theorem mem_defsFold (TRI : TargetRegisterInfo) (ops : List MachineOperand) (D : Finset Nat)
    (x : Nat) :
    x ∈ ops.foldl (fun result MOp =>
        if MOp.isReg && MOp.getReg != 0 && MOp.isDef then
          insert MOp.getReg (addAliases TRI result MOp.getReg)
        else result) D ↔ x ∈ D ∨ ∃ MOp ∈ ops, WritesReg TRI MOp x := by
  induction ops generalizing D with
  | nil => simp
  | cons a t ih =>
    simp only [List.foldl_cons]
    rw [ih]
    by_cases hc : (a.isReg && a.getReg != 0 && a.isDef) = true
    · rw [if_pos hc]
      have hw : a.isReg = true ∧ a.getReg ≠ 0 ∧ a.isDef = true := by
        simpa [Bool.and_eq_true, and_assoc] using hc
      have key : WritesReg TRI a x ↔ (x = a.getReg ∨
          (TRI.isPhysicalRegister a.getReg = true ∧ x ∈ TRI.aliases a.getReg)) :=
        ⟨fun h => h.2.2.2, fun h => ⟨hw.1, hw.2.1, hw.2.2, h⟩⟩
      simp only [Finset.mem_insert, mem_addAliases, List.mem_cons, exists_eq_or_imp, key]
      tauto
    · rw [if_neg hc]
      have hw : ¬ (a.isReg = true ∧ a.getReg ≠ 0 ∧ a.isDef = true) := by
        simpa [Bool.and_eq_true, and_assoc] using hc
      have hn : ¬ WritesReg TRI a x := fun h => hw ⟨h.1, h.2.1, h.2.2.1⟩
      simp only [List.mem_cons, exists_eq_or_imp, hn, false_or]

theorem mem_getOneInstrRegDefs (TRI : TargetRegisterInfo) (instruct : MachineInstr) (x : Nat) :
    x ∈ getOneInstrRegDefs TRI instruct ↔ ∃ MOp ∈ instruct.operands, WritesReg TRI MOp x := by
  unfold getOneInstrRegDefs
  rw [mem_defsFold]
  simp

theorem mem_usesFold (TRI : TargetRegisterInfo) (ops : List MachineOperand) (D : Finset Nat)
    (x : Nat) :
    x ∈ ops.foldl (fun result MOp =>
        if MOp.isReg && MOp.getReg != 0 && MOp.isUse then
          insert MOp.getReg
            (if TRI.isPhysicalRegister MOp.getReg then addAliases TRI result MOp.getReg
             else result)
        else result) D ↔ x ∈ D ∨ ∃ MOp ∈ ops, ReadsReg TRI MOp x := by
  induction ops generalizing D with
  | nil => simp
  | cons a t ih =>
    simp only [List.foldl_cons]
    rw [ih]
    by_cases hc : (a.isReg && a.getReg != 0 && a.isUse) = true
    · rw [if_pos hc]
      have hw : a.isReg = true ∧ a.getReg ≠ 0 ∧ a.isUse = true := by
        simpa [Bool.and_eq_true, and_assoc] using hc
      have key : ReadsReg TRI a x ↔ (x = a.getReg ∨
          (TRI.isPhysicalRegister a.getReg = true ∧ x ∈ TRI.aliases a.getReg)) :=
        ⟨fun h => h.2.2.2, fun h => ⟨hw.1, hw.2.1, hw.2.2, h⟩⟩
      by_cases hp : TRI.isPhysicalRegister a.getReg = true
      · rw [if_pos hp]
        simp only [Finset.mem_insert, mem_addAliases, List.mem_cons, exists_eq_or_imp, key]
        tauto
      · rw [if_neg hp]
        simp only [Finset.mem_insert, List.mem_cons, exists_eq_or_imp, key]
        tauto
    · rw [if_neg hc]
      have hw : ¬ (a.isReg = true ∧ a.getReg ≠ 0 ∧ a.isUse = true) := by
        simpa [Bool.and_eq_true, and_assoc] using hc
      have hn : ¬ ReadsReg TRI a x := fun h => hw ⟨h.1, h.2.1, h.2.2.1⟩
      simp only [List.mem_cons, exists_eq_or_imp, hn, false_or]

theorem mem_getOneInstrRegUses (TRI : TargetRegisterInfo) (instruct : MachineInstr) (x : Nat) :
    x ∈ getOneInstrRegUses TRI instruct ↔ ∃ MOp ∈ instruct.operands, ReadsReg TRI MOp x := by
  unfold getOneInstrRegUses
  rw [mem_usesFold]
  simp

/-! ### The universe of facts built by `doInit` -/

theorem components_insertNew (st : InitState) (r : Nat) (i : InstrPtr) :
    components (st.insertNew r i).RDfactSet = insert (r, i) (components st.RDfactSet) := by
  unfold InitState.insertNew
  exact components_insert _ _

theorem components_aliasFold (i : InstrPtr) (l : List Nat) (st : InitState) :
    components (l.foldl (fun st a => st.insertNew a i) st).RDfactSet =
      components st.RDfactSet ∪ l.toFinset.image (fun a => (a, i)) := by
  induction l generalizing st with
  | nil => simp
  | cons a t ih =>
    simp only [List.foldl_cons]
    rw [ih, components_insertNew]
    ext p
    simp only [Finset.mem_union, Finset.mem_insert, Finset.mem_image, List.mem_toFinset,
      List.mem_cons, exists_eq_or_imp]
    tauto

theorem mem_components_doInitOperand (TRI : TargetRegisterInfo) (i : InstrPtr)
    (st : InitState) (MOp : MachineOperand) (p : Nat × InstrPtr) :
    p ∈ components (doInitOperand TRI i st MOp).RDfactSet ↔
      p ∈ components st.RDfactSet ∨ (p.2 = i ∧ WritesReg TRI MOp p.1) := by
  obtain ⟨r, j⟩ := p
  unfold doInitOperand
  by_cases hc : (MOp.isReg && MOp.getReg != 0 && MOp.isDef) = true
  · rw [if_pos hc]
    have hw : MOp.isReg = true ∧ MOp.getReg ≠ 0 ∧ MOp.isDef = true := by
      simpa [Bool.and_eq_true, and_assoc] using hc
    have key : WritesReg TRI MOp r ↔ (r = MOp.getReg ∨
        (TRI.isPhysicalRegister MOp.getReg = true ∧ r ∈ TRI.aliases MOp.getReg)) :=
      ⟨fun h => h.2.2.2, fun h => ⟨hw.1, hw.2.1, hw.2.2, h⟩⟩
    by_cases hp : TRI.isPhysicalRegister MOp.getReg = true
    · simp only [hp, if_true]
      rw [components_aliasFold, components_insertNew]
      simp only [Finset.mem_union, Finset.mem_insert, Finset.mem_image, List.mem_toFinset,
        Prod.mk.injEq, key, hp, true_and]
      constructor
      · rintro ((⟨rfl, rfl⟩ | h) | ⟨a, ha, rfl, rfl⟩)
        · exact Or.inr ⟨rfl, Or.inl rfl⟩
        · exact Or.inl h
        · exact Or.inr ⟨rfl, Or.inr ha⟩
      · rintro (h | ⟨rfl, rfl | ha⟩)
        · exact Or.inl (Or.inr h)
        · exact Or.inl (Or.inl ⟨rfl, rfl⟩)
        · exact Or.inr ⟨r, ha, rfl, rfl⟩
    · simp only [hp, if_false, Bool.false_eq_true]
      rw [components_insertNew]
      simp only [Finset.mem_insert, Prod.mk.injEq, key, hp, false_and, or_false]
      tauto
  · rw [if_neg hc]
    have hw : ¬ (MOp.isReg = true ∧ MOp.getReg ≠ 0 ∧ MOp.isDef = true) := by
      simpa [Bool.and_eq_true, and_assoc] using hc
    have hn : ¬ WritesReg TRI MOp r := fun h => hw ⟨h.1, h.2.1, h.2.2.1⟩
    simp only [hn, and_false, or_false]

theorem mem_components_operandFold (TRI : TargetRegisterInfo) (i : InstrPtr)
    (ops : List MachineOperand) (st : InitState) (p : Nat × InstrPtr) :
    p ∈ components (ops.foldl (doInitOperand TRI i) st).RDfactSet ↔
      p ∈ components st.RDfactSet ∨ (p.2 = i ∧ ∃ MOp ∈ ops, WritesReg TRI MOp p.1) := by
  induction ops generalizing st with
  | nil => simp
  | cons a t ih =>
    simp only [List.foldl_cons]
    rw [ih, mem_components_doInitOperand]
    simp only [List.mem_cons, exists_eq_or_imp]
    tauto

theorem mem_components_instrFold (TRI : TargetRegisterInfo) (Fn : MachineFunction)
    (L : List InstrPtr) (st : InitState) (p : Nat × InstrPtr) :
    p ∈ components (L.foldl (fun (st : InitState) inst =>
        (Fn.instr inst).operands.foldl (doInitOperand TRI inst)
          { st with
            InstrToNumMap := Function.update st.InstrToNumMap inst st.insNum
            insNum := st.insNum + 1 }) st).RDfactSet ↔
      p ∈ components st.RDfactSet ∨
        (p.2 ∈ L ∧ ∃ MOp ∈ (Fn.instr p.2).operands, WritesReg TRI MOp p.1) := by
  induction L generalizing st with
  | nil => simp
  | cons i t ih =>
    simp only [List.foldl_cons]
    rw [ih, mem_components_operandFold]
    simp only [List.mem_cons]
    constructor
    · rintro ((h | ⟨rfl, h⟩) | ⟨h1, h2⟩)
      · exact Or.inl h
      · exact Or.inr ⟨Or.inl rfl, h⟩
      · exact Or.inr ⟨Or.inr h1, h2⟩
    · rintro (h | ⟨h1 | h1, h2⟩)
      · exact Or.inl (Or.inl h)
      · exact Or.inl (Or.inr ⟨h1, h1 ▸ h2⟩)
      · exact Or.inr ⟨h1, h2⟩

theorem mem_components_blockFold (TRI : TargetRegisterInfo) (Fn : MachineFunction)
    (B : List Nat) (st : InitState) (p : Nat × InstrPtr) :
    p ∈ components (B.foldl (fun (st : InitState) b =>
        (instrPtrs Fn b).foldl (fun (st : InitState) inst =>
          (Fn.instr inst).operands.foldl (doInitOperand TRI inst)
            { st with
              InstrToNumMap := Function.update st.InstrToNumMap inst st.insNum
              insNum := st.insNum + 1 }) st) st).RDfactSet ↔
      p ∈ components st.RDfactSet ∨
        ((∃ b ∈ B, p.2 ∈ instrPtrs Fn b) ∧
          ∃ MOp ∈ (Fn.instr p.2).operands, WritesReg TRI MOp p.1) := by
  induction B generalizing st with
  | nil => simp
  | cons b t ih =>
    simp only [List.foldl_cons]
    rw [ih, mem_components_instrFold]
    simp only [List.mem_cons, exists_eq_or_imp]
    generalize (∃ MOp ∈ (Fn.instr p.2).operands, WritesReg TRI MOp p.1) = W
    generalize (∃ b ∈ t, p.2 ∈ instrPtrs Fn b) = E
    tauto

/-- The pairs of the universe: a pair is present exactly when its instruction
belongs to the function and one of the instruction's operands writes the
register. -/
theorem mem_components_doInit (TRI : TargetRegisterInfo) (Fn : MachineFunction) (h0 : Nat)
    (p : Nat × InstrPtr) :
    p ∈ components (doInit TRI Fn h0).RDfactSet ↔
      (∃ b, b < Fn.length ∧ p.2 ∈ instrPtrs Fn b) ∧
        ∃ MOp ∈ (Fn.instr p.2).operands, WritesReg TRI MOp p.1 := by
  unfold doInit
  rw [mem_components_blockFold]
  simp [components]

theorem instrPtrs_of_le (Fn : MachineFunction) {b : Nat} (h : Fn.length ≤ b) :
    instrPtrs Fn b = [] := by
  unfold instrPtrs
  rw [block_of_le Fn h]
  rfl

theorem lt_of_mem_instrPtrs (Fn : MachineFunction) {b : Nat} {i : InstrPtr}
    (h : i ∈ instrPtrs Fn b) : b < Fn.length := by
  by_contra hb
  rw [instrPtrs_of_le Fn (Nat.le_of_not_lt hb)] at h
  exact absurd h (List.not_mem_nil _)

theorem mem_blockDefPairs (TRI : TargetRegisterInfo) (Fn : MachineFunction) (bb : Nat)
    (p : Nat × InstrPtr) :
    p ∈ blockDefPairs TRI Fn bb ↔
      p.2 ∈ instrPtrs Fn bb ∧ p.1 ∈ getOneInstrRegDefs TRI (Fn.instr p.2) := by
  obtain ⟨r, i⟩ := p
  unfold blockDefPairs
  simp only [Finset.mem_biUnion, List.mem_toFinset, Finset.mem_image, Prod.mk.injEq]
  constructor
  · rintro ⟨j, hj, d, hd, rfl, rfl⟩
    exact ⟨hj, hd⟩
  · rintro ⟨hj, hd⟩
    exact ⟨i, hj, r, hd, rfl, rfl⟩

/-! ### `getRDkill` -/

theorem mem_getRDkill (TRI : TargetRegisterInfo) (Fn : MachineFunction) (R : Finset RDfact)
    (bb : Nat) (f : RDfact) :
    f ∈ getRDkill TRI Fn R bb ↔
      f ∈ R ∧ ∃ i ∈ instrPtrs Fn bb, f.getReg ∈ getOneInstrRegDefs TRI (Fn.instr i) := by
  unfold getRDkill
  have inner : ∀ (l : List Nat) (acc : Finset RDfact),
      f ∈ l.foldl (fun result oneDef =>
        result ∪ R.filter (fun oneRDfact => oneRDfact.getReg = oneDef)) acc ↔
      f ∈ acc ∨ (f ∈ R ∧ f.getReg ∈ l) := by
    intro l acc
    rw [Solver.mem_foldl_union (fun oneDef =>
      R.filter (fun oneRDfact => oneRDfact.getReg = oneDef)) l acc f]
    simp only [Finset.mem_filter]
    constructor
    · rintro (h | ⟨s, hs, hR, rfl⟩)
      · exact Or.inl h
      · exact Or.inr ⟨hR, hs⟩
    · rintro (h | ⟨hR, hs⟩)
      · exact Or.inl h
      · exact Or.inr ⟨_, hs, hR, rfl⟩
  have outer : ∀ (L : List InstrPtr) (acc : Finset RDfact),
      f ∈ L.foldl (fun result instruct =>
        (setToList (getOneInstrRegDefs TRI (Fn.instr instruct))).foldl (fun result oneDef =>
          result ∪ R.filter (fun oneRDfact => oneRDfact.getReg = oneDef)) result) acc ↔
      f ∈ acc ∨ (f ∈ R ∧ ∃ i ∈ L, f.getReg ∈ getOneInstrRegDefs TRI (Fn.instr i)) := by
    intro L
    induction L with
    | nil => intro acc; simp
    | cons i t ih =>
      intro acc
      simp only [List.foldl_cons]
      rw [ih, inner, mem_setToList]
      simp only [List.mem_cons, exists_eq_or_imp]
      generalize (∃ a ∈ t, f.getReg ∈ getOneInstrRegDefs TRI (Fn.instr a)) = E
      tauto
  rw [outer]
  simp

/-- After the first `m` blocks of the initialisation loop, their `RDkillMap`
entries are the results of `getRDkill`. -/
theorem rdefsInit_kill_upto (TRI : TargetRegisterInfo) (Fn : MachineFunction)
    (R : Finset RDfact) (h0 m : Nat) :
    ∀ b, b < m → ((List.range m).foldl (rdefsInitBlock TRI Fn R)
        ⟨∅, fun _ => ∅, fun _ => ∅, fun _ => ∅, fun _ => ∅, h0⟩).RDkillMap b =
      getRDkill TRI Fn R b := by
  induction m with
  | zero => exact fun b hb => absurd hb (Nat.not_lt_zero b)
  | succ m ih =>
    rw [List.range_succ, List.foldl_append]
    intro b hb
    simp only [List.foldl_cons, List.foldl_nil, rdefsInitBlock, Function.update_apply]
    split_ifs with hbm
    · rw [hbm]
    · exact ih b (by omega)

/-- The Gen and Kill maps that `analyzeBasicBlocksRDefs` leaves are those of its
first loop: for a block of the function, Kill is `getRDkill` and Gen has the
pairs of the block's definitions. -/
theorem analyzeRD_gen_kill (TRI : TargetRegisterInfo) (Fn : MachineFunction)
    (R : Finset RDfact) (h1 : Nat) (b : Nat) (hb : b < Fn.length) :
    (analyzeBasicBlocksRDefs TRI Fn R h1).RDkillMap b = getRDkill TRI Fn R b ∧
    components ((analyzeBasicBlocksRDefs TRI Fn R h1).RDgenMap b) = blockDefPairs TRI Fn b := by
  have hs := (rdefsLoop_abstract Fn (rdefsFuel Fn (rdefsInit TRI Fn R h1))
    (rdefsInit TRI Fn R h1)).2
  have hg : (analyzeBasicBlocksRDefs TRI Fn R h1).RDgenMap = (rdefsInit TRI Fn R h1).RDgenMap :=
    congrArg Solver.gen hs
  have hk : (analyzeBasicBlocksRDefs TRI Fn R h1).RDkillMap =
      (rdefsInit TRI Fn R h1).RDkillMap := congrArg Solver.kill hs
  rw [hg, hk]
  exact ⟨rdefsInit_kill_upto TRI Fn R h1 Fn.length b hb,
    (rdefsInit_upto TRI Fn R h1 Fn.length).2.2.2.2.2.2.2 b hb⟩

/-! ## The universe and the Gen/Kill sets: claims C14, C18, C19, C20 -/

/-- C18. Reaching-definitions universe: after `doInit`, a pair (r, I) is the
pair of some fact of `RDfactSet` exactly when I is an instruction of the
function and some operand of I is a register def of a register other than 0
(register 0 stands for no register) such that r is that register, or that
register is physical and r is in its alias list. -/
theorem universe_is_def_pairs (TRI : TargetRegisterInfo) (Fn : MachineFunction) (h0 : Nat)
    (r : Nat) (I : InstrPtr) :
    (r, I) ∈ components (doInit TRI Fn h0).RDfactSet ↔
      (∃ b, b < Fn.length ∧ I ∈ instrPtrs Fn b) ∧
      ∃ MOp ∈ (Fn.instr I).operands,
        MOp.isReg = true ∧ MOp.getReg ≠ 0 ∧ MOp.isDef = true ∧
        (r = MOp.getReg ∨
          (TRI.isPhysicalRegister MOp.getReg = true ∧ r ∈ TRI.aliases MOp.getReg)) :=
  mem_components_doInit TRI Fn h0 (r, I)

/-- C19. Reaching-definitions Gen: for every block, the pairs of `getRDgen` of
the block are the pairs of the universe `RDfactSet` whose instruction belongs to
the block. -/
theorem gen_is_universe_of_block (TRI : TargetRegisterInfo) (Fn : MachineFunction)
    (bb h h0 : Nat) :
    components (getRDgen TRI Fn bb h).1 =
      (components (doInit TRI Fn h0).RDfactSet).filter (fun p => p.2 ∈ instrPtrs Fn bb) := by
  ext p
  rw [(getRDgen_spec TRI Fn bb h).2.2, mem_blockDefPairs, Finset.mem_filter,
    mem_components_doInit, mem_getOneInstrRegDefs]
  constructor
  · rintro ⟨hi, hd⟩
    exact ⟨⟨⟨bb, lt_of_mem_instrPtrs Fn hi, hi⟩, hd⟩, hi⟩
  · rintro ⟨⟨_, hd⟩, hi⟩
    exact ⟨hi, hd⟩

/-- C20. Reaching-definitions Kill: for every block, `getRDkill` on the universe
built by `doInit` holds exactly the facts of the universe whose register is in
`getOneInstrRegDefs` of some instruction of the block; in particular every fact
of the universe whose instruction lies in the block itself is in it. -/
theorem kill_is_universe_by_register (TRI : TargetRegisterInfo) (Fn : MachineFunction)
    (bb h0 : Nat) :
    (∀ f, f ∈ getRDkill TRI Fn (doInit TRI Fn h0).RDfactSet bb ↔
      f ∈ (doInit TRI Fn h0).RDfactSet ∧
        ∃ i ∈ instrPtrs Fn bb, f.getReg ∈ getOneInstrRegDefs TRI (Fn.instr i)) ∧
    (∀ f ∈ (doInit TRI Fn h0).RDfactSet, f.getInstr ∈ instrPtrs Fn bb →
      f ∈ getRDkill TRI Fn (doInit TRI Fn h0).RDfactSet bb) := by
  refine ⟨fun f => mem_getRDkill TRI Fn _ bb f, fun f hf hi => ?_⟩
  rw [mem_getRDkill]
  refine ⟨hf, f.getInstr, hi, ?_⟩
  have hp : (f.myReg, f.myInstr) ∈ components (doInit TRI Fn h0).RDfactSet :=
    (mem_components _ _).2 ⟨f, hf, rfl⟩
  rw [mem_components_doInit] at hp
  exact (mem_getOneInstrRegDefs TRI _ _).2 hp.2

/-- C14. Alias closure in reaching-definitions Gen/Kill: when instruction
`(bb, k)` of the function has a register def operand of a physical register
`P` (not register 0) and `Q` is in the alias list of `P`, then after `doInit`
and `analyzeBasicBlocksRDefs` the Gen set of block `bb` holds a fact with
components `(Q, (bb, k))` and so does the Kill set of block `bb`. -/
theorem rd_gen_kill_alias_closure (TRI : TargetRegisterInfo) (Fn : MachineFunction)
    (h0 bb k : Nat) (MOp : MachineOperand) (Q : Nat)
    (hk : k < (Fn.block bb).instrs.length) (hop : MOp ∈ (Fn.instr (bb, k)).operands)
    (hreg : MOp.isReg = true) (hnz : MOp.getReg ≠ 0) (hdef : MOp.isDef = true)
    (hphys : TRI.isPhysicalRegister MOp.getReg = true) (hQ : Q ∈ TRI.aliases MOp.getReg) :
    (Q, (bb, k)) ∈ components ((runReachingDefs TRI Fn h0).blocks.RDgenMap bb) ∧
    (Q, (bb, k)) ∈ components ((runReachingDefs TRI Fn h0).blocks.RDkillMap bb) := by
  have hi : (bb, k) ∈ instrPtrs Fn bb := (mem_instrPtrs Fn bb (bb, k)).2 ⟨rfl, hk⟩
  have hb : bb < Fn.length := lt_of_mem_instrPtrs Fn hi
  have hw : ∃ M ∈ (Fn.instr (bb, k)).operands, WritesReg TRI M Q :=
    ⟨MOp, hop, hreg, hnz, hdef, Or.inr ⟨hphys, hQ⟩⟩
  have hd : Q ∈ getOneInstrRegDefs TRI (Fn.instr (bb, k)) :=
    (mem_getOneInstrRegDefs TRI _ _).2 hw
  obtain ⟨e1, e2⟩ := analyzeRD_gen_kill TRI Fn (doInit TRI Fn h0).RDfactSet
    (doInit TRI Fn h0).heapNext bb hb
  have e1' : (runReachingDefs TRI Fn h0).blocks.RDkillMap bb =
      getRDkill TRI Fn (doInit TRI Fn h0).RDfactSet bb := e1
  have e2' : components ((runReachingDefs TRI Fn h0).blocks.RDgenMap bb) =
      blockDefPairs TRI Fn bb := e2
  constructor
  · rw [e2', mem_blockDefPairs]
    exact ⟨hi, hd⟩
  · have hu : (Q, (bb, k)) ∈ components (doInit TRI Fn h0).RDfactSet :=
      (mem_components_doInit TRI Fn h0 _).2 ⟨⟨bb, hb, hi⟩, hw⟩
    obtain ⟨f, hf, hfp⟩ := (mem_components _ _).1 hu
    rw [e1']
    refine (mem_components _ _).2 ⟨f, ?_, hfp⟩
    rw [mem_getRDkill]
    have h1 : f.myReg = Q := congrArg Prod.fst hfp
    exact ⟨hf, (bb, k), hi, by rw [RDfact.getReg, h1]; exact hd⟩

/-- Witness for C14: block 1 of the alias chain, register 2. -/
theorem rd_gen_kill_alias_closure_witness :
    (2, (1, 0)) ∈ components
      ((runReachingDefs Examples.tri Examples.aliasFn 0).blocks.RDgenMap 1) ∧
    (2, (1, 0)) ∈ components
      ((runReachingDefs Examples.tri Examples.aliasFn 0).blocks.RDkillMap 1) :=
  rd_gen_kill_alias_closure Examples.tri Examples.aliasFn 0 1 0 (Examples.defOp 1) 2
    (by decide) (by decide) rfl (by decide) rfl (by decide) (by decide)

/-! ## The liveness Gen set: claims C16, C17 -/

theorem upwardsExposedLoop_cons (TRI : TargetRegisterInfo) (a : MachineInstr)
    (t : List MachineInstr) (R D : Finset Nat) :
    upwardsExposedLoop TRI (a :: t) (R, D) =
      upwardsExposedLoop TRI t
        (R ∪ (getOneInstrRegUses TRI a).filter (fun r => r ∉ D),
         D ∪ getOneInstrRegDefs TRI a) := rfl

/-- The loop of `getUpwardsExposedUses` from an arbitrary accumulator, by
positions in the instruction list. -/
theorem mem_upwardsExposedLoop (TRI : TargetRegisterInfo) (l : List MachineInstr)
    (R D : Finset Nat) (r : Nat) :
    r ∈ (upwardsExposedLoop TRI l (R, D)).1 ↔
      r ∈ R ∨ (r ∉ D ∧ ∃ k, k < l.length ∧ r ∈ getOneInstrRegUses TRI (l.getD k ⟨[]⟩) ∧
        ∀ j, j < k → r ∉ getOneInstrRegDefs TRI (l.getD j ⟨[]⟩)) := by
  induction l generalizing R D with
  | nil =>
    constructor
    · exact fun h => Or.inl h
    · rintro (h | ⟨_, k, hk, _⟩)
      · exact h
      · exact absurd hk (Nat.not_lt_zero k)
  | cons a t ih =>
    rw [upwardsExposedLoop_cons, ih]
    constructor
    · rintro (h | ⟨hD, k, hk, hu, hd⟩)
      · rcases Finset.mem_union.1 h with h1 | h1
        · exact Or.inl h1
        · rw [Finset.mem_filter] at h1
          exact Or.inr ⟨h1.2, 0, Nat.succ_pos _, h1.1, fun j hj => absurd hj (Nat.not_lt_zero j)⟩
      · rw [Finset.mem_union, not_or] at hD
        refine Or.inr ⟨hD.1, k + 1, Nat.succ_lt_succ hk, hu, fun j hj => ?_⟩
        cases j with
        | zero => exact hD.2
        | succ j => exact hd j (Nat.lt_of_succ_lt_succ hj)
    · rintro (h | ⟨hD, k, hk, hu, hd⟩)
      · exact Or.inl (Finset.mem_union.2 (Or.inl h))
      · cases k with
        | zero =>
          exact Or.inl (Finset.mem_union.2 (Or.inr (Finset.mem_filter.2 ⟨hu, hD⟩)))
        | succ k =>
          refine Or.inr ⟨?_, k, Nat.lt_of_succ_lt_succ hk, hu, fun j hj => ?_⟩
          · rw [Finset.mem_union, not_or]
            exact ⟨hD, hd 0 (Nat.succ_pos _)⟩
          · exact hd (j + 1) (Nat.succ_lt_succ hj)

/-- C17. Liveness Gen is the upward-exposed-use set: a register is in
`getUpwardsExposedUses` of block `b` exactly when some instruction of `b`, at
a position `k`, has it in `getOneInstrRegUses` and no instruction of `b` at a
position before `k` has it in `getOneInstrRegDefs`; the instruction at `k`
itself is not asked about its defs, so a register it both uses and defines
counts as used. -/
theorem gen_is_upward_exposed_uses (TRI : TargetRegisterInfo) (Fn : MachineFunction)
    (b r : Nat) :
    r ∈ getUpwardsExposedUses TRI (Fn.block b) ↔
      ∃ k, k < (Fn.block b).instrs.length ∧ r ∈ getOneInstrRegUses TRI (Fn.instr (b, k)) ∧
        ∀ j, j < k → r ∉ getOneInstrRegDefs TRI (Fn.instr (b, j)) := by
  unfold getUpwardsExposedUses
  rw [mem_upwardsExposedLoop]
  simp only [Finset.not_mem_empty, false_or, not_false_eq_true, true_and]
  rfl

/-- C16, as stated, fails on block 2 of the alias chain, whose only
instruction uses physical register 2: register 1, the alias of 2, is in
`getUpwardsExposedUses` although no operand of the block is a use of 1. -/
theorem gen_holds_alias_of_use :
    ¬ (∀ r ∈ getUpwardsExposedUses Examples.tri (Examples.aliasFn.block 2),
        ∃ instruct ∈ (Examples.aliasFn.block 2).instrs, ∃ MOp ∈ instruct.operands,
          MOp.isReg = true ∧ MOp.isUse = true ∧ MOp.getReg = r) := by
  decide

/-- C16, amended. Every register in `getUpwardsExposedUses` of a block comes
from a use operand of an instruction of the block: it is the register of a
register use operand (of a register other than 0), or that register is
physical and it is in its alias list. -/
theorem gen_from_use_operands (TRI : TargetRegisterInfo) (bb : MachineBasicBlock) (r : Nat)
    (hr : r ∈ getUpwardsExposedUses TRI bb) :
    ∃ instruct ∈ bb.instrs, ∃ MOp ∈ instruct.operands,
      MOp.isReg = true ∧ MOp.getReg ≠ 0 ∧ MOp.isUse = true ∧
      (r = MOp.getReg ∨
        (TRI.isPhysicalRegister MOp.getReg = true ∧ r ∈ TRI.aliases MOp.getReg)) := by
  unfold getUpwardsExposedUses at hr
  rw [mem_upwardsExposedLoop] at hr
  rcases hr with h | ⟨_, k, hk, hu, _⟩
  · exact absurd h (Finset.not_mem_empty r)
  · rw [List.getD_eq_getElem _ _ hk] at hu
    exact ⟨bb.instrs[k], List.getElem_mem _, (mem_getOneInstrRegUses TRI _ _).1 hu⟩

/-- Witness for the amended C16: register 1 in the Gen set of block 2 of the
alias chain. -/
theorem gen_from_use_operands_witness :
    1 ∈ getUpwardsExposedUses Examples.tri (Examples.aliasFn.block 2) ∧
    ∃ instruct ∈ (Examples.aliasFn.block 2).instrs, ∃ MOp ∈ instruct.operands,
      MOp.isReg = true ∧ MOp.getReg ≠ 0 ∧ MOp.isUse = true ∧
      (1 = MOp.getReg ∨
        (Examples.tri.isPhysicalRegister MOp.getReg = true ∧
          1 ∈ Examples.tri.aliases MOp.getReg)) :=
  ⟨by decide, gen_from_use_operands Examples.tri (Examples.aliasFn.block 2) 1 (by decide)⟩

/-! ## Behaviour on the examples: claims C11, C12, C13, C15 -/

/-- C11. Set combinators, evaluated on the sets that
`analyzeInstructionsRDefs` passes them at the instruction of block 0 of the
two-block loop: `RDsetSubtract` of the RD-before set and the kill set returns
the RD-before set, although its fact has the (register, instruction) pair of
the fact in the kill set; `RDsetUnion` of that set and the gen set holds two
facts with the same pair. -/
theorem set_combinators_compare_pointers :
    (runReachingDefs Examples.tri Examples.loopFn 0).instrs.insRDbeforeMap (0, 0) =
      {⟨1, 1024, (0, 0)⟩} ∧
    (doInit Examples.tri Examples.loopFn 0).RDfactSet = {⟨0, 1024, (0, 0)⟩} ∧
    RDsetSubtract {⟨1, 1024, (0, 0)⟩} {⟨0, 1024, (0, 0)⟩} = {⟨1, 1024, (0, 0)⟩} ∧
    RDsetUnion {⟨1, 1024, (0, 0)⟩} {⟨2, 1024, (0, 0)⟩} =
      {⟨1, 1024, (0, 0)⟩, ⟨2, 1024, (0, 0)⟩} ∧
    (runReachingDefs Examples.tri Examples.loopFn 0).instrs.insRDafterMap (0, 0) =
      {⟨1, 1024, (0, 0)⟩, ⟨2, 1024, (0, 0)⟩} := by
  decide

/-- C12. Deduplication, evaluated on the two-block loop: after `doInit` and
`doReachingDefsAnalysis` the RD-after set of the instruction of block 0 holds
two distinct entries with register 1024 and that instruction. -/
theorem ins_rdafter_holds_duplicate :
    ∃ f ∈ (runReachingDefs Examples.tri Examples.loopFn 0).instrs.insRDafterMap (0, 0),
    ∃ g ∈ (runReachingDefs Examples.tri Examples.loopFn 0).instrs.insRDafterMap (0, 0),
      f ≠ g ∧ f.getReg = g.getReg ∧ f.getInstr = g.getInstr := by
  decide

/-- C13. Alias closure in liveness Kill, evaluated on block 1 of the alias
chain: its instruction has a def operand of physical register 1, register 2 is
in the alias list of 1, and the Kill set of the block, `getAllDefs`, is {1}:
it does not hold 2. -/
theorem live_kill_lacks_alias :
    Examples.defOp 1 ∈ (Examples.aliasFn.instr (1, 0)).operands ∧
    Examples.tri.isPhysicalRegister 1 = true ∧
    2 ∈ Examples.tri.aliases 1 ∧
    getAllDefs (Examples.aliasFn.block 1) = {1} ∧
    (analyzeBasicBlocksLiveVars Examples.tri Examples.aliasFn).liveVarsKillMap 1 = {1} ∧
    2 ∉ (analyzeBasicBlocksLiveVars Examples.tri Examples.aliasFn).liveVarsKillMap 1 := by
  decide

/-- C15. Alias symmetry, kill half, evaluated on the block
[def 2; def 1] with 2 in the alias list of physical register 1: the RD-after
set of the second instruction still holds a fact with register 2 and the
first instruction. -/
theorem alias_def_survives_redefinition :
    Examples.defOp 1 ∈ (Examples.aliasDefsFn.instr (0, 1)).operands ∧
    Examples.tri.isPhysicalRegister 1 = true ∧
    2 ∈ Examples.tri.aliases 1 ∧
    (2, (0, 0)) ∈ components
      ((runReachingDefs Examples.tri Examples.aliasDefsFn 0).instrs.insRDafterMap (0, 1)) := by
  decide

/-! ## Alias expansion and `getDefReg`: claims C21, C22, C28 -/

theorem mem_expandReg (TRI : TargetRegisterInfo) (r x : Nat) :
    x ∈ expandReg TRI r ↔ x = r ∨ (TRI.isPhysicalRegister r = true ∧ x ∈ TRI.aliases r) := by
  unfold expandReg
  rw [Finset.mem_insert, mem_addAliases]
  simp

/-- C21. Alias Expander contract: `getOneInstrRegUses` is the union, over the
operands that are register uses of a register other than 0, of the register
alone when it is virtual and of the register with its alias list when it is
physical; `getOneInstrRegDefs` is the same union over the register def
operands. -/
theorem alias_expander_contract (TRI : TargetRegisterInfo) (instruct : MachineInstr) :
    getOneInstrRegUses TRI instruct =
      (instruct.operands.filter
        (fun MOp => MOp.isReg && MOp.getReg != 0 && MOp.isUse)).toFinset.biUnion
        (fun MOp =>
          if TRI.isPhysicalRegister MOp.getReg then
            insert MOp.getReg (TRI.aliases MOp.getReg).toFinset
          else {MOp.getReg}) ∧
    getOneInstrRegDefs TRI instruct =
      (instruct.operands.filter
        (fun MOp => MOp.isReg && MOp.getReg != 0 && MOp.isDef)).toFinset.biUnion
        (fun MOp =>
          if TRI.isPhysicalRegister MOp.getReg then
            insert MOp.getReg (TRI.aliases MOp.getReg).toFinset
          else {MOp.getReg}) := by
  constructor
  · ext x
    rw [mem_getOneInstrRegUses]
    simp only [Finset.mem_biUnion, List.mem_toFinset, List.mem_filter, Bool.and_eq_true,
      bne_iff_ne, ne_eq, ReadsReg]
    constructor
    · rintro ⟨MOp, hm, h1, h2, h3, h4⟩
      refine ⟨MOp, ⟨hm, ⟨h1, h2⟩, h3⟩, ?_⟩
      by_cases hp : TRI.isPhysicalRegister MOp.getReg = true
      · rw [if_pos hp]
        rcases h4 with h | ⟨_, h⟩
        · exact Finset.mem_insert.2 (Or.inl h)
        · exact Finset.mem_insert.2 (Or.inr (List.mem_toFinset.2 h))
      · rw [if_neg hp]
        rcases h4 with h | ⟨h, _⟩
        · exact Finset.mem_singleton.2 h
        · exact absurd h hp
    · rintro ⟨MOp, ⟨hm, ⟨h1, h2⟩, h3⟩, hx⟩
      refine ⟨MOp, hm, h1, h2, h3, ?_⟩
      by_cases hp : TRI.isPhysicalRegister MOp.getReg = true
      · rw [if_pos hp] at hx
        rcases Finset.mem_insert.1 hx with h | h
        · exact Or.inl h
        · exact Or.inr ⟨hp, List.mem_toFinset.1 h⟩
      · rw [if_neg hp] at hx
        exact Or.inl (Finset.mem_singleton.1 hx)
  · ext x
    rw [mem_getOneInstrRegDefs]
    simp only [Finset.mem_biUnion, List.mem_toFinset, List.mem_filter, Bool.and_eq_true,
      bne_iff_ne, ne_eq, WritesReg]
    constructor
    · rintro ⟨MOp, hm, h1, h2, h3, h4⟩
      refine ⟨MOp, ⟨hm, ⟨h1, h2⟩, h3⟩, ?_⟩
      by_cases hp : TRI.isPhysicalRegister MOp.getReg = true
      · rw [if_pos hp]
        rcases h4 with h | ⟨_, h⟩
        · exact Finset.mem_insert.2 (Or.inl h)
        · exact Finset.mem_insert.2 (Or.inr (List.mem_toFinset.2 h))
      · rw [if_neg hp]
        rcases h4 with h | ⟨h, _⟩
        · exact Finset.mem_singleton.2 h
        · exact absurd h hp
    · rintro ⟨MOp, ⟨hm, ⟨h1, h2⟩, h3⟩, hx⟩
      refine ⟨MOp, hm, h1, h2, h3, ?_⟩
      by_cases hp : TRI.isPhysicalRegister MOp.getReg = true
      · rw [if_pos hp] at hx
        rcases Finset.mem_insert.1 hx with h | h
        · exact Or.inl h
        · exact Or.inr ⟨hp, List.mem_toFinset.1 h⟩
      · rw [if_neg hp] at hx
        exact Or.inl (Finset.mem_singleton.1 hx)

/-- C22, as stated, fails for the register with two halves: the expansion of
half 1 is {1, 3}, and expanding its members adds the other half 2. -/
theorem expansion_not_closed_on_halves :
    expandReg Examples.subRegTri 1 = {1, 3} ∧
    (expandReg Examples.subRegTri 1).biUnion (expandReg Examples.subRegTri) = {1, 2, 3} ∧
    (expandReg Examples.subRegTri 1).biUnion (expandReg Examples.subRegTri) ≠
      expandReg Examples.subRegTri 1 := by
  decide

/-- C22, amended. Expanding the members of an expansion never loses a
register, and it adds none exactly when the alias table is closed at `r`:
when `r` is physical, every entry of the alias list of a physical alias of `r`
is `r` or an entry of the alias list of `r`. -/
theorem expansion_closed_iff (TRI : TargetRegisterInfo) (r : Nat) :
    expandReg TRI r ⊆ (expandReg TRI r).biUnion (expandReg TRI) ∧
    ((expandReg TRI r).biUnion (expandReg TRI) = expandReg TRI r ↔
      (TRI.isPhysicalRegister r = true →
        ∀ q ∈ TRI.aliases r, TRI.isPhysicalRegister q = true →
          ∀ a ∈ TRI.aliases q, a = r ∨ a ∈ TRI.aliases r)) := by
  have hsub : expandReg TRI r ⊆ (expandReg TRI r).biUnion (expandReg TRI) := by
    intro x hx
    rw [Finset.mem_biUnion]
    exact ⟨x, hx, (mem_expandReg TRI x x).2 (Or.inl rfl)⟩
  refine ⟨hsub, ?_, ?_⟩
  · intro heq hp q hq hpq a ha
    have hmem : a ∈ (expandReg TRI r).biUnion (expandReg TRI) := by
      rw [Finset.mem_biUnion]
      exact ⟨q, (mem_expandReg TRI r q).2 (Or.inr ⟨hp, hq⟩),
        (mem_expandReg TRI q a).2 (Or.inr ⟨hpq, ha⟩)⟩
    rw [heq, mem_expandReg] at hmem
    rcases hmem with h | ⟨_, h⟩
    · exact Or.inl h
    · exact Or.inr h
  · intro hcl
    apply Finset.Subset.antisymm _ hsub
    intro a ha
    rw [Finset.mem_biUnion] at ha
    obtain ⟨q, hq, haq⟩ := ha
    rw [mem_expandReg] at hq haq
    rcases hq with rfl | ⟨hp, hq⟩
    · exact (mem_expandReg TRI q a).2 haq
    · rcases haq with rfl | ⟨hpq, haq⟩
      · exact (mem_expandReg TRI r a).2 (Or.inr ⟨hp, hq⟩)
      · rcases hcl hp q hq hpq a haq with h | h
        · exact (mem_expandReg TRI r a).2 (Or.inl h)
        · exact (mem_expandReg TRI r a).2 (Or.inr ⟨hp, h⟩)

theorem getDefRegLoop_none (ops : List MachineOperand)
    (h : ∀ MOp ∈ ops, ¬ (MOp.isReg = true ∧ MOp.getReg ≠ 0 ∧ MOp.isDef = true)) :
    getDefRegLoop ops = Outcome.exits 1 := by
  induction ops with
  | nil => rfl
  | cons a t ih =>
    unfold getDefRegLoop
    have ha := h a (List.mem_cons_self _ _)
    have hc : ¬ (a.isReg && a.getReg != 0 && a.isDef) = true := by
      simpa [Bool.and_eq_true, and_assoc] using ha
    rw [if_neg hc]
    exact ih (fun m hm => h m (List.mem_cons_of_mem _ hm))

theorem getDefRegLoop_first (pre : List MachineOperand) (MOp : MachineOperand)
    (post : List MachineOperand)
    (hpre : ∀ x ∈ pre, ¬ (x.isReg = true ∧ x.getReg ≠ 0 ∧ x.isDef = true))
    (h : MOp.isReg = true ∧ MOp.getReg ≠ 0 ∧ MOp.isDef = true) :
    getDefRegLoop (pre ++ MOp :: post) = Outcome.returns MOp.getReg := by
  induction pre with
  | nil =>
    simp only [List.nil_append]
    unfold getDefRegLoop
    have hc : (MOp.isReg && MOp.getReg != 0 && MOp.isDef) = true := by
      simpa [Bool.and_eq_true, and_assoc] using h
    rw [if_pos hc]
  | cons a t ih =>
    simp only [List.cons_append]
    unfold getDefRegLoop
    have ha := hpre a (List.mem_cons_self _ _)
    have hc : ¬ (a.isReg && a.getReg != 0 && a.isDef) = true := by
      simpa [Bool.and_eq_true, and_assoc] using ha
    rw [if_neg hc]
    exact ih (fun m hm => hpre m (List.mem_cons_of_mem _ hm))

theorem getDefRegLoop_exits (ops : List MachineOperand) (code : Nat)
    (h : getDefRegLoop ops = Outcome.exits code) :
    ∀ MOp ∈ ops, ¬ (MOp.isReg = true ∧ MOp.getReg ≠ 0 ∧ MOp.isDef = true) := by
  induction ops with
  | nil => intro m hm; exact absurd hm (List.not_mem_nil _)
  | cons a t ih =>
    unfold getDefRegLoop at h
    by_cases hc : (a.isReg && a.getReg != 0 && a.isDef) = true
    · rw [if_pos hc] at h
      exact absurd h (by simp)
    · rw [if_neg hc] at h
      have ha : ¬ (a.isReg = true ∧ a.getReg ≠ 0 ∧ a.isDef = true) := by
        simpa [Bool.and_eq_true, and_assoc] using hc
      intro m hm
      rcases List.mem_cons.1 hm with rfl | hm
      · exact ha
      · exact ih h m hm

/-- C28. Malformed-instruction error: `getDefReg` ends in the fatal exit
(`exit(1)`) exactly when no operand of the instruction is a register def of a
register other than 0; otherwise it returns the register of the first such
operand in operand order. -/
theorem getDefReg_fatal_iff (instr : MachineInstr) :
    ((∃ code, getDefReg instr = Outcome.exits code) ↔
      ∀ MOp ∈ instr.operands, ¬ (MOp.isReg = true ∧ MOp.getReg ≠ 0 ∧ MOp.isDef = true)) ∧
    ((∀ MOp ∈ instr.operands, ¬ (MOp.isReg = true ∧ MOp.getReg ≠ 0 ∧ MOp.isDef = true)) →
      getDefReg instr = Outcome.exits 1) ∧
    (∀ pre MOp post, instr.operands = pre ++ MOp :: post →
      (∀ x ∈ pre, ¬ (x.isReg = true ∧ x.getReg ≠ 0 ∧ x.isDef = true)) →
      MOp.isReg = true ∧ MOp.getReg ≠ 0 ∧ MOp.isDef = true →
      getDefReg instr = Outcome.returns MOp.getReg) := by
  refine ⟨⟨?_, ?_⟩, ?_, ?_⟩
  · rintro ⟨code, h⟩
    exact getDefRegLoop_exits _ code h
  · intro h
    exact ⟨1, getDefRegLoop_none _ h⟩
  · exact getDefRegLoop_none _
  · intro pre MOp post he hpre h
    unfold getDefReg
    rw [he]
    exact getDefRegLoop_first pre MOp post hpre h

/-! ## The size test of the worklist loops: claim C30 -/

namespace Solver

variable {α : Type} [DecidableEq α]

/-- In a sound state the recomputed `out` set is a superset of the stored one,
differs from it exactly when it is larger, is what the pass leaves in the map,
and the wake list is added to the worklist exactly when it differs. -/
theorem iter_detects_change (S : Solver α) {st : SolverState α} (hs : S.Sound st) (bb : Nat) :
    st.out bb ⊆ S.transfer bb (S.join st.out bb) ∧
    (S.transfer bb (S.join st.out bb) ≠ st.out bb ↔
      (st.out bb).card < (S.transfer bb (S.join st.out bb)).card) ∧
    (S.iter bb st).out bb = S.transfer bb (S.join st.out bb) ∧
    (S.iter bb st).worklist =
      if S.transfer bb (S.join st.out bb) ≠ st.out bb then
        (S.wake bb).foldl (fun w p => insert p w) (st.worklist.erase bb)
      else st.worklist.erase bb := by
  have hiff : S.transfer bb (S.join st.out bb) ≠ st.out bb ↔
      (st.out bb).card < (S.transfer bb (S.join st.out bb)).card := by
    constructor
    · intro hne
      by_contra hlt
      exact hne (S.out_eq_new_of_keep hs bb hlt).symm
    · intro hlt heq
      rw [heq] at hlt
      exact Nat.lt_irrefl _ hlt
  refine ⟨S.out_le_new hs bb, hiff, ?_, ?_⟩
  · by_cases h : (S.transfer bb (S.join st.out bb)).card > (st.out bb).card
    · rw [(S.iter_out_grow bb st h).1, Function.update_same]
    · rw [(S.iter_out_keep bb st h).1]
      exact S.out_eq_new_of_keep hs bb h
  · by_cases h : (S.transfer bb (S.join st.out bb)).card > (st.out bb).card
    · rw [(S.iter_out_grow bb st h).2, if_pos (hiff.2 h)]
    · rw [(S.iter_out_keep bb st h).2, if_neg (fun hne => h (hiff.1 hne))]

end Solver

theorem newLiveBefore_eq (Fn : MachineFunction) (st : LiveState) (bb : Nat) :
    newLiveBefore Fn st bb =
      (st.solver Fn).transfer bb ((st.solver Fn).join st.abstract.out bb) := by
  unfold newLiveBefore computeLiveBefore computeLiveAfter
  simp only [Function.update_same, regSetUnion, regSetSubtract, Solver.transfer, Solver.join,
    LiveState.solver, LiveState.abstract]

theorem newRDafter_eq (Fn : MachineFunction) (st : RDState) (bb : Nat) :
    newRDafter Fn st bb =
      (st.solver Fn).transfer bb ((st.solver Fn).join st.abstract.out bb) := by
  unfold newRDafter computeRDafter computeRDbefore
  simp only [Function.update_same, RDsetUnion, RDsetSubtract, Solver.transfer, Solver.join,
    RDState.solver, RDState.abstract]

/-- C30. Cardinality is an exact change detector: in every state the liveness
loop can reach, the live-before set a pass computes for its block is a superset
of the stored one, differs from it exactly when it has more elements, is the
set found in the map after the pass, and the predecessors are put on the
worklist exactly when it differs; the same holds for the RD-after set and the
successors in the reaching-definitions loop. -/
theorem size_test_detects_change (TRI : TargetRegisterInfo) (Fn : MachineFunction)
    (R : Finset RDfact) (h0 : Nat) :
    (∀ k st bb, LiveRun Fn k (liveVarsInit TRI Fn) st →
      st.liveBeforeMap bb ⊆ newLiveBefore Fn st bb ∧
      (newLiveBefore Fn st bb ≠ st.liveBeforeMap bb ↔
        (st.liveBeforeMap bb).card < (newLiveBefore Fn st bb).card) ∧
      (liveVarsIter Fn bb st).liveBeforeMap bb = newLiveBefore Fn st bb ∧
      (liveVarsIter Fn bb st).worklist =
        if newLiveBefore Fn st bb ≠ st.liveBeforeMap bb then
          (Fn.block bb).preds.foldl (fun w p => insert p w) (st.worklist.erase bb)
        else st.worklist.erase bb) ∧
    (∀ k st bb, RDRun Fn k (rdefsInit TRI Fn R h0) st →
      st.RDafterMap bb ⊆ newRDafter Fn st bb ∧
      (newRDafter Fn st bb ≠ st.RDafterMap bb ↔
        (st.RDafterMap bb).card < (newRDafter Fn st bb).card) ∧
      (rdefsIter Fn bb st).RDafterMap bb = newRDafter Fn st bb ∧
      (rdefsIter Fn bb st).worklist =
        if newRDafter Fn st bb ≠ st.RDafterMap bb then
          (Fn.block bb).succs.foldl (fun w s => insert s w) (st.worklist.erase bb)
        else st.worklist.erase bb) := by
  constructor
  · intro k st bb hr
    obtain ⟨hrun, hsolver⟩ := liveRun_abstract Fn hr
    rw [liveVarsInit_abstract, ← hsolver] at hrun
    have hs := Solver.run_sound _ hrun (Solver.start_sound _ _)
    have e : (liveVarsIter Fn bb st).abstract = _ := liveVarsIter_abstract Fn bb st
    have e1 : (liveVarsIter Fn bb st).liveBeforeMap = ((st.solver Fn).iter bb st.abstract).out :=
      congrArg SolverState.out e
    have e2 : (liveVarsIter Fn bb st).worklist =
        ((st.solver Fn).iter bb st.abstract).worklist := congrArg SolverState.worklist e
    rw [e1, e2, newLiveBefore_eq]
    exact Solver.iter_detects_change _ hs bb
  · intro k st bb hr
    obtain ⟨hrun, hsolver, _⟩ := rdRun_abstract Fn hr
    rw [rdefsInit_abstract, ← hsolver] at hrun
    have hs := Solver.run_sound _ hrun (Solver.start_sound _ _)
    have e : (rdefsIter Fn bb st).abstract = _ := rdefsIter_abstract Fn bb st
    have e1 : (rdefsIter Fn bb st).RDafterMap = ((st.solver Fn).iter bb st.abstract).out :=
      congrArg SolverState.out e
    have e2 : (rdefsIter Fn bb st).worklist =
        ((st.solver Fn).iter bb st.abstract).worklist := congrArg SolverState.worklist e
    rw [e1, e2, newRDafter_eq]
    exact Solver.iter_detects_change _ hs bb

/-! ## Liveness inside a block: claim C23 -/

theorem liveBefore_branches (A uses defs : Finset Nat) :
    (if defs.card != 0 then regSetUnion (regSetSubtract A defs) uses
      else regSetUnion A uses) = (A \ defs) ∪ uses := by
  unfold regSetUnion regSetSubtract
  by_cases h : defs.card = 0
  · have hd : defs = ∅ := Finset.card_eq_zero.1 h
    subst hd
    simp
  · have hb : (defs.card != 0) = true := by simpa using h
    rw [if_pos hb]
    congr 1
    ext x
    simp [Finset.mem_sdiff]

/-- One more instruction at the end of the vector: it is handled first, with
the given live-after set. -/
theorem liveForInstr_snoc (TRI : TargetRegisterInfo) (Fn : MachineFunction)
    (L : List InstrPtr) (x : InstrPtr) (A : Finset Nat) (m : InsLiveMaps) :
    liveForInstr TRI Fn (L ++ [x]) A m =
      liveForInstr TRI Fn L
        ((A \ getOneInstrRegDefs TRI (Fn.instr x)) ∪ getOneInstrRegUses TRI (Fn.instr x))
        { insLiveBeforeMap := Function.update m.insLiveBeforeMap x
            ((A \ getOneInstrRegDefs TRI (Fn.instr x)) ∪ getOneInstrRegUses TRI (Fn.instr x))
          insLiveAfterMap := Function.update m.insLiveAfterMap x A } := by
  unfold liveForInstr
  rw [List.reverse_append, List.reverse_singleton, List.singleton_append, liveForInstrLoop]
  simp only [liveBefore_branches]

theorem liveForInstr_nil (TRI : TargetRegisterInfo) (Fn : MachineFunction)
    (A : Finset Nat) (m : InsLiveMaps) : liveForInstr TRI Fn [] A m = m := rfl

/-- `liveForInstr` on the first `m` positions of block `bb`: other keys are
untouched, every position satisfies the transfer equation, and the live-after
set of a position is the given set for the last one and the live-before set of
the next position otherwise. -/
theorem liveForInstr_positions (TRI : TargetRegisterInfo) (Fn : MachineFunction) (bb m : Nat) :
    ∀ (A : Finset Nat) (maps : InsLiveMaps),
    (∀ j : InstrPtr, (j.1 ≠ bb ∨ m ≤ j.2) →
      (liveForInstr TRI Fn ((List.range m).map (fun k => (bb, k))) A maps).insLiveBeforeMap j =
        maps.insLiveBeforeMap j ∧
      (liveForInstr TRI Fn ((List.range m).map (fun k => (bb, k))) A maps).insLiveAfterMap j =
        maps.insLiveAfterMap j) ∧
    (∀ k, k < m →
      (liveForInstr TRI Fn ((List.range m).map (fun k => (bb, k))) A maps).insLiveBeforeMap
          (bb, k) =
        ((liveForInstr TRI Fn ((List.range m).map (fun k => (bb, k))) A maps).insLiveAfterMap
            (bb, k) \ getOneInstrRegDefs TRI (Fn.instr (bb, k))) ∪
          getOneInstrRegUses TRI (Fn.instr (bb, k))) ∧
    (∀ k, k < m →
      (liveForInstr TRI Fn ((List.range m).map (fun k => (bb, k))) A maps).insLiveAfterMap
          (bb, k) =
        if k + 1 = m then A
        else (liveForInstr TRI Fn ((List.range m).map (fun k => (bb, k))) A maps).insLiveBeforeMap
          (bb, k + 1)) := by
  induction m with
  | zero =>
    intro A maps
    refine ⟨fun j _ => ⟨rfl, rfl⟩, fun k hk => absurd hk (Nat.not_lt_zero k),
      fun k hk => absurd hk (Nat.not_lt_zero k)⟩
  | succ m ih =>
    intro A maps
    rw [List.range_succ, List.map_append, List.map_singleton, liveForInstr_snoc]
    obtain ⟨ha, hb, hc⟩ := ih
      ((A \ getOneInstrRegDefs TRI (Fn.instr (bb, m))) ∪
        getOneInstrRegUses TRI (Fn.instr (bb, m)))
      { insLiveBeforeMap := Function.update maps.insLiveBeforeMap (bb, m)
          ((A \ getOneInstrRegDefs TRI (Fn.instr (bb, m))) ∪
            getOneInstrRegUses TRI (Fn.instr (bb, m)))
        insLiveAfterMap := Function.update maps.insLiveAfterMap (bb, m) A }
    have hm := ha (bb, m) (Or.inr (Nat.le_refl m))
    simp only [Function.update_same] at hm
    refine ⟨?_, ?_, ?_⟩
    · intro j hj
      have hj1 : j.1 ≠ bb ∨ m ≤ j.2 := by
        rcases hj with h | h
        · exact Or.inl h
        · exact Or.inr (by omega)
      have hne : j ≠ (bb, m) := by
        rintro rfl
        rcases hj with h | h
        · exact h rfl
        · simp at h
      have := ha j hj1
      simp only [Function.update_apply, if_neg hne] at this
      exact this
    · intro k hk
      by_cases hkm : k = m
      · subst hkm
        rw [hm.1, hm.2]
      · exact hb k (by omega)
    · intro k hk
      by_cases hkm : k = m
      · subst hkm
        rw [hm.2, if_pos rfl]
      · have hk' : k < m := by omega
        rw [hc k hk']
        by_cases hlast : k + 1 = m
        · rw [if_pos hlast, if_neg (by omega), hlast, hm.1]
        · rw [if_neg hlast, if_neg (by omega)]

/-- The block loop of `analyzeInstructionsLiveVars` after the first `n` blocks:
the recurrence holds in each of them. -/
theorem analyzeInstructionsLiveVars_upto (TRI : TargetRegisterInfo) (Fn : MachineFunction)
    (liveAfterMap : Nat → Finset Nat) (m0 : InsLiveMaps) (n : Nat) :
    ∀ b k, b < n → k < (Fn.block b).instrs.length →
      ((List.range n).foldl (fun m bb =>
          liveForInstr TRI Fn (instrPtrs Fn bb) (liveAfterMap bb) m) m0).insLiveBeforeMap (b, k) =
        (((List.range n).foldl (fun m bb =>
          liveForInstr TRI Fn (instrPtrs Fn bb) (liveAfterMap bb) m) m0).insLiveAfterMap (b, k) \
            getOneInstrRegDefs TRI (Fn.instr (b, k))) ∪
          getOneInstrRegUses TRI (Fn.instr (b, k)) ∧
      ((List.range n).foldl (fun m bb =>
          liveForInstr TRI Fn (instrPtrs Fn bb) (liveAfterMap bb) m) m0).insLiveAfterMap (b, k) =
        if k + 1 = (Fn.block b).instrs.length then liveAfterMap b
        else ((List.range n).foldl (fun m bb =>
          liveForInstr TRI Fn (instrPtrs Fn bb) (liveAfterMap bb) m) m0).insLiveBeforeMap
            (b, k + 1) := by
  induction n with
  | zero => exact fun b k hb => absurd hb (Nat.not_lt_zero b)
  | succ n ih =>
    intro b k hb hk
    rw [List.range_succ, List.foldl_append]
    generalize (List.range n).foldl (fun m bb =>
      liveForInstr TRI Fn (instrPtrs Fn bb) (liveAfterMap bb) m) m0 = st at ih
    simp only [List.foldl_cons, List.foldl_nil]
    obtain ⟨ha, hb1, hc1⟩ := liveForInstr_positions TRI Fn n (Fn.block n).instrs.length
      (liveAfterMap n) st
    by_cases hbn : b = n
    · subst hbn
      exact ⟨hb1 k hk, hc1 k hk⟩
    · have h1 := ha (b, k) (Or.inl hbn)
      have h2 := ha (b, k + 1) (Or.inl hbn)
      obtain ⟨i1, i2⟩ := ih b k (by omega) hk
      unfold instrPtrs
      rw [h1.1, h1.2, h2.1]
      exact ⟨i1, i2⟩

/-- The recurrence in the maps `doLiveAnalysis` leaves. -/
theorem doLiveAnalysis_positions (TRI : TargetRegisterInfo) (Fn : MachineFunction)
    (b k : Nat) (hb : b < Fn.length) (hk : k < (Fn.block b).instrs.length) :
    (doLiveAnalysis TRI Fn).instrs.insLiveBeforeMap (b, k) =
      ((doLiveAnalysis TRI Fn).instrs.insLiveAfterMap (b, k) \
          getOneInstrRegDefs TRI (Fn.instr (b, k))) ∪
        getOneInstrRegUses TRI (Fn.instr (b, k)) ∧
    (doLiveAnalysis TRI Fn).instrs.insLiveAfterMap (b, k) =
      if k + 1 = (Fn.block b).instrs.length then (doLiveAnalysis TRI Fn).blocks.liveAfterMap b
      else (doLiveAnalysis TRI Fn).instrs.insLiveBeforeMap (b, k + 1) :=
  analyzeInstructionsLiveVars_upto TRI Fn _ _ Fn.length b k hb hk

/-- C23. Instruction-level liveness recurrence: after `liveForInstr` on the
instructions of a block with live-after set `A`, the live-after set of the last
instruction is `A`, the live-after set of any other instruction is the
live-before set of the next one, and the live-before set of every instruction
is (its live-after set - `getOneInstrRegDefs`) union `getOneInstrRegUses`; the
same holds in the maps `doLiveAnalysis` leaves, with `A` the block's
`liveAfterMap` entry. -/
theorem ins_liveness_recurrence (TRI : TargetRegisterInfo) (Fn : MachineFunction) :
    (∀ bb A maps k, k < (Fn.block bb).instrs.length →
      (liveForInstr TRI Fn (instrPtrs Fn bb) A maps).insLiveBeforeMap (bb, k) =
        ((liveForInstr TRI Fn (instrPtrs Fn bb) A maps).insLiveAfterMap (bb, k) \
            getOneInstrRegDefs TRI (Fn.instr (bb, k))) ∪
          getOneInstrRegUses TRI (Fn.instr (bb, k)) ∧
      (liveForInstr TRI Fn (instrPtrs Fn bb) A maps).insLiveAfterMap (bb, k) =
        if k + 1 = (Fn.block bb).instrs.length then A
        else (liveForInstr TRI Fn (instrPtrs Fn bb) A maps).insLiveBeforeMap (bb, k + 1)) ∧
    (∀ b k, b < Fn.length → k < (Fn.block b).instrs.length →
      (doLiveAnalysis TRI Fn).instrs.insLiveBeforeMap (b, k) =
        ((doLiveAnalysis TRI Fn).instrs.insLiveAfterMap (b, k) \
            getOneInstrRegDefs TRI (Fn.instr (b, k))) ∪
          getOneInstrRegUses TRI (Fn.instr (b, k)) ∧
      (doLiveAnalysis TRI Fn).instrs.insLiveAfterMap (b, k) =
        if k + 1 = (Fn.block b).instrs.length then (doLiveAnalysis TRI Fn).blocks.liveAfterMap b
        else (doLiveAnalysis TRI Fn).instrs.insLiveBeforeMap (b, k + 1)) := by
  constructor
  · intro bb A maps k hk
    obtain ⟨_, hb, hc⟩ := liveForInstr_positions TRI Fn bb (Fn.block bb).instrs.length A maps
    exact ⟨hb k hk, hc k hk⟩
  · intro b k hb hk
    exact doLiveAnalysis_positions TRI Fn b k hb hk

/-! ## Reaching definitions inside a block: claim C24 -/

/-- C24. Instruction-level reaching-definitions recurrence, evaluated on the
chain 0 -> 1 -> 2 whose blocks 0 and 1 both define register 1024: the only
instruction of block 1 defines a register, its RD-before set is the RD-before
set of the block and holds the pair (1024, instruction of block 0), a pair of
the universe with the defined register; read as pairs, its RD-after set still
holds that pair, whereas (RD-before - universe facts of a defined register)
union {(r, instruction) : r defined} holds only the pair of block 1. -/
theorem ins_rd_recurrence_keeps_killed :
    getOneInstrRegDefs Examples.tri (Examples.overwriteFn.instr (1, 0)) = {1024} ∧
    (runReachingDefs Examples.tri Examples.overwriteFn 0).instrs.insRDbeforeMap (1, 0) =
      (runReachingDefs Examples.tri Examples.overwriteFn 0).blocks.RDbeforeMap 1 ∧
    components ((runReachingDefs Examples.tri Examples.overwriteFn 0).instrs.insRDbeforeMap
      (1, 0)) = {(1024, (0, 0))} ∧
    components ((runReachingDefs Examples.tri Examples.overwriteFn 0).instrs.insRDafterMap
      (1, 0)) = {(1024, (0, 0)), (1024, (1, 0))} ∧
    (components ((runReachingDefs Examples.tri Examples.overwriteFn 0).instrs.insRDbeforeMap
        (1, 0)) \
      (components (doInit Examples.tri Examples.overwriteFn 0).RDfactSet).filter
        (fun p => p.1 ∈ getOneInstrRegDefs Examples.tri (Examples.overwriteFn.instr (1, 0)))) ∪
      (getOneInstrRegDefs Examples.tri (Examples.overwriteFn.instr (1, 0))).image
        (fun r => (r, ((1, 0) : InstrPtr))) = {(1024, (1, 0))} := by
  decide

/-! ## The two liveness scenarios: claims C25, C26 -/

theorem uses_of_use (TRI : TargetRegisterInfo) (r : Nat) (h0 : r ≠ 0)
    (hv : TRI.isPhysicalRegister r = false) :
    getOneInstrRegUses TRI ⟨[Examples.useOp r]⟩ = {r} ∧
    getOneInstrRegDefs TRI ⟨[Examples.useOp r]⟩ = ∅ := by
  simp [getOneInstrRegUses, getOneInstrRegDefs, Examples.useOp, h0, hv]

theorem defs_of_def (TRI : TargetRegisterInfo) (r : Nat) (h0 : r ≠ 0)
    (hv : TRI.isPhysicalRegister r = false) :
    getOneInstrRegUses TRI ⟨[Examples.defOp r]⟩ = ∅ ∧
    getOneInstrRegDefs TRI ⟨[Examples.defOp r]⟩ = {r} := by
  simp [getOneInstrRegUses, getOneInstrRegDefs, Examples.defOp, addAliases, h0, hv]

theorem uses_defs_of_use_def (TRI : TargetRegisterInfo) (r1 r2 : Nat) (h1 : r1 ≠ 0)
    (h2 : r2 ≠ 0) (v1 : TRI.isPhysicalRegister r1 = false)
    (v2 : TRI.isPhysicalRegister r2 = false) :
    getOneInstrRegUses TRI ⟨[Examples.useOp r1, Examples.defOp r2]⟩ = {r1} ∧
    getOneInstrRegDefs TRI ⟨[Examples.useOp r1, Examples.defOp r2]⟩ = {r2} := by
  simp [getOneInstrRegUses, getOneInstrRegDefs, Examples.useOp, Examples.defOp, addAliases,
    h1, h2, v1, v2]

theorem straightLine_consistent (r1 r2 : Nat) : CFGConsistent (Examples.straightLine r1 r2) := by
  constructor
  · intro b hb s hs
    have h0 : b = 0 := by simpa [Examples.straightLine] using hb
    subst h0
    simp [Examples.straightLine, MachineFunction.block] at hs
  · intro b hb p hp
    have h0 : b = 0 := by simpa [Examples.straightLine] using hb
    subst h0
    simp [Examples.straightLine, MachineFunction.block] at hp

/-- C25. Acyclic single-block scenario: on one block without edges holding
`[def r1; use r1, def r2; use r2]` over virtual registers, `doLiveAnalysis`
leaves live-after and live-before of the block empty, and per instruction:
before i1 = {}, after i1 = {r1}, before i2 = {r1}, after i2 = {r2},
before i3 = {r2}, after i3 = {}. -/
theorem straight_line_liveness (TRI : TargetRegisterInfo) (r1 r2 : Nat) (h1 : r1 ≠ 0)
    (h2 : r2 ≠ 0) (v1 : TRI.isPhysicalRegister r1 = false)
    (v2 : TRI.isPhysicalRegister r2 = false) :
    (doLiveAnalysis TRI (Examples.straightLine r1 r2)).blocks.liveAfterMap 0 = ∅ ∧
    (doLiveAnalysis TRI (Examples.straightLine r1 r2)).blocks.liveBeforeMap 0 = ∅ ∧
    (doLiveAnalysis TRI (Examples.straightLine r1 r2)).instrs.insLiveBeforeMap (0, 0) = ∅ ∧
    (doLiveAnalysis TRI (Examples.straightLine r1 r2)).instrs.insLiveAfterMap (0, 0) = {r1} ∧
    (doLiveAnalysis TRI (Examples.straightLine r1 r2)).instrs.insLiveBeforeMap (0, 1) = {r1} ∧
    (doLiveAnalysis TRI (Examples.straightLine r1 r2)).instrs.insLiveAfterMap (0, 1) = {r2} ∧
    (doLiveAnalysis TRI (Examples.straightLine r1 r2)).instrs.insLiveBeforeMap (0, 2) = {r2} ∧
    (doLiveAnalysis TRI (Examples.straightLine r1 r2)).instrs.insLiveAfterMap (0, 2) = ∅ := by
  obtain ⟨k, _, hr⟩ := analyzeLive_run TRI (Examples.straightLine r1 r2)
  have heq := liveRun_equations TRI _ (straightLine_consistent r1 r2) hr
    (analyzeLive_worklist TRI _) 0 (by simp [Examples.straightLine])
  have hblk : (Examples.straightLine r1 r2).block 0 =
      ⟨[⟨[Examples.defOp r1]⟩, ⟨[Examples.useOp r1, Examples.defOp r2]⟩,
        ⟨[Examples.useOp r2]⟩], [], []⟩ := rfl
  have i0 : (Examples.straightLine r1 r2).instr (0, 0) = ⟨[Examples.defOp r1]⟩ := rfl
  have i1 : (Examples.straightLine r1 r2).instr (0, 1) =
      ⟨[Examples.useOp r1, Examples.defOp r2]⟩ := rfl
  have i2 : (Examples.straightLine r1 r2).instr (0, 2) = ⟨[Examples.useOp r2]⟩ := rfl
  have hA : (analyzeBasicBlocksLiveVars TRI (Examples.straightLine r1 r2)).liveAfterMap 0 = ∅ := by
    rw [heq.1, hblk]; rfl
  have hgen : getUpwardsExposedUses TRI ((Examples.straightLine r1 r2).block 0) = ∅ := by
    rw [hblk]
    unfold getUpwardsExposedUses
    rw [upwardsExposedLoop_cons, upwardsExposedLoop_cons, upwardsExposedLoop_cons,
      (defs_of_def TRI r1 h1 v1).1, (defs_of_def TRI r1 h1 v1).2,
      (uses_defs_of_use_def TRI r1 r2 h1 h2 v1 v2).1,
      (uses_defs_of_use_def TRI r1 r2 h1 h2 v1 v2).2,
      (uses_of_use TRI r2 h2 v2).1, (uses_of_use TRI r2 h2 v2).2]
    simp [upwardsExposedLoop, Finset.filter_singleton]
  have hB : (analyzeBasicBlocksLiveVars TRI (Examples.straightLine r1 r2)).liveBeforeMap 0 = ∅ := by
    rw [heq.2, hA, hgen]; simp
  have hrec := fun k hk => doLiveAnalysis_positions TRI (Examples.straightLine r1 r2)
    0 k Nat.zero_lt_one hk
  have hA1 : (doLiveAnalysis TRI (Examples.straightLine r1 r2)).blocks.liveAfterMap 0 = ∅ := hA
  have hlen : ((Examples.straightLine r1 r2).block 0).instrs.length = 3 := rfl
  have e2 := hrec 2 (by rw [hlen]; omega)
  have e1 := hrec 1 (by rw [hlen]; omega)
  have e0 := hrec 0 (by rw [hlen]; omega)
  rw [hlen] at e0 e1 e2
  have a2 : (doLiveAnalysis TRI (Examples.straightLine r1 r2)).instrs.insLiveAfterMap (0, 2) =
      ∅ := by
    refine e2.2.trans ?_
    rw [if_pos rfl, hA1]
  have b2 : (doLiveAnalysis TRI (Examples.straightLine r1 r2)).instrs.insLiveBeforeMap (0, 2) =
      {r2} := by
    refine e2.1.trans ?_
    rw [a2, i2,
      (uses_of_use TRI r2 h2 v2).1, (uses_of_use TRI r2 h2 v2).2]
    simp
  have a1 : (doLiveAnalysis TRI (Examples.straightLine r1 r2)).instrs.insLiveAfterMap (0, 1) =
      {r2} := by
    refine e1.2.trans ?_
    rw [if_neg (by omega)]
    exact b2
  have b1 : (doLiveAnalysis TRI (Examples.straightLine r1 r2)).instrs.insLiveBeforeMap (0, 1) =
      {r1} := by
    refine e1.1.trans ?_
    rw [a1, i1,
      (uses_defs_of_use_def TRI r1 r2 h1 h2 v1 v2).1,
      (uses_defs_of_use_def TRI r1 r2 h1 h2 v1 v2).2]
    simp
  have a0 : (doLiveAnalysis TRI (Examples.straightLine r1 r2)).instrs.insLiveAfterMap (0, 0) =
      {r1} := by
    refine e0.2.trans ?_
    rw [if_neg (by omega)]
    exact b1
  have b0 : (doLiveAnalysis TRI (Examples.straightLine r1 r2)).instrs.insLiveBeforeMap (0, 0) =
      ∅ := by
    refine e0.1.trans ?_
    rw [a0, i0,
      (defs_of_def TRI r1 h1 v1).1, (defs_of_def TRI r1 h1 v1).2]
    simp
  exact ⟨hA, hB, b0, a0, b1, a1, b2, a2⟩

theorem straight_line_liveness_witness :
    (doLiveAnalysis Examples.tri (Examples.straightLine 1024 1025)).blocks.liveAfterMap 0 = ∅ ∧
    (doLiveAnalysis Examples.tri (Examples.straightLine 1024 1025)).blocks.liveBeforeMap 0 = ∅ ∧
    (doLiveAnalysis Examples.tri (Examples.straightLine 1024 1025)).instrs.insLiveBeforeMap
      (0, 0) = ∅ ∧
    (doLiveAnalysis Examples.tri (Examples.straightLine 1024 1025)).instrs.insLiveAfterMap
      (0, 0) = {1024} ∧
    (doLiveAnalysis Examples.tri (Examples.straightLine 1024 1025)).instrs.insLiveBeforeMap
      (0, 1) = {1024} ∧
    (doLiveAnalysis Examples.tri (Examples.straightLine 1024 1025)).instrs.insLiveAfterMap
      (0, 1) = {1025} ∧
    (doLiveAnalysis Examples.tri (Examples.straightLine 1024 1025)).instrs.insLiveBeforeMap
      (0, 2) = {1025} ∧
    (doLiveAnalysis Examples.tri (Examples.straightLine 1024 1025)).instrs.insLiveAfterMap
      (0, 2) = ∅ :=
  straight_line_liveness Examples.tri 1024 1025 (by decide) (by decide) (by decide) (by decide)

/-- From every state the liveness loop can reach, the least-first loop reaches
an empty worklist. -/
theorem liveRun_finish (TRI : TargetRegisterInfo) (Fn : MachineFunction) {k : Nat}
    {st : LiveState} (hr : LiveRun Fn k (liveVarsInit TRI Fn) st) :
    ∃ k1 st1, LiveRun Fn k1 st st1 ∧ st1.worklist = ∅ := by
  obtain ⟨hrun, hsolver⟩ := liveRun_abstract Fn hr
  rw [liveVarsInit_abstract] at hrun
  have hsz := live_sized Fn (liveVarsInit TRI Fn) (liveVarsInit_gen TRI Fn)
  have hU : ∀ b, ((liveVarsInit TRI Fn).solver Fn).gen b ⊆
      (Finset.range Fn.length).biUnion ((liveVarsInit TRI Fn).solver Fn).gen := by
    intro b
    by_cases hb : b < Fn.length
    · exact Finset.subset_biUnion_of_mem _ (Finset.mem_range.2 hb)
    · rw [(hsz.1 b (Nat.le_of_not_lt hb)).2]; exact Finset.empty_subset _
  have hs := Solver.run_sound _ hrun (Solver.start_sound _ _)
  have hb := Solver.run_bounded _ hU hrun (fun _ => Finset.empty_subset _)
  have hw := Solver.loop_worklist _ hsz hU _ st.abstract hs hb (Nat.le_refl _)
  obtain ⟨k1, _, hr1⟩ := liveVarsLoop_run Fn
    (Solver.measure Fn.length
      (((List.range Fn.length).map (fun b => (Fn.block b).preds.length)).sum)
      (Fn.length * ((Finset.range Fn.length).biUnion
        ((liveVarsInit TRI Fn).solver Fn).gen).card) st.abstract) st
  refine ⟨k1, _, hr1, ?_⟩
  have h := (liveVarsLoop_abstract Fn
    (Solver.measure Fn.length
      (((List.range Fn.length).map (fun b => (Fn.block b).preds.length)).sum)
      (Fn.length * ((Finset.range Fn.length).biUnion
        ((liveVarsInit TRI Fn).solver Fn).gen).card) st.abstract) st).1
  rw [hsolver] at h
  exact (congrArg SolverState.worklist h).trans hw

theorem loopOn_consistent (r1 : Nat) : CFGConsistent (Examples.loopOn r1) := by
  constructor
  · intro b hb s hs
    have h0 : b = 0 ∨ b = 1 := by
      have : b < 2 := hb
      omega
    rcases h0 with rfl | rfl
    · have : s = 1 := by simpa [Examples.loopOn, MachineFunction.block] using hs
      subst this
      simp [Examples.loopOn, MachineFunction.block]
    · have : s = 0 := by simpa [Examples.loopOn, MachineFunction.block] using hs
      subst this
      simp [Examples.loopOn, MachineFunction.block]
  · intro b hb p hp
    have h0 : b = 0 ∨ b = 1 := by
      have : b < 2 := hb
      omega
    rcases h0 with rfl | rfl
    · have : p = 1 := by simpa [Examples.loopOn, MachineFunction.block] using hp
      subst this
      simp [Examples.loopOn, MachineFunction.block]
    · have : p = 0 := by simpa [Examples.loopOn, MachineFunction.block] using hp
      subst this
      simp [Examples.loopOn, MachineFunction.block]

/-- Gen and Kill of the two blocks of the loop. -/
theorem loopOn_gen_kill (TRI : TargetRegisterInfo) (r1 : Nat) (h1 : r1 ≠ 0)
    (v1 : TRI.isPhysicalRegister r1 = false) :
    getUpwardsExposedUses TRI ((Examples.loopOn r1).block 0) = ∅ ∧
    getAllDefs ((Examples.loopOn r1).block 0) = {r1} ∧
    getUpwardsExposedUses TRI ((Examples.loopOn r1).block 1) = {r1} ∧
    getAllDefs ((Examples.loopOn r1).block 1) = ∅ := by
  have b0 : (Examples.loopOn r1).block 0 = ⟨[⟨[Examples.defOp r1]⟩], [1], [1]⟩ := rfl
  have b1 : (Examples.loopOn r1).block 1 = ⟨[⟨[Examples.useOp r1]⟩], [0], [0]⟩ := rfl
  rw [b0, b1]
  refine ⟨?_, ?_, ?_, ?_⟩
  · unfold getUpwardsExposedUses
    rw [upwardsExposedLoop_cons, (defs_of_def TRI r1 h1 v1).1]
    simp [upwardsExposedLoop]
  · simp [getAllDefs, Examples.defOp, h1]
  · unfold getUpwardsExposedUses
    rw [upwardsExposedLoop_cons, (uses_of_use TRI r1 h1 v1).1]
    simp [upwardsExposedLoop]
  · simp [getAllDefs, Examples.useOp]

/-- The maps claimed for the loop solve the equations of its solver. -/
theorem loopOn_solution (TRI : TargetRegisterInfo) (r1 : Nat) (h1 : r1 ≠ 0)
    (v1 : TRI.isPhysicalRegister r1 = false) :
    ((liveVarsInit TRI (Examples.loopOn r1)).solver (Examples.loopOn r1)).Solution
      (fun b => if b = 0 then {r1} else ∅) (fun b => if b = 1 then {r1} else ∅) := by
  obtain ⟨g0, k0, g1, k1⟩ := loopOn_gen_kill TRI r1 h1 v1
  have hgen : ((liveVarsInit TRI (Examples.loopOn r1)).solver (Examples.loopOn r1)).gen =
      fun b => getUpwardsExposedUses TRI ((Examples.loopOn r1).block b) := by
    rw [liveVarsInit_eq]; rfl
  have hkill : ((liveVarsInit TRI (Examples.loopOn r1)).solver (Examples.loopOn r1)).kill =
      fun b => getAllDefs ((Examples.loopOn r1).block b) := by
    rw [liveVarsInit_eq]; rfl
  have hmeet : ((liveVarsInit TRI (Examples.loopOn r1)).solver (Examples.loopOn r1)).meet =
      fun b => ((Examples.loopOn r1).block b).succs := rfl
  have b0 : (Examples.loopOn r1).block 0 = ⟨[⟨[Examples.defOp r1]⟩], [1], [1]⟩ := rfl
  have b1 : (Examples.loopOn r1).block 1 = ⟨[⟨[Examples.useOp r1]⟩], [0], [0]⟩ := rfl
  intro b
  by_cases hb0 : b = 0
  · subst hb0
    constructor
    · ext x
      rw [Solver.mem_join, hmeet]
      simp [b0]
    · ext x
      rw [Solver.mem_transfer, hgen, hkill]
      simp [g0, k0]
  · by_cases hb1 : b = 1
    · subst hb1
      constructor
      · ext x
        rw [Solver.mem_join, hmeet]
        simp [b1]
      · ext x
        rw [Solver.mem_transfer, hgen, hkill]
        simp [g1, k1]
    · have hb : (Examples.loopOn r1).length ≤ b := by
        have : (Examples.loopOn r1).length = 2 := rfl
        omega
      have hblk := block_of_le (Examples.loopOn r1) hb
      constructor
      · ext x
        rw [Solver.mem_join, hmeet]
        simp [hb0, hblk]
      · ext x
        rw [Solver.mem_transfer, hgen, hkill]
        simp [hb0, hb1, hblk, getUpwardsExposedUses_nil, getAllDefs_nil]

/-- Every finished run of the liveness loop on the two-block loop ends with
live-before of B and live-after of A equal to `{r1}`. -/
theorem loopOn_finished (TRI : TargetRegisterInfo) (r1 : Nat) (h1 : r1 ≠ 0)
    (v1 : TRI.isPhysicalRegister r1 = false) {k : Nat} {st : LiveState}
    (hr : LiveRun (Examples.loopOn r1) k (liveVarsInit TRI (Examples.loopOn r1)) st)
    (hw : st.worklist = ∅) :
    st.liveBeforeMap 1 = {r1} ∧ st.liveAfterMap 0 = {r1} := by
  obtain ⟨_, _, g1, k1⟩ := loopOn_gen_kill TRI r1 h1 v1
  have heq := liveRun_equations TRI _ (loopOn_consistent r1) hr hw
  obtain ⟨hrun, _⟩ := liveRun_abstract _ hr
  have hbelow := Solver.run_below _ (loopOn_solution TRI r1 h1 v1) hrun
    (by rw [liveVarsInit_abstract]
        exact fun _ => ⟨Finset.empty_subset _, Finset.empty_subset _⟩)
  have hB : st.liveBeforeMap 1 = {r1} := by
    apply Finset.Subset.antisymm
    · have := (hbelow 1).2
      simpa using this
    · rw [(heq 1 (show 1 < 2 from by omega)).2, g1]
      exact Finset.subset_union_right
  refine ⟨hB, ?_⟩
  rw [(heq 0 (show 0 < 2 from by omega)).1]
  have b0 : ((Examples.loopOn r1).block 0).succs = [1] := rfl
  rw [b0]
  simpa using hB

/-- C26. Two-block loop scenario: on A = [def r1], B = [use r1] over a virtual
register with edges A -> B and B -> A, `analyzeBasicBlocksLiveVars` ends on an
empty worklist with live-before(B) = {r1} and live-after(A) = {r1}; every
sequence of passes is bounded in length and, once the worklist is empty, has
these two sets; and whichever of A and B is taken first, the loop can be run
to an empty worklist from there. -/
theorem loop_scenario_liveness (TRI : TargetRegisterInfo) (r1 : Nat) (h1 : r1 ≠ 0)
    (v1 : TRI.isPhysicalRegister r1 = false) :
    (analyzeBasicBlocksLiveVars TRI (Examples.loopOn r1)).worklist = ∅ ∧
    (analyzeBasicBlocksLiveVars TRI (Examples.loopOn r1)).liveBeforeMap 1 = {r1} ∧
    (analyzeBasicBlocksLiveVars TRI (Examples.loopOn r1)).liveAfterMap 0 = {r1} ∧
    (∀ k st, LiveRun (Examples.loopOn r1) k (liveVarsInit TRI (Examples.loopOn r1)) st →
      k ≤ liveVarsFuel TRI (Examples.loopOn r1) ∧
      (st.worklist = ∅ → st.liveBeforeMap 1 = {r1} ∧ st.liveAfterMap 0 = {r1})) ∧
    (∀ pick, pick = 0 ∨ pick = 1 →
      pick ∈ (liveVarsInit TRI (Examples.loopOn r1)).worklist ∧
      ∃ k st, LiveRun (Examples.loopOn r1) k
          (liveVarsIter (Examples.loopOn r1) pick (liveVarsInit TRI (Examples.loopOn r1))) st ∧
        st.worklist = ∅ ∧ st.liveBeforeMap 1 = {r1} ∧ st.liveAfterMap 0 = {r1}) := by
  obtain ⟨k, _, hr⟩ := analyzeLive_run TRI (Examples.loopOn r1)
  have hw := analyzeLive_worklist TRI (Examples.loopOn r1)
  obtain ⟨hB, hA⟩ := loopOn_finished TRI r1 h1 v1 hr hw
  refine ⟨hw, hB, hA, fun k st hr => ⟨liveRun_length TRI _ hr,
    fun hw => loopOn_finished TRI r1 h1 v1 hr hw⟩, fun pick hf => ?_⟩
  have hmem : pick ∈ (liveVarsInit TRI (Examples.loopOn r1)).worklist := by
    rw [liveVarsInit_eq]
    show pick ∈ Finset.range 2
    rw [Finset.mem_range]
    omega
  refine ⟨hmem, ?_⟩
  obtain ⟨k1, st1, hr1, hw1⟩ := liveRun_finish TRI (Examples.loopOn r1)
    (LiveRun.step pick hmem (LiveRun.done _))
  exact ⟨k1, st1, hr1, hw1,
    loopOn_finished TRI r1 h1 v1 (LiveRun.step pick hmem hr1) hw1⟩

theorem loop_scenario_liveness_witness :
    (analyzeBasicBlocksLiveVars Examples.tri (Examples.loopOn 1024)).worklist = ∅ ∧
    (analyzeBasicBlocksLiveVars Examples.tri (Examples.loopOn 1024)).liveBeforeMap 1 = {1024} ∧
    (analyzeBasicBlocksLiveVars Examples.tri (Examples.loopOn 1024)).liveAfterMap 0 = {1024} ∧
    (∀ k st, LiveRun (Examples.loopOn 1024) k
        (liveVarsInit Examples.tri (Examples.loopOn 1024)) st →
      k ≤ liveVarsFuel Examples.tri (Examples.loopOn 1024) ∧
      (st.worklist = ∅ → st.liveBeforeMap 1 = {1024} ∧ st.liveAfterMap 0 = {1024})) ∧
    (∀ pick, pick = 0 ∨ pick = 1 →
      pick ∈ (liveVarsInit Examples.tri (Examples.loopOn 1024)).worklist ∧
      ∃ k st, LiveRun (Examples.loopOn 1024) k
          (liveVarsIter (Examples.loopOn 1024) pick
            (liveVarsInit Examples.tri (Examples.loopOn 1024))) st ∧
        st.worklist = ∅ ∧ st.liveBeforeMap 1 = {1024} ∧ st.liveAfterMap 0 = {1024}) :=
  loop_scenario_liveness Examples.tri 1024 (by decide) (by decide)

/-! ## The whole pass: claims C27, C29 -/

/-- What `runOnMachineFunction` leaves in the pass object, in terms of the
analyses on cleared containers. -/
theorem runOnMachineFunction_state (TRI : TargetRegisterInfo) (Fn : MachineFunction)
    (self : PassState) :
    (runOnMachineFunction TRI Fn self).1 =
      { RDfactSet := (doInit TRI Fn self.heapNext).RDfactSet
        InstrToNumMap := (doInit TRI Fn self.heapNext).InstrToNumMap
        liveBeforeMap := (doLiveAnalysis TRI Fn).blocks.liveBeforeMap
        liveAfterMap := (doLiveAnalysis TRI Fn).blocks.liveAfterMap
        liveVarsGenMap := (doLiveAnalysis TRI Fn).blocks.liveVarsGenMap
        liveVarsKillMap := (doLiveAnalysis TRI Fn).blocks.liveVarsKillMap
        insLiveBeforeMap := (doLiveAnalysis TRI Fn).instrs.insLiveBeforeMap
        insLiveAfterMap := (doLiveAnalysis TRI Fn).instrs.insLiveAfterMap
        RDbeforeMap := (runReachingDefs TRI Fn self.heapNext).blocks.RDbeforeMap
        RDafterMap := (runReachingDefs TRI Fn self.heapNext).blocks.RDafterMap
        RDgenMap := (runReachingDefs TRI Fn self.heapNext).blocks.RDgenMap
        RDkillMap := (runReachingDefs TRI Fn self.heapNext).blocks.RDkillMap
        insRDbeforeMap := (runReachingDefs TRI Fn self.heapNext).instrs.insRDbeforeMap
        insRDafterMap := (runReachingDefs TRI Fn self.heapNext).instrs.insRDafterMap
        heapNext := (runReachingDefs TRI Fn self.heapNext).instrs.heapNext } := rfl

/-- The body of the instruction loop of `analyzeInstructionsRDefs` keeps the
property that an instruction without defined registers has equal RD-before and
RD-after sets. -/
theorem rdefsInstrStep_passes (TRI : TargetRegisterInfo) (Fn : MachineFunction)
    (R : Finset RDfact) (acc : Finset RDfact × InsRDState) (inIt : InstrPtr)
    (h : ∀ j, getOneInstrRegDefs TRI (Fn.instr j) = ∅ →
      acc.2.insRDafterMap j = acc.2.insRDbeforeMap j) :
    ∀ j, getOneInstrRegDefs TRI (Fn.instr j) = ∅ →
      (rdefsInstrStep TRI Fn R acc inIt).2.insRDafterMap j =
        (rdefsInstrStep TRI Fn R acc inIt).2.insRDbeforeMap j := by
  intro j hj
  unfold rdefsInstrStep
  simp only
  split_ifs with hc
  · have hne : j ≠ inIt := by
      rintro rfl
      rw [hj] at hc
      exact absurd hc (by simp)
    simp only [Function.update_apply, if_neg hne]
    exact h j hj
  · by_cases hji : j = inIt
    · subst hji
      simp only [Function.update_same]
    · simp only [Function.update_apply, if_neg hji]
      exact h j hj

theorem analyzeInstructionsRDefs_passes (TRI : TargetRegisterInfo) (Fn : MachineFunction)
    (R : Finset RDfact) (RDbeforeMap : Nat → Finset RDfact) (m : InsRDState)
    (h : ∀ j, getOneInstrRegDefs TRI (Fn.instr j) = ∅ →
      m.insRDafterMap j = m.insRDbeforeMap j) :
    ∀ j, getOneInstrRegDefs TRI (Fn.instr j) = ∅ →
      (analyzeInstructionsRDefs TRI Fn R RDbeforeMap m).insRDafterMap j =
        (analyzeInstructionsRDefs TRI Fn R RDbeforeMap m).insRDbeforeMap j := by
  unfold analyzeInstructionsRDefs
  apply foldl_inv (fun st : InsRDState => ∀ j, getOneInstrRegDefs TRI (Fn.instr j) = ∅ →
    st.insRDafterMap j = st.insRDbeforeMap j) _ _ _ m h
  intro st bb hst
  unfold rdefsInstrBlock
  exact foldl_inv (fun acc : Finset RDfact × InsRDState =>
      ∀ j, getOneInstrRegDefs TRI (Fn.instr j) = ∅ →
        acc.2.insRDafterMap j = acc.2.insRDbeforeMap j) _
    (fun acc inIt hacc => rdefsInstrStep_passes TRI Fn R acc inIt hacc) _
    (RDbeforeMap bb, st) hst

/-! ### Moving the heap: the results do not depend on where objects are allocated -/

theorem moved_injective (d : Nat) : Function.Injective (RDfact.moved d) := by
  intro f g h
  obtain ⟨a, r, i⟩ := f
  obtain ⟨a1, r1, i1⟩ := g
  simp only [RDfact.moved, RDfact.mk.injEq] at h
  obtain ⟨h1, rfl, rfl⟩ := h
  have : a = a1 := by omega
  subst this
  rfl

theorem moved_empty (d : Nat) : moved d ∅ = ∅ := rfl

theorem moved_union (d : Nat) (S T : Finset RDfact) :
    moved d (S ∪ T) = moved d S ∪ moved d T := Finset.image_union _ _

theorem moved_insert (d : Nat) (f : RDfact) (S : Finset RDfact) :
    moved d (insert f S) = insert (f.moved d) (moved d S) := Finset.image_insert _ _ _

theorem moved_filter_reg (d r : Nat) (S : Finset RDfact) :
    (moved d S).filter (fun f => f.getReg = r) = moved d (S.filter (fun f => f.getReg = r)) := by
  unfold moved
  rw [Finset.filter_image]
  rfl

theorem moved_subtract (d : Nat) (S K : Finset RDfact) :
    RDsetSubtract (moved d S) (moved d K) = moved d (RDsetSubtract S K) := by
  unfold RDsetSubtract moved
  rw [Finset.filter_image]
  congr 1
  apply Finset.filter_congr
  intro f _
  show RDfact.moved d f ∉ Finset.image (RDfact.moved d) K ↔ f ∉ K
  rw [(moved_injective d).mem_finset_image]

theorem card_moved (d : Nat) (S : Finset RDfact) : (moved d S).card = S.card :=
  Finset.card_image_of_injective _ (moved_injective d)

theorem components_moved (d : Nat) (S : Finset RDfact) :
    components (moved d S) = components S := by
  unfold components moved
  rw [Finset.image_image]
  rfl

theorem moved_zero (S : Finset RDfact) : moved 0 S = S := by
  unfold moved
  have : RDfact.moved 0 = id := by
    funext f
    rfl
  rw [this, Finset.image_id]

theorem update_moved (d : Nat) {κ : Type} [DecidableEq κ] (m : κ → Finset RDfact) (b : κ)
    (x : Finset RDfact) :
    Function.update (fun c => moved d (m c)) b (moved d x) =
      fun c => moved d (Function.update m b x c) := by
  funext c
  by_cases h : c = b
  · subst h; simp
  · simp [Function.update_apply, h]

/-- A fold commutes with a map of its state that commutes with every step. -/
theorem foldl_transport {σ τ β : Type} (g : σ → τ) (f1 : σ → β → σ) (f2 : τ → β → τ)
    (h : ∀ s x, f2 (g s) x = g (f1 s x)) (l : List β) (s : σ) :
    l.foldl f2 (g s) = g (l.foldl f1 s) := by
  induction l generalizing s with
  | nil => rfl
  | cons a l ih => simp only [List.foldl_cons]; rw [h, ih]

theorem insertNew_moved (d : Nat) (st : InitState) (r : Nat) (i : InstrPtr) :
    (st.moved d).insertNew r i = (st.insertNew r i).moved d := by
  unfold InitState.insertNew InitState.moved
  simp only [moved_insert, InitState.mk.injEq, true_and]
  exact ⟨rfl, by omega⟩

theorem doInitOperand_moved (TRI : TargetRegisterInfo) (d : Nat) (inst : InstrPtr)
    (st : InitState) (MOp : MachineOperand) :
    doInitOperand TRI inst (st.moved d) MOp = (doInitOperand TRI inst st MOp).moved d := by
  unfold doInitOperand
  split_ifs
  · simp only
    rw [insertNew_moved]
    exact foldl_transport (InitState.moved d)
      (fun st a => st.insertNew a inst) (fun st a => st.insertNew a inst)
      (fun s a => insertNew_moved d s a inst) _ _
  · simp only
    rw [insertNew_moved]
  · rfl

theorem doInitInstr_moved (TRI : TargetRegisterInfo) (Fn : MachineFunction) (d : Nat)
    (st : InitState) (inst : InstrPtr) :
    (Fn.instr inst).operands.foldl (doInitOperand TRI inst)
        { st.moved d with
          InstrToNumMap := Function.update (st.moved d).InstrToNumMap inst (st.moved d).insNum
          insNum := (st.moved d).insNum + 1 } =
      ((Fn.instr inst).operands.foldl (doInitOperand TRI inst)
        { st with
          InstrToNumMap := Function.update st.InstrToNumMap inst st.insNum
          insNum := st.insNum + 1 }).moved d :=
  foldl_transport (InitState.moved d) (doInitOperand TRI inst) (doInitOperand TRI inst)
    (fun s MOp => doInitOperand_moved TRI d inst s MOp) _
    { st with
      InstrToNumMap := Function.update st.InstrToNumMap inst st.insNum
      insNum := st.insNum + 1 }

/-- `doInit` started `d` addresses further builds the same set `d` addresses
further, and the same numbering. -/
theorem doInit_moved (TRI : TargetRegisterInfo) (Fn : MachineFunction) (h d : Nat) :
    doInit TRI Fn (h + d) = (doInit TRI Fn h).moved d := by
  unfold doInit
  exact foldl_transport (InitState.moved d) _ _
    (fun s b => foldl_transport (InitState.moved d) _ _
      (fun s inst => doInitInstr_moved TRI Fn d s inst) (instrPtrs Fn b) s)
    (List.range Fn.length) ⟨∅, fun _ => 0, 1, h⟩

theorem getRDgen_moved (TRI : TargetRegisterInfo) (Fn : MachineFunction) (bb h d : Nat) :
    getRDgen TRI Fn bb (h + d) =
      (moved d (getRDgen TRI Fn bb h).1, (getRDgen TRI Fn bb h).2 + d) := by
  unfold getRDgen
  exact foldl_transport (fun acc : Finset RDfact × Nat => (moved d acc.1, acc.2 + d)) _ _
    (fun acc instruct => foldl_transport
      (fun acc : Finset RDfact × Nat => (moved d acc.1, acc.2 + d)) _ _
      (fun acc oneDef => by
        simp only [moved_insert, Prod.mk.injEq]
        exact ⟨rfl, by omega⟩)
      (setToList (getOneInstrRegDefs TRI (Fn.instr instruct))) acc)
    (instrPtrs Fn bb) (∅, h)

theorem getRDkill_moved (TRI : TargetRegisterInfo) (Fn : MachineFunction)
    (R : Finset RDfact) (bb d : Nat) :
    getRDkill TRI Fn (moved d R) bb = moved d (getRDkill TRI Fn R bb) := by
  unfold getRDkill
  exact foldl_transport (moved d) _ _
    (fun acc instruct => foldl_transport (moved d) _ _
      (fun acc oneDef => by
        simp only [moved_union, moved_filter_reg])
      (setToList (getOneInstrRegDefs TRI (Fn.instr instruct))) acc)
    (instrPtrs Fn bb) ∅

theorem rdefsInitBlock_moved (TRI : TargetRegisterInfo) (Fn : MachineFunction)
    (R : Finset RDfact) (d : Nat) (st : RDState) (b : Nat) :
    rdefsInitBlock TRI Fn (moved d R) (st.moved d) b =
      (rdefsInitBlock TRI Fn R st b).moved d := by
  unfold rdefsInitBlock RDState.moved
  simp only [getRDgen_moved, getRDkill_moved]
  rw [← moved_empty d, update_moved, update_moved, update_moved, update_moved]
  rfl

theorem rdefsInit_moved (TRI : TargetRegisterInfo) (Fn : MachineFunction)
    (R : Finset RDfact) (h d : Nat) :
    rdefsInit TRI Fn (moved d R) (h + d) = (rdefsInit TRI Fn R h).moved d := by
  unfold rdefsInit
  exact foldl_transport (RDState.moved d) _ _
    (fun s b => rdefsInitBlock_moved TRI Fn R d s b) (List.range Fn.length)
    ⟨∅, fun _ => ∅, fun _ => ∅, fun _ => ∅, fun _ => ∅, h⟩

theorem computeRDbefore_moved (Fn : MachineFunction) (d : Nat) (st : RDState) (bb : Nat) :
    computeRDbefore Fn (st.moved d) bb = moved d (computeRDbefore Fn st bb) := by
  unfold computeRDbefore
  exact foldl_transport (moved d) _ _
    (fun acc onePred => by
      simp only [RDsetUnion, moved_union, RDState.moved])
    (Fn.block bb).preds ∅

theorem rdefsIter_moved (Fn : MachineFunction) (d : Nat) (bb : Nat) (st : RDState) :
    rdefsIter Fn bb (st.moved d) = (rdefsIter Fn bb st).moved d := by
  have hb : computeRDbefore Fn { st.moved d with worklist := (st.moved d).worklist.erase bb } bb =
      moved d (computeRDbefore Fn { st with worklist := st.worklist.erase bb } bb) :=
    computeRDbefore_moved Fn d { st with worklist := st.worklist.erase bb } bb
  unfold rdefsIter
  simp only [hb]
  simp only [computeRDafter, RDsetUnion, RDState.moved, Function.update_same, moved_subtract,
    ← moved_union, card_moved]
  split_ifs
  · simp only [update_moved]
  · simp only [update_moved]

theorem rdefsLoop_moved (Fn : MachineFunction) (d : Nat) (fuel : Nat) (st : RDState) :
    rdefsLoop Fn fuel (st.moved d) = (rdefsLoop Fn fuel st).moved d := by
  induction fuel generalizing st with
  | zero => rfl
  | succ fuel ih =>
    unfold rdefsLoop
    by_cases h : st.worklist.Nonempty
    · have h1 : (st.moved d).worklist.Nonempty := h
      rw [dif_pos h, dif_pos h1]
      have : (st.moved d).worklist.min' h1 = st.worklist.min' h := rfl
      rw [this, rdefsIter_moved, ih]
    · have h1 : ¬ (st.moved d).worklist.Nonempty := h
      rw [dif_neg h, dif_neg h1]

theorem rdefsFuel_moved (Fn : MachineFunction) (d : Nat) (st : RDState) :
    rdefsFuel Fn (st.moved d) = rdefsFuel Fn st := by
  unfold rdefsFuel
  have : (Finset.range Fn.length).biUnion (st.moved d).RDgenMap =
      moved d ((Finset.range Fn.length).biUnion st.RDgenMap) := by
    unfold moved
    rw [Finset.biUnion_image]
    rfl
  rw [this, card_moved]

/-- The block-level analysis started `d` addresses further, on a universe
placed `d` addresses further, gives the same maps `d` addresses further. -/
theorem analyzeBasicBlocksRDefs_moved (TRI : TargetRegisterInfo) (Fn : MachineFunction)
    (R : Finset RDfact) (h d : Nat) :
    analyzeBasicBlocksRDefs TRI Fn (moved d R) (h + d) =
      (analyzeBasicBlocksRDefs TRI Fn R h).moved d := by
  unfold analyzeBasicBlocksRDefs
  simp only [rdefsInit_moved, rdefsFuel_moved, rdefsLoop_moved]

theorem insGenKill_moved (R : Finset RDfact) (inIt : InstrPtr) (regDefs : List Nat)
    (h d : Nat) :
    insGenKill (moved d R) inIt regDefs (h + d) =
      (moved d (insGenKill R inIt regDefs h).1, moved d (insGenKill R inIt regDefs h).2.1,
        (insGenKill R inIt regDefs h).2.2 + d) := by
  unfold insGenKill
  exact foldl_transport
    (fun acc : Finset RDfact × Finset RDfact × Nat =>
      (moved d acc.1, moved d acc.2.1, acc.2.2 + d)) _ _
    (fun acc oneDef => by
      simp only [moved_insert, moved_union, moved_filter_reg, Prod.mk.injEq, true_and]
      exact ⟨rfl, by omega⟩)
    regDefs (∅, ∅, h)

theorem rdefsInstrStep_moved (TRI : TargetRegisterInfo) (Fn : MachineFunction)
    (R : Finset RDfact) (d : Nat) (acc : Finset RDfact × InsRDState) (inIt : InstrPtr) :
    rdefsInstrStep TRI Fn (moved d R) (moved d acc.1, acc.2.moved d) inIt =
      (moved d (rdefsInstrStep TRI Fn R acc inIt).1,
        (rdefsInstrStep TRI Fn R acc inIt).2.moved d) := by
  unfold rdefsInstrStep
  simp only [InsRDState.moved, insGenKill_moved, RDsetUnion, moved_subtract, ← moved_union,
    update_moved]
  split_ifs <;> rfl

theorem rdefsInstrBlock_moved (TRI : TargetRegisterInfo) (Fn : MachineFunction)
    (R : Finset RDfact) (RDbeforeMap : Nat → Finset RDfact) (d : Nat) (m : InsRDState)
    (bb : Nat) :
    rdefsInstrBlock TRI Fn (moved d R) (fun b => moved d (RDbeforeMap b)) (m.moved d) bb =
      (rdefsInstrBlock TRI Fn R RDbeforeMap m bb).moved d := by
  unfold rdefsInstrBlock
  exact congrArg Prod.snd (foldl_transport
    (fun acc : Finset RDfact × InsRDState => (moved d acc.1, acc.2.moved d)) _ _
    (fun acc inIt => rdefsInstrStep_moved TRI Fn R d acc inIt)
    (instrPtrs Fn bb) (RDbeforeMap bb, m))

theorem analyzeInstructionsRDefs_moved (TRI : TargetRegisterInfo) (Fn : MachineFunction)
    (R : Finset RDfact) (RDbeforeMap : Nat → Finset RDfact) (d : Nat) (m : InsRDState) :
    analyzeInstructionsRDefs TRI Fn (moved d R) (fun b => moved d (RDbeforeMap b))
        (m.moved d) =
      (analyzeInstructionsRDefs TRI Fn R RDbeforeMap m).moved d := by
  unfold analyzeInstructionsRDefs
  exact foldl_transport (InsRDState.moved d) _ _
    (fun s bb => rdefsInstrBlock_moved TRI Fn R RDbeforeMap d s bb) (List.range Fn.length) m

/-- The whole reaching-definitions part started `d` addresses further gives
the same result `d` addresses further. -/
theorem runReachingDefs_moved (TRI : TargetRegisterInfo) (Fn : MachineFunction) (h d : Nat) :
    (runReachingDefs TRI Fn (h + d)).blocks = (runReachingDefs TRI Fn h).blocks.moved d ∧
    (runReachingDefs TRI Fn (h + d)).instrs = (runReachingDefs TRI Fn h).instrs.moved d := by
  unfold runReachingDefs doReachingDefsAnalysis
  simp only [doInit_moved]
  have hb := analyzeBasicBlocksRDefs_moved TRI Fn (doInit TRI Fn h).RDfactSet
    (doInit TRI Fn h).heapNext d
  have hb1 : analyzeBasicBlocksRDefs TRI Fn ((doInit TRI Fn h).moved d).RDfactSet
      ((doInit TRI Fn h).moved d).heapNext =
      (analyzeBasicBlocksRDefs TRI Fn (doInit TRI Fn h).RDfactSet
        (doInit TRI Fn h).heapNext).moved d := hb
  rw [hb1]
  refine ⟨rfl, ?_⟩
  have hi := analyzeInstructionsRDefs_moved TRI Fn (doInit TRI Fn h).RDfactSet
    (analyzeBasicBlocksRDefs TRI Fn (doInit TRI Fn h).RDfactSet
      (doInit TRI Fn h).heapNext).RDbeforeMap d
    ⟨fun _ => ∅, fun _ => ∅, (analyzeBasicBlocksRDefs TRI Fn (doInit TRI Fn h).RDfactSet
      (doInit TRI Fn h).heapNext).heapNext⟩
  exact hi

/-- The pass run with the heap counter `d` further leaves the same results. -/
theorem runOnMachineFunction_heap (TRI : TargetRegisterInfo) (Fn : MachineFunction)
    (self other : PassState) (d : Nat) (hd : other.heapNext = self.heapNext + d) :
    PassState.SameResults (runOnMachineFunction TRI Fn other).1
      (runOnMachineFunction TRI Fn self).1 := by
  obtain ⟨hb, hi⟩ := runReachingDefs_moved TRI Fn self.heapNext d
  rw [runOnMachineFunction_state, runOnMachineFunction_state, hd]
  unfold PassState.SameResults
  simp only [doInit_moved, hb, hi, InitState.moved, RDState.moved, InsRDState.moved,
    components_moved]
  exact ⟨trivial, trivial, trivial, trivial, trivial, trivial, trivial, trivial,
    fun _ => trivial, fun _ => trivial, fun _ => trivial, fun _ => trivial, fun _ => trivial,
    fun _ => trivial⟩

theorem sameResults_symm {r1 r2 : PassState} (h : r1.SameResults r2) : r2.SameResults r1 := by
  obtain ⟨h1, h2, h3, h4, h5, h6, h7, h8, h9, h10, h11, h12, h13, h14⟩ := h
  exact ⟨h1.symm, h2.symm, h3.symm, h4.symm, h5.symm, h6.symm, h7.symm, h8.symm,
    fun b => (h9 b).symm, fun b => (h10 b).symm, fun b => (h11 b).symm,
    fun b => (h12 b).symm, fun i => (h13 i).symm, fun i => (h14 i).symm⟩

/-- C29. No residue between functions: `clearAll` leaves every per-function
container empty, and the results `runOnMachineFunction` computes for a function
are the same whatever the pass object held before: started from any two pass
objects it leaves equal liveness maps, equal instruction numbers and
reaching-definitions containers with the same (register, instruction) pairs;
with the same heap counter it leaves the same pass object, pointers
included. -/
theorem no_residue_between_functions (TRI : TargetRegisterInfo) (Fn : MachineFunction)
    (self other : PassState) :
    self.clearAll =
      ⟨∅, fun _ => 0, fun _ => ∅, fun _ => ∅, fun _ => ∅, fun _ => ∅, fun _ => ∅, fun _ => ∅,
        fun _ => ∅, fun _ => ∅, fun _ => ∅, fun _ => ∅, fun _ => ∅, fun _ => ∅,
        self.heapNext⟩ ∧
    PassState.SameResults (runOnMachineFunction TRI Fn other).1
      (runOnMachineFunction TRI Fn self).1 ∧
    (runOnMachineFunction TRI Fn { other with heapNext := self.heapNext }).1 =
      (runOnMachineFunction TRI Fn self).1 := by
  refine ⟨rfl, ?_, ?_⟩
  · rcases Nat.le_total self.heapNext other.heapNext with h | h
    · exact runOnMachineFunction_heap TRI Fn self other (other.heapNext - self.heapNext)
        (by omega)
    · exact sameResults_symm (runOnMachineFunction_heap TRI Fn other self
        (self.heapNext - other.heapNext) (by omega))
  · rw [runOnMachineFunction_state, runOnMachineFunction_state]

/-! ## Blocks without definitions and register 0: claims C31, C32 -/

theorem mem_operandDefsFold (ops : List MachineOperand) (acc : Finset Nat) (x : Nat) :
    x ∈ ops.foldl (fun result MOp =>
        if MOp.isReg && MOp.getReg != 0 && MOp.isDef then insert MOp.getReg result
        else result) acc ↔
      x ∈ acc ∨ ∃ MOp ∈ ops, MOp.isReg = true ∧ MOp.getReg ≠ 0 ∧ MOp.isDef = true ∧
        x = MOp.getReg := by
  induction ops generalizing acc with
  | nil => simp
  | cons a t ih =>
    simp only [List.foldl_cons]
    rw [ih]
    by_cases hc : (a.isReg && a.getReg != 0 && a.isDef) = true
    · have hw : a.isReg = true ∧ a.getReg ≠ 0 ∧ a.isDef = true := by
        simpa [Bool.and_eq_true, and_assoc] using hc
      rw [if_pos hc]
      simp only [Finset.mem_insert, List.mem_cons, exists_eq_or_imp]
      constructor
      · rintro ((h | h) | h)
        · exact Or.inr (Or.inl ⟨hw.1, hw.2.1, hw.2.2, h⟩)
        · exact Or.inl h
        · exact Or.inr (Or.inr h)
      · rintro (h | ⟨_, _, _, h⟩ | h)
        · exact Or.inl (Or.inr h)
        · exact Or.inl (Or.inl h)
        · exact Or.inr h
    · have hw : ¬ (a.isReg = true ∧ a.getReg ≠ 0 ∧ a.isDef = true) := by
        simpa [Bool.and_eq_true, and_assoc] using hc
      rw [if_neg hc]
      simp only [List.mem_cons, exists_eq_or_imp]
      constructor
      · rintro (h | h)
        · exact Or.inl h
        · exact Or.inr (Or.inr h)
      · rintro (h | ⟨h1, h2, h3, _⟩ | h)
        · exact Or.inl h
        · exact absurd ⟨h1, h2, h3⟩ hw
        · exact Or.inr h

/-- The registers of `getAllDefs`: the registers other than 0 of the
register operands marked as definitions in the instructions of the block. -/
theorem mem_getAllDefs (bb : MachineBasicBlock) (x : Nat) :
    x ∈ getAllDefs bb ↔
      ∃ instruct ∈ bb.instrs, ∃ MOp ∈ instruct.operands,
        MOp.isReg = true ∧ MOp.getReg ≠ 0 ∧ MOp.isDef = true ∧ x = MOp.getReg := by
  unfold getAllDefs
  have key : ∀ (l : List MachineInstr) (acc : Finset Nat),
      x ∈ l.foldl (fun result instruct =>
        instruct.operands.foldl (fun result MOp =>
          if MOp.isReg && MOp.getReg != 0 && MOp.isDef then insert MOp.getReg result
          else result) result) acc ↔
      x ∈ acc ∨ ∃ instruct ∈ l, ∃ MOp ∈ instruct.operands,
        MOp.isReg = true ∧ MOp.getReg ≠ 0 ∧ MOp.isDef = true ∧ x = MOp.getReg := by
    intro l
    induction l with
    | nil => intro acc; simp
    | cons a t ih =>
      intro acc
      simp only [List.foldl_cons]
      rw [ih, mem_operandDefsFold]
      simp only [List.mem_cons, exists_eq_or_imp]
      constructor
      · rintro ((h | h) | h)
        · exact Or.inl h
        · exact Or.inr (Or.inl h)
        · exact Or.inr (Or.inr h)
      · rintro (h | h | h)
        · exact Or.inl (Or.inl h)
        · exact Or.inl (Or.inr h)
        · exact Or.inr h
  rw [key]
  simp

theorem instr_mem_of_mem_instrPtrs (Fn : MachineFunction) {b : Nat} {i : InstrPtr}
    (h : i ∈ instrPtrs Fn b) : Fn.instr i ∈ (Fn.block b).instrs := by
  obtain ⟨h1, h2⟩ := (mem_instrPtrs Fn b i).1 h
  unfold MachineFunction.instr
  rw [h1, List.getD_eq_getElem _ _ h2]
  exact List.getElem_mem _

/-- In a block without register def operands no instruction defines a
register. -/
theorem defs_empty_of_no_def (TRI : TargetRegisterInfo) (Fn : MachineFunction) (b : Nat)
    (hz : ∀ instruct ∈ (Fn.block b).instrs, ∀ MOp ∈ instruct.operands,
      ¬ (MOp.isReg = true ∧ MOp.getReg ≠ 0 ∧ MOp.isDef = true))
    (i : InstrPtr) (hi : i ∈ instrPtrs Fn b) : getOneInstrRegDefs TRI (Fn.instr i) = ∅ := by
  apply Finset.eq_empty_of_forall_not_mem
  intro x hx
  obtain ⟨MOp, hm, h1, h2, h3, _⟩ := (mem_getOneInstrRegDefs TRI _ x).1 hx
  exact hz _ (instr_mem_of_mem_instrPtrs Fn hi) MOp hm ⟨h1, h2, h3⟩

theorem eq_empty_of_components {S : Finset RDfact} (h : components S = ∅) : S = ∅ := by
  unfold components at h
  exact Finset.image_eq_empty.1 h

theorem blockDefPairs_of_no_def (TRI : TargetRegisterInfo) (Fn : MachineFunction) (b : Nat)
    (hz : ∀ instruct ∈ (Fn.block b).instrs, ∀ MOp ∈ instruct.operands,
      ¬ (MOp.isReg = true ∧ MOp.getReg ≠ 0 ∧ MOp.isDef = true)) :
    blockDefPairs TRI Fn b = ∅ := by
  apply Finset.eq_empty_of_forall_not_mem
  intro p hp
  obtain ⟨hi, hd⟩ := (mem_blockDefPairs TRI Fn b p).1 hp
  rw [defs_empty_of_no_def TRI Fn b hz p.2 hi] at hd
  exact absurd hd (Finset.not_mem_empty _)

theorem analyzeLive_gen_kill (TRI : TargetRegisterInfo) (Fn : MachineFunction) :
    (analyzeBasicBlocksLiveVars TRI Fn).liveVarsGenMap =
      (fun b => getUpwardsExposedUses TRI (Fn.block b)) ∧
    (analyzeBasicBlocksLiveVars TRI Fn).liveVarsKillMap =
      (fun b => getAllDefs (Fn.block b)) := by
  have hs := (liveVarsLoop_abstract Fn (liveVarsFuel TRI Fn) (liveVarsInit TRI Fn)).2
  have hg : (analyzeBasicBlocksLiveVars TRI Fn).liveVarsGenMap =
      (liveVarsInit TRI Fn).liveVarsGenMap := congrArg Solver.gen hs
  have hk : (analyzeBasicBlocksLiveVars TRI Fn).liveVarsKillMap =
      (liveVarsInit TRI Fn).liveVarsKillMap := congrArg Solver.kill hs
  rw [hg, hk, liveVarsInit_eq]
  exact ⟨rfl, rfl⟩

/-- C31. Zero-def edge case: for a block of the function in which no
instruction has a register def operand of a register other than 0, `getRDgen`
and `getRDkill` return the empty set and so do the block's `RDgenMap` and
`RDkillMap` entries after the analysis, `getAllDefs` (the liveness Kill set) is
empty, and no fact of `RDfactSet` names an instruction of the block. -/
theorem zero_def_block_is_silent (TRI : TargetRegisterInfo) (Fn : MachineFunction)
    (b h : Nat) (hb : b < Fn.length)
    (hz : ∀ instruct ∈ (Fn.block b).instrs, ∀ MOp ∈ instruct.operands,
      ¬ (MOp.isReg = true ∧ MOp.getReg ≠ 0 ∧ MOp.isDef = true)) :
    (∀ h1, (getRDgen TRI Fn b h1).1 = ∅) ∧
    (∀ R, getRDkill TRI Fn R b = ∅) ∧
    getAllDefs (Fn.block b) = ∅ ∧
    (runReachingDefs TRI Fn h).blocks.RDgenMap b = ∅ ∧
    (runReachingDefs TRI Fn h).blocks.RDkillMap b = ∅ ∧
    (doLiveAnalysis TRI Fn).blocks.liveVarsKillMap b = ∅ ∧
    (∀ f ∈ (doInit TRI Fn h).RDfactSet, f.getInstr ∉ instrPtrs Fn b) := by
  have hkill : ∀ R, getRDkill TRI Fn R b = ∅ := by
    intro R
    apply Finset.eq_empty_of_forall_not_mem
    intro f hf
    obtain ⟨_, i, hi, hd⟩ := (mem_getRDkill TRI Fn R b f).1 hf
    rw [defs_empty_of_no_def TRI Fn b hz i hi] at hd
    exact absurd hd (Finset.not_mem_empty _)
  have hall : getAllDefs (Fn.block b) = ∅ := by
    apply Finset.eq_empty_of_forall_not_mem
    intro x hx
    obtain ⟨instruct, hi, MOp, hm, h1, h2, h3, _⟩ := (mem_getAllDefs _ x).1 hx
    exact hz instruct hi MOp hm ⟨h1, h2, h3⟩
  obtain ⟨hk, hg⟩ := analyzeRD_gen_kill TRI Fn (doInit TRI Fn h).RDfactSet
    (doInit TRI Fn h).heapNext b hb
  refine ⟨fun h1 => ?_, hkill, hall, ?_, ?_, ?_, ?_⟩
  · apply eq_empty_of_components
    rw [(getRDgen_spec TRI Fn b h1).2.2]
    exact blockDefPairs_of_no_def TRI Fn b hz
  · apply eq_empty_of_components
    exact hg.trans (blockDefPairs_of_no_def TRI Fn b hz)
  · exact hk.trans (hkill _)
  · show (analyzeBasicBlocksLiveVars TRI Fn).liveVarsKillMap b = ∅
    rw [(analyzeLive_gen_kill TRI Fn).2]
    exact hall
  · intro f hf hi
    have hp : f.components ∈ components (doInit TRI Fn h).RDfactSet :=
      Finset.mem_image_of_mem _ hf
    obtain ⟨_, MOp, hm, h1, h2, h3, _⟩ := (mem_components_doInit TRI Fn h _).1 hp
    exact hz _ (instr_mem_of_mem_instrPtrs Fn hi) MOp hm ⟨h1, h2, h3⟩

/-- Witness for C31 on block 2 = [use 1024] of the chain of three blocks. -/
theorem zero_def_block_is_silent_witness :
    (runReachingDefs Examples.tri Examples.overwriteFn 0).blocks.RDgenMap 2 = ∅ ∧
    (runReachingDefs Examples.tri Examples.overwriteFn 0).blocks.RDkillMap 2 = ∅ ∧
    (doLiveAnalysis Examples.tri Examples.overwriteFn).blocks.liveVarsKillMap 2 = ∅ ∧
    (∀ f ∈ (doInit Examples.tri Examples.overwriteFn 0).RDfactSet,
      f.getInstr ∉ instrPtrs Examples.overwriteFn 2) :=
  (zero_def_block_is_silent Examples.tri Examples.overwriteFn 2 0 (by decide)
    (by decide)).2.2.2

theorem zero_not_mem_aliases (TRI : TargetRegisterInfo) (r : Nat) : 0 ∉ TRI.aliases r := by
  intro h
  unfold TargetRegisterInfo.aliases at h
  have := List.mem_takeWhile_imp h
  simp at this

theorem zero_not_mem_uses (TRI : TargetRegisterInfo) (instruct : MachineInstr) :
    0 ∉ getOneInstrRegUses TRI instruct := by
  intro h
  obtain ⟨MOp, _, _, h2, _, h4⟩ := (mem_getOneInstrRegUses TRI instruct 0).1 h
  rcases h4 with h | ⟨_, h⟩
  · exact h2 h.symm
  · exact zero_not_mem_aliases TRI _ h

theorem zero_not_mem_defs (TRI : TargetRegisterInfo) (instruct : MachineInstr) :
    0 ∉ getOneInstrRegDefs TRI instruct := by
  intro h
  obtain ⟨MOp, _, _, h2, _, h4⟩ := (mem_getOneInstrRegDefs TRI instruct 0).1 h
  rcases h4 with h | ⟨_, h⟩
  · exact h2 h.symm
  · exact zero_not_mem_aliases TRI _ h

theorem zero_not_mem_getAllDefs (bb : MachineBasicBlock) : 0 ∉ getAllDefs bb := by
  intro h
  obtain ⟨_, _, MOp, _, _, h2, _, h4⟩ := (mem_getAllDefs bb 0).1 h
  exact h2 h4.symm

theorem zero_not_mem_upwardsExposed (TRI : TargetRegisterInfo) (bb : MachineBasicBlock) :
    0 ∉ getUpwardsExposedUses TRI bb := by
  intro h
  unfold getUpwardsExposedUses at h
  rcases (mem_upwardsExposedLoop TRI bb.instrs ∅ ∅ 0).1 h with h | ⟨_, k, _, hu, _⟩
  · exact absurd h (Finset.not_mem_empty _)
  · exact zero_not_mem_uses TRI _ hu

/-- Register 0 is in no block-level liveness set. -/
theorem zero_not_mem_live_blocks (TRI : TargetRegisterInfo) (Fn : MachineFunction) (b : Nat) :
    0 ∉ (analyzeBasicBlocksLiveVars TRI Fn).liveVarsGenMap b ∧
    0 ∉ (analyzeBasicBlocksLiveVars TRI Fn).liveVarsKillMap b ∧
    0 ∉ (analyzeBasicBlocksLiveVars TRI Fn).liveBeforeMap b ∧
    0 ∉ (analyzeBasicBlocksLiveVars TRI Fn).liveAfterMap b := by
  obtain ⟨hg, hk⟩ := analyzeLive_gen_kill TRI Fn
  obtain ⟨k, _, hr⟩ := analyzeLive_run TRI Fn
  obtain ⟨hrun, _⟩ := liveRun_abstract Fn hr
  rw [liveVarsInit_abstract] at hrun
  have hq := Solver.run_forall _ (fun x : Nat => x ≠ 0)
    (fun b x hx h0 => by
      have hx1 : x ∈ (liveVarsInit TRI Fn).liveVarsGenMap b := hx
      rw [liveVarsInit_eq] at hx1
      subst h0
      exact zero_not_mem_upwardsExposed TRI _ hx1) hrun b
  refine ⟨?_, ?_, fun h => hq.2 0 h rfl, fun h => hq.1 0 h rfl⟩
  · rw [hg]; exact zero_not_mem_upwardsExposed TRI _
  · rw [hk]; exact zero_not_mem_getAllDefs _

theorem liveForInstrLoop_zero (TRI : TargetRegisterInfo) (Fn : MachineFunction)
    (L : List InstrPtr) :
    ∀ (A : Finset Nat) (m : InsLiveMaps), 0 ∉ A →
      (∀ j, 0 ∉ m.insLiveBeforeMap j ∧ 0 ∉ m.insLiveAfterMap j) →
      ∀ j, 0 ∉ (liveForInstrLoop TRI Fn L A m).insLiveBeforeMap j ∧
        0 ∉ (liveForInstrLoop TRI Fn L A m).insLiveAfterMap j := by
  induction L with
  | nil => exact fun _ _ _ hm => hm
  | cons i L ih =>
    intro A m hA hm
    unfold liveForInstrLoop
    have hB : 0 ∉ (if (getOneInstrRegDefs TRI (Fn.instr i)).card != 0 then
        regSetUnion (regSetSubtract A (getOneInstrRegDefs TRI (Fn.instr i)))
          (getOneInstrRegUses TRI (Fn.instr i))
        else regSetUnion A (getOneInstrRegUses TRI (Fn.instr i))) := by
      rw [liveBefore_branches]
      intro h
      rcases Finset.mem_union.1 h with h | h
      · exact hA (Finset.mem_sdiff.1 h).1
      · exact zero_not_mem_uses TRI _ h
    apply ih _ _ hB
    intro j
    by_cases hj : j = i
    · constructor
      · simp only [Function.update_apply, if_pos hj]
        exact hB
      · simp only [Function.update_apply, if_pos hj]
        exact hA
    · constructor
      · simp only [Function.update_apply, if_neg hj]
        exact (hm j).1
      · simp only [Function.update_apply, if_neg hj]
        exact (hm j).2

/-- Register 0 is in no instruction-level liveness set. -/
theorem zero_not_mem_live_instrs (TRI : TargetRegisterInfo) (Fn : MachineFunction)
    (j : InstrPtr) :
    0 ∉ (doLiveAnalysis TRI Fn).instrs.insLiveBeforeMap j ∧
    0 ∉ (doLiveAnalysis TRI Fn).instrs.insLiveAfterMap j := by
  show 0 ∉ (analyzeInstructionsLiveVars TRI Fn _ _).insLiveBeforeMap j ∧ _
  unfold analyzeInstructionsLiveVars
  exact foldl_inv (fun m : InsLiveMaps => ∀ j, 0 ∉ m.insLiveBeforeMap j ∧
      0 ∉ m.insLiveAfterMap j) _
    (fun m bb hm => liveForInstrLoop_zero TRI Fn _ _ m
      (zero_not_mem_live_blocks TRI Fn bb).2.2.2 hm) _ _
    (fun _ => ⟨Finset.not_mem_empty _, Finset.not_mem_empty _⟩) j

/-- No fact of the universe has register 0. -/
theorem doInit_reg_ne_zero (TRI : TargetRegisterInfo) (Fn : MachineFunction) (h : Nat) :
    ∀ f ∈ (doInit TRI Fn h).RDfactSet, f.getReg ≠ 0 := by
  intro f hf h0
  have hp : f.components ∈ components (doInit TRI Fn h).RDfactSet :=
    Finset.mem_image_of_mem _ hf
  obtain ⟨_, MOp, _, _, h2, _, h4⟩ := (mem_components_doInit TRI Fn h _).1 hp
  have h5 : f.components.1 = 0 := h0
  rw [h5] at h4
  rcases h4 with h | ⟨_, h⟩
  · exact h2 h.symm
  · exact zero_not_mem_aliases TRI _ h

theorem reg_ne_zero_of_blockDefPairs (TRI : TargetRegisterInfo) (Fn : MachineFunction)
    (b : Nat) {S : Finset RDfact} (hS : components S = blockDefPairs TRI Fn b) :
    ∀ f ∈ S, f.getReg ≠ 0 := by
  intro f hf h0
  have hp : f.components ∈ components S := Finset.mem_image_of_mem _ hf
  rw [hS] at hp
  have hd := ((mem_blockDefPairs TRI Fn b _).1 hp).2
  have h5 : f.components.1 = 0 := h0
  rw [h5] at hd
  exact zero_not_mem_defs TRI _ hd

/-- No fact of a block-level reaching-definitions set has register 0, when
none of the universe has. -/
theorem analyzeRD_reg_ne_zero (TRI : TargetRegisterInfo) (Fn : MachineFunction)
    (R : Finset RDfact) (h : Nat) (hR : ∀ f ∈ R, f.getReg ≠ 0) (b : Nat) :
    (∀ f ∈ (analyzeBasicBlocksRDefs TRI Fn R h).RDgenMap b, f.getReg ≠ 0) ∧
    (∀ f ∈ (analyzeBasicBlocksRDefs TRI Fn R h).RDkillMap b, f.getReg ≠ 0) ∧
    (∀ f ∈ (analyzeBasicBlocksRDefs TRI Fn R h).RDbeforeMap b, f.getReg ≠ 0) ∧
    (∀ f ∈ (analyzeBasicBlocksRDefs TRI Fn R h).RDafterMap b, f.getReg ≠ 0) := by
  have hs := (rdefsLoop_abstract Fn (rdefsFuel Fn (rdefsInit TRI Fn R h))
    (rdefsInit TRI Fn R h)).2
  have hg : (analyzeBasicBlocksRDefs TRI Fn R h).RDgenMap = (rdefsInit TRI Fn R h).RDgenMap :=
    congrArg Solver.gen hs
  have hk : (analyzeBasicBlocksRDefs TRI Fn R h).RDkillMap =
      (rdefsInit TRI Fn R h).RDkillMap := congrArg Solver.kill hs
  obtain ⟨_, _, _, i4, _, _, i7, i8⟩ := rdefsInit_upto TRI Fn R h Fn.length
  have hgen : ∀ b, ∀ f ∈ (rdefsInit TRI Fn R h).RDgenMap b, f.getReg ≠ 0 := by
    intro b f hf
    by_cases hb : b < Fn.length
    · exact reg_ne_zero_of_blockDefPairs TRI Fn b (i8 b hb) f hf
    · have he : (rdefsInit TRI Fn R h).RDgenMap b = ∅ := i4 b (Nat.le_of_not_lt hb)
      rw [he] at hf
      exact absurd hf (Finset.not_mem_empty _)
  obtain ⟨k, _, hr⟩ := analyzeRD_run TRI Fn R h
  obtain ⟨hrun, _, _⟩ := rdRun_abstract Fn hr
  rw [rdefsInit_abstract] at hrun
  have hq := Solver.run_forall _ (fun f : RDfact => f.getReg ≠ 0) hgen hrun b
  refine ⟨?_, ?_, hq.1, hq.2⟩
  · rw [hg]; exact hgen b
  · rw [hk]; exact fun f hf => hR f (i7 b hf)

theorem rdefsInstrStep_reg_ne_zero (TRI : TargetRegisterInfo) (Fn : MachineFunction)
    (R : Finset RDfact) (acc : Finset RDfact × InsRDState) (inIt : InstrPtr)
    (h : (∀ f ∈ acc.1, f.getReg ≠ 0) ∧
      ∀ j, (∀ f ∈ acc.2.insRDbeforeMap j, f.getReg ≠ 0) ∧
        (∀ f ∈ acc.2.insRDafterMap j, f.getReg ≠ 0)) :
    (∀ f ∈ (rdefsInstrStep TRI Fn R acc inIt).1, f.getReg ≠ 0) ∧
      ∀ j, (∀ f ∈ (rdefsInstrStep TRI Fn R acc inIt).2.insRDbeforeMap j, f.getReg ≠ 0) ∧
        (∀ f ∈ (rdefsInstrStep TRI Fn R acc inIt).2.insRDafterMap j, f.getReg ≠ 0) := by
  obtain ⟨h1, h2⟩ := h
  have hgen : ∀ f ∈ (insGenKill R inIt
      (setToList (getOneInstrRegDefs TRI (Fn.instr inIt))) acc.2.heapNext).1,
      f.getReg ≠ 0 := by
    intro f hf h0
    have hp : f.components ∈ components (insGenKill R inIt
        (setToList (getOneInstrRegDefs TRI (Fn.instr inIt))) acc.2.heapNext).1 :=
      Finset.mem_image_of_mem _ hf
    rw [(insGenKill_spec R inIt _ _).2.2.1, setToList_toFinset] at hp
    obtain ⟨d, hd, he⟩ := Finset.mem_image.1 hp
    have h5 : f.components.1 = 0 := h0
    rw [← he] at h5
    simp only at h5
    rw [h5] at hd
    exact zero_not_mem_defs TRI _ hd
  have hnew : ∀ f ∈ RDsetUnion (RDsetSubtract acc.1 (insGenKill R inIt
      (setToList (getOneInstrRegDefs TRI (Fn.instr inIt))) acc.2.heapNext).2.1)
      (insGenKill R inIt
        (setToList (getOneInstrRegDefs TRI (Fn.instr inIt))) acc.2.heapNext).1,
      f.getReg ≠ 0 := by
    intro f hf
    unfold RDsetUnion RDsetSubtract at hf
    rcases Finset.mem_union.1 hf with hm | hm
    · exact h1 f (Finset.mem_filter.1 hm).1
    · exact hgen f hm
  unfold rdefsInstrStep
  simp only
  split_ifs
  · refine ⟨hnew, fun j => ⟨?_, ?_⟩⟩
    · simp only [Function.update_apply]
      split_ifs
      · exact h1
      · exact (h2 j).1
    · simp only [Function.update_apply]
      split_ifs
      · exact hnew
      · exact (h2 j).2
  · refine ⟨h1, fun j => ⟨?_, ?_⟩⟩
    · simp only [Function.update_apply]
      split_ifs
      · exact h1
      · exact (h2 j).1
    · simp only [Function.update_apply]
      split_ifs
      · exact h1
      · exact (h2 j).2

/-- No fact of an instruction-level reaching-definitions set has register 0,
when none of the block-level RD-before sets has. -/
theorem analyzeInstructionsRDefs_reg_ne_zero (TRI : TargetRegisterInfo)
    (Fn : MachineFunction) (R : Finset RDfact) (RDbeforeMap : Nat → Finset RDfact)
    (hB : ∀ b, ∀ f ∈ RDbeforeMap b, f.getReg ≠ 0) (h : Nat) (j : InstrPtr) :
    (∀ f ∈ (analyzeInstructionsRDefs TRI Fn R RDbeforeMap
        ⟨fun _ => ∅, fun _ => ∅, h⟩).insRDbeforeMap j, f.getReg ≠ 0) ∧
    (∀ f ∈ (analyzeInstructionsRDefs TRI Fn R RDbeforeMap
        ⟨fun _ => ∅, fun _ => ∅, h⟩).insRDafterMap j, f.getReg ≠ 0) := by
  unfold analyzeInstructionsRDefs
  apply foldl_inv (fun m : InsRDState => ∀ j,
    (∀ f ∈ m.insRDbeforeMap j, f.getReg ≠ 0) ∧ (∀ f ∈ m.insRDafterMap j, f.getReg ≠ 0)) _ _ _ _
    (fun _ => ⟨fun f hf => absurd hf (Finset.not_mem_empty f),
      fun f hf => absurd hf (Finset.not_mem_empty f)⟩) j
  intro m bb hm
  unfold rdefsInstrBlock
  exact (foldl_inv (fun acc : Finset RDfact × InsRDState =>
      (∀ f ∈ acc.1, f.getReg ≠ 0) ∧
      ∀ j, (∀ f ∈ acc.2.insRDbeforeMap j, f.getReg ≠ 0) ∧
        (∀ f ∈ acc.2.insRDafterMap j, f.getReg ≠ 0)) _
    (fun acc inIt hacc => rdefsInstrStep_reg_ne_zero TRI Fn R acc inIt hacc) _
    (RDbeforeMap bb, m) ⟨hB bb, hm⟩).2

/-- C32. Register 0 is filtered out: for every function, 0 is in no liveness
Gen, Kill, Before or After set of a block, in no instruction-level live-before
or live-after set, and no fact of the universe `RDfactSet`, of a block's
reaching-definitions Gen, Kill, Before or After set or of an instruction-level
RD-before or RD-after set has register 0. -/
theorem register_zero_is_filtered (TRI : TargetRegisterInfo) (Fn : MachineFunction)
    (h : Nat) :
    (∀ b, 0 ∉ (doLiveAnalysis TRI Fn).blocks.liveVarsGenMap b ∧
      0 ∉ (doLiveAnalysis TRI Fn).blocks.liveVarsKillMap b ∧
      0 ∉ (doLiveAnalysis TRI Fn).blocks.liveBeforeMap b ∧
      0 ∉ (doLiveAnalysis TRI Fn).blocks.liveAfterMap b) ∧
    (∀ j, 0 ∉ (doLiveAnalysis TRI Fn).instrs.insLiveBeforeMap j ∧
      0 ∉ (doLiveAnalysis TRI Fn).instrs.insLiveAfterMap j) ∧
    (∀ f ∈ (doInit TRI Fn h).RDfactSet, f.getReg ≠ 0) ∧
    (∀ b, (∀ f ∈ (runReachingDefs TRI Fn h).blocks.RDgenMap b, f.getReg ≠ 0) ∧
      (∀ f ∈ (runReachingDefs TRI Fn h).blocks.RDkillMap b, f.getReg ≠ 0) ∧
      (∀ f ∈ (runReachingDefs TRI Fn h).blocks.RDbeforeMap b, f.getReg ≠ 0) ∧
      (∀ f ∈ (runReachingDefs TRI Fn h).blocks.RDafterMap b, f.getReg ≠ 0)) ∧
    (∀ j, (∀ f ∈ (runReachingDefs TRI Fn h).instrs.insRDbeforeMap j, f.getReg ≠ 0) ∧
      (∀ f ∈ (runReachingDefs TRI Fn h).instrs.insRDafterMap j, f.getReg ≠ 0)) := by
  have hblocks := analyzeRD_reg_ne_zero TRI Fn (doInit TRI Fn h).RDfactSet
    (doInit TRI Fn h).heapNext (doInit_reg_ne_zero TRI Fn h)
  exact ⟨fun b => zero_not_mem_live_blocks TRI Fn b,
    fun j => zero_not_mem_live_instrs TRI Fn j,
    doInit_reg_ne_zero TRI Fn h,
    hblocks,
    fun j => analyzeInstructionsRDefs_reg_ne_zero TRI Fn _ _
      (fun b => (hblocks b).2.2.1) _ j⟩

/-! ## The least solution: claim C33 -/

namespace Solver

variable {α : Type} [DecidableEq α]

/-- A pass keeps the state below any maps that are closed under the two
equations read as inclusions. -/
theorem iter_below_closed (S : Solver α) {I O : Nat → Finset α}
    (hI : ∀ b, S.join O b ⊆ I b) (hO : ∀ b, S.transfer b (I b) ⊆ O b)
    {st : SolverState α} (hb : Below I O st) (bb : Nat) : Below I O (S.iter bb st) := by
  have hjoin : S.join st.out bb ⊆ I bb :=
    Finset.Subset.trans (S.join_mono (fun c => (hb c).2) bb) (hI bb)
  intro b
  constructor
  · rw [iter_inp, Function.update_apply]
    split_ifs with h
    · subst h; exact hjoin
    · exact (hb b).1
  · by_cases h : (S.transfer bb (S.join st.out bb)).card > (st.out bb).card
    · rw [(S.iter_out_grow bb st h).1, Function.update_apply]
      split_ifs with h1
      · subst h1; exact Finset.Subset.trans (S.transfer_mono b hjoin) (hO b)
      · exact (hb b).2
    · rw [(S.iter_out_keep bb st h).1]; exact (hb b).2

theorem run_below_closed (S : Solver α) {I O : Nat → Finset α}
    (hI : ∀ b, S.join O b ⊆ I b) (hO : ∀ b, S.transfer b (I b) ⊆ O b) {k : Nat}
    {st st1 : SolverState α} (hr : Run S k st st1) (h0 : Below I O st) : Below I O st1 :=
  run_preserves S (Below I O) (fun bb _ h => S.iter_below_closed hI hO h bb) hr h0

end Solver

/-- Every run of the liveness loop stays below any maps that solve the two
equations at the blocks of the function. -/
theorem liveRun_least (TRI : TargetRegisterInfo) (Fn : MachineFunction)
    (A1 B1 : Nat → Finset Nat)
    (hsol : ∀ b, b < Fn.length →
      A1 b = (Fn.block b).succs.toFinset.biUnion B1 ∧
      B1 b = (A1 b \ getAllDefs (Fn.block b)) ∪ getUpwardsExposedUses TRI (Fn.block b))
    {k : Nat} {st : LiveState} (hr : LiveRun Fn k (liveVarsInit TRI Fn) st) (b : Nat) :
    st.liveBeforeMap b ⊆ B1 b ∧ st.liveAfterMap b ⊆ A1 b := by
  obtain ⟨hrun, _⟩ := liveRun_abstract Fn hr
  rw [liveVarsInit_abstract] at hrun
  have hgen : ((liveVarsInit TRI Fn).solver Fn).gen =
      fun b => getUpwardsExposedUses TRI (Fn.block b) := by
    rw [liveVarsInit_eq]; rfl
  have hkill : ((liveVarsInit TRI Fn).solver Fn).kill =
      fun b => getAllDefs (Fn.block b) := by
    rw [liveVarsInit_eq]; rfl
  have hmeet : ((liveVarsInit TRI Fn).solver Fn).meet = fun b => (Fn.block b).succs := rfl
  have hI : ∀ b, ((liveVarsInit TRI Fn).solver Fn).join
      (fun b => if b < Fn.length then B1 b else ∅) b ⊆
      (fun b => if b < Fn.length then A1 b else ∅) b := by
    intro b x hx
    obtain ⟨s, hs, hxs⟩ := (Solver.mem_join _ _ _ _).1 hx
    rw [hmeet] at hs
    simp only at hs
    by_cases hb : b < Fn.length
    · simp only [if_pos hb]
      rw [(hsol b hb).1, Finset.mem_biUnion]
      refine ⟨s, List.mem_toFinset.2 hs, ?_⟩
      by_cases hsl : s < Fn.length
      · simpa [if_pos hsl] using hxs
      · simp [if_neg hsl] at hxs
    · rw [block_of_le Fn (Nat.le_of_not_lt hb)] at hs
      exact absurd hs (List.not_mem_nil _)
  have hO : ∀ b, ((liveVarsInit TRI Fn).solver Fn).transfer b
      ((fun b => if b < Fn.length then A1 b else ∅) b) ⊆
      (fun b => if b < Fn.length then B1 b else ∅) b := by
    intro b x hx
    rw [Solver.mem_transfer, hgen, hkill] at hx
    by_cases hb : b < Fn.length
    · simp only [if_pos hb] at hx ⊢
      rw [(hsol b hb).2]
      rcases hx with ⟨h1, h2⟩ | h3
      · exact Finset.mem_union_left _ (Finset.mem_sdiff.2 ⟨h1, h2⟩)
      · exact Finset.mem_union_right _ h3
    · simp only [if_neg hb, Finset.not_mem_empty, false_and, false_or] at hx
      rw [block_of_le Fn (Nat.le_of_not_lt hb), getUpwardsExposedUses_nil] at hx
      exact absurd hx (Finset.not_mem_empty _)
  have hbelow := Solver.run_below_closed _ hI hO hrun
    (fun _ => ⟨Finset.empty_subset _, Finset.empty_subset _⟩) b
  by_cases hb : b < Fn.length
  · simp only [if_pos hb] at hbelow
    exact ⟨hbelow.2, hbelow.1⟩
  · simp only [if_neg hb] at hbelow
    exact ⟨Finset.Subset.trans hbelow.2 (Finset.empty_subset _),
      Finset.Subset.trans hbelow.1 (Finset.empty_subset _)⟩

/-- C33. Least fixed point: on a function whose predecessor and successor lists
agree, the maps `analyzeBasicBlocksLiveVars` leaves solve the backward
equations with Kill = `getAllDefs` and Gen = `getUpwardsExposedUses`, and they
lie below every other solution: for any maps A1, B1 with
A1(b) = union of B1(s) over the successors s of b and
B1(b) = (A1(b) - Kill(b)) union Gen(b) at every block b of the function,
live-before(b) is a subset of B1(b) and live-after(b) is a subset of A1(b) for
every b. -/
theorem liveness_is_least_solution (TRI : TargetRegisterInfo) (Fn : MachineFunction)
    (hc : CFGConsistent Fn) :
    LiveEquations TRI Fn (analyzeBasicBlocksLiveVars TRI Fn) ∧
    (analyzeBasicBlocksLiveVars TRI Fn).liveVarsKillMap = (fun b => getAllDefs (Fn.block b)) ∧
    (analyzeBasicBlocksLiveVars TRI Fn).liveVarsGenMap =
      (fun b => getUpwardsExposedUses TRI (Fn.block b)) ∧
    ∀ A1 B1 : Nat → Finset Nat,
      (∀ b, b < Fn.length →
        A1 b = (Fn.block b).succs.toFinset.biUnion B1 ∧
        B1 b = (A1 b \ getAllDefs (Fn.block b)) ∪ getUpwardsExposedUses TRI (Fn.block b)) →
      ∀ b, (analyzeBasicBlocksLiveVars TRI Fn).liveBeforeMap b ⊆ B1 b ∧
        (analyzeBasicBlocksLiveVars TRI Fn).liveAfterMap b ⊆ A1 b := by
  obtain ⟨k, _, hr⟩ := analyzeLive_run TRI Fn
  exact ⟨liveRun_equations TRI Fn hc hr (analyzeLive_worklist TRI Fn),
    (analyzeLive_gen_kill TRI Fn).2, (analyzeLive_gen_kill TRI Fn).1,
    fun A1 B1 hsol b => liveRun_least TRI Fn A1 B1 hsol hr b⟩

/-- Witness for C33 on the two-block loop, against the solution that carries
register 5 round the loop. -/
theorem liveness_is_least_solution_witness :
    CFGConsistent Examples.loopFn ∧
    (∀ b, b < Examples.loopFn.length →
      (fun b => if b = 0 then ({5, 1024} : Finset Nat) else {5}) b =
        (Examples.loopFn.block b).succs.toFinset.biUnion
          (fun b => if b = 0 then ({5} : Finset Nat) else {5, 1024}) ∧
      (fun b => if b = 0 then ({5} : Finset Nat) else {5, 1024}) b =
        ((fun b => if b = 0 then ({5, 1024} : Finset Nat) else {5}) b \
            getAllDefs (Examples.loopFn.block b)) ∪
          getUpwardsExposedUses Examples.tri (Examples.loopFn.block b)) ∧
    ∀ b, (analyzeBasicBlocksLiveVars Examples.tri Examples.loopFn).liveBeforeMap b ⊆
        (fun b => if b = 0 then ({5} : Finset Nat) else {5, 1024}) b ∧
      (analyzeBasicBlocksLiveVars Examples.tri Examples.loopFn).liveAfterMap b ⊆
        (fun b => if b = 0 then ({5, 1024} : Finset Nat) else {5}) b :=
  ⟨by decide, by decide,
    (liveness_is_least_solution Examples.tri Examples.loopFn (by decide)).2.2.2
      (fun b => if b = 0 then {5, 1024} else {5})
      (fun b => if b = 0 then {5} else {5, 1024}) (by decide)⟩

/-! ### Instruction-level reaching definitions at every position: claim C27 -/

theorem rdefsInstrStep_before (TRI : TargetRegisterInfo) (Fn : MachineFunction)
    (R : Finset RDfact) (acc : Finset RDfact × InsRDState) (inIt : InstrPtr) :
    (rdefsInstrStep TRI Fn R acc inIt).2.insRDbeforeMap inIt = acc.1 ∧
    ∀ j, j ≠ inIt → (rdefsInstrStep TRI Fn R acc inIt).2.insRDbeforeMap j =
      acc.2.insRDbeforeMap j := by
  unfold rdefsInstrStep
  simp only
  split_ifs
  · exact ⟨by simp, fun j hj => by simp [Function.update_apply, hj]⟩
  · exact ⟨by simp, fun j hj => by simp [Function.update_apply, hj]⟩

theorem rdefsInstrFold_before (TRI : TargetRegisterInfo) (Fn : MachineFunction)
    (R : Finset RDfact) (L : List InstrPtr) (acc : Finset RDfact × InsRDState) :
    ∀ j, j ∉ L → (L.foldl (rdefsInstrStep TRI Fn R) acc).2.insRDbeforeMap j =
      acc.2.insRDbeforeMap j := by
  induction L generalizing acc with
  | nil => exact fun _ _ => rfl
  | cons i L ih =>
    intro j hj
    simp only [List.foldl_cons]
    rw [ih (rdefsInstrStep TRI Fn R acc i) j (fun h => hj (List.mem_cons_of_mem _ h))]
    exact (rdefsInstrStep_before TRI Fn R acc i).2 j
      (fun h => hj (h ▸ List.mem_cons_self _ _))

/-- The instruction loop over a list of distinct instructions, started on a
set of facts allocated after `RDfactSet`: the RD-before set of the first
instruction is the set the loop starts from, the RD-before set of every other
instruction is the RD-after set of the one before it, and as pairs the
RD-after set of an instruction is its RD-before set together with the pairs of
the registers it defines. -/
theorem rdefsInstrFold_chain (TRI : TargetRegisterInfo) (Fn : MachineFunction)
    (R : Finset RDfact) (h1 : Nat) (hR : ∀ f ∈ R, f.addr < h1) (L : List InstrPtr) :
    ∀ (acc : Finset RDfact × InsRDState), L.Nodup →
      (∀ f ∈ acc.1, h1 ≤ f.addr) → h1 ≤ acc.2.heapNext →
      (∀ i ∈ L, components ((L.foldl (rdefsInstrStep TRI Fn R) acc).2.insRDafterMap i) =
        components ((L.foldl (rdefsInstrStep TRI Fn R) acc).2.insRDbeforeMap i) ∪
          (getOneInstrRegDefs TRI (Fn.instr i)).image (fun d => (d, i))) ∧
      (∀ i, L[0]? = some i →
        (L.foldl (rdefsInstrStep TRI Fn R) acc).2.insRDbeforeMap i = acc.1) ∧
      (∀ k i j, L[k]? = some i → L[k + 1]? = some j →
        (L.foldl (rdefsInstrStep TRI Fn R) acc).2.insRDbeforeMap j =
          (L.foldl (rdefsInstrStep TRI Fn R) acc).2.insRDafterMap i) := by
  induction L with
  | nil =>
    intro acc _ _ _
    refine ⟨fun i hi => absurd hi (List.not_mem_nil _), fun i hi => ?_, fun k i j hi _ => ?_⟩
    · simp at hi
    · simp at hi
  | cons x L ih =>
    intro acc hnd hX hh
    obtain ⟨hx, hnd1⟩ := List.nodup_cons.1 hnd
    obtain ⟨s1, s2⟩ := rdefsInstrStep_components TRI Fn R h1 hR acc x hX hh
    obtain ⟨m1, _, m3⟩ := rdefsInstrStep_maps TRI Fn R acc x
    obtain ⟨b1, _⟩ := rdefsInstrStep_before TRI Fn R acc x
    obtain ⟨t1, t2, t3⟩ := ih (rdefsInstrStep TRI Fn R acc x) hnd1 s1 (by omega)
    have kafter := (rdefsInstrFold_maps TRI Fn R L (rdefsInstrStep TRI Fn R acc x)).2 x hx
    have kbefore := rdefsInstrFold_before TRI Fn R L (rdefsInstrStep TRI Fn R acc x) x hx
    simp only [List.foldl_cons]
    refine ⟨?_, ?_, ?_⟩
    · intro i hi
      rcases List.mem_cons.1 hi with rfl | hi
      · rw [kafter, kbefore, m1, b1, s2]
      · exact t1 i hi
    · intro i hi
      simp only [List.getElem?_cons_zero, Option.some.injEq] at hi
      subst hi
      rw [kbefore, b1]
    · intro k i j hi hj
      cases k with
      | zero =>
        simp only [List.getElem?_cons_zero, Option.some.injEq] at hi
        subst hi
        simp only [Nat.zero_add, List.getElem?_cons_succ] at hj
        rw [t2 j hj, kafter, m1]
      | succ k =>
        simp only [List.getElem?_cons_succ] at hi hj
        exact t3 k i j hi hj

theorem instrPtrs_nodup (Fn : MachineFunction) (bb : Nat) : (instrPtrs Fn bb).Nodup := by
  unfold instrPtrs
  apply List.Nodup.map _ (List.nodup_range _)
  intro a b h
  exact (Prod.mk.inj h).2

theorem instrPtrs_getElem (Fn : MachineFunction) (bb k : Nat)
    (hk : k < (Fn.block bb).instrs.length) : (instrPtrs Fn bb)[k]? = some (bb, k) := by
  unfold instrPtrs
  rw [List.getElem?_map, List.getElem?_range hk]
  rfl

/-- The instruction-level maps after the first `m` blocks have been handled:
for each of these blocks, the RD-before set of the first instruction is the
RD-before set of the block, the RD-before set of every other instruction is
the RD-after set of the one before it, and as pairs the RD-after set of an
instruction is its RD-before set together with the pairs of the registers it
defines. -/
theorem insRD_positions_upto (TRI : TargetRegisterInfo) (Fn : MachineFunction)
    (R : Finset RDfact) (h1 : Nat) (hR : ∀ f ∈ R, f.addr < h1)
    (RDbeforeMap : Nat → Finset RDfact) (hB : ∀ b, ∀ f ∈ RDbeforeMap b, h1 ≤ f.addr)
    (m0 : InsRDState) (hm0 : h1 ≤ m0.heapNext) (m : Nat) :
    h1 ≤ ((List.range m).foldl (rdefsInstrBlock TRI Fn R RDbeforeMap) m0).heapNext ∧
    ∀ b k, b < m → k < (Fn.block b).instrs.length →
      ((List.range m).foldl (rdefsInstrBlock TRI Fn R RDbeforeMap) m0).insRDbeforeMap (b, k) =
        (if k = 0 then RDbeforeMap b
         else ((List.range m).foldl (rdefsInstrBlock TRI Fn R RDbeforeMap) m0).insRDafterMap
           (b, k - 1)) ∧
      components (((List.range m).foldl (rdefsInstrBlock TRI Fn R RDbeforeMap) m0).insRDafterMap
          (b, k)) =
        components (((List.range m).foldl
          (rdefsInstrBlock TRI Fn R RDbeforeMap) m0).insRDbeforeMap (b, k)) ∪
          (getOneInstrRegDefs TRI (Fn.instr (b, k))).image (fun d => (d, (b, k))) := by
  induction m with
  | zero => exact ⟨hm0, fun b k hb => absurd hb (Nat.not_lt_zero b)⟩
  | succ m ih =>
    rw [List.range_succ, List.foldl_append]
    generalize (List.range m).foldl (rdefsInstrBlock TRI Fn R RDbeforeMap) m0 = st at ih
    obtain ⟨i1, i2⟩ := ih
    simp only [List.foldl_cons, List.foldl_nil, rdefsInstrBlock]
    obtain ⟨_, c2, _⟩ := rdefsInstrFold_components TRI Fn R h1 hR (instrPtrs Fn m)
      (RDbeforeMap m, st) (hB m) i1
    obtain ⟨_, d2⟩ := rdefsInstrFold_maps TRI Fn R (instrPtrs Fn m) (RDbeforeMap m, st)
    have d3 := rdefsInstrFold_before TRI Fn R (instrPtrs Fn m) (RDbeforeMap m, st)
    obtain ⟨e1, e2, e3⟩ := rdefsInstrFold_chain TRI Fn R h1 hR (instrPtrs Fn m)
      (RDbeforeMap m, st) (instrPtrs_nodup Fn m) (hB m) i1
    refine ⟨c2, fun b k hb hk => ?_⟩
    by_cases hbm : b = m
    · subst hbm
      refine ⟨?_, e1 (b, k) ((mem_instrPtrs Fn b _).2 ⟨rfl, hk⟩)⟩
      by_cases hk0 : k = 0
      · subst hk0
        rw [if_pos rfl]
        exact e2 (b, 0) (instrPtrs_getElem Fn b 0 hk)
      · rw [if_neg hk0]
        obtain ⟨k1, rfl⟩ : ∃ k1, k = k1 + 1 := ⟨k - 1, by omega⟩
        exact e3 k1 (b, k1) (b, k1 + 1) (instrPtrs_getElem Fn b k1 (by omega))
          (instrPtrs_getElem Fn b (k1 + 1) hk)
    · have hnot : ∀ k1, (b, k1) ∉ instrPtrs Fn m :=
        fun k1 hmem => hbm ((mem_instrPtrs Fn m _).1 hmem).1
      rw [d2 _ (hnot k), d3 _ (hnot k), d2 _ (hnot (k - 1))]
      exact i2 b k (by omega) hk

/-- The instruction-level reaching definitions of `runReachingDefs` at every
position of every block. -/
theorem runReachingDefs_positions (TRI : TargetRegisterInfo) (Fn : MachineFunction)
    (h0 : Nat) (b k : Nat) (hb : b < Fn.length) (hk : k < (Fn.block b).instrs.length) :
    (runReachingDefs TRI Fn h0).instrs.insRDbeforeMap (b, k) =
      (if k = 0 then (runReachingDefs TRI Fn h0).blocks.RDbeforeMap b
       else (runReachingDefs TRI Fn h0).instrs.insRDafterMap (b, k - 1)) ∧
    components ((runReachingDefs TRI Fn h0).instrs.insRDafterMap (b, k)) =
      components ((runReachingDefs TRI Fn h0).instrs.insRDbeforeMap (b, k)) ∪
        (getOneInstrRegDefs TRI (Fn.instr (b, k))).image (fun d => (d, (b, k))) := by
  have hR := doInit_addr TRI Fn h0
  obtain ⟨a1, a2, _⟩ := analyzeRD_components TRI Fn _ _ hR
  exact (insRD_positions_upto TRI Fn _ _ hR _ a2 ⟨fun _ => ∅, fun _ => ∅, _⟩ a1
    Fn.length).2 b k hb hk

/-- The pairs of the universe `doInit` builds are the pairs of the
definitions made in the blocks of the function. -/
theorem doInit_is_blockDefPairs (TRI : TargetRegisterInfo) (Fn : MachineFunction) (h0 : Nat)
    (p : Nat × InstrPtr) :
    p ∈ components (doInit TRI Fn h0).RDfactSet ↔
      ∃ b, b < Fn.length ∧ p ∈ blockDefPairs TRI Fn b := by
  rw [mem_components_doInit]
  constructor
  · rintro ⟨⟨b, hb, hp⟩, hw⟩
    exact ⟨b, hb, (mem_blockDefPairs TRI Fn b p).2
      ⟨hp, (mem_getOneInstrRegDefs TRI _ _).2 hw⟩⟩
  · rintro ⟨b, hb, hp⟩
    obtain ⟨g1, g2⟩ := (mem_blockDefPairs TRI Fn b p).1 hp
    exact ⟨⟨b, hb, g1⟩, (mem_getOneInstrRegDefs TRI _ _).1 g2⟩

/-- C27. The analyses are total and tolerate instructions without defined
registers. For every function and every pass object, `runOnMachineFunction`
ends in `exit(0)`, not in the `exit(1)` of `getDefReg`, both worklist loops
having stopped on an empty worklist within their fuel, and the pass object
then holds what the three steps produce. `doInit`: the universe holds exactly
the pairs of the definitions made in the blocks. Blocks: the Gen and Kill
entries are those of `getUpwardsExposedUses`, `getAllDefs`, `getRDgen` and
`getRDkill`, as pairs the RD-after set is the RD-before set with the
definitions of the block, and when the edges of the function are consistent
the Before/After sets solve the liveness equations and the reaching-definition
equations on the stored pointers. Instructions: at every instruction the
live-before set is (live-after minus defined) union used, the live-after set
is the live-before set of the next instruction or the live-after set of the
block, the RD-before set is the RD-after set of the instruction before or the
RD-before set of the block, as pairs the RD-after set is the RD-before set
with the pairs of the registers the instruction defines, and the RD-after set
of the last instruction has the pairs of the RD-after set of the block. At an
instruction that defines no register the RD-after set is the RD-before set and
the live-before set is the live-after set together with the used registers. -/
theorem analyses_total_without_defs (TRI : TargetRegisterInfo) (Fn : MachineFunction)
    (self : PassState) :
    (runOnMachineFunction TRI Fn self).2 = Outcome.exits 0 ∧
    (runOnMachineFunction TRI Fn self).2 ≠ Outcome.exits 1 ∧
    (analyzeBasicBlocksLiveVars TRI Fn).worklist = ∅ ∧
    (analyzeBasicBlocksRDefs TRI Fn (doInit TRI Fn self.heapNext).RDfactSet
      (doInit TRI Fn self.heapNext).heapNext).worklist = ∅ ∧
    (∀ p, p ∈ components (runOnMachineFunction TRI Fn self).1.RDfactSet ↔
      ∃ b, b < Fn.length ∧ p ∈ blockDefPairs TRI Fn b) ∧
    (∀ b, b < Fn.length →
      (runOnMachineFunction TRI Fn self).1.liveVarsGenMap b =
        getUpwardsExposedUses TRI (Fn.block b) ∧
      (runOnMachineFunction TRI Fn self).1.liveVarsKillMap b = getAllDefs (Fn.block b) ∧
      components ((runOnMachineFunction TRI Fn self).1.RDgenMap b) = blockDefPairs TRI Fn b ∧
      (runOnMachineFunction TRI Fn self).1.RDkillMap b =
        getRDkill TRI Fn (runOnMachineFunction TRI Fn self).1.RDfactSet b ∧
      components ((runOnMachineFunction TRI Fn self).1.RDafterMap b) =
        components ((runOnMachineFunction TRI Fn self).1.RDbeforeMap b) ∪
          blockDefPairs TRI Fn b) ∧
    (CFGConsistent Fn → ∀ b, b < Fn.length →
      (runOnMachineFunction TRI Fn self).1.liveAfterMap b =
        (Fn.block b).succs.toFinset.biUnion (runOnMachineFunction TRI Fn self).1.liveBeforeMap ∧
      (runOnMachineFunction TRI Fn self).1.liveBeforeMap b =
        ((runOnMachineFunction TRI Fn self).1.liveAfterMap b \ getAllDefs (Fn.block b)) ∪
          getUpwardsExposedUses TRI (Fn.block b) ∧
      (runOnMachineFunction TRI Fn self).1.RDbeforeMap b =
        (Fn.block b).preds.toFinset.biUnion (runOnMachineFunction TRI Fn self).1.RDafterMap ∧
      (runOnMachineFunction TRI Fn self).1.RDafterMap b =
        ((runOnMachineFunction TRI Fn self).1.RDbeforeMap b \
            (runOnMachineFunction TRI Fn self).1.RDkillMap b) ∪
          (runOnMachineFunction TRI Fn self).1.RDgenMap b) ∧
    (∀ b k, b < Fn.length → k < (Fn.block b).instrs.length →
      (runOnMachineFunction TRI Fn self).1.insLiveBeforeMap (b, k) =
        ((runOnMachineFunction TRI Fn self).1.insLiveAfterMap (b, k) \
            getOneInstrRegDefs TRI (Fn.instr (b, k))) ∪
          getOneInstrRegUses TRI (Fn.instr (b, k)) ∧
      (runOnMachineFunction TRI Fn self).1.insLiveAfterMap (b, k) =
        (if k + 1 = (Fn.block b).instrs.length then
          (runOnMachineFunction TRI Fn self).1.liveAfterMap b
         else (runOnMachineFunction TRI Fn self).1.insLiveBeforeMap (b, k + 1)) ∧
      (runOnMachineFunction TRI Fn self).1.insRDbeforeMap (b, k) =
        (if k = 0 then (runOnMachineFunction TRI Fn self).1.RDbeforeMap b
         else (runOnMachineFunction TRI Fn self).1.insRDafterMap (b, k - 1)) ∧
      components ((runOnMachineFunction TRI Fn self).1.insRDafterMap (b, k)) =
        components ((runOnMachineFunction TRI Fn self).1.insRDbeforeMap (b, k)) ∪
          (getOneInstrRegDefs TRI (Fn.instr (b, k))).image (fun d => (d, (b, k))) ∧
      (k + 1 = (Fn.block b).instrs.length →
        components ((runOnMachineFunction TRI Fn self).1.insRDafterMap (b, k)) =
          components ((runOnMachineFunction TRI Fn self).1.RDafterMap b))) ∧
    (∀ b k, b < Fn.length → k < (Fn.block b).instrs.length →
      getOneInstrRegDefs TRI (Fn.instr (b, k)) = ∅ →
      (runOnMachineFunction TRI Fn self).1.insRDafterMap (b, k) =
        (runOnMachineFunction TRI Fn self).1.insRDbeforeMap (b, k) ∧
      (runOnMachineFunction TRI Fn self).1.insLiveBeforeMap (b, k) =
        (runOnMachineFunction TRI Fn self).1.insLiveAfterMap (b, k) ∪
          getOneInstrRegUses TRI (Fn.instr (b, k))) := by
  have hR := doInit_addr TRI Fn self.heapNext
  refine ⟨rfl, ?_, analyzeLive_worklist TRI Fn, analyzeRD_worklist TRI Fn _ _, ?_, ?_, ?_, ?_,
    ?_⟩
  · show Outcome.exits 0 ≠ Outcome.exits 1
    intro h
    cases h
  · intro p
    rw [runOnMachineFunction_state]
    exact doInit_is_blockDefPairs TRI Fn self.heapNext p
  · intro b hb
    rw [runOnMachineFunction_state]
    obtain ⟨g1, g2⟩ := analyzeLive_gen_kill TRI Fn
    obtain ⟨k1, k2⟩ := analyzeRD_gen_kill TRI Fn (doInit TRI Fn self.heapNext).RDfactSet
      (doInit TRI Fn self.heapNext).heapNext b hb
    exact ⟨congrFun g1 b, congrFun g2 b, k2, k1,
      (analyzeRD_components TRI Fn _ _ hR).2.2 b hb⟩
  · intro hc b hb
    rw [runOnMachineFunction_state]
    obtain ⟨k, _, hr⟩ := analyzeLive_run TRI Fn
    obtain ⟨l1, l2⟩ := liveRun_equations TRI Fn hc hr (analyzeLive_worklist TRI Fn) b hb
    obtain ⟨k2, _, hr2⟩ := analyzeRD_run TRI Fn (doInit TRI Fn self.heapNext).RDfactSet
      (doInit TRI Fn self.heapNext).heapNext
    obtain ⟨r1, r2⟩ := rdRun_equations TRI Fn _ _ hc hr2 (analyzeRD_worklist TRI Fn _ _) b hb
    exact ⟨l1, l2, r1, r2⟩
  · intro b k hb hk
    rw [runOnMachineFunction_state]
    obtain ⟨p1, p2⟩ := doLiveAnalysis_positions TRI Fn b k hb hk
    obtain ⟨q1, q2⟩ := runReachingDefs_positions TRI Fn self.heapNext b k hb hk
    refine ⟨p1, p2, q1, q2, fun hlast => ?_⟩
    have hne : (Fn.block b).instrs ≠ [] := by
      intro h
      rw [h] at hk
      exact absurd hk (Nat.not_lt_zero k)
    have hk1 : k = (Fn.block b).instrs.length - 1 := by omega
    have hi := (insRD_upto TRI Fn _ _ hR _ (analyzeRD_components TRI Fn _ _ hR).2.1
      ⟨fun _ => ∅, fun _ => ∅, _⟩ (analyzeRD_components TRI Fn _ _ hR).1 Fn.length).2 b hb hne
    rw [hk1]
    show components ((runReachingDefs TRI Fn self.heapNext).instrs.insRDafterMap
      (b, (Fn.block b).instrs.length - 1)) = _
    unfold runReachingDefs doReachingDefsAnalysis analyzeInstructionsRDefs
    simp only
    rw [hi, (analyzeRD_components TRI Fn _ _ hR).2.2 b hb]
  · intro b k hb hk hdefs
    rw [runOnMachineFunction_state]
    constructor
    · exact analyzeInstructionsRDefs_passes TRI Fn _ _ _ (fun _ _ => rfl) (b, k) hdefs
    · have h := (doLiveAnalysis_positions TRI Fn b k hb hk).1
      rw [hdefs, Finset.sdiff_empty] at h
      exact h

end Gcra

set_option maxRecDepth 1000000

namespace LiveVars

open IR (Value Instruction BasicBlock)

/-! ## The block-level loop of `liveVars.cpp`: claims C34, C35 -/

/-- A pass of the loop leaves `bbBAMap` as it is. -/
theorem computeBBBeforeAfterIter_map (F : IR.Function) (bbGKMap : DenseMap Nat genKill)
    (b : Nat) (rest : List Nat) (bbBAMap : DenseMap Nat beforeAfter) :
    (computeBBBeforeAfterIter F bbGKMap b rest bbBAMap).bbBAMap = bbBAMap := rfl

/-- Whenever the loop ends, `bbBAMap` is what it was at the start. -/
theorem computeBBBeforeAfterLoop_map (F : IR.Function) (bbGKMap : DenseMap Nat genKill)
    (fuel : Nat) : ∀ (st st1 : BAState),
    computeBBBeforeAfterLoop F bbGKMap fuel st = some st1 → st1.bbBAMap = st.bbBAMap := by
  induction fuel with
  | zero =>
    intro st st1 h
    unfold computeBBBeforeAfterLoop at h
    split at h
    · cases h; rfl
    · cases h
    · rename_i heq
      cases heq
  | succ fuel ih =>
    intro st st1 h
    unfold computeBBBeforeAfterLoop at h
    split at h
    · cases h; rfl
    · rename_i heq
      cases heq
    · rename_i b rest fuel1 hw heq
      cases heq
      have h1 := ih (computeBBBeforeAfterIter F bbGKMap b rest st.bbBAMap) st1 h
      exact h1

/-- A block that is absent from `bbBAMap` always has its predecessors pushed. -/
theorem bodyLocals_absent (F : IR.Function) (bbGKMap : DenseMap Nat genKill)
    (bbBAMap : DenseMap Nat beforeAfter) (b : Nat) (h : bbBAMap b = none) :
    (bodyLocals F bbGKMap bbBAMap b).2 = true := by
  unfold bodyLocals
  simp only [DenseMap.count, h, Option.isSome_none, Bool.not_false]
  split_ifs <;> rfl

theorem mem_push_foldl (l : List Nat) (w : List Nat) (x : Nat) :
    x ∈ l.foldl (fun w PI => PI :: w) w ↔ x ∈ l ∨ x ∈ w := by
  induction l generalizing w with
  | nil => simp
  | cons a t ih =>
    simp only [List.foldl_cons]
    rw [ih]
    simp only [List.mem_cons]
    tauto

/-- With an empty `bbBAMap`, the loop never ends when the worklist holds a
block of a set in which every block has a predecessor of the set. -/
theorem computeBBBeforeAfterLoop_none (F : IR.Function) (bbGKMap : DenseMap Nat genKill)
    (C : Nat → Prop) (hC : ∀ b, C b → ∃ p ∈ (F.block b).preds, C p) (fuel : Nat) :
    ∀ st : BAState, (∀ b, st.bbBAMap b = none) → (∃ b ∈ st.workList, C b) →
      computeBBBeforeAfterLoop F bbGKMap fuel st = none := by
  induction fuel with
  | zero =>
    intro st _ hw
    unfold computeBBBeforeAfterLoop
    split
    · rename_i heq
      obtain ⟨b, hb, _⟩ := hw
      rw [heq] at hb
      exact absurd hb (List.not_mem_nil _)
    · rfl
    · rename_i heq
      cases heq
  | succ fuel ih =>
    intro st hm hw
    unfold computeBBBeforeAfterLoop
    split
    · rename_i heq
      obtain ⟨b, hb, _⟩ := hw
      rw [heq] at hb
      exact absurd hb (List.not_mem_nil _)
    · rename_i heq
      cases heq
    · rename_i b rest fuel1 heq hf
      cases hf
      apply ih (computeBBBeforeAfterIter F bbGKMap b rest st.bbBAMap) (fun c => hm c)
      obtain ⟨c, hc, hcc⟩ := hw
      rw [heq] at hc
      unfold computeBBBeforeAfterIter
      simp only [bodyLocals_absent F bbGKMap st.bbBAMap b (hm b), if_true]
      rcases List.mem_cons.1 hc with rfl | hrest
      · obtain ⟨p, hp, hpc⟩ := hC c hcc
        exact ⟨p, (mem_push_foldl _ _ _).2 (Or.inl hp), hpc⟩
      · exact ⟨c, (mem_push_foldl _ _ _).2 (Or.inr hrest), hcc⟩

/-- C34. SSA-value liveness solver terminates, evaluated on the function
with entry 0 -> 1, loop 1 -> 1 and exit 1 -> 2, whose last block 2 is
reachable from the cycle through block 1: whatever the number of passes
allowed, the worklist loop of `computeBBBeforeAfter` has not ended, and
`runOnFunction` does not return; the popped block is never present in
`bbBAMap`, so its predecessors are pushed every time. -/
theorem ssa_worklist_never_empties_on_loop :
    (∀ fuel, computeBBBeforeAfter fuel Examples.loopFn
      (computeBBGenKill Examples.loopFn (fun _ => none)) (fun _ => none) = none) ∧
    (∀ fuel, runOnFunction fuel Examples.loopFn = none) := by
  have key : ∀ fuel, computeBBBeforeAfterLoop Examples.loopFn
      (computeBBGenKill Examples.loopFn (fun _ => none)) fuel
      ⟨[Examples.loopFn.length - 1], fun _ => none⟩ = none := by
    intro fuel
    apply computeBBBeforeAfterLoop_none _ _ (fun b => b = 1 ∨ b = 2) _ fuel _ (fun _ => rfl)
    · exact ⟨2, List.mem_singleton.2 rfl, Or.inr rfl⟩
    · rintro b (rfl | rfl)
      · exact ⟨1, by decide, Or.inl rfl⟩
      · exact ⟨1, by decide, Or.inl rfl⟩
  constructor
  · intro fuel
    unfold computeBBBeforeAfter
    rw [key fuel]
    rfl
  · intro fuel
    unfold runOnFunction computeBBBeforeAfter
    rw [key fuel]
    rfl

/-- C35. SSA-value liveness solver computes the converged facts, evaluated on
the chain 0 -> 1 where instruction 11 of block 1 uses instruction 10 of block
0: `computeBBBeforeAfter` returns after two passes, block 1 is absent from
`bbBAMap` and its entry reads before = after = {}, while gen of block 1 in
`bbGKMap` is {10}, so that (after - kill) union gen = {10} is not the before
set. -/
theorem ssa_block_facts_never_stored :
    (computeBBBeforeAfter 2 Examples.chainFn
      (computeBBGenKill Examples.chainFn (fun _ => none)) (fun _ => none)).isSome = true ∧
    (∀ m, computeBBBeforeAfter 2 Examples.chainFn
        (computeBBGenKill Examples.chainFn (fun _ => none)) (fun _ => none) = some m →
      DenseMap.count m 1 = false ∧
      (DenseMap.lookup m 1).before = ∅ ∧
      (DenseMap.lookup m 1).after = ∅ ∧
      (DenseMap.lookup (computeBBGenKill Examples.chainFn (fun _ => none)) 1).gen = {10} ∧
      (DenseMap.lookup (computeBBGenKill Examples.chainFn (fun _ => none)) 1).kill = {11} ∧
      (DenseMap.lookup m 1).before ≠
        ((DenseMap.lookup m 1).after \
            (DenseMap.lookup (computeBBGenKill Examples.chainFn (fun _ => none)) 1).kill) ∪
          (DenseMap.lookup (computeBBGenKill Examples.chainFn (fun _ => none)) 1).gen) := by
  constructor
  · decide
  · intro m hm
    unfold computeBBBeforeAfter at hm
    obtain ⟨st1, hst, rfl⟩ := Option.map_eq_some'.1 hm
    have hmap := computeBBBeforeAfterLoop_map _ _ _ _ _ hst
    rw [hmap]
    decide

end LiveVars

namespace LiveVars

open IR (Value Instruction BasicBlock)

/-! ## Gen and Kill of `liveVars.cpp`: claim C36 -/

theorem operandFold_spec (ops : List Value) (s : genKill) :
    (ops.foldl genKillOperand s).kill = s.kill ∧
    ∀ x, x ∈ (ops.foldl genKillOperand s).gen ↔
      x ∈ s.gen ∨ (Value.inst x ∈ ops ∧ x ∉ s.kill) := by
  induction ops generalizing s with
  | nil => exact ⟨rfl, fun x => by simp⟩
  | cons v t ih =>
    simp only [List.foldl_cons]
    obtain ⟨hk, hg⟩ := ih (genKillOperand s v)
    have hk1 : (genKillOperand s v).kill = s.kill := by
      unfold genKillOperand
      split
      · split_ifs <;> rfl
      · rfl
    refine ⟨hk.trans hk1, fun x => ?_⟩
    rw [hg, hk1]
    unfold genKillOperand
    cases v with
    | inst op =>
      simp only
      by_cases hop : op ∉ s.kill
      · rw [if_pos hop]
        simp only [Finset.mem_insert, List.mem_cons, Value.inst.injEq]
        constructor
        · rintro ((rfl | h) | ⟨h1, h2⟩)
          · exact Or.inr ⟨Or.inl rfl, hop⟩
          · exact Or.inl h
          · exact Or.inr ⟨Or.inr h1, h2⟩
        · rintro (h | ⟨rfl | h1, h2⟩)
          · exact Or.inl (Or.inr h)
          · exact Or.inl (Or.inl rfl)
          · exact Or.inr ⟨h1, h2⟩
      · rw [if_neg hop]
        simp only [List.mem_cons, Value.inst.injEq]
        constructor
        · rintro (h | ⟨h1, h2⟩)
          · exact Or.inl h
          · exact Or.inr ⟨Or.inr h1, h2⟩
        · rintro (h | ⟨rfl | h1, h2⟩)
          · exact Or.inl h
          · exact absurd h2 hop
          · exact Or.inr ⟨h1, h2⟩
    | other id =>
      simp only [List.mem_cons]
      constructor
      · rintro (h | ⟨h1, h2⟩)
        · exact Or.inl h
        · exact Or.inr ⟨Or.inr h1, h2⟩
      · rintro (h | ⟨h | h1, h2⟩)
        · exact Or.inl h
        · cases h
        · exact Or.inr ⟨h1, h2⟩

/-- The instruction loop of `computeBBGenKill` from an arbitrary start. -/
theorem instrFold_spec (l : List Instruction) (s : genKill) :
    (l.foldl genKillInstr s).kill = s.kill ∪ (l.map Instruction.addr).toFinset ∧
    ∀ x, x ∈ (l.foldl genKillInstr s).gen ↔
      x ∈ s.gen ∨ ∃ pre i post, l = pre ++ i :: post ∧ Value.inst x ∈ i.operands ∧
        x ∉ s.kill ∧ ∀ j ∈ pre, j.addr ≠ x := by
  induction l generalizing s with
  | nil =>
    refine ⟨by simp, fun x => ?_⟩
    simp only [List.foldl_nil, iff_self_or]
    rintro ⟨pre, i, post, h, _⟩
    exact absurd h (by simp)
  | cons a t ih =>
    simp only [List.foldl_cons]
    obtain ⟨hk, hg⟩ := ih (genKillInstr s a)
    obtain ⟨ok, og⟩ := operandFold_spec a.operands s
    have hk1 : (genKillInstr s a).kill = insert a.addr s.kill := by
      unfold genKillInstr
      rw [ok]
    have hg1 : ∀ x, x ∈ (genKillInstr s a).gen ↔
        x ∈ s.gen ∨ (Value.inst x ∈ a.operands ∧ x ∉ s.kill) := og
    constructor
    · rw [hk, hk1]
      ext x
      simp only [List.map_cons, List.toFinset_cons, Finset.mem_union, Finset.mem_insert]
      tauto
    · intro x
      rw [hg, hg1, hk1]
      constructor
      · rintro ((h | ⟨h1, h2⟩) | ⟨pre, i, post, h1, h2, h3, h4⟩)
        · exact Or.inl h
        · exact Or.inr ⟨[], a, t, rfl, h1, h2, fun j hj => absurd hj (List.not_mem_nil j)⟩
        · refine Or.inr ⟨a :: pre, i, post, by rw [h1]; rfl, h2, ?_, ?_⟩
          · exact fun h => h3 (Finset.mem_insert_of_mem h)
          · intro j hj
            rcases List.mem_cons.1 hj with rfl | hj
            · exact fun h => h3 (h ▸ Finset.mem_insert_self _ _)
            · exact h4 j hj
      · rintro (h | ⟨pre, i, post, h1, h2, h3, h4⟩)
        · exact Or.inl (Or.inl h)
        · cases pre with
          | nil =>
            simp only [List.nil_append, List.cons.injEq] at h1
            obtain ⟨rfl, rfl⟩ := h1
            exact Or.inl (Or.inr ⟨h2, h3⟩)
          | cons p pre =>
            simp only [List.cons_append, List.cons.injEq] at h1
            obtain ⟨rfl, rfl⟩ := h1
            refine Or.inr ⟨pre, i, post, rfl, h2, ?_, fun j hj => h4 j (List.mem_cons_of_mem _ hj)⟩
            intro h
            rcases Finset.mem_insert.1 h with h | h
            · exact h4 a (List.mem_cons_self _ _) h.symm
            · exact h3 h

theorem insert_absent {κ ν : Type} [DecidableEq κ] (m : DenseMap κ ν) (k : κ) (v : ν)
    (h : m k = none) : DenseMap.insert m k v = Function.update m k (some v) := by
  unfold DenseMap.insert
  rw [h]
  rfl

theorem insert_present {κ ν : Type} [DecidableEq κ] (m : DenseMap κ ν) (k c : κ) (v e : ν)
    (h : m c = some e) : DenseMap.insert m k v c = some e := by
  unfold DenseMap.insert
  split_ifs with hk
  · exact h
  · rw [Function.update_apply]
    split_ifs with hc
    · subst hc
      rw [h] at hk
      exact absurd rfl hk
    · exact h

/-- The map `computeBBGenKill` builds from an empty map, after the first `m`
blocks. -/
theorem computeBBGenKill_upto (F : IR.Function) (m : Nat) :
    (List.range m).foldl (fun bbMap b =>
      DenseMap.insert bbMap b ((F.block b).instrs.foldl genKillInstr ⟨∅, ∅⟩))
      (fun _ => none) =
    fun b => if b < m then some ((F.block b).instrs.foldl genKillInstr ⟨∅, ∅⟩) else none := by
  induction m with
  | zero => funext b; simp
  | succ m ih =>
    rw [List.range_succ, List.foldl_append, ih]
    simp only [List.foldl_cons, List.foldl_nil]
    rw [insert_absent _ _ _ (by simp)]
    funext b
    rw [Function.update_apply]
    by_cases hb : b = m
    · subst hb; simp
    · rw [if_neg hb]
      by_cases h1 : b < m
      · rw [if_pos h1, if_pos (by omega)]
      · rw [if_neg h1, if_neg (by omega)]

theorem ssa_block_of_le (F : IR.Function) {b : Nat} (h : F.length ≤ b) :
    F.block b = ⟨[], [], []⟩ := by
  unfold IR.Function.block
  exact List.getD_eq_default _ _ h

/-- The entry of block `b` in the map of `computeBBGenKill`. -/
theorem computeBBGenKill_lookup (F : IR.Function) (b : Nat) :
    DenseMap.count (computeBBGenKill F (fun _ => none)) b = decide (b < F.length) ∧
    DenseMap.lookup (computeBBGenKill F (fun _ => none)) b =
      (F.block b).instrs.foldl genKillInstr ⟨∅, ∅⟩ := by
  unfold computeBBGenKill
  rw [computeBBGenKill_upto]
  unfold DenseMap.count DenseMap.lookup
  by_cases hb : b < F.length
  · simp [hb]
  · simp only [if_neg hb, Option.isSome_none, Option.getD_none]
    rw [ssa_block_of_le F (Nat.le_of_not_lt hb)]
    exact ⟨by simp [hb], rfl⟩

/-- C36. SSA-value Gen/Kill: for every block `b`, the entry `computeBBGenKill`
stores has kill(b) = the set of all instructions of `b`, and gen(b) = the
instruction operands `v` of instructions `i` of `b` such that no instruction
before `i` in `b` is `v` (so an instruction that is its own operand is in
gen); the entry is present exactly for the blocks of the function. -/
theorem ssa_gen_kill_contract (F : IR.Function) (b : Nat) :
    DenseMap.count (computeBBGenKill F (fun _ => none)) b = decide (b < F.length) ∧
    (DenseMap.lookup (computeBBGenKill F (fun _ => none)) b).kill =
      ((F.block b).instrs.map Instruction.addr).toFinset ∧
    ∀ v, v ∈ (DenseMap.lookup (computeBBGenKill F (fun _ => none)) b).gen ↔
      ∃ pre i post, (F.block b).instrs = pre ++ i :: post ∧ Value.inst v ∈ i.operands ∧
        ∀ j ∈ pre, j.addr ≠ v := by
  obtain ⟨hc, hl⟩ := computeBBGenKill_lookup F b
  obtain ⟨hk, hg⟩ := instrFold_spec (F.block b).instrs ⟨∅, ∅⟩
  refine ⟨hc, ?_, fun v => ?_⟩
  · rw [hl, hk]
    simp
  · rw [hl, hg]
    simp

end LiveVars

namespace LiveVars

open IR (Value Instruction BasicBlock)

/-! ## The instruction-level replay of `liveVars.cpp`: claim C37 -/

theorem mem_insertInstOperands (S : Finset Nat) (ops : List Value) (x : Nat) :
    x ∈ insertInstOperands S ops ↔ x ∈ S ∨ Value.inst x ∈ ops := by
  unfold insertInstOperands
  induction ops generalizing S with
  | nil => simp
  | cons v t ih =>
    simp only [List.foldl_cons]
    rw [ih]
    cases v with
    | inst op =>
      simp only [Finset.mem_insert, List.mem_cons, Value.inst.injEq]
      tauto
    | other id =>
      simp only [List.mem_cons]
      constructor
      · rintro (h | h)
        · exact Or.inl h
        · exact Or.inr (Or.inr h)
      · rintro (h | h | h)
        · exact Or.inl h
        · cases h
        · exact Or.inr h

theorem mem_instOperands (i : Instruction) (x : Nat) :
    x ∈ instOperands i ↔ Value.inst x ∈ i.operands := by
  unfold instOperands
  simp only [List.mem_toFinset, List.mem_filterMap]
  constructor
  · rintro ⟨v, hv, h⟩
    cases v with
    | inst op =>
      simp only [Option.some.injEq] at h
      subst h
      exact hv
    | other id => cases h
  · intro h
    exact ⟨Value.inst x, h, rfl⟩

/-- What the body of the loop computes, as a set expression. -/
theorem insertInstOperands_erase (X : Finset Nat) (i : Instruction) :
    insertInstOperands (X.erase i.addr) i.operands = (X \ {i.addr}) ∪ instOperands i := by
  ext x
  rw [mem_insertInstOperands, Finset.mem_union, mem_instOperands, Finset.mem_sdiff,
    Finset.mem_erase, Finset.mem_singleton]
  tauto

/-- The loop of one block, from the last instruction back: the two locals hold
the replayed set, and the map is the one after the instructions behind the
first, with the entry of the first inserted. -/
theorem blockFold_cons (A : Finset Nat) (m : DenseMap Nat beforeAfter) (i : Instruction)
    (rest : List Instruction) :
    (i :: rest).reverse.foldl iBeforeAfterBody ⟨A, A, m⟩ =
      iBeforeAfterBody (rest.reverse.foldl iBeforeAfterBody ⟨A, A, m⟩) i := by
  rw [List.reverse_cons, List.foldl_append]
  rfl

theorem blockFold_locals (A : Finset Nat) (m : DenseMap Nat beforeAfter)
    (l : List Instruction) :
    (l.reverse.foldl iBeforeAfterBody ⟨A, A, m⟩).liveBefore = replay A l ∧
    (l.reverse.foldl iBeforeAfterBody ⟨A, A, m⟩).liveAfter = replay A l := by
  induction l with
  | nil => exact ⟨rfl, rfl⟩
  | cons i rest ih =>
    rw [blockFold_cons]
    have e : (rest.reverse.foldl iBeforeAfterBody ⟨A, A, m⟩).liveBefore = replay A rest := ih.1
    constructor
    · show insertInstOperands
        ((rest.reverse.foldl iBeforeAfterBody ⟨A, A, m⟩).liveBefore.erase i.addr) i.operands = _
      rw [e]; rfl
    · show insertInstOperands
        ((rest.reverse.foldl iBeforeAfterBody ⟨A, A, m⟩).liveBefore.erase i.addr) i.operands = _
      rw [e]; rfl

theorem blockFold_map (A : Finset Nat) (m : DenseMap Nat beforeAfter) (i : Instruction)
    (rest : List Instruction) :
    ((i :: rest).reverse.foldl iBeforeAfterBody ⟨A, A, m⟩).iBAMap =
      DenseMap.insert (rest.reverse.foldl iBeforeAfterBody ⟨A, A, m⟩).iBAMap i.addr
        ⟨replay A (i :: rest), replay A rest⟩ := by
  rw [blockFold_cons]
  obtain ⟨h1, h2⟩ := blockFold_locals A m rest
  show DenseMap.insert (rest.reverse.foldl iBeforeAfterBody ⟨A, A, m⟩).iBAMap i.addr
    ⟨insertInstOperands
      ((rest.reverse.foldl iBeforeAfterBody ⟨A, A, m⟩).liveBefore.erase i.addr) i.operands,
     (rest.reverse.foldl iBeforeAfterBody ⟨A, A, m⟩).liveAfter⟩ = _
  rw [h1, h2]
  rfl

/-- The loop of one block adds no key besides the addresses of the block and
keeps the entries that are present. -/
theorem blockFold_keys (A : Finset Nat) (m : DenseMap Nat beforeAfter)
    (l : List Instruction) (k : Nat) :
    (m k = none → (∀ j ∈ l, j.addr ≠ k) →
      (l.reverse.foldl iBeforeAfterBody ⟨A, A, m⟩).iBAMap k = none) ∧
    (∀ e, m k = some e → (l.reverse.foldl iBeforeAfterBody ⟨A, A, m⟩).iBAMap k = some e) := by
  induction l with
  | nil => exact ⟨fun h _ => h, fun e h => h⟩
  | cons i rest ih =>
    rw [blockFold_map]
    constructor
    · intro hm hl
      have h1 := ih.1 hm (fun j hj => hl j (List.mem_cons_of_mem _ hj))
      have hne : k ≠ i.addr := fun h => hl i (List.mem_cons_self _ _) h.symm
      unfold DenseMap.insert
      split_ifs
      · exact h1
      · rw [Function.update_apply, if_neg hne]
        exact h1
    · intro e hm
      exact insert_present _ _ _ _ _ (ih.2 e hm)

/-- The entry recorded for an instruction of the block, when its address is
new to the map and differs from those of the instructions behind it. -/
theorem blockFold_entry (A : Finset Nat) (m : DenseMap Nat beforeAfter)
    (pre : List Instruction) (i : Instruction) (post : List Instruction)
    (hm : m i.addr = none) (hpost : ∀ j ∈ post, j.addr ≠ i.addr) :
    ((pre ++ i :: post).reverse.foldl iBeforeAfterBody ⟨A, A, m⟩).iBAMap i.addr =
      some ⟨replay A (i :: post), replay A post⟩ := by
  induction pre with
  | nil =>
    rw [List.nil_append, blockFold_map,
      insert_absent _ _ _ ((blockFold_keys A m post i.addr).1 hm hpost),
      Function.update_same]
  | cons p pre ih =>
    rw [List.cons_append, blockFold_map]
    exact insert_present _ _ _ _ _ ih

/-- The replayed set in closed form: what was live after the list and is no
instruction of it, and the instruction operands that no earlier instruction of
the list is. -/
theorem mem_replay (A : Finset Nat) (l : List Instruction) (x : Nat) :
    x ∈ replay A l ↔
      (x ∈ A ∧ ∀ j ∈ l, j.addr ≠ x) ∨
      ∃ pre i post, l = pre ++ i :: post ∧ Value.inst x ∈ i.operands ∧
        ∀ j ∈ pre, j.addr ≠ x := by
  induction l with
  | nil =>
    simp only [replay, List.not_mem_nil, false_implies, implies_true, and_true]
    constructor
    · exact fun h => Or.inl h
    · rintro (h | ⟨pre, i, post, h, _⟩)
      · exact h
      · exact absurd h (by simp)
  | cons a t ih =>
    simp only [replay]
    rw [mem_insertInstOperands, Finset.mem_erase, ih]
    constructor
    · rintro (⟨hne, (⟨hA, ht⟩ | ⟨pre, i, post, h1, h2, h3⟩)⟩ | h)
      · refine Or.inl ⟨hA, fun j hj => ?_⟩
        rcases List.mem_cons.1 hj with rfl | hj
        · exact fun h => hne h.symm
        · exact ht j hj
      · refine Or.inr ⟨a :: pre, i, post, by rw [h1]; rfl, h2, fun j hj => ?_⟩
        rcases List.mem_cons.1 hj with rfl | hj
        · exact fun h => hne h.symm
        · exact h3 j hj
      · exact Or.inr ⟨[], a, t, rfl, h, fun j hj => absurd hj (List.not_mem_nil j)⟩
    · rintro (⟨hA, ht⟩ | ⟨pre, i, post, h1, h2, h3⟩)
      · exact Or.inl ⟨fun h => ht a (List.mem_cons_self _ _) h.symm,
          Or.inl ⟨hA, fun j hj => ht j (List.mem_cons_of_mem _ hj)⟩⟩
      · cases pre with
        | nil =>
          simp only [List.nil_append, List.cons.injEq] at h1
          obtain ⟨rfl, rfl⟩ := h1
          exact Or.inr h2
        | cons p pre =>
          simp only [List.cons_append, List.cons.injEq] at h1
          obtain ⟨rfl, rfl⟩ := h1
          exact Or.inl ⟨fun h => h3 a (List.mem_cons_self _ _) h.symm,
            Or.inr ⟨pre, i, post, rfl, h2, fun j hj => h3 j (List.mem_cons_of_mem _ hj)⟩⟩

/-- The replay of a whole block is the block transfer function with the Gen and
Kill sets of `computeBBGenKill`. -/
theorem replay_eq_transfer (A : Finset Nat) (l : List Instruction) :
    replay A l =
      (A \ (l.foldl genKillInstr ⟨∅, ∅⟩).kill) ∪ (l.foldl genKillInstr ⟨∅, ∅⟩).gen := by
  obtain ⟨hk, hg⟩ := instrFold_spec l ⟨∅, ∅⟩
  ext x
  rw [mem_replay, Finset.mem_union, Finset.mem_sdiff, hk, hg]
  simp only [Finset.empty_union, List.mem_toFinset, List.mem_map, not_exists, not_and,
    Finset.not_mem_empty, not_false_eq_true, true_and, false_or]

/-- The map of `computeIBeforeAfter` after the first `n` blocks: keys are
addresses of these blocks only. -/
theorem computeIBeforeAfter_absent (F : IR.Function) (bbBAMap : DenseMap Nat beforeAfter)
    (n k : Nat) (hk : ∀ b, b < n → ∀ j ∈ (F.block b).instrs, j.addr ≠ k) :
    (List.range n).foldl (iBeforeAfterBlock F bbBAMap) (fun _ => none) k = none := by
  induction n with
  | zero => rfl
  | succ n ih =>
    rw [List.range_succ, List.foldl_append]
    simp only [List.foldl_cons, List.foldl_nil]
    unfold iBeforeAfterBlock
    exact (blockFold_keys _ _ _ k).1 (ih (fun b hb => hk b (by omega))) (hk n (by omega))

/-- Blocks handled later do not change an entry. -/
theorem computeIBeforeAfter_keeps (F : IR.Function) (bbBAMap : DenseMap Nat beforeAfter)
    (l : List Nat) (m : DenseMap Nat beforeAfter) (k : Nat) (e : beforeAfter)
    (h : m k = some e) : l.foldl (iBeforeAfterBlock F bbBAMap) m k = some e := by
  induction l generalizing m with
  | nil => exact h
  | cons b l ih =>
    simp only [List.foldl_cons]
    apply ih
    unfold iBeforeAfterBlock
    exact (blockFold_keys _ _ _ k).2 e h

theorem mem_flatten_addrs (F : IR.Function) (b : Nat) (hb : b < F.length) (j : Instruction)
    (hj : j ∈ (F.block b).instrs) :
    j.addr ∈ (F.map (fun blk => blk.instrs.map Instruction.addr)).flatten := by
  rw [List.mem_flatten]
  refine ⟨(F.block b).instrs.map Instruction.addr, ?_, List.mem_map_of_mem _ hj⟩
  rw [List.mem_map]
  refine ⟨F.block b, ?_, rfl⟩
  unfold IR.Function.block
  rw [List.getD_eq_getElem _ _ hb]
  exact List.getElem_mem _

theorem block_eq_getElem (F : IR.Function) (b : Nat) (hb : b < F.length) :
    F.block b = F[b] := by
  unfold IR.Function.block
  exact List.getD_eq_getElem _ _ hb

/-- With distinct addresses, an instruction of block `b` shares its address
with no instruction of an earlier block and with no instruction behind it in
its block. -/
theorem addrs_distinct_split (F : IR.Function) (hd : AddrsDistinct F) (b : Nat)
    (pre : List Instruction) (i : Instruction) (post : List Instruction)
    (hb : (F.block b).instrs = pre ++ i :: post) :
    b < F.length ∧
    (∀ c, c < b → ∀ j ∈ (F.block c).instrs, j.addr ≠ i.addr) ∧
    (∀ j ∈ post, j.addr ≠ i.addr) := by
  have hlt : b < F.length := by
    by_contra h
    rw [ssa_block_of_le F (Nat.le_of_not_lt h)] at hb
    exact absurd hb (by simp)
  unfold AddrsDistinct at hd
  obtain ⟨hn, hp⟩ := List.nodup_flatten.1 hd
  refine ⟨hlt, fun c hc j hj heq => ?_, fun j hj heq => ?_⟩
  · have hcl : c < F.length := by omega
    have hdis := List.pairwise_iff_getElem.1 hp c b (by simpa using hcl) (by simpa using hlt) hc
    simp only [List.getElem_map] at hdis
    rw [← block_eq_getElem F c hcl, ← block_eq_getElem F b hlt] at hdis
    have h1 : j.addr ∈ (F.block c).instrs.map Instruction.addr := List.mem_map_of_mem _ hj
    have h2 : i.addr ∈ (F.block b).instrs.map Instruction.addr := by
      rw [hb]
      exact List.mem_map_of_mem _ (List.mem_append_right _ (List.mem_cons_self _ _))
    rw [heq] at h1
    exact hdis h1 h2
  · have hnb : ((F.block b).instrs.map Instruction.addr).Nodup := by
      apply hn
      rw [List.mem_map]
      refine ⟨F.block b, ?_, rfl⟩
      rw [block_eq_getElem F b hlt]
      exact List.getElem_mem _
    rw [hb, List.map_append, List.map_cons] at hnb
    have h3 := (List.nodup_cons.1 (List.nodup_append.1 hnb).2.1).1
    apply h3
    rw [← heq]
    exact List.mem_map_of_mem _ hj

/-- The entry `computeIBeforeAfter` records for an instruction: the sets
replayed from the live-after set of its block. -/
theorem computeIBeforeAfter_entry (F : IR.Function) (bbBAMap : DenseMap Nat beforeAfter)
    (hd : AddrsDistinct F) (b : Nat) (pre : List Instruction) (i : Instruction)
    (post : List Instruction) (hb : (F.block b).instrs = pre ++ i :: post) :
    computeIBeforeAfter F bbBAMap (fun _ => none) i.addr =
      some ⟨replay (DenseMap.lookup bbBAMap b).after (i :: post),
        replay (DenseMap.lookup bbBAMap b).after post⟩ := by
  obtain ⟨hlt, h1, h2⟩ := addrs_distinct_split F hd b pre i post hb
  unfold computeIBeforeAfter
  obtain ⟨k, hk⟩ : ∃ k, F.length = b + (k + 1) := ⟨F.length - b - 1, by omega⟩
  rw [hk, List.range_add, List.foldl_append, List.range_succ_eq_map, List.map_cons,
    List.foldl_cons]
  apply computeIBeforeAfter_keeps
  simp only [Nat.add_zero]
  unfold iBeforeAfterBlock
  rw [hb]
  exact blockFold_entry _ _ pre i post (computeIBeforeAfter_absent F bbBAMap b i.addr h1) h2

/-- C37. SSA-value instruction-level replay agrees with the block transfer
function: in a function whose instructions have distinct addresses, for every
instruction `i` of a block `b` (with `pre` the instructions before it and
`post` those behind it) and whatever `bbBAMap` holds, the entry
`computeIBeforeAfter` records for `i` has
before(i) = (after(i) - {i}) union {instruction operands of i}, with after(i)
the after set of `b` in `bbBAMap` when `i` is the last instruction and the
before set recorded for the next instruction otherwise; and for the first
instruction before(i) = (A - kill(b)) union gen(b), with A the after set of `b`
and gen/kill the entry of `b` in the map of `computeBBGenKill`. -/
theorem ssa_replay_agrees_with_transfer (F : IR.Function)
    (bbBAMap : DenseMap Nat beforeAfter) (hd : AddrsDistinct F) (b : Nat)
    (pre : List Instruction) (i : Instruction) (post : List Instruction)
    (hb : (F.block b).instrs = pre ++ i :: post) :
    DenseMap.count (computeIBeforeAfter F bbBAMap (fun _ => none)) i.addr = true ∧
    (DenseMap.lookup (computeIBeforeAfter F bbBAMap (fun _ => none)) i.addr).before =
      ((DenseMap.lookup (computeIBeforeAfter F bbBAMap (fun _ => none)) i.addr).after \
        {i.addr}) ∪ instOperands i ∧
    (DenseMap.lookup (computeIBeforeAfter F bbBAMap (fun _ => none)) i.addr).after =
      (match post with
       | [] => (DenseMap.lookup bbBAMap b).after
       | next :: _ =>
         (DenseMap.lookup (computeIBeforeAfter F bbBAMap (fun _ => none)) next.addr).before) ∧
    (pre = [] →
      (DenseMap.lookup (computeIBeforeAfter F bbBAMap (fun _ => none)) i.addr).before =
        ((DenseMap.lookup bbBAMap b).after \
            (DenseMap.lookup (computeBBGenKill F (fun _ => none)) b).kill) ∪
          (DenseMap.lookup (computeBBGenKill F (fun _ => none)) b).gen) := by
  have he := computeIBeforeAfter_entry F bbBAMap hd b pre i post hb
  have hl : DenseMap.lookup (computeIBeforeAfter F bbBAMap (fun _ => none)) i.addr =
      ⟨replay (DenseMap.lookup bbBAMap b).after (i :: post),
        replay (DenseMap.lookup bbBAMap b).after post⟩ := by
    unfold DenseMap.lookup
    rw [he]
    rfl
  refine ⟨?_, ?_, ?_, ?_⟩
  · unfold DenseMap.count
    rw [he]
    rfl
  · rw [hl]
    exact insertInstOperands_erase _ i
  · rw [hl]
    cases post with
    | nil => rfl
    | cons next post1 =>
      have hb1 : (F.block b).instrs = (pre ++ [i]) ++ next :: post1 := by
        rw [hb]; simp
      have he1 := computeIBeforeAfter_entry F bbBAMap hd b (pre ++ [i]) next post1 hb1
      simp only
      unfold DenseMap.lookup
      rw [he1]
      rfl
  · intro hpre
    subst hpre
    rw [hl, (computeBBGenKill_lookup F b).2, hb]
    exact replay_eq_transfer _ _

/-- Witness for C37 on the one-block function, with live-after set {11, 30}. -/
theorem ssa_replay_agrees_with_transfer_witness :
    (DenseMap.lookup (computeIBeforeAfter Examples.straightFn
        (fun b => if b = 0 then some ⟨∅, {11, 30}⟩ else none) (fun _ => none)) 10).before =
      (({11, 30} : Finset Nat) \
          (DenseMap.lookup (computeBBGenKill Examples.straightFn (fun _ => none)) 0).kill) ∪
        (DenseMap.lookup (computeBBGenKill Examples.straightFn (fun _ => none)) 0).gen :=
  (ssa_replay_agrees_with_transfer Examples.straightFn
    (fun b => if b = 0 then some ⟨∅, {11, 30}⟩ else none) (by decide) 0 []
    (Instruction.other 10 [Value.other 1])
    [Instruction.other 11 [Value.inst 10, Value.inst 20],
     Instruction.store 12 (Value.inst 11) (Value.inst 10)] rfl).2.2.2 rfl

end LiveVars

namespace OptLoads

open IR (Value Instruction)

/-! ## `optLoads.cpp`: claims C38, C39 -/

theorem uselessLoads_store_load (a : Nat) (v m : Value) (ka : Nat) (km : Value)
    (tl : List Instruction) :
    uselessLoads (Instruction.store a v m :: Instruction.load ka km :: tl) =
      if m = km then ka :: uselessLoads (Instruction.load ka km :: tl)
      else uselessLoads (Instruction.load ka km :: tl) := by
  rw [uselessLoads]

theorem uselessLoads_load (a : Nat) (m : Value) (tl : List Instruction) :
    uselessLoads (Instruction.load a m :: tl) = uselessLoads tl := by
  rw [uselessLoads]
  intro _ _ _ _ _ _ h
  cases h

theorem uselessLoads_other (a : Nat) (ops : List Value) (tl : List Instruction) :
    uselessLoads (Instruction.other a ops :: tl) = uselessLoads tl := by
  rw [uselessLoads]
  intro _ _ _ _ _ _ h
  cases h

theorem uselessLoads_store (a : Nat) (v m : Value) (tl : List Instruction)
    (hl : ∀ ka km tl2, tl ≠ Instruction.load ka km :: tl2) :
    uselessLoads (Instruction.store a v m :: tl) = uselessLoads tl := by
  rw [uselessLoads]
  intro a1 v1 m1 ka km tl2 _ h
  exact hl ka km tl2 h

/-- What a pass of the inner loop does, by the instructions from `i` on:
nothing at the end of the block; the fault `pastEnd` at a store that ends the
block; at a store followed by a load from the pointer operand of the store,
the fault `selfReplace` when the stored value is that load, and otherwise the
report and the erasure of the load; in every other case the iterator moves
and nothing else changes. -/
theorem scanStep_cases (st : ScanState) :
    (st.rest = [] ∧ scanStep st = Ending.ok st) ∨
    (∃ a v m, st.rest = [Instruction.store a v m] ∧
      scanStep st = Ending.abort Fault.pastEnd ⟨st.body, st.changed, st.errs⟩) ∨
    (∃ a m ka tl,
      st.rest = Instruction.store a (Value.inst ka) m :: Instruction.load ka m :: tl ∧
      scanStep st = Ending.abort Fault.selfReplace ⟨st.body, st.changed, st.errs ++ [ka]⟩) ∨
    (∃ a v m ka tl, st.rest = Instruction.store a v m :: Instruction.load ka m :: tl ∧
      v ≠ Value.inst ka ∧
      scanStep st = Ending.ok (st.eraseLoad (Instruction.store a v m) ka v tl)) ∨
    (∃ st1, scanStep st = Ending.ok st1 ∧
      st1.scanned = st.scanned ∧ st1.later = st.later ∧
      st1.changed = st.changed ∧ st1.errs = st.errs ∧
      st1.done ++ st1.rest = st.done ++ st.rest ∧
      (∃ l, l ≠ [] ∧ st.rest = l ++ st1.rest) ∧
      uselessLoads st.rest = uselessLoads st1.rest) := by
  cases hr : st.rest with
  | nil =>
    left
    refine ⟨rfl, ?_⟩
    unfold scanStep
    rw [hr]
  | cons x tl =>
    right
    cases x with
    | store a v m =>
      cases tl with
      | nil =>
        left
        refine ⟨a, v, m, rfl, ?_⟩
        unfold scanStep
        rw [hr]
      | cons y tl2 =>
        right
        cases y with
        | load ka km =>
          by_cases hm : m = km
          · subst hm
            by_cases hv : v = Value.inst ka
            · subst hv
              left
              refine ⟨a, m, ka, tl2, rfl, ?_⟩
              unfold scanStep
              rw [hr]
              simp
            · right; left
              refine ⟨a, v, m, ka, tl2, rfl, hv, ?_⟩
              unfold scanStep
              rw [hr]
              simp [hv]
          · right; right
            refine ⟨{ st with
                done := st.done ++ [Instruction.store a v m, Instruction.load ka km]
                rest := tl2 }, ?_, rfl, rfl, rfl, rfl, ?_, ?_, ?_⟩
            · unfold scanStep
              rw [hr]
              simp [hm]
            · simp
            · exact ⟨[Instruction.store a v m, Instruction.load ka km], by simp, rfl⟩
            · show uselessLoads (Instruction.store a v m :: Instruction.load ka km :: tl2) =
                uselessLoads tl2
              rw [uselessLoads_store_load, if_neg hm, uselessLoads_load]
        | store a2 v2 m2 =>
          right; right
          refine ⟨{ st with
              done := st.done ++ [Instruction.store a v m]
              rest := Instruction.store a2 v2 m2 :: tl2 }, ?_, rfl, rfl, rfl, rfl, ?_, ?_, ?_⟩
          · unfold scanStep
            rw [hr]
          · simp
          · exact ⟨[Instruction.store a v m], by simp, rfl⟩
          · show uselessLoads (Instruction.store a v m :: Instruction.store a2 v2 m2 :: tl2) =
              uselessLoads (Instruction.store a2 v2 m2 :: tl2)
            exact uselessLoads_store a v m _ (by intro _ _ _ h; cases h)
        | other a2 ops =>
          right; right
          refine ⟨{ st with
              done := st.done ++ [Instruction.store a v m]
              rest := Instruction.other a2 ops :: tl2 }, ?_, rfl, rfl, rfl, rfl, ?_, ?_, ?_⟩
          · unfold scanStep
            rw [hr]
          · simp
          · exact ⟨[Instruction.store a v m], by simp, rfl⟩
          · show uselessLoads (Instruction.store a v m :: Instruction.other a2 ops :: tl2) =
              uselessLoads (Instruction.other a2 ops :: tl2)
            exact uselessLoads_store a v m _ (by intro _ _ _ h; cases h)
    | load a m =>
      right; right; right
      refine ⟨{ st with done := st.done ++ [Instruction.load a m], rest := tl },
        ?_, rfl, rfl, rfl, rfl, ?_, ?_, ?_⟩
      · unfold scanStep
        rw [hr]
      · simp
      · exact ⟨[Instruction.load a m], by simp, rfl⟩
      · exact uselessLoads_load a m tl
    | other a ops =>
      right; right; right
      refine ⟨{ st with done := st.done ++ [Instruction.other a ops], rest := tl },
        ?_, rfl, rfl, rfl, rfl, ?_, ?_, ?_⟩
      · unfold scanStep
        rw [hr]
      · simp
      · exact ⟨[Instruction.other a ops], by simp, rfl⟩
      · exact uselessLoads_other a ops tl

/-- A pass of the inner loop that goes on has either erased the load behind
the store at `i`, or only moved the iterator. -/
theorem scanStep_ok (st st1 : ScanState) (h : scanStep st = Ending.ok st1) :
    (st.rest = [] ∧ st1 = st) ∨
    (∃ a v m ka tl, st.rest = Instruction.store a v m :: Instruction.load ka m :: tl ∧
      v ≠ Value.inst ka ∧ st1 = st.eraseLoad (Instruction.store a v m) ka v tl) ∨
    (st1.scanned = st.scanned ∧ st1.later = st.later ∧
      st1.changed = st.changed ∧ st1.errs = st.errs ∧
      st1.done ++ st1.rest = st.done ++ st.rest ∧
      (∃ l, l ≠ [] ∧ st.rest = l ++ st1.rest) ∧
      uselessLoads st.rest = uselessLoads st1.rest) := by
  rcases scanStep_cases st with ⟨h1, h2⟩ | ⟨a, v, m, _, h2⟩ | ⟨a, m, ka, tl, _, h2⟩ |
    ⟨a, v, m, ka, tl, h1, hv, h2⟩ | ⟨st2, h2, h3⟩
  · rw [h2] at h
    cases h
    exact Or.inl ⟨h1, rfl⟩
  · rw [h2] at h
    cases h
  · rw [h2] at h
    cases h
  · rw [h2] at h
    cases h
    exact Or.inr (Or.inl ⟨a, v, m, ka, tl, h1, hv, rfl⟩)
  · rw [h2] at h
    cases h
    exact Or.inr (Or.inr h3)

/-- A pass of the inner loop that ends at a fault: the store at `i` ends the
block, or it stores the load behind it through the pointer the load reads, and
that load has been reported; the body is as it was. -/
theorem scanStep_abort (st : ScanState) (f : Fault) (r : Result)
    (h : scanStep st = Ending.abort f r) :
    (f = Fault.pastEnd ∧ r = ⟨st.body, st.changed, st.errs⟩ ∧
      ∃ a v m, st.rest = [Instruction.store a v m]) ∨
    (f = Fault.selfReplace ∧ ∃ a m ka tl,
      st.rest = Instruction.store a (Value.inst ka) m :: Instruction.load ka m :: tl ∧
      r = ⟨st.body, st.changed, st.errs ++ [ka]⟩) := by
  rcases scanStep_cases st with ⟨h1, h2⟩ | ⟨a, v, m, h1, h2⟩ | ⟨a, m, ka, tl, h1, h2⟩ |
    ⟨a, v, m, ka, tl, h1, hv, h2⟩ | ⟨st2, h2, h3⟩
  · rw [h2] at h
    cases h
  · rw [h2] at h
    cases h
    exact Or.inl ⟨rfl, rfl, a, v, m, h1⟩
  · rw [h2] at h
    cases h
    exact Or.inr ⟨rfl, a, m, ka, tl, h1, rfl⟩
  · rw [h2] at h
    cases h
  · rw [h2] at h
    cases h

theorem scanStep_rest_lt (st st1 : ScanState) (h : scanStep st = Ending.ok st1)
    (hne : st.rest ≠ []) : st1.rest.length < st.rest.length := by
  rcases scanStep_ok st st1 h with ⟨h1, _⟩ | ⟨a, v, m, ka, tl, hr, _, rfl⟩ |
    ⟨_, _, _, _, _, ⟨l, hl, hr⟩, _⟩
  · exact absurd h1 hne
  · rw [hr]
    show (tl.map (replaceUses ka v)).length < _
    simp only [List.length_map, List.length_cons]
    omega
  · have : 0 < l.length := List.length_pos.2 hl
    rw [hr, List.length_append]
    omega

theorem scanStep_later_length (st st1 : ScanState) (h : scanStep st = Ending.ok st1) :
    st1.later.length = st.later.length := by
  rcases scanStep_ok st st1 h with ⟨_, rfl⟩ | ⟨a, v, m, ka, tl, hr, _, rfl⟩ | ⟨_, h2, _⟩
  · rfl
  · show (st.later.map (List.map (replaceUses ka v))).length = _
    simp
  · rw [h2]

/-- With one pass allowed for each instruction from `i` on, the inner loop
ends: at the end of the block, with a property that every pass keeps, or at a
fault, with what the property gives there. -/
theorem scanBlock_ends (P : ScanState → Prop) (A : Fault → Result → Prop)
    (hok : ∀ st st1, P st → scanStep st = Ending.ok st1 → P st1)
    (hab : ∀ st f r, P st → scanStep st = Ending.abort f r → A f r)
    (fuel : Nat) : ∀ st : ScanState, st.rest.length ≤ fuel → P st →
      ∃ e, scanBlock fuel st = some e ∧
        (∀ st1, e = Ending.ok st1 → st1.rest = [] ∧ P st1) ∧
        (∀ f r, e = Ending.abort f r → A f r) := by
  induction fuel with
  | zero =>
    intro st hf hp
    have hr : st.rest = [] := List.length_eq_zero.1 (Nat.le_zero.1 hf)
    refine ⟨Ending.ok st, ?_, ?_, ?_⟩
    · unfold scanBlock
      rw [hr]
    · intro st1 h
      cases h
      exact ⟨hr, hp⟩
    · intro f r h
      cases h
  | succ fuel ih =>
    intro st hf hp
    cases hr : st.rest with
    | nil =>
      refine ⟨Ending.ok st, ?_, ?_, ?_⟩
      · unfold scanBlock
        rw [hr]
      · intro st1 h
        cases h
        exact ⟨hr, hp⟩
      · intro f r h
        cases h
    | cons x tl =>
      have hne : st.rest ≠ [] := by rw [hr]; simp
      cases hs : scanStep st with
      | ok st1 =>
        have hlt := scanStep_rest_lt st st1 hs hne
        obtain ⟨e, h1, h2, h3⟩ := ih st1 (by omega) (hok st st1 hp hs)
        refine ⟨e, ?_, h2, h3⟩
        unfold scanBlock
        rw [hr]
        simp only [hs]
        exact h1
      | abort f r =>
        refine ⟨Ending.abort f r, ?_, ?_, ?_⟩
        · unfold scanBlock
          rw [hr]
          simp only [hs]
        · intro st1 h
          cases h
        · intro f1 r1 h
          cases h
          exact hab st f r hp hs

/-- With one pass allowed for each block left, the outer loop ends: behind
the last block, with a property that entering a block, every pass of the inner
loop and leaving a block keep, or at a fault. -/
theorem scanFunction_ends (Q : PassState → Prop) (P : ScanState → Prop)
    (A : Fault → Result → Prop)
    (hin : ∀ sc blk later c e, Q ⟨sc, blk :: later, c, e⟩ → P ⟨sc, [], blk, later, c, e⟩)
    (hok : ∀ st st1, P st → scanStep st = Ending.ok st1 → P st1)
    (hab : ∀ st f r, P st → scanStep st = Ending.abort f r → A f r)
    (hout : ∀ st : ScanState, P st → st.rest = [] →
      Q ⟨st.scanned ++ [st.done ++ st.rest], st.later, st.changed, st.errs⟩)
    (fuel : Nat) : ∀ st : PassState, st.later.length ≤ fuel → Q st →
      ∃ e, scanFunction fuel st = some e ∧
        (∀ st1, e = Ending.ok st1 → st1.later = [] ∧ Q st1) ∧
        (∀ f r, e = Ending.abort f r → A f r) := by
  induction fuel with
  | zero =>
    intro st hf hq
    have hr : st.later = [] := List.length_eq_zero.1 (Nat.le_zero.1 hf)
    refine ⟨Ending.ok st, ?_, ?_, ?_⟩
    · unfold scanFunction
      rw [hr]
    · intro st1 h
      cases h
      exact ⟨hr, hq⟩
    · intro f r h
      cases h
  | succ fuel ih =>
    intro st hf hq
    cases hr : st.later with
    | nil =>
      refine ⟨Ending.ok st, ?_, ?_, ?_⟩
      · unfold scanFunction
        rw [hr]
      · intro st1 h
        cases h
        exact ⟨hr, hq⟩
      · intro f r h
        cases h
    | cons blk later =>
      have hq1 : Q ⟨st.scanned, blk :: later, st.changed, st.errs⟩ := by
        rw [← hr]; exact hq
      obtain ⟨e1, h1, h2, h3⟩ := scanBlock_ends
        (fun s => P s ∧ s.later.length = later.length) A
        (fun s s1 hs hstep => ⟨hok s s1 hs.1 hstep,
          (scanStep_later_length s s1 hstep).trans hs.2⟩)
        (fun s f r hs hstep => hab s f r hs.1 hstep)
        blk.length ⟨st.scanned, [], blk, later, st.changed, st.errs⟩ (Nat.le_refl _)
        ⟨hin _ _ _ _ _ hq1, rfl⟩
      cases e1 with
      | abort f r =>
        refine ⟨Ending.abort f r, ?_, ?_, ?_⟩
        · unfold scanFunction
          rw [hr]
          simp only [h1]
        · intro st1 h
          cases h
        · intro f1 r1 h
          cases h
          exact h3 f r rfl
      | ok st1 =>
        obtain ⟨hrest, hp1, hl1⟩ := h2 st1 rfl
        have hlen : later.length ≤ fuel := by
          rw [hr] at hf
          simp only [List.length_cons] at hf
          omega
        obtain ⟨e2, g1, g2, g3⟩ := ih
          ⟨st1.scanned ++ [st1.done ++ st1.rest], st1.later, st1.changed, st1.errs⟩
          (by simp only; omega) (hout st1 hp1 hrest)
        refine ⟨e2, ?_, g2, g3⟩
        unfold scanFunction
        rw [hr]
        simp only [h1]
        exact g1

/-- `runOnFunction` ends, by returning or at a fault. A property that holds at
the start and that entering a block, every pass of the inner loop and leaving
a block keep, holds of what is returned. -/
theorem runOnFunction_ends (Q : PassState → Prop) (P : ScanState → Prop)
    (A : Fault → Result → Prop)
    (hin : ∀ sc blk later c e, Q ⟨sc, blk :: later, c, e⟩ → P ⟨sc, [], blk, later, c, e⟩)
    (hok : ∀ st st1, P st → scanStep st = Ending.ok st1 → P st1)
    (hab : ∀ st f r, P st → scanStep st = Ending.abort f r → A f r)
    (hout : ∀ st : ScanState, P st → st.rest = [] →
      Q ⟨st.scanned ++ [st.done ++ st.rest], st.later, st.changed, st.errs⟩)
    (F : Body) (h0 : Q ⟨[], F, false, []⟩) :
    ∃ e, runOnFunction F = some e ∧
      (∀ r, e = Ending.ok r → Q ⟨r.body, [], r.changed, r.errs⟩) ∧
      (∀ f r, e = Ending.abort f r → A f r) := by
  obtain ⟨e1, h1, h2, h3⟩ := scanFunction_ends Q P A hin hok hab hout F.length
    ⟨[], F, false, []⟩ (Nat.le_refl _) h0
  cases e1 with
  | abort f r =>
    refine ⟨Ending.abort f r, ?_, ?_, ?_⟩
    · unfold runOnFunction
      rw [h1]
    · intro r1 h
      cases h
    · intro f1 r1 h
      cases h
      exact h3 f r rfl
  | ok st1 =>
    obtain ⟨hl, hq⟩ := h2 st1 rfl
    refine ⟨Ending.ok ⟨st1.scanned ++ st1.later, st1.changed, st1.errs⟩, ?_, ?_, ?_⟩
    · unfold runOnFunction
      rw [h1]
    · intro r h
      cases h
      simp only [hl, List.append_nil]
      have : st1 = ⟨st1.scanned, [], st1.changed, st1.errs⟩ := by
        rw [← hl]
      rw [← this]
      exact hq
    · intro f r h
      cases h

/-- The same for a property of the body, the flag and the report alone. -/
theorem runOnFunction_keeps (G : Body → Bool → List Nat → Prop)
    (A : Fault → Result → Prop)
    (hok : ∀ st st1, G st.body st.changed st.errs → scanStep st = Ending.ok st1 →
      G st1.body st1.changed st1.errs)
    (hab : ∀ st f r, G st.body st.changed st.errs → scanStep st = Ending.abort f r → A f r)
    (F : Body) (h0 : G F false []) :
    ∃ e, runOnFunction F = some e ∧
      (∀ r, e = Ending.ok r → G r.body r.changed r.errs) ∧
      (∀ f r, e = Ending.abort f r → A f r) := by
  obtain ⟨e, h1, h2, h3⟩ := runOnFunction_ends
    (fun st : PassState => G (st.scanned ++ st.later) st.changed st.errs)
    (fun st : ScanState => G st.body st.changed st.errs) A
    (by
      intro sc blk later c e hq
      have e1 : (⟨sc, [], blk, later, c, e⟩ : ScanState).body = sc ++ blk :: later := by
        simp [ScanState.body]
      rw [e1]
      exact hq)
    hok hab
    (by
      intro st hp _
      exact hp)
    F h0
  refine ⟨e, h1, fun r hr => ?_, h3⟩
  have := h2 r hr
  simp only [List.append_nil] at this
  exact this

end OptLoads

namespace OptLoads

open IR (Value Instruction)

theorem tag_replaceUses (k : Nat) (v : Value) (i : Instruction) :
    tag (replaceUses k v i) = tag i := by
  cases i <;> rfl

theorem isLoad_replaceUses (k : Nat) (v : Value) (i : Instruction) :
    isLoad (replaceUses k v i) = isLoad i := by
  cases i <;> rfl

theorem addr_replaceUses (k : Nat) (v : Value) (i : Instruction) :
    (replaceUses k v i).addr = i.addr := by
  cases i <;> rfl

theorem map_tag_replaceUses (k : Nat) (v : Value) (l : List Instruction) :
    (l.map (replaceUses k v)).map tag = l.map tag := by
  rw [List.map_map]
  exact List.map_congr_left (fun i _ => tag_replaceUses k v i)

theorem loadsRemoved_refl (l : List Instruction) : LoadsRemoved l l :=
  ⟨List.Sublist.refl _, rfl⟩

theorem loadsRemoved_trans {l1 l2 l3 : List Instruction} (h1 : LoadsRemoved l1 l2)
    (h2 : LoadsRemoved l2 l3) : LoadsRemoved l1 l3 :=
  ⟨h1.1.trans h2.1, h1.2.trans h2.2⟩

/-- Replacing uses leaves every instruction in place. -/
theorem loadsRemoved_replaceUses (k : Nat) (v : Value) (l : List Instruction) :
    LoadsRemoved (l.map (replaceUses k v)) l := by
  constructor
  · rw [map_tag_replaceUses]
  · rw [List.filter_map, List.map_map]
    have hf : ((fun i => !isLoad i) ∘ replaceUses k v) = fun i => !isLoad i := by
      funext i
      simp only [Function.comp, isLoad_replaceUses]
    rw [hf]
    exact List.map_congr_left (fun i _ => tag_replaceUses k v i)

/-- Erasing a load removes a load. -/
theorem loadsRemoved_erase (done : List Instruction) (s : Instruction) (ka : Nat) (km : Value)
    (tl : List Instruction) :
    LoadsRemoved (done ++ s :: tl) (done ++ s :: Instruction.load ka km :: tl) := by
  constructor
  · simp only [List.map_append, List.map_cons]
    exact (List.Sublist.refl _).append
      ((List.sublist_cons_self _ _).cons₂ _)
  · simp only [List.filter_append, List.filter_cons, isLoad, Bool.not_true, Bool.false_eq_true,
      if_false]

theorem forall2_trans {α : Type} (R : α → α → Prop) (ht : ∀ a b c, R a b → R b c → R a c) :
    ∀ {l1 l2 l3 : List α}, List.Forall₂ R l1 l2 → List.Forall₂ R l2 l3 → List.Forall₂ R l1 l3 := by
  intro l1 l2 l3 h1
  induction h1 generalizing l3 with
  | nil => intro h2; cases h2; exact List.Forall₂.nil
  | cons hab _ ih =>
    intro h2
    cases h2 with
    | cons hbc h2 => exact List.Forall₂.cons (ht _ _ _ hab hbc) (ih h2)

theorem forall2_mem_left {α : Type} {R : α → α → Prop} {l1 l2 : List α}
    (h : List.Forall₂ R l1 l2) {x : α} (hx : x ∈ l1) : ∃ y ∈ l2, R x y := by
  induction h with
  | nil => exact absurd hx (List.not_mem_nil _)
  | cons hab _ ih =>
    rcases List.mem_cons.1 hx with rfl | hx
    · exact ⟨_, List.mem_cons_self _ _, hab⟩
    · obtain ⟨y, hy, hr⟩ := ih hx
      exact ⟨y, List.mem_cons_of_mem _ hy, hr⟩

theorem forall2_replaceUses (k : Nat) (v : Value) (B : Body) :
    List.Forall₂ LoadsRemoved (B.map (List.map (replaceUses k v))) B := by
  rw [List.forall₂_map_left_iff, List.forall₂_same]
  exact fun blk _ => loadsRemoved_replaceUses k v blk

theorem forall2_refl (B : Body) : List.Forall₂ LoadsRemoved B B :=
  List.forall₂_same.2 (fun blk _ => loadsRemoved_refl blk)

theorem instrCount_append (A B : Body) : instrCount (A ++ B) = instrCount A + instrCount B := by
  unfold instrCount
  rw [List.map_append, List.sum_append]

theorem instrCount_replaceUses (k : Nat) (v : Value) (B : Body) :
    instrCount (B.map (List.map (replaceUses k v))) = instrCount B := by
  unfold instrCount
  rw [List.map_map]
  congr 1
  exact List.map_congr_left (fun blk _ => by simp)

theorem addrsOf_replaceUses (k : Nat) (v : Value) (B : Body) :
    addrsOf (B.map (List.map (replaceUses k v))) = addrsOf B := by
  unfold addrsOf
  rw [← List.map_flatten, List.map_map]
  exact List.map_congr_left (fun i _ => addr_replaceUses k v i)

/-- The body at a store followed by a load, and the body left by the
erasure of the load. -/
theorem eraseLoad_body (st : ScanState) (a : Nat) (v m : Value) (ka : Nat)
    (tl : List Instruction)
    (hr : st.rest = Instruction.store a v m :: Instruction.load ka m :: tl) :
    st.body = st.scanned ++
      (st.done ++ Instruction.store a v m :: Instruction.load ka m :: tl) :: st.later ∧
    (st.eraseLoad (Instruction.store a v m) ka v tl).body =
      (st.scanned ++ (st.done ++ Instruction.store a v m :: tl) :: st.later).map
        (List.map (replaceUses ka v)) := by
  constructor
  · unfold ScanState.body
    rw [hr]
    simp
  · unfold ScanState.body ScanState.eraseLoad
    simp

/-- A pass that only moves the iterator leaves the body as it is. -/
theorem body_of_move (st st1 : ScanState) (h1 : st1.scanned = st.scanned)
    (h2 : st1.later = st.later) (h3 : st1.done ++ st1.rest = st.done ++ st.rest) :
    st1.body = st.body := by
  unfold ScanState.body
  rw [h1, h2, h3]

/-- The erasure the pass makes is a sound removal. -/
theorem removesLoad_erase (st : ScanState) (a : Nat) (v m : Value) (ka : Nat)
    (tl : List Instruction)
    (hr : st.rest = Instruction.store a v m :: Instruction.load ka m :: tl)
    (hv : v ≠ Value.inst ka) :
    RemovesLoad st.body ka (st.eraseLoad (Instruction.store a v m) ka v tl).body := by
  obtain ⟨e1, e2⟩ := eraseLoad_body st a v m ka tl hr
  exact ⟨st.scanned, st.later, st.done, tl, a, v, m, hv, e1, e2⟩

theorem removals_snoc (ks : List Nat) : ∀ (B B1 B2 : Body) (k : Nat),
    Removals B ks B1 → RemovesLoad B1 k B2 → Removals B (ks ++ [k]) B2 := by
  induction ks with
  | nil =>
    intro B B1 B2 k h1 h2
    have e : B1 = B := h1
    subst e
    exact ⟨B2, h2, rfl⟩
  | cons k0 ks ih =>
    intro B B1 B2 k h1 h2
    obtain ⟨B0, g1, g2⟩ := h1
    exact ⟨B0, g1, ih B0 B1 B2 k g2 h2⟩

/-- A sound removal takes one load out of one block and leaves the other
instructions where they are. -/
theorem removesLoad_shape (B B1 : Body) (k : Nat) (h : RemovesLoad B k B1) :
    List.Forall₂ LoadsRemoved B1 B ∧ instrCount B1 + 1 = instrCount B ∧
    (∃ blk ∈ B, (k, Opcode.load) ∈ blk.map tag) ∧
    ∀ x, List.count x (addrsOf B1) + List.count x [k] = List.count x (addrsOf B) := by
  obtain ⟨pre, post, p, q, a, v, m, _, rfl, rfl⟩ := h
  refine ⟨?_, ?_, ?_, ?_⟩
  · refine forall2_trans LoadsRemoved (fun _ _ _ h1 h2 => loadsRemoved_trans h1 h2)
      (forall2_replaceUses k v _) ?_
    exact List.rel_append (forall2_refl pre)
      (List.Forall₂.cons (loadsRemoved_erase p _ k m q) (forall2_refl post))
  · rw [instrCount_replaceUses]
    simp only [instrCount, List.map_append, List.map_cons, List.sum_append, List.sum_cons,
      List.length_append, List.length_cons]
    omega
  · refine ⟨p ++ Instruction.store a v m :: Instruction.load k m :: q, by simp, ?_⟩
    simp [tag]
  · intro x
    rw [addrsOf_replaceUses]
    simp only [addrsOf, List.flatten_append, List.flatten_cons, List.map_append, List.map_cons,
      List.count_append, List.count_cons, List.count_nil, Instruction.addr]
    omega

/-- What a sequence of sound removals leaves: every block is the block it was
with loads removed, one instruction less for every removed load, every
removed load a load of the start, and no address twice when there was none. -/
theorem removals_shape (ks : List Nat) : ∀ (B B2 : Body), Removals B ks B2 →
    List.Forall₂ LoadsRemoved B2 B ∧ instrCount B2 + ks.length = instrCount B ∧
    (∀ k ∈ ks, ∃ blk ∈ B, (k, Opcode.load) ∈ blk.map tag) ∧
    ∀ x, List.count x (addrsOf B2) + List.count x ks = List.count x (addrsOf B) := by
  induction ks with
  | nil =>
    intro B B2 h
    have e : B2 = B := h
    subst e
    exact ⟨forall2_refl _, rfl, fun k hk => absurd hk (List.not_mem_nil _), fun x => rfl⟩
  | cons k ks ih =>
    intro B B2 h
    obtain ⟨B1, g1, g2⟩ := h
    obtain ⟨s1, s2, s3, s4⟩ := removesLoad_shape B B1 k g1
    obtain ⟨t1, t2, t3, t4⟩ := ih B1 B2 g2
    refine ⟨forall2_trans LoadsRemoved (fun _ _ _ h1 h2 => loadsRemoved_trans h1 h2) t1 s1,
      ?_, ?_, ?_⟩
    · simp only [List.length_cons]
      omega
    · intro k1 hk1
      rcases List.mem_cons.1 hk1 with rfl | hk1
      · exact s3
      · obtain ⟨blk1, hb1, hm1⟩ := t3 k1 hk1
        obtain ⟨blk, hb, hrel⟩ := forall2_mem_left s1 hb1
        exact ⟨blk, hb, hrel.1.subset hm1⟩
    · intro x
      have u1 := s4 x
      have u2 := t4 x
      simp only [List.count_cons, List.count_nil] at u1 ⊢
      omega

theorem operands_replaceUses (k : Nat) (v : Value) (i : Instruction) :
    (replaceUses k v i).operands = i.operands.map (replaceUse k v) := by
  cases i <;> rfl

/-- A sound removal leaves no use of the removed load, and makes no use of an
instruction that had none. -/
theorem removesLoad_noUse (B B1 : Body) (k : Nat) (h : RemovesLoad B k B1) (x : Nat)
    (hx : x = k ∨ NoUse x B) : NoUse x B1 := by
  obtain ⟨pre, post, p, q, a, v, m, hv, rfl, rfl⟩ := h
  intro blk1 hb1 i1 hi1 hop
  obtain ⟨blk, hb, rfl⟩ := List.mem_map.1 hb1
  obtain ⟨i, hi, rfl⟩ := List.mem_map.1 hi1
  rw [operands_replaceUses] at hop
  obtain ⟨y, hy, hyx⟩ := List.mem_map.1 hop
  have hmem : ∃ blk0 ∈ pre ++
      (p ++ Instruction.store a v m :: Instruction.load k m :: q) :: post, i ∈ blk0 := by
    rcases List.mem_append.1 hb with hb | hb
    · exact ⟨blk, List.mem_append_left _ hb, hi⟩
    · rcases List.mem_cons.1 hb with rfl | hb
      · refine ⟨_, List.mem_append_right _ (List.mem_cons_self _ _), ?_⟩
        rcases List.mem_append.1 hi with hi | hi
        · exact List.mem_append_left _ hi
        · rcases List.mem_cons.1 hi with rfl | hi
          · exact List.mem_append_right _ (List.mem_cons_self _ _)
          · exact List.mem_append_right _
              (List.mem_cons_of_mem _ (List.mem_cons_of_mem _ hi))
      · exact ⟨blk, List.mem_append_right _ (List.mem_cons_of_mem _ hb), hi⟩
  unfold replaceUse at hyx
  rcases hx with rfl | hx
  · split_ifs at hyx with hc
    · exact hv hyx
    · exact hc hyx
  · split_ifs at hyx with hc
    · refine hx _ (List.mem_append_right _ (List.mem_cons_self _ _))
        (Instruction.store a v m) (List.mem_append_right _ (List.mem_cons_self _ _)) ?_
      rw [← hyx]
      exact List.mem_cons_self _ _
    · obtain ⟨blk0, hb0, hi0⟩ := hmem
      exact hx blk0 hb0 i hi0 (hyx ▸ hy)

/-- After a sequence of sound removals no use of a removed load is left. -/
theorem removals_noUse (ks : List Nat) : ∀ (B B2 : Body), Removals B ks B2 →
    ∀ x, (x ∈ ks ∨ NoUse x B) → NoUse x B2 := by
  induction ks with
  | nil =>
    intro B B2 h x hx
    have e : B2 = B := h
    subst e
    rcases hx with hx | hx
    · exact absurd hx (List.not_mem_nil _)
    · exact hx
  | cons k ks ih =>
    intro B B2 h x hx
    obtain ⟨B1, g1, g2⟩ := h
    apply ih B1 B2 g2 x
    rcases hx with hx | hx
    · rcases List.mem_cons.1 hx with rfl | hx
      · exact Or.inr (removesLoad_noUse B B1 x g1 x (Or.inl rfl))
      · exact Or.inl hx
    · exact Or.inr (removesLoad_noUse B B1 k g1 x (Or.inr hx))

/-- Every pass of the inner loop that goes on keeps: the body is the function
given after the sound removals of the reported loads, and the flag is set
exactly when a load has been reported. -/
theorem scanStep_removals (F : Body) (st st1 : ScanState)
    (h : Removals F st.errs st.body ∧ (st.changed = true ↔ st.errs ≠ []))
    (hs : scanStep st = Ending.ok st1) :
    Removals F st1.errs st1.body ∧ (st1.changed = true ↔ st1.errs ≠ []) := by
  rcases scanStep_ok st st1 hs with ⟨_, rfl⟩ | ⟨a, v, m, ka, tl, hr, hv, rfl⟩ |
    ⟨h1, h2, h3, h4, h5, _⟩
  · exact h
  · refine ⟨removals_snoc st.errs F st.body _ ka h.1
      (removesLoad_erase st a v m ka tl hr hv), ?_⟩
    exact ⟨fun _ => by simp [ScanState.eraseLoad], fun _ => rfl⟩
  · rw [body_of_move st st1 h1 h2 h5, h3, h4]
    exact h

/-- At a fault the body is the function given after the sound removals of the
loads reported before; at `selfReplace` one more load is reported. -/
theorem scanStep_removals_abort (F : Body) (st : ScanState) (f : Fault) (r : Result)
    (h : Removals F st.errs st.body ∧ (st.changed = true ↔ st.errs ≠ []))
    (hs : scanStep st = Ending.abort f r) :
    ∃ ks, Removals F ks r.body ∧
      ((f = Fault.pastEnd ∧ r.errs = ks ∧ ∃ blk ∈ r.body, endsInStore blk = true) ∨
        (f = Fault.selfReplace ∧ ∃ k, r.errs = ks ++ [k] ∧
          ∃ blk ∈ r.body, ∃ p q a m, blk =
            p ++ Instruction.store a (Value.inst k) m :: Instruction.load k m :: q)) := by
  rcases scanStep_abort st f r hs with ⟨rfl, rfl, a, v, m, hr⟩ | ⟨rfl, a, m, ka, tl, hr, rfl⟩
  · refine ⟨st.errs, h.1, Or.inl ⟨rfl, rfl, st.done ++ st.rest, ?_, ?_⟩⟩
    · simp [ScanState.body]
    · rw [hr]
      simp [endsInStore]
  · refine ⟨st.errs, h.1, Or.inr ⟨rfl, ka, rfl, st.done ++ st.rest, ?_,
      st.done, tl, a, m, ?_⟩⟩
    · simp [ScanState.body]
    · rw [hr]

/-- `runOnFunction` ends; what it returns is the function given after the
sound removals of the reported loads, with the flag set exactly when a load
was reported; at a fault the same holds of the loads reported before. -/
theorem runOnFunction_removals (F : Body) :
    ∃ e, runOnFunction F = some e ∧
      (∀ r, e = Ending.ok r → Removals F r.errs r.body ∧ (r.changed = true ↔ r.errs ≠ [])) ∧
      (∀ f r, e = Ending.abort f r → ∃ ks, Removals F ks r.body ∧
        ((f = Fault.pastEnd ∧ r.errs = ks ∧ ∃ blk ∈ r.body, endsInStore blk = true) ∨
          (f = Fault.selfReplace ∧ ∃ k, r.errs = ks ++ [k] ∧
            ∃ blk ∈ r.body, ∃ p q a m, blk =
              p ++ Instruction.store a (Value.inst k) m :: Instruction.load k m :: q))) :=
  runOnFunction_keeps
    (fun B c e => Removals F e B ∧ (c = true ↔ e ≠ []))
    (fun f r => ∃ ks, Removals F ks r.body ∧
      ((f = Fault.pastEnd ∧ r.errs = ks ∧ ∃ blk ∈ r.body, endsInStore blk = true) ∨
        (f = Fault.selfReplace ∧ ∃ k, r.errs = ks ++ [k] ∧
          ∃ blk ∈ r.body, ∃ p q a m, blk =
            p ++ Instruction.store a (Value.inst k) m :: Instruction.load k m :: q)))
    (fun st st1 h hs => scanStep_removals F st st1 h hs)
    (fun st f r h hs => scanStep_removals_abort F st f r h hs)
    F ⟨rfl, ⟨fun h => absurd h (by simp), fun h => absurd rfl h⟩⟩

end OptLoads

namespace OptLoads

open IR (Value Instruction)

theorem endsInStore_cons_cons (x y : Instruction) (l : List Instruction) :
    endsInStore (x :: y :: l) = endsInStore (y :: l) := by
  unfold endsInStore
  rw [List.getLast?_cons_cons]

theorem endsInStore_replaceUses (k : Nat) (v : Value) (l : List Instruction) :
    endsInStore (l.map (replaceUses k v)) = endsInStore l := by
  induction l with
  | nil => rfl
  | cons x tl ih =>
    cases tl with
    | nil => cases x <;> rfl
    | cons y tl2 =>
      have e : (x :: y :: tl2).map (replaceUses k v) =
          replaceUses k v x :: replaceUses k v y :: tl2.map (replaceUses k v) := rfl
      rw [e, endsInStore_cons_cons, endsInStore_cons_cons]
      exact ih

theorem endsInStore_suffix (l r : List Instruction) (h : endsInStore (l ++ r) = false) :
    endsInStore r = false := by
  induction l with
  | nil => exact h
  | cons x l ih =>
    apply ih
    cases hlr : l ++ r with
    | nil => rfl
    | cons y t =>
      have e : (x :: l) ++ r = x :: y :: t := by
        rw [List.cons_append, hlr]
      rw [e, endsInStore_cons_cons] at h
      exact h

theorem storedInst_replaceUses (k a : Nat) (v m : Value) (i : Instruction) :
    storedInst (replaceUses k v i) =
      if storedInst i = some k then storedInst (Instruction.store a v m) else storedInst i := by
  cases i with
  | load _ _ => rfl
  | other _ _ => rfl
  | store b x n =>
    cases x with
    | other y =>
      have e : replaceUse k v (Value.other y) = Value.other y := by
        simp [replaceUse]
      simp [replaceUses, e, storedInst]
    | inst y =>
      by_cases hy : y = k
      · subst hy
        have e : replaceUse y v (Value.inst y) = v := by
          simp [replaceUse]
        cases v <;> simp [replaceUses, e, storedInst]
      · have e : replaceUse k v (Value.inst y) = Value.inst y := by
          simp [replaceUse, hy]
        simp [replaceUses, e, storedInst, hy]

/-- Erasing the load behind a store and replacing its uses by the stored
value leaves every stored value before its store. -/
theorem pairwise_erase (A C : List Instruction) (a : Nat) (v m : Value) (ka : Nat)
    (h : (A ++ Instruction.store a v m :: Instruction.load ka m :: C).Pairwise
      (fun i j => storedInst i ≠ some j.addr)) :
    ((A ++ Instruction.store a v m :: C).map (replaceUses ka v)).Pairwise
      (fun i j => storedInst i ≠ some j.addr) := by
  rw [List.pairwise_append] at h
  obtain ⟨hA, hsC, hAs⟩ := h
  rw [List.pairwise_cons] at hsC
  obtain ⟨hs, hldC⟩ := hsC
  rw [List.pairwise_cons] at hldC
  obtain ⟨_, hC⟩ := hldC
  have hkeep : ∀ i : Instruction, storedInst i ≠ some ka →
      storedInst (replaceUses ka v i) = storedInst i := by
    intro i hi
    rw [storedInst_replaceUses ka a v m i, if_neg hi]
  have hsld : storedInst (Instruction.store a v m) ≠ some ka :=
    hs _ (List.mem_cons_self _ _)
  rw [List.pairwise_map, List.pairwise_append]
  refine ⟨?_, ?_, ?_⟩
  · refine hA.imp_of_mem ?_
    intro i j hi _ hij
    rw [addr_replaceUses, hkeep i (hAs i hi _
      (List.mem_cons_of_mem _ (List.mem_cons_self _ _)))]
    exact hij
  · rw [List.pairwise_cons]
    constructor
    · intro j hj
      rw [addr_replaceUses, hkeep _ hsld]
      exact hs j (List.mem_cons_of_mem _ hj)
    · refine hC.imp_of_mem ?_
      intro i j _ hj hij
      rw [addr_replaceUses, storedInst_replaceUses ka a v m i]
      split_ifs
      · exact hs j (List.mem_cons_of_mem _ hj)
      · exact hij
  · intro i hi j hj
    rw [addr_replaceUses, hkeep i (hAs i hi _
      (List.mem_cons_of_mem _ (List.mem_cons_self _ _)))]
    rcases List.mem_cons.1 hj with rfl | hj
    · exact hAs i hi _ (List.mem_cons_self _ _)
    · exact hAs i hi j (List.mem_cons_of_mem _ (List.mem_cons_of_mem _ hj))

theorem flatten_split (pre post : Body) (p : List Instruction) (t : List Instruction) :
    (pre ++ (p ++ t) :: post).flatten = (pre.flatten ++ p) ++ (t ++ post.flatten) := by
  simp

/-- Every pass of the inner loop that goes on keeps: no stored value behind
its store, no store at the end of what is left of the block, or of a block
behind it. -/
theorem scanStep_wellFormed (st st1 : ScanState)
    (h : DefsBeforeStores st.body ∧ endsInStore st.rest = false ∧
      ∀ blk ∈ st.later, endsInStore blk = false)
    (hs : scanStep st = Ending.ok st1) :
    DefsBeforeStores st1.body ∧ endsInStore st1.rest = false ∧
      ∀ blk ∈ st1.later, endsInStore blk = false := by
  rcases scanStep_ok st st1 hs with ⟨_, rfl⟩ | ⟨a, v, m, ka, tl, hr, _, rfl⟩ |
    ⟨h1, h2, _, _, h5, ⟨l, _, hl⟩, _⟩
  · exact h
  · obtain ⟨e1, e2⟩ := eraseLoad_body st a v m ka tl hr
    refine ⟨?_, ?_, ?_⟩
    · have hd := h.1
      unfold DefsBeforeStores at hd ⊢
      rw [e1, flatten_split st.scanned st.later st.done] at hd
      rw [e2, ← List.map_flatten, flatten_split st.scanned st.later st.done]
      exact pairwise_erase _ _ a v m ka hd
    · show endsInStore (tl.map (replaceUses ka v)) = false
      rw [endsInStore_replaceUses]
      apply endsInStore_suffix [Instruction.store a v m, Instruction.load ka m]
      have h1 := h.2.1
      rw [hr] at h1
      exact h1
    · intro blk hb
      obtain ⟨blk0, hb0, rfl⟩ := List.mem_map.1 hb
      rw [endsInStore_replaceUses]
      exact h.2.2 blk0 hb0
  · refine ⟨?_, ?_, ?_⟩
    · rw [body_of_move st st1 h1 h2 h5]
      exact h.1
    · apply endsInStore_suffix l
      rw [← hl]
      exact h.2.1
    · rw [h2]
      exact h.2.2

/-- With no stored value behind its store and no store at the end of what is
left of the block, a pass of the inner loop is at no fault. -/
theorem scanStep_no_abort (st : ScanState) (f : Fault) (r : Result)
    (h : DefsBeforeStores st.body ∧ endsInStore st.rest = false ∧
      ∀ blk ∈ st.later, endsInStore blk = false)
    (hs : scanStep st = Ending.abort f r) : False := by
  rcases scanStep_abort st f r hs with ⟨_, _, a, v, m, hr⟩ | ⟨_, a, m, ka, tl, hr, _⟩
  · have h1 := h.2.1
    rw [hr] at h1
    simp [endsInStore] at h1
  · have hd := h.1
    have e1 : st.body = st.scanned ++
        (st.done ++ Instruction.store a (Value.inst ka) m :: Instruction.load ka m :: tl) ::
          st.later := by
      unfold ScanState.body
      rw [hr]
      simp
    unfold DefsBeforeStores at hd
    rw [e1, flatten_split st.scanned st.later st.done, List.pairwise_append] at hd
    have h2 := hd.2.1
    rw [List.cons_append, List.pairwise_cons] at h2
    exact h2.1 (Instruction.load ka m) (by simp) rfl

/-- `runOnFunction` returns when no block of the function ends in a store and
no store comes before the instruction whose value it stores. -/
theorem runOnFunction_returns (F : Body) (ht : NoTrailingStore F) (hd : DefsBeforeStores F) :
    ∃ r, runOnFunction F = some (Ending.ok r) := by
  obtain ⟨e, he, _, hab⟩ := runOnFunction_ends
    (fun st : PassState => DefsBeforeStores (st.scanned ++ st.later) ∧
      ∀ blk ∈ st.later, endsInStore blk = false)
    (fun st : ScanState => DefsBeforeStores st.body ∧ endsInStore st.rest = false ∧
      ∀ blk ∈ st.later, endsInStore blk = false)
    (fun _ _ => False)
    (by
      intro sc blk later c e hq
      have e1 : (⟨sc, [], blk, later, c, e⟩ : ScanState).body = sc ++ blk :: later := by
        simp [ScanState.body]
      rw [e1]
      exact ⟨hq.1, hq.2 blk (List.mem_cons_self _ _),
        fun b hb => hq.2 b (List.mem_cons_of_mem _ hb)⟩)
    scanStep_wellFormed
    scanStep_no_abort
    (by
      intro st hp _
      exact ⟨hp.1, hp.2.2⟩)
    F ⟨hd, ht⟩
  cases e with
  | ok r => exact ⟨r, he⟩
  | abort f r => exact absurd (hab f r rfl) id

end OptLoads

namespace OptLoads

open IR (Value Instruction)

/-- The two faults on the smallest bodies that reach them: a block whose last
instruction is a store, and a store of the load behind it through the pointer
the load reads, which is reported before the run stops. -/
theorem faults_reached :
    runOnFunction Examples.storeLast =
      some (Ending.abort Fault.pastEnd ⟨Examples.storeLast, false, []⟩) ∧
    runOnFunction Examples.storesItsLoad =
      some (Ending.abort Fault.selfReplace ⟨Examples.storesItsLoad, false, [11]⟩) :=
  ⟨rfl, rfl⟩

/-- C39. `optLoads` change flag and removal soundness. `runOnFunction` ends,
by returning or at a fault, and it returns when no block ends in a store and
no store comes before the instruction whose value it stores. When it
returns, the flag is true exactly when a load was reported; the body left is
the function given after the removals of the reported loads, made one after
the other, each of a load that, in the body as it is then, immediately
follows a store in its block whose pointer operand is the pointer operand of
the load, and each leaving every other instruction in its place, with the
stored value for the uses of the load. So the body has one instruction less
for every reported load, fewer instructions exactly when the flag is true,
every block is the block it was with loads removed, every reported load is
a load of the function given, and none is an operand of an instruction left.
At a fault the same holds of the loads
reported before it. -/
theorem change_flag_and_removal_sound (F : Body) :
    ∃ e, runOnFunction F = some e ∧
      (∀ r, e = Ending.ok r →
        (r.changed = true ↔ r.errs ≠ []) ∧
        Removals F r.errs r.body ∧
        instrCount r.body + r.errs.length = instrCount F ∧
        (r.changed = true ↔ instrCount r.body < instrCount F) ∧
        List.Forall₂ LoadsRemoved r.body F ∧
        (∀ k ∈ r.errs, ∃ blk ∈ F, (k, Opcode.load) ∈ blk.map tag) ∧
        ∀ k ∈ r.errs, NoUse k r.body) ∧
      (∀ f r, e = Ending.abort f r → ∃ ks, Removals F ks r.body ∧
        ((f = Fault.pastEnd ∧ r.errs = ks ∧ ∃ blk ∈ r.body, endsInStore blk = true) ∨
          (f = Fault.selfReplace ∧ ∃ k, r.errs = ks ++ [k] ∧
            ∃ blk ∈ r.body, ∃ p q a m, blk =
              p ++ Instruction.store a (Value.inst k) m :: Instruction.load k m :: q))) ∧
      (NoTrailingStore F → DefsBeforeStores F → ∃ r, e = Ending.ok r) := by
  obtain ⟨e, he, hrem, hab⟩ := runOnFunction_removals F
  refine ⟨e, he, ?_, hab, ?_⟩
  · intro r hr
    obtain ⟨h1, h2⟩ := hrem r hr
    obtain ⟨s1, s2, s3, _⟩ := removals_shape r.errs F r.body h1
    refine ⟨h2, h1, s2, ?_, s1, s3,
      fun k hk => removals_noUse r.errs F r.body h1 k (Or.inl hk)⟩
    rw [h2]
    constructor
    · intro hne
      have : 0 < r.errs.length := List.length_pos.2 hne
      omega
    · intro hlt hnil
      rw [hnil] at s2
      simp only [List.length_nil, Nat.add_zero] at s2
      omega
  · intro ht hs
    obtain ⟨r, hr⟩ := runOnFunction_returns F ht hs
    exact ⟨r, Option.some.inj (he.symm.trans hr)⟩

end OptLoads
